import Mathlib

/-!
# Font matching and text itemization of the canvas sources

A shallow embedding of `FontManager.cc` (family-name comparison, style and
weight narrowing) and `itemize.cc` (bidi runs, script runs and their merge),
followed by the properties proved about them.

Conventions of the embedding:

* `std::vector<T>` is a `List T`; `push_back x` is `l ++ [x]`, `pop_back` is
  `l.dropLast`, `back()` is `l.getLast?`.
* `size_t`, `uint16_t`, `uint32_t` and `char16_t` values are natural numbers;
  none of the arithmetic below can wrap (every subtraction is guarded by the
  comparison in front of it), `int` values are integers.
* A `while`/`for` loop is a recursive function on a step budget.  The budget
  handed over by the caller is the number of iterations the loop can make at
  most, so the budget `0` case coincides with the loop guard being false.
-/

set_option autoImplicit false

namespace Canvas

/-! ## Font.h -/

/-- The enum class FontStyle of Font.h. -/
inductive FontStyle where
  | Normal
  | Italic
  | Oblique
  deriving DecidableEq, Repr

/-- The enum class FontVariant of Font.h. -/
inductive FontVariant where
  | Normal
  | SmallCaps
  deriving DecidableEq, Repr

/-- A font descriptor as the font manager sees it through a
`const FontDescriptor*`: the fields of `FontBase`, the family name (the bytes
before the terminating NUL) and `addr`, the address of the object.  The C++
code compares descriptors by pointer, so two descriptors with equal fields and
different addresses are different candidates.  The `url` and `data` members
are never read by the functions embedded here. -/
structure FontDescriptor where
  addr : Nat
  weight : Nat
  variant : FontVariant
  style : FontStyle
  family : List Nat
  deriving DecidableEq, Repr

/-- The request of Font.h (`FontProperties`); the floating-point `size` member
is never read by the functions embedded here. -/
structure FontProperties where
  weight : Nat
  variant : FontVariant
  style : FontStyle
  families : List (List Nat)
  deriving DecidableEq, Repr

/-! ## FontManager.cc: compareFamilyNames -/

/-- The function `std::isspace` in the "C" locale: space, `\t`, `\n`, `\v`, `\f`, `\r`. -/
def isspace (c : Nat) : Bool := c == 32 || (9 ≤ c && c ≤ 13)

/-- The function `std::tolower` in the "C" locale: `A..Z` go to `a..z`, the rest is kept. -/
def tolower (c : Nat) : Nat := if 65 ≤ c ∧ c ≤ 90 then c + 32 else c

/-- Loop `while (start < len && std::isspace(str[start])) start++;`. -/
def skipLeading (str : List Nat) (len : Nat) : Nat → Nat → Nat
  | 0, start => start
  | fuel + 1, start =>
    if start < len && isspace (str.getD start 0) then
      skipLeading str len fuel (start + 1)
    else start

/-- Loop `while (end > start && std::isspace(str[end - 1])) end--;`. -/
def skipTrailing (str : List Nat) (start : Nat) : Nat → Nat → Nat
  | 0, end_ => end_
  | fuel + 1, end_ =>
    if end_ > start && isspace (str.getD (end_ - 1) 0) then
      skipTrailing str start fuel (end_ - 1)
    else end_

/-- Loop `for (i = 0; i < n; i++) if (tolower(str1[start1+i]) != tolower(str2[start2+i])) return false;`
followed by `return true`. -/
def compareLoop (str1 str2 : List Nat) (start1 start2 n : Nat) : Nat → Nat → Bool
  | 0, _ => true
  | fuel + 1, i =>
    if i < n then
      if tolower (str1.getD (start1 + i) 0) != tolower (str2.getD (start2 + i) 0) then false
      else compareLoop str1 str2 start1 start2 n fuel (i + 1)
    else true

/-- The function `compareFamilyNames(str1, len1, str2, len2)`; a pointer with its
length is a list of bytes. -/
def compareFamilyNames (str1 str2 : List Nat) : Bool :=
  let len1 := str1.length
  let len2 := str2.length
  let start1 := skipLeading str1 len1 len1 0
  let end1 := skipTrailing str1 start1 len1 len1
  let start2 := skipLeading str2 len2 len2 0
  let end2 := skipTrailing str2 start2 len2 len2
  if end1 - start1 != end2 - start2 then false
  else compareLoop str1 str2 start1 start2 (end1 - start1) (end1 - start1) 0

/-- The comparison as the specification words it: strip leading and trailing
whitespace bytes only. -/
def trimSpec (s : List Nat) : List Nat := (s.dropWhile isspace).rdropWhile isspace

/-- The comparison as the specification words it: the trimmed strings have the
same length and are equal byte for byte after lower-casing. -/
def compareFamilyNamesSpec (a b : List Nat) : Prop :=
  (trimSpec a).length = (trimSpec b).length ∧
    (trimSpec a).map tolower = (trimSpec b).map tolower

/-- The bytes of an ASCII string literal. -/
def bytes (s : String) : List Nat := s.toList.map Char.toNat

/-! ## FontManager.cc: narrowByStyle -/

/-- The winning style: the two `switch` statements of `narrowByStyle`. -/
def chooseStyle (fonts : List FontDescriptor) (properties : FontProperties) : FontStyle :=
  let nNormal := fonts.countP (fun font => font.style == FontStyle.Normal)
  let nItalic := fonts.countP (fun font => font.style == FontStyle.Italic)
  let nOblique := fonts.countP (fun font => font.style == FontStyle.Oblique)
  match properties.style with
  | FontStyle.Normal =>
    if nNormal != 0 then FontStyle.Normal
    else if nOblique != 0 then FontStyle.Oblique else FontStyle.Italic
  | FontStyle.Italic =>
    if nItalic != 0 then FontStyle.Italic
    else if nOblique != 0 then FontStyle.Oblique else FontStyle.Normal
  | FontStyle.Oblique =>
    if nOblique != 0 then FontStyle.Oblique
    else if nItalic != 0 then FontStyle.Italic else FontStyle.Normal

/-- The statements `std::swap(fonts[i], fonts[fonts.size() - 1]); fonts.pop_back();`. -/
def swapPop (fonts : List FontDescriptor) (i : Nat) : List FontDescriptor :=
  match fonts[i]?, fonts.getLast? with
  | some a, some b => ((fonts.set i b).set (fonts.length - 1) a).dropLast
  | _, _ => fonts

/-- The removal loop of `narrowByStyle`:
`for (i = 0; i < fonts.size(); i++) if (fonts[i]->style != choose) { swap; pop_back; }`.
The index moves on after a removal as well. -/
def narrowByStyleLoop (choose : FontStyle) : Nat → Nat → List FontDescriptor → List FontDescriptor
  | 0, _, fonts => fonts
  | fuel + 1, i, fonts =>
    if i < fonts.length then
      match fonts[i]? with
      | some font =>
        if font.style != choose then narrowByStyleLoop choose fuel (i + 1) (swapPop fonts i)
        else narrowByStyleLoop choose fuel (i + 1) fonts
      | none => fonts
    else fonts

/-- The method `FontManager::narrowByStyle`; the vector it mutates in place is returned. -/
def narrowByStyle (fonts : List FontDescriptor) (properties : FontProperties) :
    List FontDescriptor :=
  narrowByStyleLoop (chooseStyle fonts properties) fonts.length 0 fonts

/-! ## FontManager.cc: narrowByWeight -/

/-- The call `std::sort(fonts.begin(), fonts.end(), by weight <)`.  The standard
fixes the result only up to the order of equal weights, so the sort is any
function that permutes its input into non-decreasing weight order. -/
structure StdSort where
  run : List FontDescriptor → List FontDescriptor
  perm : ∀ l, (run l).Perm l
  sorted : ∀ l, (run l).Pairwise (fun a b => a.weight ≤ b.weight)

/-- The locals `bestBelow`, `bestBelowDistance`, `bestAbove`, `bestAboveDistance`. -/
structure Best where
  bestBelow : Option FontDescriptor
  bestBelowDistance : Nat
  bestAbove : Option FontDescriptor
  bestAboveDistance : Nat
  deriving DecidableEq, Repr

/-- The ternary `distance = font->weight < w ? w - font->weight : font->weight - w`. -/
def distance (w : Nat) (font : FontDescriptor) : Nat :=
  if font.weight < w then w - font.weight else font.weight - w

/-- The expression `divider = w == 400 ? 500 : w == 500 ? 400 : w`. -/
def divider (w : Nat) : Nat :=
  if w == 400 then 500 else if w == 500 then 400 else w

/-- One iteration of the second loop of `narrowByWeight`. -/
def scanStep (w d : Nat) (best : Best) (font : FontDescriptor) : Best :=
  if font.weight < d then
    if distance w font ≤ best.bestBelowDistance then
      { best with bestBelow := some font, bestBelowDistance := distance w font }
    else best
  else
    if distance w font < best.bestAboveDistance then
      { best with bestAbove := some font, bestAboveDistance := distance w font }
    else best

/-- The body of `narrowByWeight` after the sort, on the sorted vector. -/
def narrowByWeightSorted (fonts : List FontDescriptor) (properties : FontProperties) :
    Option FontDescriptor :=
  match fonts.find? (fun font => font.weight == properties.weight) with
  | some font => some font
  | none =>
    let best := fonts.foldl (scanStep properties.weight (divider properties.weight))
      { bestBelow := none, bestBelowDistance := 900, bestAbove := none, bestAboveDistance := 900 }
    match best.bestBelow, best.bestAbove with
    | some below, some above => if divider properties.weight ≤ 500 then some below else some above
    | some below, none => some below
    | none, above => above

/-- The method `FontManager::narrowByWeight`; `none` is the null pointer. -/
def narrowByWeight (sort : StdSort) (fonts : List FontDescriptor) (properties : FontProperties) :
    Option FontDescriptor :=
  narrowByWeightSorted (sort.run fonts) properties

/-- The order the comparator of `narrowByWeight` sorts into. -/
def weightLE (a b : FontDescriptor) : Prop := a.weight ≤ b.weight

instance : DecidableRel weightLE := fun a b => inferInstanceAs (Decidable (a.weight ≤ b.weight))

instance : IsTotal FontDescriptor weightLE := ⟨fun a b => Nat.le_total a.weight b.weight⟩

instance : IsTrans FontDescriptor weightLE := ⟨fun _ _ _ h1 h2 => Nat.le_trans h1 h2⟩

/-- One admissible `std::sort`: insertion sort by weight. -/
def insertionStdSort : StdSort where
  run := fun l => l.insertionSort weightLE
  perm := fun l => List.perm_insertionSort weightLE l
  sorted := fun l => List.sorted_insertionSort weightLE l

/-! ## itemize.h -/

/-- The struct `ParenInfo` of itemize.h. -/
structure ParenInfo where
  index : Int
  script : Nat
  deriving DecidableEq, Repr

/-- The struct `ScriptIteratorState` of itemize.h. -/
structure ScriptIteratorState where
  offset : Nat
  script : Nat
  done : Bool
  parens : List ParenInfo
  start_paren : Int
  deriving DecidableEq, Repr

/-- The struct `BidiIteratorState` of itemize.h.  `levels` is the array behind the
`const SBLevel*` the bidi library hands out; the library handles `algorithm` and
`paragraph` and `initial_level` are not read by the iterators. -/
structure BidiIteratorState where
  offset : Nat
  level : Nat
  done : Bool
  levels : List Nat
  deriving DecidableEq, Repr

/-- The struct `ItemizeState` of itemize.h. -/
structure ItemizeState where
  offset : Nat
  done : Bool
  bidi_state : BidiIteratorState
  script_state : ScriptIteratorState
  deriving DecidableEq, Repr

/-- What itemize.cc takes from unicode.h, which is not among the sources: the
script classifier and the two pseudo-scripts. -/
structure UnicodeData where
  get_script : Nat → Nat
  SCRIPT_COMMON : Nat
  SCRIPT_INHERITED : Nat

/-! ## itemize.cc: bidi_iterator_next -/

/-- The inner loop of `bidi_iterator_next`; the result is the new offset and
`should_break`, or `none` when `levels` is read outside the array. -/
def bidiInner (levels : List Nat) (level text_length : Nat) : Nat → Nat → Option (Nat × Bool)
  | 0, offset => some (offset, false)
  | fuel + 1, offset =>
    if offset < text_length then
      match levels[offset]? with
      | none => none
      | some l =>
        if l != level then some (offset, true)
        else bidiInner levels level text_length fuel (offset + 1)
    else some (offset, false)

/-- The outer loop `while (state.offset < text_length && !should_break)`. -/
def bidiOuter (levels : List Nat) (level text_length : Nat) : Nat → Nat → Bool → Option Nat
  | 0, offset, _ => some offset
  | fuel + 1, offset, should_break =>
    if offset < text_length && !should_break then
      match bidiInner levels level text_length (text_length - offset) offset with
      | none => none
      | some (offset1, should_break1) => bidiOuter levels level text_length fuel offset1 should_break1
    else some offset

/-- The function `bidi_iterator_next`; `none` when `levels` is read outside the array. -/
def bidi_iterator_next (state : BidiIteratorState) (text_buffer : List Nat) :
    Option BidiIteratorState :=
  if state.done then some state
  else
    let text_length := text_buffer.length
    match state.levels[state.offset]? with
    | none => none
    | some level =>
      match bidiOuter state.levels level text_length (text_length - state.offset)
          state.offset false with
      | none => none
      | some offset =>
        some { state with
          level := level
          offset := offset
          done := if offset == text_length then true else state.done }

/-! ## itemize.cc: get_pair_index -/

/-- The table `paired_chars`. -/
def paired_chars : List Nat := [
  0x0028, 0x0029, 0x003c, 0x003e, 0x005b, 0x005d, 0x007b, 0x007d,
  0x00ab, 0x00bb, 0x0f3a, 0x0f3b, 0x0f3c, 0x0f3d, 0x169b, 0x169c,
  0x2018, 0x2019, 0x201c, 0x201d, 0x2039, 0x203a, 0x2045, 0x2046,
  0x207d, 0x207e, 0x208d, 0x208e, 0x27e6, 0x27e7, 0x27e8, 0x27e9,
  0x27ea, 0x27eb, 0x27ec, 0x27ed, 0x27ee, 0x27ef, 0x2983, 0x2984,
  0x2985, 0x2986, 0x2987, 0x2988, 0x2989, 0x298a, 0x298b, 0x298c,
  0x298d, 0x298e, 0x298f, 0x2990, 0x2991, 0x2992, 0x2993, 0x2994,
  0x2995, 0x2996, 0x2997, 0x2998, 0x29fc, 0x29fd, 0x2e02, 0x2e03,
  0x2e04, 0x2e05, 0x2e09, 0x2e0a, 0x2e0c, 0x2e0d, 0x2e1c, 0x2e1d,
  0x2e20, 0x2e21, 0x2e22, 0x2e23, 0x2e24, 0x2e25, 0x2e26, 0x2e27,
  0x2e28, 0x2e29, 0x3008, 0x3009, 0x300a, 0x300b, 0x300c, 0x300d,
  0x300e, 0x300f, 0x3010, 0x3011, 0x3014, 0x3015, 0x3016, 0x3017,
  0x3018, 0x3019, 0x301a, 0x301b, 0xfe59, 0xfe5a, 0xfe5b, 0xfe5c,
  0xfe5d, 0xfe5e, 0xff08, 0xff09, 0xff3b, 0xff3d, 0xff5b, 0xff5d,
  0xff5f, 0xff60, 0xff62, 0xff63]

/-- The constant `paired_chars_count`. -/
def paired_chars_count : Nat := paired_chars.length

/-- The binary search loop of `get_pair_index`, on `int lower, upper`. -/
def get_pair_index_loop (ch : Nat) : Nat → Int → Int → Int
  | 0, _, _ => -1
  | fuel + 1, lower, upper =>
    if lower ≤ upper then
      let mid := Int.tdiv (lower + upper) 2
      if ch < paired_chars.getD mid.toNat 0 then get_pair_index_loop ch fuel lower (mid - 1)
      else if ch > paired_chars.getD mid.toNat 0 then get_pair_index_loop ch fuel (mid + 1) upper
      else mid
    else -1

/-- The function `get_pair_index`. -/
def get_pair_index (ch : Nat) : Int :=
  get_pair_index_loop ch paired_chars_count 0 ((paired_chars_count : Int) - 1)

/-! ## itemize.cc: script_iterator_next -/

/-- The code point at `offset` and the `jump` over it: the surrogate-pair block. -/
def decode (text_buffer : List Nat) (offset : Nat) : Nat × Nat :=
  let code := text_buffer.getD offset 0
  if offset + 1 < text_buffer.length then
    let next := text_buffer.getD (offset + 1) 0
    if (0xd800 ≤ code && code ≤ 0xdbff) && (0xdc00 ≤ next && next ≤ 0xdfff) then
      ((code - 0xd800) * 0x400 + (next - 0xdc00) + 0x10000, 2)
    else (code, 1)
  else (code, 1)

/-- The locals `script`, `state.parens` and `state.start_paren` after the
paired-character block. -/
structure Classified where
  script : Nat
  parens : List ParenInfo
  start_paren : Int
  deriving DecidableEq, Repr

/-- The block `if (pair_index >= 0) { ... }`.  For the `int` at hand
`pair_index & 1` is `pair_index % 2` and `pair_index & ~1` is
`pair_index - pair_index % 2`; the loop popping the stack down to the frame of
index `pi` is `rdropWhile`. -/
def pairedChar (state : ScriptIteratorState) (script : Nat) (pair_index : Int) : Classified :=
  if pair_index ≥ 0 then
    if pair_index % 2 == 0 then
      { script := script
        parens := state.parens ++ [{ index := pair_index, script := state.script }]
        start_paren := state.start_paren }
    else if !state.parens.isEmpty then
      let pi := pair_index - pair_index % 2
      let parens := state.parens.rdropWhile (fun frame => frame.index != pi)
      { script := match parens.getLast? with
          | some top => top.script
          | none => script
        parens := parens
        start_paren :=
          if (parens.length : Int) - 1 < state.start_paren then (parens.length : Int) - 1
          else state.start_paren }
    else { script := script, parens := state.parens, start_paren := state.start_paren }
  else { script := script, parens := state.parens, start_paren := state.start_paren }

/-- The assignment `parens[i].script = script`. -/
def setScript (parens : List ParenInfo) (i : Int) (script : Nat) : List ParenInfo :=
  match parens[i.toNat]? with
  | some frame => if 0 ≤ i then parens.set i.toNat { frame with script := script } else parens
  | none => parens

/-- The loop `while (start_paren + 1 < parens.size()) parens[++start_paren].script = script;`. -/
def backfill (script : Nat) : Nat → List ParenInfo → Int → List ParenInfo × Int
  | 0, parens, start_paren => (parens, start_paren)
  | fuel + 1, parens, start_paren =>
    if start_paren + 1 < (parens.length : Int) then
      backfill script fuel (setScript parens (start_paren + 1) script) (start_paren + 1)
    else (parens, start_paren)

/-- The local `pair_index = script != SCRIPT_COMMON ? -1 : get_pair_index(code)`. -/
def pairIndex (u : UnicodeData) (code : Nat) : Int :=
  if u.get_script code != u.SCRIPT_COMMON then -1 else get_pair_index code

/-- The code point at `state.offset` classified and run through the
paired-character block. -/
def classify (u : UnicodeData) (text_buffer : List Nat) (state : ScriptIteratorState) :
    Classified :=
  pairedChar state (u.get_script (decode text_buffer state.offset).1)
    (pairIndex u (decode text_buffer state.offset).1)

/-- The test `script != SCRIPT_COMMON && script != SCRIPT_INHERITED` behind
`running_is_real` and `is_real`. -/
def isReal (u : UnicodeData) (script : Nat) : Bool :=
  script != u.SCRIPT_COMMON && script != u.SCRIPT_INHERITED

/-- One iteration of the `while (state.offset < text_length)` loop of
`script_iterator_next`: the new state, and whether the loop was left by `break`. -/
def scriptStep (u : UnicodeData) (text_buffer : List Nat) (state : ScriptIteratorState) :
    ScriptIteratorState × Bool :=
  let jump := (decode text_buffer state.offset).2
  let pair_index := pairIndex u (decode text_buffer state.offset).1
  let c := classify u text_buffer state
  let running_is_real := isReal u state.script
  let is_real := isReal u c.script
  let is_same := !running_is_real || !is_real || c.script == state.script
  if is_same then
    if !running_is_real && is_real then
      let filled := backfill c.script ((c.parens.length : Int) - 1 - c.start_paren).toNat
        c.parens c.start_paren
      if pair_index ≥ 0 && pair_index % 2 != 0 && !filled.1.isEmpty then
        let parens := filled.1.dropLast
        ({ state with
            script := c.script
            parens := parens
            start_paren :=
              if (parens.length : Int) - 1 < filled.2 then (parens.length : Int) - 1 else filled.2
            offset := state.offset + jump }, false)
      else
        ({ state with
            script := c.script
            parens := filled.1
            start_paren := filled.2
            offset := state.offset + jump }, false)
    else
      ({ state with
          parens := c.parens
          start_paren := c.start_paren
          offset := state.offset + jump }, false)
  else
    ({ state with parens := c.parens, start_paren := (c.parens.length : Int) - 1 }, true)

/-- The loop `while (state.offset < text_length) { ... }` of `script_iterator_next`. -/
def scriptLoop (u : UnicodeData) (text_buffer : List Nat) : Nat → ScriptIteratorState →
    ScriptIteratorState
  | 0, state => state
  | fuel + 1, state =>
    if state.offset < text_buffer.length then
      match scriptStep u text_buffer state with
      | (state1, true) => state1
      | (state1, false) => scriptLoop u text_buffer fuel state1
    else state

/-- The function `script_iterator_next`. -/
def script_iterator_next (u : UnicodeData) (state : ScriptIteratorState)
    (text_buffer : List Nat) : ScriptIteratorState :=
  if state.done then state
  else
    let text_length := text_buffer.length
    let state1 := scriptLoop u text_buffer (text_length - state.offset)
      { state with script := u.SCRIPT_COMMON }
    if state1.offset ≥ text_length then { state1 with done := true } else state1

/-! ## itemize.cc: itemize_next -/

/-- The function `itemize_next`; `none` when the bidi iterator reads `levels`
outside the array. -/
def itemize_next (u : UnicodeData) (state : ItemizeState) (text_buffer : List Nat) :
    Option ItemizeState :=
  if state.done then some state
  else
    match (if state.bidi_state.offset == state.offset then
        bidi_iterator_next state.bidi_state text_buffer else some state.bidi_state) with
    | none => none
    | some bidi =>
      let script :=
        if state.script_state.offset == state.offset then
          script_iterator_next u state.script_state text_buffer
        else state.script_state
      some {
        offset := min (min bidi.offset script.offset) text_buffer.length
        done := if bidi.done && script.done then true else state.done
        bidi_state := bidi
        script_state := script }

/-- The state built by the constructor `ItemizeState(text_buffer)`: the member
initialisers of itemize.h, with `levels` what the bidi library computed. -/
def itemize_init (u : UnicodeData) (levels : List Nat) : ItemizeState where
  offset := 0
  done := false
  bidi_state := { offset := 0, level := 0, done := false, levels := levels }
  script_state :=
    { offset := 0, script := u.SCRIPT_COMMON, done := false, parens := [], start_paren := -1 }

/-- The state after `n` successive calls of `itemize_next` on a fresh state. -/
def itemize_calls (u : UnicodeData) (levels text_buffer : List Nat) : Nat → Option ItemizeState
  | 0 => some (itemize_init u levels)
  | n + 1 =>
    match itemize_calls u levels text_buffer n with
    | none => none
    | some state => itemize_next u state text_buffer

/-- A small classifier for examples: ASCII letters are script 1, Arabic letters
script 2, everything else Common (0); Inherited is 3. -/
def exampleUnicode : UnicodeData where
  get_script := fun code =>
    if (65 ≤ code ∧ code ≤ 90) ∨ (97 ≤ code ∧ code ≤ 122) then 1
    else if 0x0600 ≤ code ∧ code ≤ 0x06ff then 2 else 0
  SCRIPT_COMMON := 0
  SCRIPT_INHERITED := 3

/-- A descriptor at address `addr` with the given weight and style, for the
concrete inputs of the statements. -/
def mkFont (addr weight : Nat) (style : FontStyle) : FontDescriptor :=
  { addr := addr, weight := weight, variant := FontVariant.Normal, style := style, family := [] }

/-- A request with the given weight and style, for the concrete inputs of the
statements. -/
def mkRequest (weight : Nat) (style : FontStyle) : FontProperties :=
  { weight := weight, variant := FontVariant.Normal, style := style, families := [] }

/-! ## FontFace.h, FontFaceSet.h, FontManager.h -/

/-- What the font manager reads of a `FontFace`: its `id` and its `descriptor`. -/
structure FontFace where
  id : Nat
  descriptor : FontDescriptor
  deriving DecidableEq, Repr

/-- The struct `FontFaceSetEntry`; `face` is `none` for the null pointer a deleted
or cleared slot holds.  The JavaScript reference `ref` is not read by `query`. -/
structure FontFaceSetEntry where
  face : Option FontFace
  deriving DecidableEq, Repr

/-- The members `facesHash` (id to slot index) and `facesData` of `FontFaceSet`. -/
structure FontFaceSet where
  facesHash : List (Nat × Nat)
  facesData : List FontFaceSetEntry
  deriving DecidableEq, Repr

/-- The class `FontManager`: its two members, and the virtual methods `query`
calls.  `readSystemFonts` is given by its effect on the vector it fills. -/
structure FontManager where
  system_fonts_loaded : Bool
  system_fonts : List FontDescriptor
  readSystemFonts : List FontDescriptor → List FontDescriptor
  getGenericList : List Nat → Option (List (List Nat))

/-! ## FontManagerMacos.cc: getGenericList -/

/-- The tables `serif_fonts` ... `fantasy_fonts` and the method
`FontManagerMacos::getGenericList`. -/
def getGenericListMacos (generic : List Nat) : Option (List (List Nat)) :=
  if generic = bytes "serif" then some [bytes "Times", bytes "Times New Roman"]
  else if generic = bytes "sans-serif" then some [bytes "Helvetica", bytes "Arial"]
  else if generic = bytes "monospace" then some [bytes "Menlo"]
  else if generic = bytes "cursive" then some [bytes "Apple Chancery"]
  else if generic = bytes "fantasy" then some [bytes "Papyrus"]
  else none

/-! ## FontManager.cc: query -/

/-- The block `if (!system_fonts_loaded) { readSystemFonts(system_fonts); system_fonts_loaded = true; }`. -/
def loadSystemFonts (m : FontManager) : FontManager :=
  if !m.system_fonts_loaded then
    { m with system_fonts := m.readSystemFonts m.system_fonts, system_fonts_loaded := true }
  else m

/-- The vector `system_fonts` that the loops of `query` iterate. -/
def catalog (m : FontManager) : List FontDescriptor := (loadSystemFonts m).system_fonts

/-- The lambda `maybeAdd` on the vector `familyResults`; `std::find` compares the
pointers, that is the addresses. -/
def maybeAdd (family : List Nat) (desc : FontDescriptor) (familyResults : List FontDescriptor) :
    List FontDescriptor :=
  if compareFamilyNames family desc.family &&
      !familyResults.any (fun found => found.addr == desc.addr) then
    familyResults ++ [desc]
  else familyResults

/-- The loop `for (const FontDescriptor& desc : system_fonts) maybeAdd(family, &desc);`. -/
def addSystemFonts (system_fonts : List FontDescriptor) (family : List Nat)
    (familyResults : List FontDescriptor) : List FontDescriptor :=
  system_fonts.foldl (fun acc desc => maybeAdd family desc acc) familyResults

/-- The loop over `registered->facesData` that skips the slots whose `face` is null. -/
def addRegistered (registered : FontFaceSet) (family : List Nat)
    (familyResults : List FontDescriptor) : List FontDescriptor :=
  registered.facesData.foldl
    (fun acc entry =>
      match entry.face with
      | some face => maybeAdd family face.descriptor acc
      | none => acc)
    familyResults

/-- The gathering part of one iteration of the loop over `properties.families`. -/
def gatherRequested (m : FontManager) (registered : FontFaceSet) (family : List Nat)
    (familyResults : List FontDescriptor) : List FontDescriptor :=
  match m.getGenericList family with
  | some genericFamilies =>
    genericFamilies.foldl (fun acc generic => addSystemFonts (catalog m) generic acc)
      familyResults
  | none => addSystemFonts (catalog m) family (addRegistered registered family familyResults)

/-- The locals `allFamilyResults` (pointers, possibly null) and `familyResults`. -/
structure QueryState where
  allFamilyResults : List (Option FontDescriptor)
  familyResults : List FontDescriptor
  deriving DecidableEq, Repr

/-- One iteration of the loop over `properties.families`. -/
def requestedStep (sort : StdSort) (m : FontManager) (properties : FontProperties)
    (registered : FontFaceSet) (st : QueryState) (family : List Nat) : QueryState :=
  let familyResults := gatherRequested m registered family st.familyResults
  if familyResults.length == 1 then
    { allFamilyResults := st.allFamilyResults ++ [familyResults.head?], familyResults := [] }
  else if familyResults.length > 1 then
    { allFamilyResults := st.allFamilyResults ++
        [narrowByWeight sort (narrowByStyle familyResults properties) properties]
      familyResults := [] }
  else { allFamilyResults := st.allFamilyResults, familyResults := familyResults }

/-- One iteration of the loop over `fallbacks`. -/
def fallbackStep (sort : StdSort) (m : FontManager) (properties : FontProperties)
    (st : QueryState) (fallback : List Nat) : QueryState :=
  let familyResults := addSystemFonts (catalog m) fallback st.familyResults
  if familyResults.length > 1 then
    { allFamilyResults := st.allFamilyResults ++
        [narrowByWeight sort (narrowByStyle familyResults properties) properties]
      familyResults := [] }
  else { allFamilyResults := st.allFamilyResults, familyResults := familyResults }

/-- The method `FontManager::query`: the vector of pointers it returns. -/
def query (sort : StdSort) (m : FontManager) (properties : FontProperties)
    (registered : FontFaceSet) (fallbacks : List (List Nat)) : List (Option FontDescriptor) :=
  (fallbacks.foldl (fallbackStep sort m properties)
    (properties.families.foldl (requestedStep sort m properties registered)
      { allFamilyResults := [], familyResults := [] })).allFamilyResults

/-- A descriptor at address `addr` with the given family name, weight and style,
for the concrete inputs of the statements. -/
def mkNamedFont (addr : Nat) (family : String) (weight : Nat) (style : FontStyle) :
    FontDescriptor :=
  { addr := addr, weight := weight, variant := FontVariant.Normal, style := style,
    family := bytes family }

/-- A macOS font manager whose system fonts are loaded and are `fonts`. -/
def loadedManager (fonts : List FontDescriptor) : FontManager :=
  { system_fonts_loaded := true, system_fonts := fonts, readSystemFonts := fun l => l,
    getGenericList := getGenericListMacos }

/-- A request for the given family names with the given weight and style. -/
def mkFamilyRequest (families : List String) (weight : Nat) (style : FontStyle) :
    FontProperties :=
  { weight := weight, variant := FontVariant.Normal, style := style,
    families := families.map bytes }

/-- The registry with no slot. -/
def emptyFontFaceSet : FontFaceSet := { facesHash := [], facesData := [] }

/-- A live registry slot holding the face `id` with the given descriptor. -/
def liveSlot (id : Nat) (descriptor : FontDescriptor) : FontFaceSetEntry :=
  { face := some (FontFace.mk id descriptor) }

/-- A registry slot whose face pointer is null. -/
def nullSlot : FontFaceSetEntry := { face := none }

/-- The script iterator as the member initialisers of itemize.h leave it. -/
def script_init (u : UnicodeData) : ScriptIteratorState :=
  { offset := 0, script := u.SCRIPT_COMMON, done := false, parens := [], start_paren := -1 }

/-- The bidi iterator as the constructor leaves it, with `levels` what the bidi
library computed. -/
def bidi_init (levels : List Nat) : BidiIteratorState :=
  { offset := 0, level := 0, done := false, levels := levels }

/-- The script iterator run alone: its state after `n` calls of
`script_iterator_next` on a fresh state. -/
def script_calls (u : UnicodeData) (text_buffer : List Nat) : Nat → ScriptIteratorState
  | 0 => script_init u
  | n + 1 => script_iterator_next u (script_calls u text_buffer n) text_buffer

/-- The bidi iterator run alone: its state after `n` calls of `bidi_iterator_next`
on a fresh state. -/
def bidi_calls (levels text_buffer : List Nat) : Nat → Option BidiIteratorState
  | 0 => some (bidi_init levels)
  | n + 1 =>
    match bidi_calls levels text_buffer n with
    | none => none
    | some state => bidi_iterator_next state text_buffer

/-- The loop `while (!state.parens.empty() && state.parens.back().index != pi)
state.parens.pop_back();` of the close-character branch. -/
def popUnmatched (pi : Int) : Nat → List ParenInfo → List ParenInfo
  | 0, parens => parens
  | fuel + 1, parens =>
    match parens.getLast? with
    | some top => if top.index != pi then popUnmatched pi fuel parens.dropLast else parens
    | none => parens

/-! ## FontManager.cc: the assertions of narrowByStyle and narrowByWeight -/

/-- The method `narrowByStyle` with its
`assert(fonts.size() > 1 && "Precondition failed: 1 or 0 fonts in the set")`:
`none` when the assertion fails. -/
def narrowByStyleChecked (fonts : List FontDescriptor) (properties : FontProperties) :
    Option (List FontDescriptor) :=
  if fonts.length > 1 then some (narrowByStyle fonts properties) else none

/-- The method `narrowByWeight` with the
`assert(fonts.size() && "Precondition failed: 1 or 0 fonts in the set")` that
follows the sort: `none` when the assertion fails, `some none` when the method
returns the null pointer. -/
def narrowByWeightChecked (sort : StdSort) (fonts : List FontDescriptor)
    (properties : FontProperties) : Option (Option FontDescriptor) :=
  if (sort.run fonts).length != 0 then some (narrowByWeightSorted (sort.run fonts) properties)
  else none

/-- The statements `narrowByStyle(familyResults, properties);
allFamilyResults.push_back(narrowByWeight(familyResults, properties));
familyResults.clear();` with the assertions of the two callees. -/
def narrowChecked (sort : StdSort) (properties : FontProperties) (st : QueryState)
    (familyResults : List FontDescriptor) : Option QueryState :=
  match narrowByStyleChecked familyResults properties with
  | none => none
  | some narrowed =>
    match narrowByWeightChecked sort narrowed properties with
    | none => none
    | some font => some { allFamilyResults := st.allFamilyResults ++ [font], familyResults := [] }

/-- One iteration of the loop over `properties.families`, with the assertions. -/
def requestedStepChecked (sort : StdSort) (m : FontManager) (properties : FontProperties)
    (registered : FontFaceSet) (st : QueryState) (family : List Nat) : Option QueryState :=
  let familyResults := gatherRequested m registered family st.familyResults
  if familyResults.length == 1 then
    some { allFamilyResults := st.allFamilyResults ++ [familyResults.head?], familyResults := [] }
  else if familyResults.length > 1 then narrowChecked sort properties st familyResults
  else some { allFamilyResults := st.allFamilyResults, familyResults := familyResults }

/-- One iteration of the loop over `fallbacks`, with the assertions. -/
def fallbackStepChecked (sort : StdSort) (m : FontManager) (properties : FontProperties)
    (st : QueryState) (fallback : List Nat) : Option QueryState :=
  let familyResults := addSystemFonts (catalog m) fallback st.familyResults
  if familyResults.length > 1 then narrowChecked sort properties st familyResults
  else some { allFamilyResults := st.allFamilyResults, familyResults := familyResults }

/-- A `for` loop over `names` whose body can fail an assertion. -/
def loopChecked (step : QueryState → List Nat → Option QueryState) :
    List (List Nat) → QueryState → Option QueryState
  | [], st => some st
  | name :: rest, st =>
    match step st name with
    | none => none
    | some st1 => loopChecked step rest st1

/-- The method `FontManager::query` with the assertions of its callees: `none`
when one of them fails. -/
def queryChecked (sort : StdSort) (m : FontManager) (properties : FontProperties)
    (registered : FontFaceSet) (fallbacks : List (List Nat)) :
    Option (List (Option FontDescriptor)) :=
  match loopChecked (requestedStepChecked sort m properties registered) properties.families
      { allFamilyResults := [], familyResults := [] } with
  | none => none
  | some st =>
    match loopChecked (fallbackStepChecked sort m properties) fallbacks st with
    | none => none
    | some st1 => some st1.allFamilyResults

/-- A second classifier for examples: as `exampleUnicode`, and the Adlam letters
U+1E900..U+1E95F, which lie outside the BMP, are script 4. -/
def exampleUnicodeAdlam : UnicodeData where
  get_script := fun code =>
    if (65 ≤ code ∧ code ≤ 90) ∨ (97 ≤ code ∧ code ≤ 122) then 1
    else if 0x0600 ≤ code ∧ code ≤ 0x06ff then 2
    else if 0x1e900 ≤ code ∧ code ≤ 0x1e95f then 4 else 0
  SCRIPT_COMMON := 0
  SCRIPT_INHERITED := 3

/-! ## FontFaceSet.cc -/

/-- The call `facesHash.find(id)` on the `std::unordered_map` kept as a list of
(key, value) pairs: the mapped slot index, `none` for `facesHash.end()`. -/
def hashFind (facesHash : List (Nat × Nat)) (id : Nat) : Option Nat :=
  (facesHash.find? (fun entry => entry.1 == id)).map (fun entry => entry.2)

/-- The call `facesHash.contains(id)`. -/
def hashContains (facesHash : List (Nat × Nat)) (id : Nat) : Bool :=
  facesHash.any (fun entry => entry.1 == id)

/-- The call `facesHash.insert({id, index})`, which leaves the map alone when the
key is present. -/
def hashInsert (facesHash : List (Nat × Nat)) (id index : Nat) : List (Nat × Nat) :=
  if hashContains facesHash id then facesHash else facesHash ++ [(id, index)]

/-- The call `facesHash.erase(it)` for the iterator `find(id)` returned. -/
def hashErase (facesHash : List (Nat × Nat)) (id : Nat) : List (Nat × Nat) :=
  facesHash.eraseP (fun entry => entry.1 == id)

/-- The method `FontFaceSet::Add` after its argument checks, on the unwrapped
`FontFace`. -/
def FontFaceSet.Add (set : FontFaceSet) (face : FontFace) : FontFaceSet :=
  if !hashContains set.facesHash face.id then
    { facesHash := hashInsert set.facesHash face.id set.facesData.length
      facesData := set.facesData ++ [{ face := some face }] }
  else set

/-- The method `FontFaceSet::Has` after its argument checks. -/
def FontFaceSet.Has (set : FontFaceSet) (face : FontFace) : Bool :=
  (hashFind set.facesHash face.id).isSome

/-- The method `FontFaceSet::Clear`. -/
def FontFaceSet.Clear (set : FontFaceSet) : FontFaceSet :=
  { facesHash := []
    facesData := set.facesData.map (fun entry => { entry with face := none }) }

/-- The method `FontFaceSet::Delete` after its argument checks: the registry and
the boolean returned; `none` when `facesData[it->second]` is outside the vector. -/
def FontFaceSet.Delete (set : FontFaceSet) (face : FontFace) : Option (FontFaceSet × Bool) :=
  match hashFind set.facesHash face.id with
  | some index =>
    match set.facesData[index]? with
    | some entry =>
      some ({ facesHash := hashErase set.facesHash face.id
              facesData := set.facesData.set index { entry with face := none } }, true)
    | none => none
  | none => some (set, false)

/-- The method `FontFaceSet::Size`. -/
def FontFaceSet.Size (set : FontFaceSet) : Nat := set.facesHash.length

/-- The loop of `IteratorContext::next` from `ctx->index = index`: the face of
the entry returned (`none` for `done: true`) and the new `ctx->index`.  The loop
variable `i` and `ctx->index` advance together. -/
def iteratorLoop (facesData : List FontFaceSetEntry) : Nat → Nat → Option FontFace × Nat
  | 0, index => (none, index)
  | fuel + 1, index =>
    if index < facesData.length then
      match facesData[index]? with
      | some entry =>
        match entry.face with
        | some face => (some face, index + 1)
        | none => iteratorLoop facesData fuel (index + 1)
      | none => (none, index + 1)
    else (none, index)

/-- The function `IteratorContext::next`. -/
def iteratorNext (set : FontFaceSet) (index : Nat) : Option FontFace × Nat :=
  iteratorLoop set.facesData (set.facesData.length - index) index

/-- A call on the registry: `add(face)`, `delete(face)` or `clear()`. -/
inductive RegistryOp where
  | add (face : FontFace)
  | delete (face : FontFace)
  | clear
  deriving DecidableEq, Repr

/-- The registry after one call; `none` when `Delete` writes outside the vector. -/
def applyOp (set : FontFaceSet) : RegistryOp → Option FontFaceSet
  | RegistryOp.add face => some (set.Add face)
  | RegistryOp.delete face => (set.Delete face).map (fun r => r.1)
  | RegistryOp.clear => some set.Clear

/-- The registry after a sequence of calls. -/
def runOps : List RegistryOp → FontFaceSet → Option FontFaceSet
  | [], set => some set
  | op :: rest, set =>
    match applyOp set op with
    | some set1 => runOps rest set1
    | none => none

/-- The faces a consumer gets from an iterator created at `index` by calling
`next` until it answers `done`, at most `fuel` times. -/
def iterateAll (set : FontFaceSet) : Nat → Nat → List FontFace
  | 0, _ => []
  | fuel + 1, index =>
    match iteratorNext set index with
    | (some face, index1) => face :: iterateAll set fuel index1
    | (none, _) => []

/-- The write `parens[i].script = script` with the index checked: `none` when `i`
is not an index of the vector. -/
def setScriptChecked (parens : List ParenInfo) (i : Int) (script : Nat) :
    Option (List ParenInfo) :=
  if 0 ≤ i ∧ i < (parens.length : Int) then some (setScript parens i script) else none

/-- The back-fill loop with every write checked: `none` when a write
`parens[++start_paren]` is outside the vector. -/
def backfillChecked (script : Nat) : Nat → List ParenInfo → Int → Option (List ParenInfo × Int)
  | 0, parens, start_paren => some (parens, start_paren)
  | fuel + 1, parens, start_paren =>
    if start_paren + 1 < (parens.length : Int) then
      match setScriptChecked parens (start_paren + 1) script with
      | some parens1 => backfillChecked script fuel parens1 (start_paren + 1)
      | none => none
    else some (parens, start_paren)

/-! ## Predicates used in the statements -/

/-- What the second loop of `narrowByWeight` has established after scanning the
part `l` of the sorted vector: each tracked candidate is the closest one of its
side of the divider `d`, the later one (below) or the earlier one (above) among
equally close ones, and a side without a tracked candidate has no candidate
within the initial distance `900`. -/
def ScanInv (w d : Nat) (l : List FontDescriptor) (best : Best) : Prop :=
  (best.bestBelow = none →
      best.bestBelowDistance = 900 ∧ ∀ f ∈ l, f.weight < d → 900 < distance w f) ∧
  (∀ b, best.bestBelow = some b →
      b ∈ l ∧ b.weight < d ∧ best.bestBelowDistance = distance w b ∧ distance w b ≤ 900 ∧
      ∀ f ∈ l, f.weight < d →
        distance w b ≤ distance w f ∧ (distance w f = distance w b → f.weight ≤ b.weight)) ∧
  (best.bestAbove = none →
      best.bestAboveDistance = 900 ∧ ∀ f ∈ l, d ≤ f.weight → 900 ≤ distance w f) ∧
  (∀ a, best.bestAbove = some a →
      a ∈ l ∧ d ≤ a.weight ∧ best.bestAboveDistance = distance w a ∧ distance w a < 900 ∧
      ∀ f ∈ l, d ≤ f.weight →
        distance w a ≤ distance w f ∧ (distance w f = distance w a → a.weight ≤ f.weight))

/-- The state in which the loop of `script_iterator_next` is left by `break`: the
running script is real, and the code point at the offset, classified again on this
stack under any running script, gets a real script other than the reported one. -/
def Broken (u : UnicodeData) (text_buffer : List Nat) (r : ScriptIteratorState) : Prop :=
  isReal u r.script = true ∧
    ∀ sc, isReal u (classify u text_buffer { r with script := sc }).script = true ∧
      (classify u text_buffer { r with script := sc }).script ≠ r.script

/-- A bidi iterator that has been advanced at least once over a text of length
`n`: either it is done at the end of the text, or it stands inside the text on a
position whose level differs from the level of the run it last reported. -/
def BidiOk (n : Nat) (b : BidiIteratorState) : Prop :=
  (b.done = true ∧ b.offset = n) ∨
    (b.done = false ∧ b.offset < n ∧ ∃ l, b.levels[b.offset]? = some l ∧ l ≠ b.level)

/-- A script iterator that has been advanced at least once: either it is done at
the end of the text, or it stands inside the text and its next run has another
script than the run it last reported. -/
def ScriptOk (u : UnicodeData) (text_buffer : List Nat) (s : ScriptIteratorState) : Prop :=
  (s.done = true ∧ s.offset = text_buffer.length) ∨
    (s.done = false ∧ s.offset < text_buffer.length ∧
      (script_iterator_next u s text_buffer).script ≠ s.script)

/-- The itemizer state after at least one call of `itemize_next`. -/
def ItemizeOk (u : UnicodeData) (levels text_buffer : List Nat) (st : ItemizeState) : Prop :=
  BidiOk text_buffer.length st.bidi_state ∧ ScriptOk u text_buffer st.script_state ∧
    st.offset = min st.bidi_state.offset st.script_state.offset ∧
    st.done = (st.bidi_state.done && st.script_state.done) ∧
    st.bidi_state.levels = levels

/-- The fallback order of the styles for a requested style, as the specification
lists it. -/
def fallbackOrder : FontStyle → List FontStyle
  | FontStyle.Normal => [FontStyle.Normal, FontStyle.Oblique, FontStyle.Italic]
  | FontStyle.Italic => [FontStyle.Italic, FontStyle.Oblique, FontStyle.Normal]
  | FontStyle.Oblique => [FontStyle.Oblique, FontStyle.Italic, FontStyle.Normal]

/-- The entry a requested family name adds for the candidates gathered for it, as
the specification words it: nothing for no candidate, the candidate itself for
one, the weight match among the style-narrowed candidates for two or more. -/
def requestedEntry (sort : StdSort) (properties : FontProperties)
    (candidates : List FontDescriptor) : List (Option FontDescriptor) :=
  match candidates with
  | [] => []
  | [single] => [some single]
  | _ => [narrowByWeight sort (narrowByStyle candidates properties) properties]

/-- The entries the fallback names add, starting from the pending candidates
`pending`: a name adds an entry only when the candidates pending after it number
at least 2, and they are then narrowed together. -/
def fallbackEntries (sort : StdSort) (system_fonts : List FontDescriptor)
    (properties : FontProperties) :
    List (List Nat) → List FontDescriptor → List (Option FontDescriptor)
  | [], _ => []
  | fallback :: rest, pending =>
    if (addSystemFonts system_fonts fallback pending).length > 1 then
      narrowByWeight sort
          (narrowByStyle (addSystemFonts system_fonts fallback pending) properties) properties ::
        fallbackEntries sort system_fonts properties rest []
    else
      fallbackEntries sort system_fonts properties rest
        (addSystemFonts system_fonts fallback pending)

/-- The descriptors of the live (non-null) slots of the registry, in slot order. -/
def liveDescriptors (registered : FontFaceSet) : List FontDescriptor :=
  registered.facesData.filterMap (fun entry => entry.face.map (fun face => face.descriptor))

/-- The offset `o` is reported by one of the first `k` calls of `itemize_next`. -/
def Reported (u : UnicodeData) (levels text_buffer : List Nat) (k o : Nat) : Prop :=
  ∃ k1 st, 1 ≤ k1 ∧ k1 ≤ k ∧ itemize_calls u levels text_buffer k1 = some st ∧ st.offset = o

/-- The sub-iterators of the itemizer after `k` calls are the iterators run alone
after `i` and `j` calls, and every offset they reported before is an offset the
itemizer has reported. -/
def Merged (u : UnicodeData) (levels text_buffer : List Nat) (k : Nat) (st : ItemizeState) :
    Prop :=
  ∃ i j, 1 ≤ i ∧ 1 ≤ j ∧ bidi_calls levels text_buffer i = some st.bidi_state ∧
    script_calls u text_buffer j = st.script_state ∧
    (∀ i1 b, 1 ≤ i1 → i1 < i → bidi_calls levels text_buffer i1 = some b →
      Reported u levels text_buffer k b.offset) ∧
    (∀ j1, 1 ≤ j1 → j1 < j →
      Reported u levels text_buffer k (script_calls u text_buffer j1).offset)

/-- The code points of a sequence of UTF-16 code units, as the specification words
it: a high surrogate followed by a low surrogate is one code point, every other
code unit is a code point of its own. -/
def codePoints : List Nat → List Nat
  | [] => []
  | [code] => [code]
  | code :: next :: rest =>
    if (0xd800 ≤ code && code ≤ 0xdbff) && (0xdc00 ≤ next && next ≤ 0xdfff) then
      ((code - 0xd800) * 0x400 + (next - 0xdc00) + 0x10000) :: codePoints rest
    else code :: codePoints (next :: rest)

/-- The script of a run that starts with the running script `running` and holds
the code points `cps`: `running` when it is real, else the script of the first
code point of real script, else `running`. -/
def runScript (u : UnicodeData) (running : Nat) (cps : List Nat) : Nat :=
  if isReal u running then running
  else
    match cps.find? (fun c => isReal u (u.get_script c)) with
    | some c => u.get_script c
    | none => running

/-- A script iterator state whose bracket stack is empty. -/
def Plain (s : ScriptIteratorState) : Prop := s.parens = [] ∧ s.start_paren = -1

/-- A text made of the opening bracket at index `2 * k` of the table, the UTF-16
units `middle`, and the closing bracket at index `2 * k + 1`. -/
def bracketed (k : Nat) (middle : List Nat) : List Nat :=
  paired_chars.getD (2 * k) 0 :: (middle ++ [paired_chars.getD (2 * k + 1) 0])

/-- A linear search of `ch` in `table`, as the specification words the answer of
`get_pair_index`: the index of the first entry equal to `ch`, counted from `i`,
or `-1` when there is none. -/
def linearSearch (ch : Nat) : List Nat → Int → Int
  | [], _ => -1
  | c :: rest, i => if c = ch then i else linearSearch ch rest (i + 1)

/-- The faces of the live (non-null) slots of the registry, in slot order. -/
def liveFaces (set : FontFaceSet) : List FontFace :=
  set.facesData.filterMap (fun entry => entry.face)

/-- An insertion-ordered set of faces keyed by id, as the specification words the
registry: `add` appends a face whose id is absent, `delete` removes the face with
that id, `clear` removes all. -/
def orderedSet : List RegistryOp → List FontFace → List FontFace
  | [], faces => faces
  | RegistryOp.add face :: rest, faces =>
    orderedSet rest (if faces.any (fun g => g.id == face.id) then faces else faces ++ [face])
  | RegistryOp.delete face :: rest, faces =>
    orderedSet rest (faces.filter (fun g => g.id != face.id))
  | RegistryOp.clear :: rest, _ => orderedSet rest []

/-- The representation invariant of the registry: `facesHash` maps `id` to `i`
exactly when slot `i` holds a live face with that id, no key occurs twice,
there are as many keys as live slots, and no two live slots hold the same id. -/
def RegistryInv (set : FontFaceSet) : Prop :=
  (∀ id i, (id, i) ∈ set.facesHash ↔
    ∃ face, set.facesData[i]? = some { face := some face } ∧ face.id = id) ∧
  (set.facesHash.map (fun entry => entry.1)).Nodup ∧
  set.facesHash.length = (liveFaces set).length ∧
  ((liveFaces set).map (fun face => face.id)).Nodup

/-- The bounds of `start_paren`: `-1 ≤ start_paren ≤ parens.size() - 1`. -/
def StackInv (s : ScriptIteratorState) : Prop :=
  -1 ≤ s.start_paren ∧ s.start_paren ≤ (s.parens.length : Int) - 1

/-- The smallest size the stack has in the states the loop of
`script_iterator_next` goes through in at most `fuel` iterations from `state`:
the number of frames of `state` that have not been popped since. -/
def lowWater (u : UnicodeData) (text_buffer : List Nat) : Nat → ScriptIteratorState → Nat
  | 0, state => state.parens.length
  | fuel + 1, state =>
    if state.offset < text_buffer.length then
      match scriptStep u text_buffer state with
      | (state1, true) => min state.parens.length state1.parens.length
      | (state1, false) => min state.parens.length (lowWater u text_buffer fuel state1)
    else state.parens.length

/-- The state the loop of call `j + 1` of `script_iterator_next` starts from: the
state after `j` calls, with `state.script = SCRIPT_COMMON`. -/
def runStart (u : UnicodeData) (text_buffer : List Nat) (j : Nat) : ScriptIteratorState :=
  { script_calls u text_buffer j with script := u.SCRIPT_COMMON }

/-- The state call `j + 1` of `script_iterator_next` is in after `n` iterations of
its loop (or at the end of the loop, when that comes first). -/
def runState (u : UnicodeData) (text_buffer : List Nat) (j n : Nat) : ScriptIteratorState :=
  scriptLoop u text_buffer n (runStart u text_buffer j)

/-- The back-fill loop run on what the paired-character block leaves of `state`. -/
def backfillOf (u : UnicodeData) (text_buffer : List Nat) (state : ScriptIteratorState) :
    List ParenInfo × Int :=
  backfill (classify u text_buffer state).script
    (((classify u text_buffer state).parens.length : Int) - 1 -
      (classify u text_buffer state).start_paren).toNat
    (classify u text_buffer state).parens (classify u text_buffer state).start_paren

/-- The back-fill loop with checked writes run on what the paired-character block
leaves of `state`. -/
def backfillCheckedOf (u : UnicodeData) (text_buffer : List Nat) (state : ScriptIteratorState) :
    Option (List ParenInfo × Int) :=
  backfillChecked (classify u text_buffer state).script
    (((classify u text_buffer state).parens.length : Int) - 1 -
      (classify u text_buffer state).start_paren).toNat
    (classify u text_buffer state).parens (classify u text_buffer state).start_paren

/-! # Properties -/

/-! ## narrowByWeight: the scan -/

theorem scanInv_init (w d : Nat) :
    ScanInv w d []
      { bestBelow := none, bestBelowDistance := 900, bestAbove := none, bestAboveDistance := 900 } := by
  refine ⟨?_, ?_, ?_, ?_⟩
  · intro _; exact ⟨rfl, by simp⟩
  · intro b hb; simp at hb
  · intro _; exact ⟨rfl, by simp⟩
  · intro a ha; simp at ha

theorem scanStep_inv (w d : Nat) (l : List FontDescriptor) (best : Best) (x : FontDescriptor)
    (h : ScanInv w d l best) (hx : ∀ f ∈ l, f.weight ≤ x.weight) :
    ScanInv w d (l ++ [x]) (scanStep w d best x) := by
  obtain ⟨hbn, hbs, han, has⟩ := h
  unfold scanStep
  by_cases hlt : x.weight < d
  · rw [if_pos hlt]
    have hA1 : best.bestAbove = none →
        best.bestAboveDistance = 900 ∧ ∀ f ∈ l ++ [x], d ≤ f.weight → 900 ≤ distance w f := by
      intro hn
      refine ⟨(han hn).1, ?_⟩
      intro f hf hdf
      rcases List.mem_append.1 hf with hf | hf
      · exact (han hn).2 f hf hdf
      · simp at hf; subst hf; omega
    have hA2 : ∀ a, best.bestAbove = some a →
        a ∈ l ++ [x] ∧ d ≤ a.weight ∧ best.bestAboveDistance = distance w a ∧
        distance w a < 900 ∧ ∀ f ∈ l ++ [x], d ≤ f.weight →
          distance w a ≤ distance w f ∧ (distance w f = distance w a → a.weight ≤ f.weight) := by
      intro a ha
      obtain ⟨h1, h2, h3, h4, h5⟩ := has a ha
      refine ⟨List.mem_append_left _ h1, h2, h3, h4, ?_⟩
      intro f hf hdf
      rcases List.mem_append.1 hf with hf | hf
      · exact h5 f hf hdf
      · simp at hf; subst hf; omega
    by_cases hd : distance w x ≤ best.bestBelowDistance
    · rw [if_pos hd]
      refine ⟨?_, ?_, hA1, hA2⟩
      · intro hn; simp at hn
      · intro b hb
        simp only [Option.some.injEq] at hb
        subst hb
        have h900 : distance w x ≤ 900 := by
          cases hbb : best.bestBelow with
          | none => have := (hbn hbb).1; omega
          | some b0 =>
            obtain ⟨_, _, h3, h4, _⟩ := hbs b0 hbb
            omega
        refine ⟨by simp, hlt, rfl, h900, ?_⟩
        intro f hf hfd
        rcases List.mem_append.1 hf with hf | hf
        · refine ⟨?_, fun _ => hx f hf⟩
          cases hbb : best.bestBelow with
          | none => have := (hbn hbb).2 f hf hfd; omega
          | some b0 =>
            obtain ⟨_, _, h3, _, h5⟩ := hbs b0 hbb
            have := (h5 f hf hfd).1
            omega
        · simp at hf; subst hf; exact ⟨le_refl _, fun _ => le_refl _⟩
    · rw [if_neg hd]
      refine ⟨?_, ?_, hA1, hA2⟩
      · intro hn
        refine ⟨(hbn hn).1, ?_⟩
        intro f hf hfd
        rcases List.mem_append.1 hf with hf | hf
        · exact (hbn hn).2 f hf hfd
        · simp at hf; subst hf; have := (hbn hn).1; omega
      · intro b hb
        obtain ⟨h1, h2, h3, h4, h5⟩ := hbs b hb
        refine ⟨List.mem_append_left _ h1, h2, h3, h4, ?_⟩
        intro f hf hfd
        rcases List.mem_append.1 hf with hf | hf
        · exact h5 f hf hfd
        · simp at hf; subst hf
          exact ⟨by omega, fun he => by omega⟩
  · rw [if_neg hlt]
    have hB1 : best.bestBelow = none →
        best.bestBelowDistance = 900 ∧ ∀ f ∈ l ++ [x], f.weight < d → 900 < distance w f := by
      intro hn
      refine ⟨(hbn hn).1, ?_⟩
      intro f hf hdf
      rcases List.mem_append.1 hf with hf | hf
      · exact (hbn hn).2 f hf hdf
      · simp at hf; subst hf; omega
    have hB2 : ∀ b, best.bestBelow = some b →
        b ∈ l ++ [x] ∧ b.weight < d ∧ best.bestBelowDistance = distance w b ∧
        distance w b ≤ 900 ∧ ∀ f ∈ l ++ [x], f.weight < d →
          distance w b ≤ distance w f ∧ (distance w f = distance w b → f.weight ≤ b.weight) := by
      intro b hb
      obtain ⟨h1, h2, h3, h4, h5⟩ := hbs b hb
      refine ⟨List.mem_append_left _ h1, h2, h3, h4, ?_⟩
      intro f hf hdf
      rcases List.mem_append.1 hf with hf | hf
      · exact h5 f hf hdf
      · simp at hf; subst hf; omega
    by_cases hd : distance w x < best.bestAboveDistance
    · rw [if_pos hd]
      refine ⟨hB1, hB2, ?_, ?_⟩
      · intro hn; simp at hn
      · intro a ha
        simp only [Option.some.injEq] at ha
        subst ha
        have h900 : distance w x < 900 := by
          cases haa : best.bestAbove with
          | none => have := (han haa).1; omega
          | some a0 =>
            obtain ⟨_, _, h3, h4, _⟩ := has a0 haa
            omega
        refine ⟨by simp, by omega, rfl, h900, ?_⟩
        intro f hf hfd
        rcases List.mem_append.1 hf with hf | hf
        · cases haa : best.bestAbove with
          | none =>
            have := (han haa).2 f hf hfd
            have := (han haa).1
            exact ⟨by omega, fun he => by omega⟩
          | some a0 =>
            obtain ⟨_, _, h3, _, h5⟩ := has a0 haa
            have := (h5 f hf hfd).1
            exact ⟨by omega, fun he => by omega⟩
        · simp at hf; subst hf; exact ⟨le_refl _, fun _ => le_refl _⟩
    · rw [if_neg hd]
      refine ⟨hB1, hB2, ?_, ?_⟩
      · intro hn
        refine ⟨(han hn).1, ?_⟩
        intro f hf hfd
        rcases List.mem_append.1 hf with hf | hf
        · exact (han hn).2 f hf hfd
        · simp at hf; subst hf; have := (han hn).1; omega
      · intro a ha
        obtain ⟨h1, h2, h3, h4, h5⟩ := has a ha
        refine ⟨List.mem_append_left _ h1, h2, h3, h4, ?_⟩
        intro f hf hfd
        rcases List.mem_append.1 hf with hf | hf
        · exact h5 f hf hfd
        · simp at hf; subst hf
          exact ⟨by omega, fun _ => hx a h1⟩

theorem scan_inv (w d : Nat) : ∀ (l pre : List FontDescriptor) (best : Best),
    ScanInv w d pre best → (pre ++ l).Pairwise (fun a b => a.weight ≤ b.weight) →
    ScanInv w d (pre ++ l) (l.foldl (scanStep w d) best) := by
  intro l
  induction l with
  | nil => intro pre best h _; simpa using h
  | cons x l ih =>
    intro pre best h hs
    have hs2 : ((pre ++ [x]) ++ l).Pairwise (fun a b => a.weight ≤ b.weight) := by
      simpa using hs
    have hx : ∀ f ∈ pre, f.weight ≤ x.weight := by
      intro f hf
      have := (List.pairwise_append.1 hs).2.2 f hf x (by simp)
      exact this
    have := ih (pre ++ [x]) (scanStep w d best x) (scanStep_inv w d pre best x h hx) hs2
    simpa using this

theorem distance_of_lt (w : Nat) (f : FontDescriptor) (h : f.weight < w) :
    distance w f = w - f.weight := by
  simp [distance, h]

theorem distance_of_ge (w : Nat) (f : FontDescriptor) (h : w ≤ f.weight) :
    distance w f = f.weight - w := by
  simp [distance, Nat.not_lt.2 h]

theorem divider_cases (w : Nat) :
    (w = 400 ∧ divider w = 500) ∨ (w = 500 ∧ divider w = 400) ∨
      (w ≠ 400 ∧ w ≠ 500 ∧ divider w = w) := by
  unfold divider
  by_cases h4 : w = 400
  · left; simp [h4]
  · by_cases h5 : w = 500
    · right; left; simp [h5]
    · right; right; simp [h4, h5]

/-- Without an exact match the result of `narrowByWeightSorted` is read off a
`Best` that satisfies the scan invariant for the whole vector. -/
theorem narrowByWeightSorted_scan (l : List FontDescriptor) (properties : FontProperties)
    (hs : l.Pairwise (fun a b => a.weight ≤ b.weight))
    (hno : ∀ f ∈ l, f.weight ≠ properties.weight) :
    ∃ best, ScanInv properties.weight (divider properties.weight) l best ∧
      narrowByWeightSorted l properties =
        (match best.bestBelow, best.bestAbove with
          | some below, some above =>
            if divider properties.weight ≤ 500 then some below else some above
          | some below, none => some below
          | none, above => above) := by
  have hfind : l.find? (fun font => font.weight == properties.weight) = none := by
    rw [List.find?_eq_none]
    intro f hf
    simpa using hno f hf
  refine ⟨l.foldl (scanStep properties.weight (divider properties.weight))
    { bestBelow := none, bestBelowDistance := 900, bestAbove := none, bestAboveDistance := 900 },
    ?_, ?_⟩
  · have := scan_inv properties.weight (divider properties.weight) l [] _
      (scanInv_init _ _) (by simpa using hs)
    simpa using this
  · unfold narrowByWeightSorted
    rw [hfind]

theorem narrowByWeightSorted_mem (l : List FontDescriptor) (properties : FontProperties)
    (hs : l.Pairwise (fun a b => a.weight ≤ b.weight)) (r : FontDescriptor)
    (hr : narrowByWeightSorted l properties = some r) : r ∈ l := by
  by_cases hno : ∀ f ∈ l, f.weight ≠ properties.weight
  · obtain ⟨best, ⟨_, hbs, _, has⟩, heq⟩ := narrowByWeightSorted_scan l properties hs hno
    rw [heq] at hr
    cases hb : best.bestBelow with
    | none =>
      rw [hb] at hr
      simp only at hr
      exact (has r hr).1
    | some b =>
      cases ha : best.bestAbove with
      | none =>
        rw [hb, ha] at hr
        simp only [Option.some.injEq] at hr
        subst hr
        exact (hbs _ hb).1
      | some a =>
        rw [hb, ha] at hr
        simp only at hr
        split at hr
        · simp only [Option.some.injEq] at hr
          subst hr
          exact (hbs _ hb).1
        · simp only [Option.some.injEq] at hr
          subst hr
          exact (has _ ha).1
  · unfold narrowByWeightSorted at hr
    cases hf : l.find? (fun font => font.weight == properties.weight) with
    | none =>
      exfalso
      apply hno
      intro f hfl
      have := (List.find?_eq_none.1 hf) f hfl
      simpa using this
    | some x =>
      rw [hf] at hr
      simp only [Option.some.injEq] at hr
      subst hr
      exact List.mem_of_find?_eq_some hf

/-- What `narrowByWeight` returns is one of the candidates. -/
theorem narrowByWeight_mem (sort : StdSort) (fonts : List FontDescriptor)
    (properties : FontProperties) (r : FontDescriptor)
    (hr : narrowByWeight sort fonts properties = some r) : r ∈ fonts :=
  (sort.perm fonts).mem_iff.1 (narrowByWeightSorted_mem _ properties (sort.sorted fonts) r hr)

/-- An exact match is returned when there is one. -/
theorem narrowByWeight_exact (sort : StdSort) (fonts : List FontDescriptor)
    (properties : FontProperties) (h : ∃ d ∈ fonts, d.weight = properties.weight) :
    ∃ r, narrowByWeight sort fonts properties = some r ∧ r ∈ fonts ∧
      r.weight = properties.weight := by
  obtain ⟨d, hd, hw⟩ := h
  have hd2 : d ∈ sort.run fonts := (sort.perm fonts).mem_iff.2 hd
  unfold narrowByWeight narrowByWeightSorted
  cases hf : (sort.run fonts).find? (fun font => font.weight == properties.weight) with
  | none =>
    exfalso
    have := (List.find?_eq_none.1 hf) d hd2
    simp [hw] at this
  | some x =>
    refine ⟨x, rfl, (sort.perm fonts).mem_iff.1 (List.mem_of_find?_eq_some hf), ?_⟩
    have := List.find?_some hf
    simpa using this

/-- Without an exact match: the scan invariant for the candidates themselves. -/
theorem narrowByWeight_scan (sort : StdSort) (fonts : List FontDescriptor)
    (properties : FontProperties) (hno : ∀ f ∈ fonts, f.weight ≠ properties.weight) :
    ∃ best, ScanInv properties.weight (divider properties.weight) fonts best ∧
      narrowByWeight sort fonts properties =
        (match best.bestBelow, best.bestAbove with
          | some below, some above =>
            if divider properties.weight ≤ 500 then some below else some above
          | some below, none => some below
          | none, above => above) := by
  have hp := sort.perm fonts
  obtain ⟨best, ⟨h1, h2, h3, h4⟩, heq⟩ := narrowByWeightSorted_scan (sort.run fonts) properties
    (sort.sorted fonts) (fun f hf => hno f (hp.mem_iff.1 hf))
  refine ⟨best, ⟨?_, ?_, ?_, ?_⟩, heq⟩
  · intro hn
    exact ⟨(h1 hn).1, fun f hf => (h1 hn).2 f (hp.mem_iff.2 hf)⟩
  · intro b hb
    obtain ⟨a1, a2, a3, a4, a5⟩ := h2 b hb
    exact ⟨hp.mem_iff.1 a1, a2, a3, a4, fun f hf => a5 f (hp.mem_iff.2 hf)⟩
  · intro hn
    exact ⟨(h3 hn).1, fun f hf => (h3 hn).2 f (hp.mem_iff.2 hf)⟩
  · intro a ha
    obtain ⟨a1, a2, a3, a4, a5⟩ := h4 a ha
    exact ⟨hp.mem_iff.1 a1, a2, a3, a4, fun f hf => a5 f (hp.mem_iff.2 hf)⟩

/-- With a divider of at most 500 a candidate below the divider wins. -/
theorem narrowByWeight_below (sort : StdSort) (fonts : List FontDescriptor)
    (properties : FontProperties) (hno : ∀ f ∈ fonts, f.weight ≠ properties.weight)
    (hd : divider properties.weight ≤ 500)
    (hbelow : ∃ f ∈ fonts, f.weight < divider properties.weight) :
    ∃ r, narrowByWeight sort fonts properties = some r ∧ r ∈ fonts ∧
      r.weight < divider properties.weight := by
  obtain ⟨best, ⟨hbn, hbs, _, _⟩, heq⟩ := narrowByWeight_scan sort fonts properties hno
  obtain ⟨f, hf, hfd⟩ := hbelow
  have hdist : distance properties.weight f ≤ 900 := by
    rcases divider_cases properties.weight with ⟨h1, h2⟩ | ⟨h1, h2⟩ | ⟨_, _, h2⟩
    · by_cases hlt : f.weight < properties.weight
      · rw [distance_of_lt _ _ hlt]; omega
      · rw [distance_of_ge _ _ (Nat.not_lt.1 hlt)]; omega
    · rw [distance_of_lt _ _ (by omega)]; omega
    · rw [distance_of_lt _ _ (by omega)]; omega
  cases hb : best.bestBelow with
  | none =>
    have := (hbn hb).2 f hf hfd
    omega
  | some b =>
    obtain ⟨h1, h2, _⟩ := hbs b hb
    refine ⟨b, ?_, h1, h2⟩
    rw [heq, hb]
    cases best.bestAbove with
    | none => rfl
    | some a => simp [hd]

/-- With a divider above 500 a candidate at or above the divider wins, provided
one lies within the initial best distance. -/
theorem narrowByWeight_above (sort : StdSort) (fonts : List FontDescriptor)
    (properties : FontProperties) (hno : ∀ f ∈ fonts, f.weight ≠ properties.weight)
    (hd : 500 < divider properties.weight)
    (habove : ∃ f ∈ fonts, divider properties.weight ≤ f.weight ∧
      f.weight < properties.weight + 900) :
    ∃ r, narrowByWeight sort fonts properties = some r ∧ r ∈ fonts ∧
      divider properties.weight ≤ r.weight := by
  obtain ⟨best, ⟨_, _, han, has⟩, heq⟩ := narrowByWeight_scan sort fonts properties hno
  obtain ⟨f, hf, hfd, hfw⟩ := habove
  have hdw : divider properties.weight = properties.weight := by
    rcases divider_cases properties.weight with ⟨h1, h2⟩ | ⟨h1, h2⟩ | ⟨_, _, h2⟩ <;> omega
  have hdist : distance properties.weight f < 900 := by
    rw [distance_of_ge _ _ (by omega)]; omega
  cases ha : best.bestAbove with
  | none =>
    have := (han ha).2 f hf hfd
    omega
  | some a =>
    obtain ⟨h1, h2, _⟩ := has a ha
    refine ⟨a, ?_, h1, h2⟩
    rw [heq, ha]
    cases best.bestBelow with
    | none => rfl
    | some b => simp [Nat.not_le.2 hd]

/-- When every candidate at or above the divider is out of reach of the initial
best distance and some candidate below is within it, a candidate below the
divider is returned, whatever the divider is. -/
theorem narrowByWeight_above_unreachable (sort : StdSort) (fonts : List FontDescriptor)
    (properties : FontProperties) (hno : ∀ f ∈ fonts, f.weight ≠ properties.weight)
    (hfar : ∀ f ∈ fonts, divider properties.weight ≤ f.weight →
      900 ≤ distance properties.weight f)
    (hbelow : ∃ f ∈ fonts, f.weight < divider properties.weight ∧
      distance properties.weight f ≤ 900) :
    ∃ r, narrowByWeight sort fonts properties = some r ∧ r ∈ fonts ∧
      r.weight < divider properties.weight := by
  obtain ⟨best, ⟨hbn, hbs, _, has⟩, heq⟩ := narrowByWeight_scan sort fonts properties hno
  obtain ⟨f, hf, hfd, hfw⟩ := hbelow
  have ha : best.bestAbove = none := by
    cases ha : best.bestAbove with
    | none => rfl
    | some a =>
      obtain ⟨h1, h2, _, h4, _⟩ := has a ha
      have := hfar a h1 h2
      omega
  cases hb : best.bestBelow with
  | none =>
    have := (hbn hb).2 f hf hfd
    omega
  | some b =>
    obtain ⟨h1, h2, _⟩ := hbs b hb
    refine ⟨b, ?_, h1, h2⟩
    rw [heq, hb, ha]

/-! ## Claims on narrowByStyle and narrowByWeight -/

/-- C1 (the code departs from it): with the candidates Normal, Italic, Normal and
an Italic request the winning style is Italic, the removal loop swaps the last
Normal descriptor into slot 0, moves on without looking at it, and the list left
by `narrowByStyle` still holds that Normal descriptor. -/
theorem narrowByStyle_keeps_swapped_in :
    chooseStyle [mkFont 0 400 FontStyle.Normal, mkFont 1 400 FontStyle.Italic,
        mkFont 2 400 FontStyle.Normal] (mkRequest 400 FontStyle.Italic) = FontStyle.Italic ∧
    narrowByStyle [mkFont 0 400 FontStyle.Normal, mkFont 1 400 FontStyle.Italic,
        mkFont 2 400 FontStyle.Normal] (mkRequest 400 FontStyle.Italic) =
      [mkFont 2 400 FontStyle.Normal, mkFont 1 400 FontStyle.Italic] := by
  decide

/-- C2 (the code departs from it): a single candidate of weight 1000 and a request
of weight 100, both on the CSS scale, make `narrowByWeight` return the null
pointer under every admissible sort: the candidate is at or above the divider and
its distance 900 is not below the initial best distance 900. -/
theorem narrowByWeight_null_on_css_scale (sort : StdSort) :
    narrowByWeight sort [mkFont 0 1000 FontStyle.Normal] (mkRequest 100 FontStyle.Normal) =
      none := by
  have h : sort.run [mkFont 0 1000 FontStyle.Normal] = [mkFont 0 1000 FontStyle.Normal] :=
    List.perm_singleton.1 (sort.perm _)
  unfold narrowByWeight
  rw [h]
  decide

/-- C6: if some candidate has exactly the requested weight, `narrowByWeight`
returns a candidate of that weight; and whenever the returned descriptor has the
requested weight, some candidate has it. -/
theorem narrowByWeight_exact_hit (sort : StdSort) (fonts : List FontDescriptor)
    (properties : FontProperties) :
    ((∃ d ∈ fonts, d.weight = properties.weight) →
      ∃ r, narrowByWeight sort fonts properties = some r ∧ r ∈ fonts ∧
        r.weight = properties.weight) ∧
    (∀ r, narrowByWeight sort fonts properties = some r → r.weight = properties.weight →
      ∃ d ∈ fonts, d.weight = properties.weight) :=
  ⟨narrowByWeight_exact sort fonts properties,
    fun r hr hw => ⟨r, narrowByWeight_mem sort fonts properties r hr, hw⟩⟩

/-- C6 at requested 600 among the weights 300, 600, 900: the 600 descriptor is returned. -/
theorem narrowByWeight_exact_hit_witness :
    narrowByWeight insertionStdSort
        [mkFont 0 300 FontStyle.Normal, mkFont 1 600 FontStyle.Normal,
          mkFont 2 900 FontStyle.Normal] (mkRequest 600 FontStyle.Normal) =
      some (mkFont 1 600 FontStyle.Normal) ∧
    ∃ r, narrowByWeight insertionStdSort
        [mkFont 0 300 FontStyle.Normal, mkFont 1 600 FontStyle.Normal,
          mkFont 2 900 FontStyle.Normal] (mkRequest 600 FontStyle.Normal) = some r ∧
      r ∈ [mkFont 0 300 FontStyle.Normal, mkFont 1 600 FontStyle.Normal,
          mkFont 2 900 FontStyle.Normal] ∧
      r.weight = (mkRequest 600 FontStyle.Normal).weight :=
  ⟨by decide, (narrowByWeight_exact_hit insertionStdSort _ _).1
    ⟨mkFont 1 600 FontStyle.Normal, by decide, by decide⟩⟩

/-- A weight above the CSS scale 1..1000: requested 600 (divider 600, above 500)
with the candidates 500 and 1500 has no exact match, a candidate below the divider
and one at or above it, and every admissible sort makes `narrowByWeight` return a
candidate below the divider, because the distance 900 of the candidate 1500 is not
below the initial best distance. -/
theorem narrowByWeight_divider_side_unreachable :
    (∀ f ∈ [mkFont 0 500 FontStyle.Normal, mkFont 1 1500 FontStyle.Normal], f.weight ≠ 600) ∧
    (∃ f ∈ [mkFont 0 500 FontStyle.Normal, mkFont 1 1500 FontStyle.Normal],
      f.weight < divider 600) ∧
    (∃ f ∈ [mkFont 0 500 FontStyle.Normal, mkFont 1 1500 FontStyle.Normal],
      divider 600 ≤ f.weight) ∧
    ¬ divider 600 ≤ 500 ∧
    (∀ sort : StdSort, ∃ r,
      narrowByWeight sort [mkFont 0 500 FontStyle.Normal, mkFont 1 1500 FontStyle.Normal]
        (mkRequest 600 FontStyle.Normal) = some r ∧ r.weight < divider 600) := by
  refine ⟨by decide, by decide, by decide, by decide, ?_⟩
  intro sort
  obtain ⟨r, hr, _, hlt⟩ := narrowByWeight_above_unreachable sort
    [mkFont 0 500 FontStyle.Normal, mkFont 1 1500 FontStyle.Normal]
    (mkRequest 600 FontStyle.Normal) (by decide) (by decide) (by decide)
  exact ⟨r, hr, hlt⟩

/-- With no exact match, a candidate strictly below the divider and a candidate at
or above it (which, when the divider exceeds 500, is less than 900 above the
requested weight), `narrowByWeight` returns a candidate strictly below the divider
when the divider is at most 500 and one at or above it otherwise. -/
theorem narrowByWeight_divider_side_within (sort : StdSort) (fonts : List FontDescriptor)
    (properties : FontProperties)
    (hno : ∀ f ∈ fonts, f.weight ≠ properties.weight)
    (hbelow : ∃ f ∈ fonts, f.weight < divider properties.weight)
    (habove : ∃ f ∈ fonts, divider properties.weight ≤ f.weight ∧
      (500 < divider properties.weight → f.weight < properties.weight + 900)) :
    ∃ r, narrowByWeight sort fonts properties = some r ∧ r ∈ fonts ∧
      (if divider properties.weight ≤ 500 then r.weight < divider properties.weight
        else divider properties.weight ≤ r.weight) := by
  by_cases hd : divider properties.weight ≤ 500
  · obtain ⟨r, h1, h2, h3⟩ := narrowByWeight_below sort fonts properties hno hd hbelow
    exact ⟨r, h1, h2, by simpa [hd] using h3⟩
  · obtain ⟨f, hf, hfd, hfw⟩ := habove
    obtain ⟨r, h1, h2, h3⟩ := narrowByWeight_above sort fonts properties hno
      (Nat.not_le.1 hd) ⟨f, hf, hfd, hfw (Nat.not_le.1 hd)⟩
    exact ⟨r, h1, h2, by simpa [hd] using h3⟩

/-- C7: the divider is 500 for a requested weight of 400, 400 for 500 and the
requested weight otherwise; for candidates on the CSS scale of the data model
(weights at most 1000) with no exact match, a candidate strictly below the
divider and a candidate at or above it, `narrowByWeight` returns, for every
result of `std::sort`, a candidate strictly below the divider when the divider is
at most 500 and a candidate at or above it otherwise. -/
theorem narrowByWeight_divider_side (sort : StdSort) (fonts : List FontDescriptor)
    (properties : FontProperties)
    (hscale : ∀ f ∈ fonts, f.weight ≤ 1000)
    (hno : ∀ f ∈ fonts, f.weight ≠ properties.weight)
    (hbelow : ∃ f ∈ fonts, f.weight < divider properties.weight)
    (habove : ∃ f ∈ fonts, divider properties.weight ≤ f.weight) :
    divider properties.weight =
      (if properties.weight = 400 then 500 else if properties.weight = 500 then 400
        else properties.weight) ∧
    ∃ r, narrowByWeight sort fonts properties = some r ∧ r ∈ fonts ∧
      (if divider properties.weight ≤ 500 then r.weight < divider properties.weight
        else divider properties.weight ≤ r.weight) := by
  refine ⟨by simp [divider], ?_⟩
  obtain ⟨f, hf, hfd⟩ := habove
  refine narrowByWeight_divider_side_within sort fonts properties hno hbelow
    ⟨f, hf, hfd, fun hd => ?_⟩
  have hs := hscale f hf
  rcases divider_cases properties.weight with ⟨_, h2⟩ | ⟨_, h2⟩ | ⟨_, _, h2⟩ <;> omega

/-- C7 at requested 400 with the candidates 300 and 600, where the divider is 500
and the candidate 300 is returned, and at requested 600 with the candidates 500
and 1000, where the divider is 600 and the candidate 1000 is returned. -/
theorem narrowByWeight_divider_side_witness :
    narrowByWeight insertionStdSort
        [mkFont 0 300 FontStyle.Normal, mkFont 1 600 FontStyle.Normal]
        (mkRequest 400 FontStyle.Normal) = some (mkFont 0 300 FontStyle.Normal) ∧
    narrowByWeight insertionStdSort
        [mkFont 0 500 FontStyle.Normal, mkFont 1 1000 FontStyle.Normal]
        (mkRequest 600 FontStyle.Normal) = some (mkFont 1 1000 FontStyle.Normal) ∧
    (divider (mkRequest 400 FontStyle.Normal).weight = 500 ∧
      ∃ r, narrowByWeight insertionStdSort
          [mkFont 0 300 FontStyle.Normal, mkFont 1 600 FontStyle.Normal]
          (mkRequest 400 FontStyle.Normal) = some r ∧
        r ∈ [mkFont 0 300 FontStyle.Normal, mkFont 1 600 FontStyle.Normal] ∧
        (if divider (mkRequest 400 FontStyle.Normal).weight ≤ 500
          then r.weight < divider (mkRequest 400 FontStyle.Normal).weight
          else divider (mkRequest 400 FontStyle.Normal).weight ≤ r.weight)) ∧
    (divider (mkRequest 600 FontStyle.Normal).weight = 600 ∧
      ∃ r, narrowByWeight insertionStdSort
          [mkFont 0 500 FontStyle.Normal, mkFont 1 1000 FontStyle.Normal]
          (mkRequest 600 FontStyle.Normal) = some r ∧
        r ∈ [mkFont 0 500 FontStyle.Normal, mkFont 1 1000 FontStyle.Normal] ∧
        (if divider (mkRequest 600 FontStyle.Normal).weight ≤ 500
          then r.weight < divider (mkRequest 600 FontStyle.Normal).weight
          else divider (mkRequest 600 FontStyle.Normal).weight ≤ r.weight)) :=
  ⟨by decide, by decide,
    narrowByWeight_divider_side insertionStdSort
      [mkFont 0 300 FontStyle.Normal, mkFont 1 600 FontStyle.Normal]
      (mkRequest 400 FontStyle.Normal) (by decide) (by decide) (by decide) (by decide),
    narrowByWeight_divider_side insertionStdSort
      [mkFont 0 500 FontStyle.Normal, mkFont 1 1000 FontStyle.Normal]
      (mkRequest 600 FontStyle.Normal) (by decide) (by decide) (by decide) (by decide)⟩

/-- C8: with no exact match, the descriptor `narrowByWeight` returns is a candidate
of minimal distance to the requested weight among the candidates of its own side
of the divider; among equally close candidates the side below the divider keeps
the largest weight and the side at or above it the smallest. -/
theorem narrowByWeight_closest_on_side (sort : StdSort) (fonts : List FontDescriptor)
    (properties : FontProperties) (r : FontDescriptor)
    (hno : ∀ f ∈ fonts, f.weight ≠ properties.weight)
    (hr : narrowByWeight sort fonts properties = some r) :
    r ∈ fonts ∧
    (r.weight < divider properties.weight →
      ∀ f ∈ fonts, f.weight < divider properties.weight →
        distance properties.weight r ≤ distance properties.weight f ∧
        (distance properties.weight f = distance properties.weight r → f.weight ≤ r.weight)) ∧
    (divider properties.weight ≤ r.weight →
      ∀ f ∈ fonts, divider properties.weight ≤ f.weight →
        distance properties.weight r ≤ distance properties.weight f ∧
        (distance properties.weight f = distance properties.weight r → r.weight ≤ f.weight)) := by
  obtain ⟨best, ⟨_, hbs, _, has⟩, heq⟩ := narrowByWeight_scan sort fonts properties hno
  rw [heq] at hr
  have key : best.bestBelow = some r ∨ best.bestAbove = some r := by
    cases hb : best.bestBelow with
    | none => rw [hb] at hr; exact Or.inr hr
    | some b =>
      cases ha : best.bestAbove with
      | none => rw [hb, ha] at hr; exact Or.inl hr
      | some a =>
        rw [hb, ha] at hr
        simp only at hr
        split at hr
        · exact Or.inl hr
        · exact Or.inr hr
  rcases key with hb | ha
  · obtain ⟨h1, h2, _, _, h5⟩ := hbs r hb
    exact ⟨h1, fun _ => h5, fun h => absurd h2 (Nat.not_lt.2 h)⟩
  · obtain ⟨h1, h2, _, _, h5⟩ := has r ha
    exact ⟨h1, fun h => absurd h (Nat.not_lt.2 h2), fun _ => h5⟩

/-- C8 at requested 400 with the candidates 350 and 450: both lie below the
divider 500 at distance 50 and the larger one, 450, is returned. -/
theorem narrowByWeight_closest_on_side_witness :
    narrowByWeight insertionStdSort
        [mkFont 0 350 FontStyle.Normal, mkFont 1 450 FontStyle.Normal]
        (mkRequest 400 FontStyle.Normal) = some (mkFont 1 450 FontStyle.Normal) ∧
    (mkFont 1 450 FontStyle.Normal).weight < divider (mkRequest 400 FontStyle.Normal).weight ∧
    ∀ f ∈ [mkFont 0 350 FontStyle.Normal, mkFont 1 450 FontStyle.Normal],
      f.weight < divider (mkRequest 400 FontStyle.Normal).weight →
        distance (mkRequest 400 FontStyle.Normal).weight (mkFont 1 450 FontStyle.Normal) ≤
          distance (mkRequest 400 FontStyle.Normal).weight f ∧
        (distance (mkRequest 400 FontStyle.Normal).weight f =
          distance (mkRequest 400 FontStyle.Normal).weight (mkFont 1 450 FontStyle.Normal) →
            f.weight ≤ (mkFont 1 450 FontStyle.Normal).weight) :=
  ⟨by decide, by decide,
    (narrowByWeight_closest_on_side insertionStdSort
      [mkFont 0 350 FontStyle.Normal, mkFont 1 450 FontStyle.Normal]
      (mkRequest 400 FontStyle.Normal) (mkFont 1 450 FontStyle.Normal)
      (by decide) (by decide)).2.1 (by decide)⟩

/-- C9 (the code departs from it): requested 400 with the candidates 300 and 500
returns the candidate 300, not 500, and requested 500 with the candidates 300 and
400 returns 300, not 400, under every admissible sort: the divider puts 500 (resp.
400) on the side at or above it, and a candidate below a divider of at most 500
always wins. -/
theorem narrowByWeight_400_500_fallback_skipped (sort : StdSort) :
    (∃ r, narrowByWeight sort [mkFont 0 300 FontStyle.Normal, mkFont 1 500 FontStyle.Normal]
        (mkRequest 400 FontStyle.Normal) = some r ∧ r.weight = 300) ∧
    (∃ r, narrowByWeight sort [mkFont 0 300 FontStyle.Normal, mkFont 1 400 FontStyle.Normal]
        (mkRequest 500 FontStyle.Normal) = some r ∧ r.weight = 300) := by
  constructor
  · obtain ⟨r, hr, hmem, hlt⟩ := narrowByWeight_below sort
      [mkFont 0 300 FontStyle.Normal, mkFont 1 500 FontStyle.Normal]
      (mkRequest 400 FontStyle.Normal) (by decide) (by decide) (by decide)
    refine ⟨r, hr, ?_⟩
    simp only [List.mem_cons, List.mem_singleton, List.not_mem_nil, or_false] at hmem
    rcases hmem with h | h
    · subst h; rfl
    · subst h; exact absurd hlt (by decide)
  · obtain ⟨r, hr, hmem, hlt⟩ := narrowByWeight_below sort
      [mkFont 0 300 FontStyle.Normal, mkFont 1 400 FontStyle.Normal]
      (mkRequest 500 FontStyle.Normal) (by decide) (by decide) (by decide)
    refine ⟨r, hr, ?_⟩
    simp only [List.mem_cons, List.mem_singleton, List.not_mem_nil, or_false] at hmem
    rcases hmem with h | h
    · subst h; rfl
    · subst h; exact absurd hlt (by decide)

/-- C10 (the code departs from it): the candidates Normal 400, Oblique 700,
Normal 400 with an Italic request of weight 400 have both Normal and Oblique and no
Italic; `narrowByStyle` leaves the last Normal descriptor next to the Oblique one,
and `narrowByWeight` then returns that Normal descriptor, an exact weight match,
under every admissible sort. -/
theorem italic_request_selects_normal (sort : StdSort) :
    narrowByStyle [mkFont 0 400 FontStyle.Normal, mkFont 1 700 FontStyle.Oblique,
        mkFont 2 400 FontStyle.Normal] (mkRequest 400 FontStyle.Italic) =
      [mkFont 2 400 FontStyle.Normal, mkFont 1 700 FontStyle.Oblique] ∧
    narrowByWeight sort
        (narrowByStyle [mkFont 0 400 FontStyle.Normal, mkFont 1 700 FontStyle.Oblique,
          mkFont 2 400 FontStyle.Normal] (mkRequest 400 FontStyle.Italic))
        (mkRequest 400 FontStyle.Italic) = some (mkFont 2 400 FontStyle.Normal) := by
  have hstyle : narrowByStyle [mkFont 0 400 FontStyle.Normal, mkFont 1 700 FontStyle.Oblique,
        mkFont 2 400 FontStyle.Normal] (mkRequest 400 FontStyle.Italic) =
      [mkFont 2 400 FontStyle.Normal, mkFont 1 700 FontStyle.Oblique] := by decide
  refine ⟨hstyle, ?_⟩
  rw [hstyle]
  obtain ⟨r, hr, hmem, hw⟩ := narrowByWeight_exact sort
    [mkFont 2 400 FontStyle.Normal, mkFont 1 700 FontStyle.Oblique]
    (mkRequest 400 FontStyle.Italic) ⟨mkFont 2 400 FontStyle.Normal, by decide, by decide⟩
  rw [hr]
  simp only [List.mem_cons, List.mem_singleton, List.not_mem_nil, or_false] at hmem
  rcases hmem with h | h
  · rw [h]
  · subst h; exact absurd hw (by decide)

/-! ## compareFamilyNames -/

theorem skipLeading_eq (str : List Nat) : ∀ (fuel start : Nat), start ≤ str.length →
    str.length - start ≤ fuel →
    skipLeading str str.length fuel start =
      start + ((str.drop start).takeWhile isspace).length := by
  intro fuel
  induction fuel with
  | zero =>
    intro start h1 h2
    have : start = str.length := by omega
    subst this
    simp [skipLeading]
  | succ fuel ih =>
    intro start h1 h2
    unfold skipLeading
    by_cases hlt : start < str.length
    · rw [List.drop_eq_getElem_cons hlt, List.getD_eq_getElem _ _ hlt]
      by_cases hsp : isspace str[start] = true
      · simp only [hlt, hsp, decide_True, Bool.and_self, if_true, List.takeWhile_cons_of_pos,
          List.length_cons]
        rw [ih (start + 1) (by omega) (by omega)]
        omega
      · simp [hlt, hsp]
    · have : start = str.length := by omega
      subst this
      simp

theorem skipTrailing_eq (str : List Nat) (start : Nat) : ∀ (fuel e : Nat), start ≤ e →
    e ≤ str.length → e - start ≤ fuel →
    skipTrailing str start fuel e =
      start + (((str.take e).drop start).rdropWhile isspace).length := by
  intro fuel
  induction fuel with
  | zero =>
    intro e h1 h2 h3
    have : e = start := by omega
    subst this
    have hnil : List.drop e (List.take e str) = [] := by
      apply List.drop_eq_nil_of_le
      simp
    simp [skipTrailing, hnil, List.rdropWhile]
  | succ fuel ih =>
    intro e h1 h2 h3
    unfold skipTrailing
    by_cases hlt : e > start
    · obtain ⟨k, rfl⟩ : ∃ k, e = k + 1 := ⟨e - 1, by omega⟩
      have hk : k < str.length := by omega
      have htake : (str.take (k + 1)).drop start = (str.take k).drop start ++ [str[k]] := by
        rw [List.take_succ, List.getElem?_eq_getElem hk]
        simp only [Option.toList]
        rw [List.drop_append_of_le_length (by simp; omega)]
      rw [htake]
      simp only [Nat.add_sub_cancel, List.getD_eq_getElem _ _ hk]
      by_cases hsp : isspace str[k] = true
      · simp only [hlt, hsp, decide_True, Bool.and_self, if_true]
        rw [List.rdropWhile_concat_pos _ _ _ hsp]
        exact ih k (by omega) (by omega) (by omega)
      · simp only [hsp, Bool.and_false, if_false]
        rw [List.rdropWhile_concat_neg _ _ _ hsp]
        simp
        omega
    · have : e = start := by omega
      subst this
      have hnil : List.drop e (List.take e str) = [] := by
        apply List.drop_eq_nil_of_le
        simp
      simp [hnil, List.rdropWhile]

theorem compareLoop_iff (str1 str2 : List Nat) (start1 start2 n : Nat) :
    ∀ (fuel i : Nat), n - i ≤ fuel →
    (compareLoop str1 str2 start1 start2 n fuel i = true ↔
      ∀ j, i ≤ j → j < n →
        tolower (str1.getD (start1 + j) 0) = tolower (str2.getD (start2 + j) 0)) := by
  intro fuel
  induction fuel with
  | zero =>
    intro i h
    simp only [compareLoop, true_iff]
    intro j h1 h2
    omega
  | succ fuel ih =>
    intro i h
    unfold compareLoop
    by_cases hlt : i < n
    · rw [if_pos hlt]
      by_cases hne : tolower (str1.getD (start1 + i) 0) = tolower (str2.getD (start2 + i) 0)
      · have hb : (tolower (str1.getD (start1 + i) 0) != tolower (str2.getD (start2 + i) 0))
            = false := Bool.eq_false_iff.2 (fun hc => (bne_iff_ne.1 hc) hne)
        rw [hb]
        simp only [Bool.false_eq_true, if_false]
        rw [ih (i + 1) (by omega)]
        constructor
        · intro hall j h1 h2
          by_cases hji : j = i
          · subst hji; exact hne
          · exact hall j (by omega) h2
        · intro hall j h1 h2
          exact hall j (by omega) h2
      · have hb : (tolower (str1.getD (start1 + i) 0) != tolower (str2.getD (start2 + i) 0))
            = true := bne_iff_ne.2 hne
        rw [hb]
        simp only [if_true, Bool.false_eq_true, false_iff]
        intro hall
        exact hne (hall i (le_refl _) hlt)
    · rw [if_neg hlt]
      simp only [true_iff]
      intro j h1 h2
      omega

/-- The part of `str` between the two indices `compareFamilyNames` computes is the
trimmed string. -/
theorem trim_bounds (str : List Nat) :
    skipTrailing str (skipLeading str str.length str.length 0) str.length str.length -
        skipLeading str str.length str.length 0 = (trimSpec str).length ∧
    ∀ j, j < (trimSpec str).length →
      str.getD (skipLeading str str.length str.length 0 + j) 0 = (trimSpec str).getD j 0 := by
  have hs := skipLeading_eq str str.length 0 (Nat.zero_le _) (by omega)
  simp only [List.drop_zero, Nat.zero_add] at hs
  have hle : (str.takeWhile isspace).length ≤ str.length := by
    have := congrArg List.length (List.takeWhile_append_dropWhile isspace str)
    simp only [List.length_append] at this
    omega
  have hdrop : str.drop (str.takeWhile isspace).length = str.dropWhile isspace := by
    have h := List.drop_left (str.takeWhile isspace) (str.dropWhile isspace)
    rw [List.takeWhile_append_dropWhile] at h
    exact h
  have he := skipTrailing_eq str (str.takeWhile isspace).length str.length str.length hle
    (le_refl _) (by omega)
  rw [List.take_length, hdrop] at he
  rw [hs, he]
  refine ⟨by simp [trimSpec], ?_⟩
  intro j hj
  have hpre : trimSpec str <+: str.drop (str.takeWhile isspace).length := by
    rw [hdrop]
    exact List.rdropWhile_prefix _ _
  have hj2 : j < (str.drop (str.takeWhile isspace).length).length :=
    Nat.lt_of_lt_of_le hj hpre.length_le
  have hj3 : (str.takeWhile isspace).length + j < str.length := by
    simp only [List.length_drop] at hj2
    omega
  rw [List.getD_eq_getElem _ _ hj3, List.getD_eq_getElem _ _ hj, hpre.getElem hj]
  simp

/-- The index loops of `compareFamilyNames` compute the comparison of the
trimmed, lower-cased strings. -/
theorem compareFamilyNames_eq_true_iff (a b : List Nat) :
    compareFamilyNames a b = true ↔ compareFamilyNamesSpec a b := by
  obtain ⟨ha1, ha2⟩ := trim_bounds a
  obtain ⟨hb1, hb2⟩ := trim_bounds b
  unfold compareFamilyNames compareFamilyNamesSpec
  simp only []
  rw [ha1, hb1]
  by_cases hlen : (trimSpec a).length = (trimSpec b).length
  · have hb : ((trimSpec a).length != (trimSpec b).length) = false := by simp [hlen]
    rw [hb]
    simp only [Bool.false_eq_true, if_false]
    rw [compareLoop_iff _ _ _ _ _ _ _ (by omega)]
    constructor
    · intro hall
      refine ⟨hlen, ?_⟩
      apply List.ext_getElem (by simp [hlen])
      intro j h1 h2
      simp only [List.length_map] at h1 h2
      have := hall j (Nat.zero_le _) h1
      rw [ha2 j h1, hb2 j h2, List.getD_eq_getElem _ _ h1, List.getD_eq_getElem _ _ h2] at this
      simpa using this
    · rintro ⟨_, hmap⟩ j _ hj
      have hj2 : j < (trimSpec b).length := by omega
      rw [ha2 j hj, hb2 j hj2, List.getD_eq_getElem _ _ hj, List.getD_eq_getElem _ _ hj2]
      have h1 := congrArg (fun l => l[j]?) hmap
      simp only [List.getElem?_map, List.getElem?_eq_getElem hj, List.getElem?_eq_getElem hj2,
        Option.map_some'] at h1
      exact Option.some.inj h1
  · have hb : ((trimSpec a).length != (trimSpec b).length) = true := by simp [hlen]
    rw [hb]
    simp only [if_true, Bool.false_eq_true, false_iff]
    rintro ⟨h, _⟩
    exact hlen h

/-- C5: `compareFamilyNames a b` is true exactly when `a` and `b`, each stripped of
its leading and trailing whitespace bytes only, have the same length and are equal
byte for byte after ASCII lower-casing; `"  Arial "` matches `"arial"`, and
`"Ari al"`, whose whitespace is inside, does not match `"Arial"`. -/
theorem compareFamilyNames_iff_spec :
    (∀ a b : List Nat, compareFamilyNames a b = true ↔ compareFamilyNamesSpec a b) ∧
    compareFamilyNames (bytes "  Arial ") (bytes "arial") = true ∧
    compareFamilyNames (bytes "Ari al") (bytes "Arial") = false := by
  refine ⟨?_, by decide, by decide⟩
  intro a b
  exact compareFamilyNames_eq_true_iff a b

/-! ## bidi_iterator_next -/

theorem bidiInner_spec (levels : List Nat) (level n : Nat) :
    ∀ (fuel offset o : Nat) (sb : Bool), offset ≤ n → n - offset ≤ fuel →
    bidiInner levels level n fuel offset = some (o, sb) →
    offset ≤ o ∧ o ≤ n ∧ (sb = false → o = n) ∧
      (sb = true → o < n ∧ ∃ l, levels[o]? = some l ∧ l ≠ level) := by
  intro fuel
  induction fuel with
  | zero =>
    intro offset o sb h1 h2 h
    simp only [bidiInner, Option.some.injEq, Prod.mk.injEq] at h
    obtain ⟨rfl, rfl⟩ := h
    exact ⟨le_refl _, h1, fun _ => by omega, fun hc => by simp at hc⟩
  | succ fuel ih =>
    intro offset o sb h1 h2 h
    unfold bidiInner at h
    by_cases hlt : offset < n
    · rw [if_pos hlt] at h
      cases hl : levels[offset]? with
      | none => rw [hl] at h; simp at h
      | some l =>
        rw [hl] at h
        simp only at h
        by_cases hne : l = level
        · have hb : (l != level) = false := Bool.eq_false_iff.2 (fun hc => (bne_iff_ne.1 hc) hne)
          rw [hb] at h
          simp only [Bool.false_eq_true, if_false] at h
          obtain ⟨a1, a2, a3, a4⟩ := ih (offset + 1) o sb (by omega) (by omega) h
          exact ⟨by omega, a2, a3, a4⟩
        · have hb : (l != level) = true := bne_iff_ne.2 hne
          rw [hb] at h
          simp only [if_true, Option.some.injEq, Prod.mk.injEq] at h
          obtain ⟨rfl, rfl⟩ := h
          exact ⟨le_refl _, by omega, fun hc => by simp at hc, fun _ => ⟨hlt, l, hl, hne⟩⟩
    · rw [if_neg hlt] at h
      simp only [Option.some.injEq, Prod.mk.injEq] at h
      obtain ⟨rfl, rfl⟩ := h
      exact ⟨le_refl _, h1, fun _ => by omega, fun hc => by simp at hc⟩

theorem bidiInner_first (levels : List Nat) (level n fuel offset : Nat) (hlt : offset < n)
    (hl : levels[offset]? = some level) :
    bidiInner levels level n (fuel + 1) offset = bidiInner levels level n fuel (offset + 1) := by
  rw [bidiInner, if_pos hlt, hl]
  simp

theorem bidiInner_isSome (levels : List Nat) (level n : Nat) (hlen : n ≤ levels.length) :
    ∀ (fuel offset : Nat), ∃ r, bidiInner levels level n fuel offset = some r := by
  intro fuel
  induction fuel with
  | zero => intro offset; exact ⟨_, rfl⟩
  | succ fuel ih =>
    intro offset
    unfold bidiInner
    by_cases hlt : offset < n
    · rw [if_pos hlt, List.getElem?_eq_getElem (by omega)]
      simp only
      split
      · exact ⟨_, rfl⟩
      · exact ih (offset + 1)
    · rw [if_neg hlt]; exact ⟨_, rfl⟩

theorem bidiOuter_eq (levels : List Nat) (level n offset : Nat) (hlt : offset < n) :
    bidiOuter levels level n (n - offset) offset false =
      (bidiInner levels level n (n - offset) offset).map Prod.fst := by
  obtain ⟨k, hk⟩ : ∃ k, n - offset = k + 1 := ⟨n - offset - 1, by omega⟩
  rw [hk, bidiOuter]
  simp only [hlt, decide_True, Bool.not_false, Bool.and_self, if_true]
  rw [← hk]
  cases hin : bidiInner levels level n (n - offset) offset with
  | none => rfl
  | some r =>
    obtain ⟨o, sb⟩ := r
    obtain ⟨_, _, h3, h4⟩ := bidiInner_spec levels level n (n - offset) offset o sb (by omega)
      (le_refl _) hin
    simp only [Option.map_some']
    cases k with
    | zero => rfl
    | succ k =>
      rw [bidiOuter]
      cases sb with
      | false =>
        have := h3 rfl
        simp [this]
      | true => simp

theorem bidi_next_spec (b b1 : BidiIteratorState) (text_buffer : List Nat)
    (hd : b.done = false) (hlt : b.offset < text_buffer.length)
    (h : bidi_iterator_next b text_buffer = some b1) :
    b.offset < b1.offset ∧ b1.levels = b.levels ∧ b.levels[b.offset]? = some b1.level ∧
      BidiOk text_buffer.length b1 := by
  unfold bidi_iterator_next at h
  rw [hd] at h
  simp only [Bool.false_eq_true, if_false] at h
  cases hl : b.levels[b.offset]? with
  | none => rw [hl] at h; simp at h
  | some level =>
    rw [hl] at h
    simp only at h
    rw [bidiOuter_eq _ _ _ _ hlt] at h
    obtain ⟨k, hk⟩ : ∃ k, text_buffer.length - b.offset = k + 1 :=
      ⟨text_buffer.length - b.offset - 1, by omega⟩
    rw [hk, bidiInner_first _ _ _ _ _ hlt hl] at h
    cases hin : bidiInner b.levels level text_buffer.length k (b.offset + 1) with
    | none => rw [hin] at h; simp at h
    | some r =>
      obtain ⟨o, sb⟩ := r
      rw [hin] at h
      simp only [Option.map_some', Option.some.injEq] at h
      obtain ⟨a1, a2, a3, a4⟩ := bidiInner_spec b.levels level text_buffer.length k
        (b.offset + 1) o sb (by omega) (by omega) hin
      subst h
      refine ⟨by simp only; omega, rfl, rfl, ?_⟩
      by_cases ho : o = text_buffer.length
      · left
        simp [ho]
      · right
        have hsb : sb = true := by
          cases sb with
          | false => exact absurd (a3 rfl) ho
          | true => rfl
        obtain ⟨b1, l, b2, b3⟩ := a4 hsb
        refine ⟨by simp [ho, hd], b1, l, b2, b3⟩

theorem bidi_next_isSome (b : BidiIteratorState) (text_buffer : List Nat)
    (hlen : text_buffer.length ≤ b.levels.length)
    (hlt : b.offset < text_buffer.length ∨ b.done = true) :
    ∃ b1, bidi_iterator_next b text_buffer = some b1 := by
  unfold bidi_iterator_next
  by_cases hd : b.done = true
  · rw [if_pos hd]; exact ⟨_, rfl⟩
  · rw [if_neg hd]
    have hlt2 : b.offset < text_buffer.length := by
      rcases hlt with h | h
      · exact h
      · exact absurd h hd
    rw [List.getElem?_eq_getElem (by omega)]
    simp only
    rw [bidiOuter_eq _ _ _ _ hlt2]
    obtain ⟨r, hr⟩ := bidiInner_isSome b.levels b.levels[b.offset] text_buffer.length hlen
      (text_buffer.length - b.offset) b.offset
    rw [hr]
    exact ⟨_, rfl⟩

theorem bidi_next_at_end (b b1 : BidiIteratorState) (text_buffer : List Nat)
    (hd : b.done = false) (hn : b.offset = text_buffer.length)
    (h : bidi_iterator_next b text_buffer = some b1) :
    b1.done = true ∧ b1.offset = b.offset ∧ b1.levels = b.levels := by
  unfold bidi_iterator_next at h
  rw [hd] at h
  simp only [Bool.false_eq_true, if_false] at h
  cases hl : b.levels[b.offset]? with
  | none => rw [hl] at h; simp at h
  | some level =>
    rw [hl] at h
    simp only [hn, Nat.sub_self, bidiOuter, Option.some.injEq] at h
    subst h
    simp [hn]

/-! ## script_iterator_next -/

theorem decode_jump (text_buffer : List Nat) (offset : Nat) :
    (decode text_buffer offset).2 = 1 ∨
      ((decode text_buffer offset).2 = 2 ∧ offset + 1 < text_buffer.length) := by
  unfold decode
  simp only []
  split_ifs with h1 h2
  · right; exact ⟨rfl, h1⟩
  · left; rfl
  · left; rfl

theorem isReal_common (u : UnicodeData) : isReal u u.SCRIPT_COMMON = false := by
  simp [isReal]

theorem scriptStep_done (u : UnicodeData) (text_buffer : List Nat) (st : ScriptIteratorState) :
    (scriptStep u text_buffer st).1.done = st.done := by
  unfold scriptStep
  simp only []
  split_ifs <;> rfl

theorem scriptStep_continue (u : UnicodeData) (text_buffer : List Nat)
    (st : ScriptIteratorState) (h : (scriptStep u text_buffer st).2 = false) :
    (scriptStep u text_buffer st).1.offset = st.offset + (decode text_buffer st.offset).2 := by
  unfold scriptStep at h ⊢
  simp only [] at h ⊢
  split_ifs at h ⊢ <;> rfl

theorem scriptStep_real (u : UnicodeData) (text_buffer : List Nat) (st : ScriptIteratorState)
    (h : isReal u st.script = true) : (scriptStep u text_buffer st).1.script = st.script := by
  unfold scriptStep
  simp only [h]
  split_ifs <;> first | rfl | simp_all

theorem scriptStep_unreal (u : UnicodeData) (text_buffer : List Nat) (st : ScriptIteratorState)
    (h : isReal u st.script = false) :
    (scriptStep u text_buffer st).2 = false ∧
      (isReal u (classify u text_buffer st).script = true →
        (scriptStep u text_buffer st).1.script = (classify u text_buffer st).script) := by
  unfold scriptStep
  simp only [h]
  constructor
  · split_ifs <;> first | rfl | simp_all
  · intro hr
    simp only [hr]
    split_ifs <;> first | rfl | simp_all

theorem scriptStep_break (u : UnicodeData) (text_buffer : List Nat) (st : ScriptIteratorState)
    (h : (scriptStep u text_buffer st).2 = true) :
    (scriptStep u text_buffer st).1 =
        { st with parens := (classify u text_buffer st).parens
                  start_paren := (((classify u text_buffer st).parens.length : Int) - 1) } ∧
      isReal u st.script = true ∧ isReal u (classify u text_buffer st).script = true ∧
      (classify u text_buffer st).script ≠ st.script := by
  unfold scriptStep at h ⊢
  simp only [] at h ⊢
  split_ifs at h ⊢ with h1
  refine ⟨rfl, ?_⟩
  simp only [Bool.or_eq_true, Bool.not_eq_true', beq_iff_eq, not_or, Bool.not_eq_false] at h1
  exact ⟨h1.1.1, h1.1.2, h1.2⟩

theorem pairedChar_parens (st : ScriptIteratorState) (s0 : Nat) (pi : Int) :
    (pairedChar st s0 pi).parens =
      if pi ≥ 0 then
        if pi % 2 == 0 then st.parens ++ [{ index := pi, script := st.script }]
        else if !st.parens.isEmpty then
          st.parens.rdropWhile (fun frame => frame.index != pi - pi % 2)
        else st.parens
      else st.parens := by
  unfold pairedChar
  split_ifs <;> rfl

theorem pairedChar_script (st : ScriptIteratorState) (s0 : Nat) (pi : Int) :
    (pairedChar st s0 pi).script =
      if pi ≥ 0 then
        if pi % 2 == 0 then s0
        else if !st.parens.isEmpty then
          match (st.parens.rdropWhile (fun frame => frame.index != pi - pi % 2)).getLast? with
          | some top => top.script
          | none => s0
        else s0
      else s0 := by
  unfold pairedChar
  split_ifs <;> rfl

/-- Classifying the same code point again on the stack the paired-character block
left behind gives the same script: the pop loop has nothing more to pop. -/
theorem pairedChar_restart (st : ScriptIteratorState) (s0 : Nat) (pi : Int) (sc : Nat)
    (sp : Int) :
    (pairedChar { st with script := sc, parens := (pairedChar st s0 pi).parens,
                          start_paren := sp } s0 pi).script =
      (pairedChar st s0 pi).script := by
  rw [pairedChar_script, pairedChar_script, pairedChar_parens]
  simp only []
  split_ifs with h0 h1 h2 h3
  · rfl
  · rw [List.rdropWhile_idempotent]
  · have hnil : List.rdropWhile (fun frame : ParenInfo => frame.index != pi - pi % 2)
        st.parens = [] := by
      simpa using h3
    rw [hnil]
    rfl
  · rfl
  · rfl

theorem classify_restart (u : UnicodeData) (text_buffer : List Nat) (st : ScriptIteratorState)
    (sc : Nat) (sp : Int) :
    (classify u text_buffer
        { st with script := sc, parens := (classify u text_buffer st).parens,
                  start_paren := sp }).script =
      (classify u text_buffer st).script := by
  unfold classify
  exact pairedChar_restart st _ _ sc sp

theorem scriptLoop_real (u : UnicodeData) (text_buffer : List Nat) :
    ∀ (fuel : Nat) (st : ScriptIteratorState), isReal u st.script = true →
    (scriptLoop u text_buffer fuel st).script = st.script := by
  intro fuel
  induction fuel with
  | zero => intro st _; rfl
  | succ fuel ih =>
    intro st h
    unfold scriptLoop
    split_ifs with hlt
    · have hs := scriptStep_real u text_buffer st h
      cases hstep : scriptStep u text_buffer st with
      | mk st1 brk =>
        rw [hstep] at hs
        simp only at hs
        cases brk with
        | true => exact hs
        | false =>
          simp only
          rw [ih st1 (by rw [hs]; exact h), hs]
    · rfl

theorem scriptLoop_spec (u : UnicodeData) (text_buffer : List Nat) :
    ∀ (fuel : Nat) (st : ScriptIteratorState), st.offset ≤ text_buffer.length →
    text_buffer.length - st.offset ≤ fuel →
    st.offset ≤ (scriptLoop u text_buffer fuel st).offset ∧
      (scriptLoop u text_buffer fuel st).offset ≤ text_buffer.length ∧
      (scriptLoop u text_buffer fuel st).done = st.done ∧
      ((scriptLoop u text_buffer fuel st).offset = text_buffer.length ∨
        ((scriptLoop u text_buffer fuel st).offset < text_buffer.length ∧
          Broken u text_buffer (scriptLoop u text_buffer fuel st))) := by
  intro fuel
  induction fuel with
  | zero =>
    intro st h1 h2
    have h0 : scriptLoop u text_buffer 0 st = st := rfl
    rw [h0]
    exact ⟨le_refl _, h1, rfl, Or.inl (by omega)⟩
  | succ fuel ih =>
    intro st h1 h2
    unfold scriptLoop
    split_ifs with hlt
    · have hdone := scriptStep_done u text_buffer st
      cases hstep : scriptStep u text_buffer st with
      | mk st1 brk =>
        rw [hstep] at hdone
        simp only at hdone
        cases brk with
        | true =>
          simp only
          obtain ⟨b1, b2, b3, b4⟩ := scriptStep_break u text_buffer st (by rw [hstep])
          rw [hstep] at b1
          simp only at b1
          subst b1
          refine ⟨le_refl _, h1, rfl, Or.inr ⟨hlt, b2, ?_⟩⟩
          intro sc
          have := classify_restart u text_buffer st sc
            (((classify u text_buffer st).parens.length : Int) - 1)
          simp only at this ⊢
          rw [this]
          exact ⟨b3, b4⟩
        | false =>
          simp only
          have hoff := scriptStep_continue u text_buffer st (by rw [hstep])
          rw [hstep] at hoff
          simp only at hoff
          have hj := decode_jump text_buffer st.offset
          obtain ⟨a1, a2, a3, a4⟩ := ih st1 (by omega) (by omega)
          exact ⟨by omega, a2, by rw [a3, hdone], a4⟩
    · exact ⟨le_refl _, h1, rfl, Or.inl (by omega)⟩

/-- One call of `script_iterator_next` on an iterator that stands inside the text:
it moves forward, stays inside the text, is done exactly at the end of the text and
otherwise was left by `break`; and when the first code point classifies to a real
script, that script is the one reported. -/
theorem script_next_run (u : UnicodeData) (text_buffer : List Nat) (s : ScriptIteratorState)
    (hd : s.done = false) (hlt : s.offset < text_buffer.length) :
    s.offset < (script_iterator_next u s text_buffer).offset ∧
      (((script_iterator_next u s text_buffer).done = true ∧
          (script_iterator_next u s text_buffer).offset = text_buffer.length) ∨
        ((script_iterator_next u s text_buffer).done = false ∧
          (script_iterator_next u s text_buffer).offset < text_buffer.length ∧
          Broken u text_buffer (script_iterator_next u s text_buffer))) ∧
      (isReal u (classify u text_buffer { s with script := u.SCRIPT_COMMON }).script = true →
        (script_iterator_next u s text_buffer).script =
          (classify u text_buffer { s with script := u.SCRIPT_COMMON }).script) := by
  obtain ⟨k, hk⟩ : ∃ k, text_buffer.length - s.offset = k + 1 :=
    ⟨text_buffer.length - s.offset - 1, by omega⟩
  have hu := scriptStep_unreal u text_buffer { s with script := u.SCRIPT_COMMON }
    (isReal_common u)
  have hdone := scriptStep_done u text_buffer { s with script := u.SCRIPT_COMMON }
  have hj := decode_jump text_buffer s.offset
  have hloop : scriptLoop u text_buffer (k + 1) { s with script := u.SCRIPT_COMMON } =
      scriptLoop u text_buffer k
        (scriptStep u text_buffer { s with script := u.SCRIPT_COMMON }).1 := by
    rw [scriptLoop]
    simp only [hlt, if_true]
    cases hstep : scriptStep u text_buffer { s with script := u.SCRIPT_COMMON } with
    | mk st1 brk =>
      rw [hstep] at hu
      simp only at hu
      rw [hu.1]
  have hoff := scriptStep_continue u text_buffer { s with script := u.SCRIPT_COMMON } hu.1
  simp only at hoff hdone
  obtain ⟨a1, a2, a3, a4⟩ := scriptLoop_spec u text_buffer k
    (scriptStep u text_buffer { s with script := u.SCRIPT_COMMON }).1 (by omega) (by omega)
  have hnext : script_iterator_next u s text_buffer =
      if (scriptLoop u text_buffer k
          (scriptStep u text_buffer { s with script := u.SCRIPT_COMMON }).1).offset ≥
          text_buffer.length then
        { scriptLoop u text_buffer k
            (scriptStep u text_buffer { s with script := u.SCRIPT_COMMON }).1 with done := true }
      else scriptLoop u text_buffer k
        (scriptStep u text_buffer { s with script := u.SCRIPT_COMMON }).1 := by
    unfold script_iterator_next
    rw [if_neg (by rw [hd]; exact Bool.false_ne_true)]
    simp only []
    rw [hk, hloop]
  rw [hnext]
  have hscript : isReal u (classify u text_buffer { s with script := u.SCRIPT_COMMON }).script
      = true →
      (scriptLoop u text_buffer k
        (scriptStep u text_buffer { s with script := u.SCRIPT_COMMON }).1).script =
      (classify u text_buffer { s with script := u.SCRIPT_COMMON }).script := by
    intro hr
    have h1 := hu.2 hr
    rw [scriptLoop_real u text_buffer k _ (by rw [h1]; exact hr), h1]
  split_ifs with hge
  · refine ⟨by simp only; omega, Or.inl ⟨rfl, by simp only; omega⟩, ?_⟩
    intro hr
    exact hscript hr
  · refine ⟨by omega, Or.inr ⟨by rw [a3, hdone, hd], by omega, ?_⟩, hscript⟩
    rcases a4 with h | h
    · omega
    · exact h.2

theorem script_next_spec (u : UnicodeData) (text_buffer : List Nat) (s : ScriptIteratorState)
    (hd : s.done = false) (hlt : s.offset < text_buffer.length) :
    s.offset < (script_iterator_next u s text_buffer).offset ∧
      ScriptOk u text_buffer (script_iterator_next u s text_buffer) := by
  obtain ⟨h1, h2, _⟩ := script_next_run u text_buffer s hd hlt
  refine ⟨h1, ?_⟩
  rcases h2 with h | ⟨hd2, hlt2, hbr⟩
  · exact Or.inl h
  · refine Or.inr ⟨hd2, hlt2, ?_⟩
    obtain ⟨_, _, h3⟩ := script_next_run u text_buffer _ hd2 hlt2
    obtain ⟨b1, b2⟩ := hbr.2 u.SCRIPT_COMMON
    rw [h3 b1]
    exact b2

theorem script_next_at_end (u : UnicodeData) (text_buffer : List Nat) (s : ScriptIteratorState)
    (hd : s.done = false) (hn : s.offset = text_buffer.length) :
    (script_iterator_next u s text_buffer).done = true ∧
      (script_iterator_next u s text_buffer).offset = s.offset := by
  unfold script_iterator_next
  rw [if_neg (by rw [hd]; exact Bool.false_ne_true)]
  have hz : text_buffer.length - s.offset = 0 := by omega
  simp only [hz, scriptLoop]
  rw [if_pos (by omega)]
  exact ⟨rfl, rfl⟩

theorem script_next_done (u : UnicodeData) (text_buffer : List Nat) (s : ScriptIteratorState)
    (hd : s.done = true) : script_iterator_next u s text_buffer = s := by
  unfold script_iterator_next
  rw [hd]
  simp

theorem bidi_next_done (text_buffer : List Nat) (b : BidiIteratorState)
    (hd : b.done = true) : bidi_iterator_next b text_buffer = some b := by
  unfold bidi_iterator_next
  rw [hd]
  simp

/-! ## itemize_next -/

theorem bidiOk_le (n : Nat) (b : BidiIteratorState) (h : BidiOk n b) :
    b.offset ≤ n ∧ (b.done = true ↔ b.offset = n) := by
  rcases h with ⟨h1, h2⟩ | ⟨h1, h2, _⟩
  · exact ⟨by omega, fun _ => h2, fun _ => h1⟩
  · refine ⟨by omega, fun h => ?_, fun h => by omega⟩
    rw [h1] at h
    exact absurd h Bool.false_ne_true

theorem scriptOk_le (u : UnicodeData) (text_buffer : List Nat) (s : ScriptIteratorState)
    (h : ScriptOk u text_buffer s) :
    s.offset ≤ text_buffer.length ∧ (s.done = true ↔ s.offset = text_buffer.length) := by
  rcases h with ⟨h1, h2⟩ | ⟨h1, h2, _⟩
  · exact ⟨by omega, fun _ => h2, fun _ => h1⟩
  · refine ⟨by omega, fun h => ?_, fun h => by omega⟩
    rw [h1] at h
    exact absurd h Bool.false_ne_true

/-- The state `itemize_next` assembles from two advanced sub-iterators. -/
theorem itemize_assemble (u : UnicodeData) (levels text_buffer : List Nat)
    (b1 : BidiIteratorState) (s1 : ScriptIteratorState) (d : Bool) (hd : d = false)
    (hb : BidiOk text_buffer.length b1) (hs : ScriptOk u text_buffer s1)
    (hlev : b1.levels = levels) :
    ItemizeOk u levels text_buffer
        { offset := min (min b1.offset s1.offset) text_buffer.length
          done := if b1.done && s1.done then true else d
          bidi_state := b1
          script_state := s1 } ∧
      min (min b1.offset s1.offset) text_buffer.length = min b1.offset s1.offset ∧
      ((if b1.done && s1.done then true else d) = true ↔
        min b1.offset s1.offset = text_buffer.length) := by
  obtain ⟨hb1, hb2⟩ := bidiOk_le _ _ hb
  obtain ⟨hs1, hs2⟩ := scriptOk_le _ _ _ hs
  subst hd
  have hmin : min (min b1.offset s1.offset) text_buffer.length = min b1.offset s1.offset := by
    omega
  have hdone : (if (b1.done && s1.done) = true then true else false) = (b1.done && s1.done) := by
    cases b1.done <;> cases s1.done <;> rfl
  refine ⟨⟨hb, hs, hmin, hdone, hlev⟩, hmin, ?_⟩
  rw [hdone]
  simp only [Bool.and_eq_true]
  constructor
  · rintro ⟨h1, h2⟩
    have := hb2.1 h1
    have := hs2.1 h2
    omega
  · intro h
    exact ⟨hb2.2 (by omega), hs2.2 (by omega)⟩

theorem itemize_next_ok (u : UnicodeData) (levels text_buffer : List Nat)
    (st st1 : ItemizeState) (h : ItemizeOk u levels text_buffer st) (hd : st.done = false)
    (hn : itemize_next u st text_buffer = some st1) :
    ItemizeOk u levels text_buffer st1 ∧ st.offset < st1.offset ∧
      st1.offset ≤ text_buffer.length ∧
      (st1.done = true ↔ st1.offset = text_buffer.length) ∧
      ¬ (st1.script_state.script = st.script_state.script ∧
          st1.bidi_state.level = st.bidi_state.level) := by
  obtain ⟨hb, hs, hoff, hdone, hlev⟩ := h
  obtain ⟨hb1, hb2⟩ := bidiOk_le _ _ hb
  obtain ⟨hs1, hs2⟩ := scriptOk_le _ _ _ hs
  have hnd : ¬ (st.bidi_state.done = true ∧ st.script_state.done = true) := by
    rintro ⟨h1, h2⟩
    rw [hd, h1, h2] at hdone
    exact absurd hdone (by decide)
  have hmin_lt : st.offset < text_buffer.length := by
    by_contra hc
    apply hnd
    exact ⟨hb2.2 (by omega), hs2.2 (by omega)⟩
  -- the bidi iterator after the call
  have hbidi : ∃ b1, (if st.bidi_state.offset == st.offset then
        bidi_iterator_next st.bidi_state text_buffer else some st.bidi_state) = some b1 ∧
      BidiOk text_buffer.length b1 ∧ b1.levels = levels ∧ st.offset < b1.offset ∧
      (st.bidi_state.offset ≠ st.offset → b1 = st.bidi_state) ∧
      (st.bidi_state.offset = st.offset → b1.level ≠ st.bidi_state.level) := by
    unfold itemize_next at hn
    rw [if_neg (by rw [hd]; exact Bool.false_ne_true)] at hn
    by_cases hbo : st.bidi_state.offset = st.offset
    · have hbeq : (st.bidi_state.offset == st.offset) = true := by simpa using hbo
      rw [hbeq] at hn ⊢
      simp only [if_true] at hn ⊢
      cases hbn : bidi_iterator_next st.bidi_state text_buffer with
      | none => rw [hbn] at hn; simp at hn
      | some b1 =>
        rcases hb with ⟨_, h2⟩ | ⟨h1, h2, l, hl, hne⟩
        · omega
        · obtain ⟨c1, c2, c3, c4⟩ := bidi_next_spec st.bidi_state b1 text_buffer h1 h2 hbn
          refine ⟨b1, rfl, c4, by rw [c2, hlev], by omega, fun hc => absurd hbo hc, ?_⟩
          intro _ heq
          rw [hl] at c3
          simp only [Option.some.injEq] at c3
          exact hne (by rw [c3, heq])
    · have hbeq : (st.bidi_state.offset == st.offset) = false := by simpa using hbo
      rw [hbeq]
      simp only [Bool.false_eq_true, if_false]
      exact ⟨st.bidi_state, rfl, hb, hlev, by omega, fun _ => rfl, fun hc => absurd hc hbo⟩
  -- the script iterator after the call
  have hscript : ScriptOk u text_buffer (if st.script_state.offset == st.offset then
        script_iterator_next u st.script_state text_buffer else st.script_state) ∧
      st.offset < (if st.script_state.offset == st.offset then
        script_iterator_next u st.script_state text_buffer else st.script_state).offset ∧
      (st.script_state.offset ≠ st.offset →
        (if st.script_state.offset == st.offset then
          script_iterator_next u st.script_state text_buffer else st.script_state) =
          st.script_state) ∧
      (st.script_state.offset = st.offset →
        (if st.script_state.offset == st.offset then
          script_iterator_next u st.script_state text_buffer else st.script_state).script ≠
          st.script_state.script) := by
    by_cases hso : st.script_state.offset = st.offset
    · have hbeq : (st.script_state.offset == st.offset) = true := by simpa using hso
      rw [hbeq]
      simp only [if_true]
      rcases hs with ⟨_, h2⟩ | ⟨h1, h2, h3⟩
      · omega
      · obtain ⟨c1, c2⟩ := script_next_spec u text_buffer st.script_state h1 h2
        exact ⟨c2, by omega, fun hc => absurd hso hc, fun _ => h3⟩
    · have hbeq : (st.script_state.offset == st.offset) = false := by simpa using hso
      rw [hbeq]
      simp only [Bool.false_eq_true, if_false]
      exact ⟨hs, by omega, fun _ => trivial, fun hc => absurd hc hso⟩
  obtain ⟨b1, e1, e2, e3, e4, e5, e6⟩ := hbidi
  obtain ⟨f1, f2, f3, f4⟩ := hscript
  unfold itemize_next at hn
  rw [if_neg (by rw [hd]; exact Bool.false_ne_true), e1] at hn
  simp only [Option.some.injEq] at hn
  obtain ⟨g1, g2, g3⟩ := itemize_assemble u levels text_buffer b1 _ st.done hd e2 f1 e3
  subst hn
  refine ⟨g1, ?_, ?_, ?_, ?_⟩
  · simp only [g2]; omega
  · simp only; omega
  · simp only [g2]; exact g3
  · simp only
    rintro ⟨k1, k2⟩
    by_cases hbo : st.bidi_state.offset = st.offset
    · exact e6 hbo k2
    · have hso : st.script_state.offset = st.offset := by omega
      exact f4 hso k1

theorem itemize_next_init (u : UnicodeData) (levels text_buffer : List Nat)
    (st1 : ItemizeState)
    (hn : itemize_next u (itemize_init u levels) text_buffer = some st1) :
    ItemizeOk u levels text_buffer st1 ∧ (text_buffer ≠ [] → 0 < st1.offset) ∧
      st1.offset ≤ text_buffer.length ∧
      (st1.done = true ↔ st1.offset = text_buffer.length) := by
  unfold itemize_next at hn
  simp only [itemize_init, Bool.false_eq_true, if_false, beq_self_eq_true, if_true] at hn
  cases hbn : bidi_iterator_next { offset := 0, level := 0, done := false, levels := levels }
      text_buffer with
  | none => rw [hbn] at hn; simp at hn
  | some b1 =>
    rw [hbn] at hn
    simp only [Option.some.injEq] at hn
    have hB : BidiOk text_buffer.length b1 ∧ b1.levels = levels ∧
        (text_buffer ≠ [] → 0 < b1.offset) := by
      by_cases hlen : text_buffer.length = 0
      · obtain ⟨c1, c2, c3⟩ := bidi_next_at_end _ b1 text_buffer rfl (by simp [hlen]) hbn
        refine ⟨Or.inl ⟨c1, ?_⟩, c3, ?_⟩
        · rw [c2]; simp [hlen]
        · intro hne
          exact absurd (List.length_eq_zero.1 hlen) hne
      · obtain ⟨c1, c2, _, c4⟩ := bidi_next_spec _ b1 text_buffer rfl
          (by simp only; omega) hbn
        exact ⟨c4, c2, fun _ => by simp only at c1; omega⟩
    have hS : ScriptOk u text_buffer (script_iterator_next u
          { offset := 0, script := u.SCRIPT_COMMON, done := false, parens := [],
            start_paren := -1 } text_buffer) ∧
        (text_buffer ≠ [] → 0 < (script_iterator_next u
          { offset := 0, script := u.SCRIPT_COMMON, done := false, parens := [],
            start_paren := -1 } text_buffer).offset) := by
      by_cases hlen : text_buffer.length = 0
      · obtain ⟨c1, c2⟩ := script_next_at_end u text_buffer
          { offset := 0, script := u.SCRIPT_COMMON, done := false, parens := [],
            start_paren := -1 } rfl (by simp [hlen])
        refine ⟨Or.inl ⟨c1, ?_⟩, ?_⟩
        · rw [c2]; simp [hlen]
        · intro hne
          exact absurd (List.length_eq_zero.1 hlen) hne
      · obtain ⟨c1, c2⟩ := script_next_spec u text_buffer
          { offset := 0, script := u.SCRIPT_COMMON, done := false, parens := [],
            start_paren := -1 } rfl (by simp only; omega)
        exact ⟨c2, fun _ => by simp only at c1; omega⟩
    obtain ⟨g1, g2, g3⟩ := itemize_assemble u levels text_buffer b1 _ false rfl hB.1 hS.1 hB.2.1
    subst hn
    refine ⟨g1, ?_, ?_, ?_⟩
    · intro hne
      have := hB.2.2 hne
      have := hS.2 hne
      simp only [g2]
      omega
    · simp only; omega
    · simp only [g2]; exact g3

theorem itemize_next_isSome_ok (u : UnicodeData) (levels text_buffer : List Nat)
    (st : ItemizeState) (h : ItemizeOk u levels text_buffer st)
    (hlen : text_buffer.length ≤ levels.length) :
    ∃ st1, itemize_next u st text_buffer = some st1 := by
  obtain ⟨hb, _, _, _, hlev⟩ := h
  unfold itemize_next
  by_cases hd : st.done = true
  · rw [if_pos hd]; exact ⟨_, rfl⟩
  · rw [if_neg hd]
    have hbidi : ∃ b1, (if st.bidi_state.offset == st.offset then
        bidi_iterator_next st.bidi_state text_buffer else some st.bidi_state) = some b1 := by
      split_ifs
      · apply bidi_next_isSome st.bidi_state text_buffer (by rw [hlev]; exact hlen)
        rcases hb with ⟨h1, _⟩ | ⟨_, h2, _⟩
        · exact Or.inr h1
        · exact Or.inl h2
      · exact ⟨_, rfl⟩
    obtain ⟨b1, hb1⟩ := hbidi
    rw [hb1]
    exact ⟨_, rfl⟩

theorem itemize_next_isSome_init (u : UnicodeData) (levels text_buffer : List Nat)
    (hne : text_buffer ≠ []) (hlen : text_buffer.length ≤ levels.length) :
    ∃ st1, itemize_next u (itemize_init u levels) text_buffer = some st1 := by
  have hpos : 0 < text_buffer.length := List.length_pos.2 hne
  obtain ⟨b1, hb1⟩ := bidi_next_isSome
    { offset := 0, level := 0, done := false, levels := levels } text_buffer hlen (Or.inl hpos)
  unfold itemize_next
  simp only [itemize_init, Bool.false_eq_true, if_false, beq_self_eq_true, if_true]
  rw [hb1]
  exact ⟨_, rfl⟩

theorem itemize_calls_ok (u : UnicodeData) (levels text_buffer : List Nat) :
    ∀ (k : Nat) (st : ItemizeState), itemize_calls u levels text_buffer (k + 1) = some st →
    ItemizeOk u levels text_buffer st := by
  intro k
  induction k with
  | zero =>
    intro st h
    simp only [itemize_calls] at h
    exact (itemize_next_init u levels text_buffer st h).1
  | succ k ih =>
    intro st h
    rw [itemize_calls] at h
    cases hprev : itemize_calls u levels text_buffer (k + 1) with
    | none => rw [hprev] at h; simp at h
    | some st0 =>
      rw [hprev] at h
      simp only at h
      have hok := ih st0 hprev
      by_cases hd : st0.done = true
      · unfold itemize_next at h
        rw [if_pos hd] at h
        simp only [Option.some.injEq] at h
        subst h
        exact hok
      · exact (itemize_next_ok u levels text_buffer st0 st hok (by simpa using hd) h).1

/-- One call of `itemize_next` on a state reached from the fresh one that is not
done, for a non-empty text with as many levels. -/
theorem itemize_call_progress (u : UnicodeData) (levels text_buffer : List Nat)
    (hne : text_buffer ≠ []) (hlen : levels.length = text_buffer.length)
    (k : Nat) (st : ItemizeState) (hk : itemize_calls u levels text_buffer k = some st)
    (hd : st.done = false) :
    ∃ st1, itemize_next u st text_buffer = some st1 ∧ st.offset < st1.offset ∧
      st1.offset ≤ text_buffer.length ∧
      (st1.done = true ↔ st1.offset = text_buffer.length) := by
  cases k with
  | zero =>
    simp only [itemize_calls, Option.some.injEq] at hk
    subst hk
    obtain ⟨st1, h1⟩ := itemize_next_isSome_init u levels text_buffer hne (by omega)
    obtain ⟨_, a2, a3, a4⟩ := itemize_next_init u levels text_buffer st1 h1
    exact ⟨st1, h1, a2 hne, a3, a4⟩
  | succ k =>
    have hok := itemize_calls_ok u levels text_buffer k st hk
    obtain ⟨st1, h1⟩ := itemize_next_isSome_ok u levels text_buffer st hok (by omega)
    obtain ⟨_, a2, a3, a4, _⟩ := itemize_next_ok u levels text_buffer st st1 hok hd h1
    exact ⟨st1, h1, a2, a3, a4⟩

theorem itemize_calls_bound (u : UnicodeData) (levels text_buffer : List Nat)
    (hne : text_buffer ≠ []) (hlen : levels.length = text_buffer.length) :
    ∀ k : Nat, ∃ st, itemize_calls u levels text_buffer k = some st ∧
      ((st.done = true ∧ st.offset = text_buffer.length) ∨
        (st.done = false ∧ k ≤ st.offset ∧ st.offset < text_buffer.length)) := by
  intro k
  induction k with
  | zero =>
    refine ⟨itemize_init u levels, rfl, Or.inr ⟨rfl, le_refl _, ?_⟩⟩
    exact List.length_pos.2 hne
  | succ k ih =>
    obtain ⟨st, h1, h2⟩ := ih
    rw [itemize_calls, h1]
    simp only
    rcases h2 with ⟨d1, d2⟩ | ⟨d1, d2, d3⟩
    · refine ⟨st, ?_, Or.inl ⟨d1, d2⟩⟩
      unfold itemize_next
      rw [if_pos d1]
    · obtain ⟨st1, a1, a2, a3, a4⟩ :=
        itemize_call_progress u levels text_buffer hne hlen k st h1 d1
      refine ⟨st1, a1, ?_⟩
      by_cases hdone : st1.done = true
      · exact Or.inl ⟨hdone, a4.1 hdone⟩
      · refine Or.inr ⟨by simpa using hdone, by omega, ?_⟩
        have : st1.offset ≠ text_buffer.length := fun hc => hdone (a4.2 hc)
        omega

/-! ## Claims on itemize_next -/

/-- C3: for a non-empty text with a level array of the same length, every call of
`itemize_next` made on a state that was reached from the fresh state and is not
done returns, strictly increases `offset`, keeps it at most the text length and
sets `done` exactly when `offset` is the text length; the fresh state has offset 0
and is not done, and after as many calls as the text has code units the state is
done with `offset` the text length.  So the runs between consecutive offsets are
non-empty, disjoint, gap-free and cover the text, in at most length calls. -/
theorem itemize_next_covers (u : UnicodeData) (levels text_buffer : List Nat)
    (hne : text_buffer ≠ []) (hlen : levels.length = text_buffer.length) :
    (itemize_init u levels).offset = 0 ∧ (itemize_init u levels).done = false ∧
    (∀ (k : Nat) (st : ItemizeState), itemize_calls u levels text_buffer k = some st →
      st.done = false →
      ∃ st1, itemize_next u st text_buffer = some st1 ∧ st.offset < st1.offset ∧
        st1.offset ≤ text_buffer.length ∧
        (st1.done = true ↔ st1.offset = text_buffer.length)) ∧
    (∃ st, itemize_calls u levels text_buffer text_buffer.length = some st ∧
      st.done = true ∧ st.offset = text_buffer.length) := by
  refine ⟨rfl, rfl, itemize_call_progress u levels text_buffer hne hlen, ?_⟩
  obtain ⟨st, h1, h2⟩ := itemize_calls_bound u levels text_buffer hne hlen text_buffer.length
  rcases h2 with ⟨d1, d2⟩ | ⟨_, d2, d3⟩
  · exact ⟨st, h1, d1, d2⟩
  · omega

/-- C3 on the two code units `a`, Arabic alef with the levels 0, 1: two calls end
the itemization at offset 2. -/
theorem itemize_next_covers_witness :
    ([97, 0x0627] : List Nat) ≠ [] ∧ ([0, 1] : List Nat).length = [97, 0x0627].length ∧
    ∃ st, itemize_calls exampleUnicode [0, 1] [97, 0x0627] 2 = some st ∧
      st.done = true ∧ st.offset = 2 :=
  ⟨by decide, by decide,
    (itemize_next_covers exampleUnicode [0, 1] [97, 0x0627] (by decide) (by decide)).2.2.2⟩

/-- C4: two consecutive runs differ in script or in bidi level: when a state
reached by at least one call is not done, the next call leaves a script or a level
(read from `script_state.script` and `bidi_state.level`) different from the ones
the previous call left. -/
theorem itemize_adjacent_runs_differ (u : UnicodeData) (levels text_buffer : List Nat)
    (k : Nat) (st1 st2 : ItemizeState)
    (h1 : itemize_calls u levels text_buffer (k + 1) = some st1) (hd : st1.done = false)
    (h2 : itemize_next u st1 text_buffer = some st2) :
    ¬ (st2.script_state.script = st1.script_state.script ∧
        st2.bidi_state.level = st1.bidi_state.level) :=
  (itemize_next_ok u levels text_buffer st1 st2
    (itemize_calls_ok u levels text_buffer k st1 h1) hd h2).2.2.2.2

/-- C4 on the two Latin letters `a`, `b` with the levels 0, 1: the first call
leaves the run [0, 1) of script 1 and level 0, the second the run [1, 2) of the
same script and level 1. -/
theorem itemize_adjacent_runs_differ_witness :
    itemize_calls exampleUnicode [0, 1] [97, 98] (0 + 1) =
      some { offset := 1, done := false,
             bidi_state := { offset := 1, level := 0, done := false, levels := [0, 1] },
             script_state := { offset := 2, script := 1, done := true, parens := [],
                               start_paren := -1 } } ∧
    itemize_next exampleUnicode
        { offset := 1, done := false,
          bidi_state := { offset := 1, level := 0, done := false, levels := [0, 1] },
          script_state := { offset := 2, script := 1, done := true, parens := [],
                            start_paren := -1 } } [97, 98] =
      some { offset := 2, done := true,
             bidi_state := { offset := 2, level := 1, done := true, levels := [0, 1] },
             script_state := { offset := 2, script := 1, done := true, parens := [],
                               start_paren := -1 } } ∧
    ¬ ((1 : Nat) = 1 ∧ (1 : Nat) = 0) :=
  ⟨by decide, by decide,
    itemize_adjacent_runs_differ exampleUnicode [0, 1] [97, 98] 0
      { offset := 1, done := false,
        bidi_state := { offset := 1, level := 0, done := false, levels := [0, 1] },
        script_state := { offset := 2, script := 1, done := true, parens := [],
                          start_paren := -1 } }
      { offset := 2, done := true,
        bidi_state := { offset := 2, level := 1, done := true, levels := [0, 1] },
        script_state := { offset := 2, script := 1, done := true, parens := [],
                          start_paren := -1 } }
      (by decide) (by decide) (by decide)⟩

/-! ## narrowByStyle -/

/-- The swap with the last element followed by `pop_back` removes exactly the
element at index `i`. -/
theorem swapPop_perm (fonts : List FontDescriptor) (i : Nat) (a : FontDescriptor)
    (h : fonts[i]? = some a) : (a :: swapPop fonts i).Perm fonts := by
  rcases List.eq_nil_or_concat fonts with hnil | ⟨L, b, hL⟩
  · subst hnil; simp at h
  · rw [List.concat_eq_append] at hL
    subst hL
    have hsp : swapPop (L ++ [b]) i = (((L ++ [b]).set i b).set L.length a).dropLast := by
      unfold swapPop
      rw [h, List.getLast?_concat]
      simp
    rw [hsp]
    by_cases hi : i < L.length
    · rw [List.set_append_left _ _ hi, List.set_append_right _ _ (by simp)]
      simp only [List.length_set, Nat.sub_self, List.set_cons_zero, List.dropLast_concat]
      rw [List.getElem?_append_left hi] at h
      obtain ⟨_, ha⟩ := List.getElem?_eq_some.1 h
      have hsplit : L = List.take i L ++ a :: List.drop (i + 1) L := by
        rw [← ha, List.getElem_cons_drop, List.take_append_drop]
      rw [List.set_eq_take_append_cons_drop, if_pos hi]
      conv_rhs => rw [hsplit]
      rw [List.perm_iff_count]
      intro x
      simp only [List.count_cons, List.count_append, List.count_nil]
      omega
    · have hlen : (L ++ [b]).length = L.length + 1 := by simp
      obtain ⟨hi2, ha⟩ := List.getElem?_eq_some.1 h
      have hieq : i = L.length := by omega
      subst hieq
      rw [List.getElem?_append_right (le_refl _)] at h
      simp only [Nat.sub_self, List.getElem?_cons_zero, Option.some.injEq] at h
      subst h
      rw [List.set_append_right _ _ (le_refl _)]
      simp only [Nat.sub_self, List.set_cons_zero]
      rw [List.set_append_right _ _ (le_refl _)]
      simp only [Nat.sub_self, List.set_cons_zero, List.dropLast_concat]
      exact (List.perm_append_singleton _ _).symm

/-- The removal loop only drops descriptors, and none of the winning style. -/
theorem narrowByStyleLoop_spec (choose : FontStyle) :
    ∀ (fuel i : Nat) (fonts : List FontDescriptor),
    (narrowByStyleLoop choose fuel i fonts).Subperm fonts ∧
      ((narrowByStyleLoop choose fuel i fonts).filter (fun f => f.style == choose)).Perm
        (fonts.filter (fun f => f.style == choose)) := by
  intro fuel
  induction fuel with
  | zero => intro i fonts; exact ⟨List.Subperm.refl _, List.Perm.refl _⟩
  | succ fuel ih =>
    intro i fonts
    unfold narrowByStyleLoop
    split_ifs with hlt
    · cases hf : fonts[i]? with
      | none => exact ⟨List.Subperm.refl _, List.Perm.refl _⟩
      | some font =>
        simp only
        split_ifs with hne
        · obtain ⟨h1, h2⟩ := ih (i + 1) (swapPop fonts i)
          have hp := swapPop_perm fonts i font hf
          have hsub : (swapPop fonts i).Subperm fonts :=
            (List.Subperm.cons_self).trans hp.subperm
          refine ⟨h1.trans hsub, h2.trans ?_⟩
          have hfil := hp.filter (fun f => f.style == choose)
          have hno : (font.style == choose) = false := by simpa using hne
          rw [List.filter_cons, hno] at hfil
          simpa using hfil
        · exact ih (i + 1) fonts
    · exact ⟨List.Subperm.refl _, List.Perm.refl _⟩

theorem chooseStyle_first (fonts : List FontDescriptor) (properties : FontProperties)
    (hne : fonts ≠ []) :
    (fallbackOrder properties.style).find? (fun s => fonts.any (fun f => f.style == s)) =
      some (chooseStyle fonts properties) := by
  have hcount : ∀ s : FontStyle,
      (fonts.countP (fun font => font.style == s) != 0) =
        fonts.any (fun f => f.style == s) := by
    intro s
    rw [Bool.eq_iff_iff]
    simp only [bne_iff_ne, ne_eq, List.countP_eq_zero, List.any_eq_true, beq_iff_eq]
    push_neg
    rfl
  have hsome : fonts.any (fun f => f.style == FontStyle.Normal) = true ∨
      fonts.any (fun f => f.style == FontStyle.Oblique) = true ∨
      fonts.any (fun f => f.style == FontStyle.Italic) = true := by
    obtain ⟨f, hf⟩ := List.exists_mem_of_ne_nil fonts hne
    simp only [List.any_eq_true, beq_iff_eq]
    cases hs : f.style with
    | Normal => exact Or.inl ⟨f, hf, hs⟩
    | Italic => exact Or.inr (Or.inr ⟨f, hf, hs⟩)
    | Oblique => exact Or.inr (Or.inl ⟨f, hf, hs⟩)
  unfold chooseStyle
  simp only [hcount]
  cases hst : properties.style <;>
    simp only [fallbackOrder, List.find?] <;>
    generalize fonts.any (fun f => f.style == FontStyle.Normal) = bN at hsome ⊢ <;>
    generalize fonts.any (fun f => f.style == FontStyle.Oblique) = bO at hsome ⊢ <;>
    generalize fonts.any (fun f => f.style == FontStyle.Italic) = bI at hsome ⊢ <;>
    cases bN <;> cases bO <;> cases bI <;> simp at hsome ⊢

/-- Everything `narrowByStyle` leaves is a candidate. -/
theorem narrowByStyle_subset (fonts : List FontDescriptor) (properties : FontProperties) :
    ∀ f ∈ narrowByStyle fonts properties, f ∈ fonts :=
  fun _ hf => (narrowByStyleLoop_spec _ _ _ _).1.subset hf

/-- C11: for at least 2 candidates the winning style of `narrowByStyle` is the
first style in the fallback order of the requested style that some candidate has;
the candidates of that style are all kept (with their multiplicity), nothing is
added or duplicated (the narrowed list is a sub-multiset of the input), and the
narrowed list is not empty. -/
theorem narrowByStyle_winning_style (fonts : List FontDescriptor) (properties : FontProperties)
    (h : 2 ≤ fonts.length) :
    (fallbackOrder properties.style).find? (fun s => fonts.any (fun f => f.style == s)) =
      some (chooseStyle fonts properties) ∧
    (∀ f ∈ fonts, f.style = chooseStyle fonts properties → f ∈ narrowByStyle fonts properties) ∧
    ((narrowByStyle fonts properties).filter
        (fun f => f.style == chooseStyle fonts properties)).Perm
      (fonts.filter (fun f => f.style == chooseStyle fonts properties)) ∧
    (narrowByStyle fonts properties).Subperm fonts ∧
    narrowByStyle fonts properties ≠ [] := by
  have hne : fonts ≠ [] := by
    intro hc; subst hc; simp at h
  have hfirst := chooseStyle_first fonts properties hne
  obtain ⟨h1, h2⟩ := narrowByStyleLoop_spec (chooseStyle fonts properties) fonts.length 0 fonts
  have hkeep : ∀ f ∈ fonts, f.style = chooseStyle fonts properties →
      f ∈ narrowByStyle fonts properties := by
    intro f hf hs
    have hfin : f ∈ fonts.filter (fun f => f.style == chooseStyle fonts properties) := by
      simp [hf, hs]
    have := h2.symm.subset hfin
    exact (List.mem_filter.1 this).1
  refine ⟨hfirst, hkeep, h2, h1, ?_⟩
  have hany := List.find?_some hfirst
  simp only [List.any_eq_true, beq_iff_eq] at hany
  obtain ⟨f, hf, hs⟩ := hany
  exact List.ne_nil_of_mem (hkeep f hf hs)

/-- C11 on the candidates Normal, Oblique with an Italic request: Oblique wins
and the Oblique descriptor is what is left. -/
theorem narrowByStyle_winning_style_witness :
    2 ≤ [mkFont 0 400 FontStyle.Normal, mkFont 1 400 FontStyle.Oblique].length ∧
    chooseStyle [mkFont 0 400 FontStyle.Normal, mkFont 1 400 FontStyle.Oblique]
      (mkRequest 400 FontStyle.Italic) = FontStyle.Oblique ∧
    narrowByStyle [mkFont 0 400 FontStyle.Normal, mkFont 1 400 FontStyle.Oblique]
      (mkRequest 400 FontStyle.Italic) = [mkFont 1 400 FontStyle.Oblique] ∧
    narrowByStyle [mkFont 0 400 FontStyle.Normal, mkFont 1 400 FontStyle.Oblique]
      (mkRequest 400 FontStyle.Italic) ≠ [] :=
  ⟨by decide, by decide, by decide,
    (narrowByStyle_winning_style [mkFont 0 400 FontStyle.Normal, mkFont 1 400 FontStyle.Oblique]
      (mkRequest 400 FontStyle.Italic) (by decide)).2.2.2.2⟩

/-! ## query -/

theorem requestedStep_empty (sort : StdSort) (m : FontManager) (properties : FontProperties)
    (registered : FontFaceSet) (all : List (Option FontDescriptor)) (family : List Nat) :
    requestedStep sort m properties registered
        { allFamilyResults := all, familyResults := [] } family =
      { allFamilyResults := all ++
          requestedEntry sort properties (gatherRequested m registered family [])
        familyResults := [] } := by
  unfold requestedStep requestedEntry
  simp only
  cases hg : gatherRequested m registered family [] with
  | nil => simp
  | cons x rest =>
    cases rest with
    | nil => simp
    | cons y zs => simp

theorem requestedLoop_eq (sort : StdSort) (m : FontManager) (properties : FontProperties)
    (registered : FontFaceSet) :
    ∀ (families : List (List Nat)) (all : List (Option FontDescriptor)),
    families.foldl (requestedStep sort m properties registered)
        { allFamilyResults := all, familyResults := [] } =
      { allFamilyResults := all ++ families.flatMap (fun family =>
          requestedEntry sort properties (gatherRequested m registered family []))
        familyResults := [] } := by
  intro families
  induction families with
  | nil => intro all; simp
  | cons family rest ih =>
    intro all
    rw [List.foldl_cons, requestedStep_empty, ih]
    simp

theorem fallbackLoop_eq (sort : StdSort) (m : FontManager) (properties : FontProperties) :
    ∀ (fallbacks : List (List Nat)) (all : List (Option FontDescriptor))
      (pending : List FontDescriptor),
    (fallbacks.foldl (fallbackStep sort m properties)
        { allFamilyResults := all, familyResults := pending }).allFamilyResults =
      all ++ fallbackEntries sort (catalog m) properties fallbacks pending := by
  intro fallbacks
  induction fallbacks with
  | nil => intro all pending; simp [fallbackEntries]
  | cons fallback rest ih =>
    intro all pending
    have hstep : fallbackStep sort m properties
        { allFamilyResults := all, familyResults := pending } fallback =
        if (addSystemFonts (catalog m) fallback pending).length > 1 then
          { allFamilyResults := all ++ [narrowByWeight sort
              (narrowByStyle (addSystemFonts (catalog m) fallback pending) properties)
              properties]
            familyResults := [] }
        else { allFamilyResults := all
               familyResults := addSystemFonts (catalog m) fallback pending } := rfl
    rw [List.foldl_cons, hstep]
    unfold fallbackEntries
    split_ifs with hlen
    · rw [ih]; simp
    · rw [ih]

theorem query_eq (sort : StdSort) (m : FontManager) (properties : FontProperties)
    (registered : FontFaceSet) (fallbacks : List (List Nat)) :
    query sort m properties registered fallbacks =
      properties.families.flatMap (fun family =>
          requestedEntry sort properties (gatherRequested m registered family [])) ++
        fallbackEntries sort (catalog m) properties fallbacks [] := by
  unfold query
  rw [requestedLoop_eq, fallbackLoop_eq]
  simp

/-- C12: one iteration of the loop over the requested families, entered with no
pending candidate (as every iteration is: the pending list is empty after any
number of iterations), appends nothing when no candidate is gathered, the
candidate itself when exactly one is, and the one entry `narrowByWeight` of the
`narrowByStyle`-reduced candidates when two or more are; it leaves the pending
list empty. -/
theorem query_requested_step (sort : StdSort) (m : FontManager) (properties : FontProperties)
    (registered : FontFaceSet) :
    (∀ (all : List (Option FontDescriptor)) (family : List Nat),
      (gatherRequested m registered family [] = [] →
        requestedStep sort m properties registered
          { allFamilyResults := all, familyResults := [] } family =
          { allFamilyResults := all, familyResults := [] }) ∧
      (∀ d, gatherRequested m registered family [] = [d] →
        requestedStep sort m properties registered
          { allFamilyResults := all, familyResults := [] } family =
          { allFamilyResults := all ++ [some d], familyResults := [] }) ∧
      (2 ≤ (gatherRequested m registered family []).length →
        requestedStep sort m properties registered
          { allFamilyResults := all, familyResults := [] } family =
          { allFamilyResults := all ++ [narrowByWeight sort
              (narrowByStyle (gatherRequested m registered family []) properties) properties]
            familyResults := [] })) ∧
    (∀ families : List (List Nat),
      (families.foldl (requestedStep sort m properties registered)
        { allFamilyResults := [], familyResults := [] }).familyResults = []) := by
  refine ⟨fun all family => ⟨?_, ?_, ?_⟩, ?_⟩
  · intro h
    rw [requestedStep_empty, h]
    simp [requestedEntry]
  · intro d h
    rw [requestedStep_empty, h]
    simp [requestedEntry]
  · intro h
    rw [requestedStep_empty]
    cases hg : gatherRequested m registered family [] with
    | nil => rw [hg] at h; simp at h
    | cons x rest =>
      cases rest with
      | nil => rw [hg] at h; simp at h
      | cons y zs => simp [requestedEntry]
  · intro families
    rw [requestedLoop_eq]

/-- C13 as stated fails: with no requested family, the fallback list `Geneva` and
the one system font of family `Geneva`, the fallback name has a matching
descriptor and `query` returns the empty sequence. -/
theorem query_single_fallback_dropped :
    compareFamilyNames (bytes "Geneva")
        (mkNamedFont 0 "Geneva" 400 FontStyle.Normal).family = true ∧
    query insertionStdSort (loadedManager [mkNamedFont 0 "Geneva" 400 FontStyle.Normal])
        (mkFamilyRequest [] 400 FontStyle.Normal) emptyFontFaceSet [bytes "Geneva"] = [] := by
  decide

/-- The sequence `query` returns is, in request order, one entry for each requested
family name for which a candidate is gathered, followed by the entries of the
fallback list, at most one for each fallback name. -/
theorem query_entry_counts (sort : StdSort) (m : FontManager) (properties : FontProperties)
    (registered : FontFaceSet) (fallbacks : List (List Nat)) :
    query sort m properties registered fallbacks =
      properties.families.flatMap (fun family =>
          requestedEntry sort properties (gatherRequested m registered family [])) ++
        fallbackEntries sort (catalog m) properties fallbacks [] ∧
    (∀ family, (requestedEntry sort properties
        (gatherRequested m registered family [])).length =
      if gatherRequested m registered family [] = [] then 0 else 1) ∧
    (∀ pending, (fallbackEntries sort (catalog m) properties fallbacks pending).length ≤
      fallbacks.length) := by
  refine ⟨query_eq sort m properties registered fallbacks, ?_, ?_⟩
  · intro family
    unfold requestedEntry
    cases hg : gatherRequested m registered family [] with
    | nil => simp
    | cons x rest =>
      cases rest with
      | nil => simp
      | cons y zs => simp
  · induction fallbacks with
    | nil => intro pending; simp [fallbackEntries]
    | cons fallback rest ih =>
      intro pending
      unfold fallbackEntries
      split_ifs
      · have := ih []
        simp only [List.length_cons]
        omega
      · have := ih (addSystemFonts (catalog m) fallback pending)
        simp only [List.length_cons]
        omega

theorem maybeAdd_mem (family : List Nat) (desc : FontDescriptor) (pending : List FontDescriptor)
    (x : FontDescriptor) (hx : x ∈ maybeAdd family desc pending) :
    x ∈ pending ∨ (x = desc ∧ compareFamilyNames family desc.family = true) := by
  unfold maybeAdd at hx
  split_ifs at hx with h
  · simp only [Bool.and_eq_true] at h
    rcases List.mem_append.1 hx with h1 | h1
    · exact Or.inl h1
    · exact Or.inr ⟨by simpa using h1, h.1⟩
  · exact Or.inl hx

theorem maybeAdd_prefix (family : List Nat) (desc : FontDescriptor)
    (pending : List FontDescriptor) : ∃ t, maybeAdd family desc pending = pending ++ t := by
  unfold maybeAdd
  split_ifs
  · exact ⟨[desc], rfl⟩
  · exact ⟨[], by simp⟩

theorem maybeAdd_nodup (family : List Nat) (desc : FontDescriptor)
    (pending : List FontDescriptor) (h : (pending.map (fun d => d.addr)).Nodup) :
    ((maybeAdd family desc pending).map (fun d => d.addr)).Nodup := by
  unfold maybeAdd
  split_ifs with hc
  · simp only [Bool.and_eq_true, Bool.not_eq_true', List.any_eq_false, beq_iff_eq] at hc
    rw [List.map_append, List.nodup_append]
    refine ⟨h, by simp, ?_⟩
    intro x hx1 hx2
    simp only [List.map_cons, List.map_nil, List.mem_singleton] at hx2
    obtain ⟨y, hy, hyx⟩ := List.mem_map.1 hx1
    exact hc.2 y hy (by rw [hyx, hx2])
  · exact h

/-- Adding a list of descriptors with `maybeAdd`: what is added is in the list
and matches, the pending candidates stay in front, addresses stay distinct. -/
theorem addList_spec (family : List Nat) :
    ∀ (l pending : List FontDescriptor),
    (∀ x ∈ l.foldl (fun acc desc => maybeAdd family desc acc) pending,
      x ∈ pending ∨ (x ∈ l ∧ compareFamilyNames family x.family = true)) ∧
    (∃ t, l.foldl (fun acc desc => maybeAdd family desc acc) pending = pending ++ t) ∧
    ((pending.map (fun d => d.addr)).Nodup →
      ((l.foldl (fun acc desc => maybeAdd family desc acc) pending).map
        (fun d => d.addr)).Nodup) := by
  intro l
  induction l with
  | nil => intro pending; exact ⟨fun x hx => Or.inl hx, ⟨[], by simp⟩, fun h => h⟩
  | cons d rest ih =>
    intro pending
    obtain ⟨h1, h2, h3⟩ := ih (maybeAdd family d pending)
    simp only [List.foldl_cons]
    refine ⟨?_, ?_, ?_⟩
    · intro x hx
      rcases h1 x hx with h | ⟨h, hm⟩
      · rcases maybeAdd_mem family d pending x h with h | ⟨h, hm⟩
        · exact Or.inl h
        · exact Or.inr ⟨by rw [h]; exact List.mem_cons_self _ _, by rw [h]; exact hm⟩
      · exact Or.inr ⟨List.mem_cons_of_mem _ h, hm⟩
    · obtain ⟨t1, ht1⟩ := maybeAdd_prefix family d pending
      obtain ⟨t2, ht2⟩ := h2
      exact ⟨t1 ++ t2, by rw [ht2, ht1, List.append_assoc]⟩
    · intro hn
      exact h3 (maybeAdd_nodup family d pending hn)

/-- With pairwise distinct addresses nothing is held back: the matching
descriptors are appended in order. -/
theorem addList_distinct (family : List Nat) :
    ∀ (l pending : List FontDescriptor),
    ((pending ++ l).map (fun d => d.addr)).Nodup →
    l.foldl (fun acc desc => maybeAdd family desc acc) pending =
      pending ++ l.filter (fun d => compareFamilyNames family d.family) := by
  intro l
  induction l with
  | nil => intro pending _; simp
  | cons d rest ih =>
    intro pending hn
    have hnot : pending.any (fun found => found.addr == d.addr) = false := by
      simp only [List.any_eq_false, beq_iff_eq]
      intro y hy hyd
      rw [List.map_append, List.nodup_append] at hn
      exact hn.2.2 (List.mem_map.2 ⟨y, hy, rfl⟩)
        (by rw [hyd]; simp)
    simp only [List.foldl_cons]
    by_cases hm : compareFamilyNames family d.family = true
    · have hadd : maybeAdd family d pending = pending ++ [d] := by
        simp [maybeAdd, hm, hnot]
      rw [hadd, ih (pending ++ [d]) (by simpa using hn), List.filter_cons, if_pos hm]
      simp
    · have hadd : maybeAdd family d pending = pending := by
        simp [maybeAdd, hm]
      have hn2 : ((pending ++ rest).map (fun d => d.addr)).Nodup := by
        rw [List.map_append, List.nodup_append] at hn ⊢
        refine ⟨hn.1, (List.nodup_cons.1 (by simpa using hn.2.1)).2, ?_⟩
        intro x hx1 hx2
        exact hn.2.2 hx1 (by simp only [List.map_cons]; exact List.mem_cons_of_mem _ hx2)
      rw [hadd, ih pending hn2, List.filter_cons, if_neg hm]

/-- The descriptors that do not match the name are passed over. -/
theorem addList_filter (family : List Nat) :
    ∀ (l pending : List FontDescriptor),
    l.foldl (fun acc desc => maybeAdd family desc acc) pending =
      (l.filter (fun d => compareFamilyNames family d.family)).foldl
        (fun acc desc => maybeAdd family desc acc) pending := by
  intro l
  induction l with
  | nil => intro pending; rfl
  | cons d rest ih =>
    intro pending
    by_cases hm : compareFamilyNames family d.family = true
    · rw [List.filter_cons, if_pos hm, List.foldl_cons, List.foldl_cons, ih]
    · have hadd : maybeAdd family d pending = pending := by
        simp [maybeAdd, hm]
      rw [List.filter_cons, if_neg hm, List.foldl_cons, hadd, ih]

theorem addRegistered_eq (registered : FontFaceSet) (family : List Nat)
    (pending : List FontDescriptor) :
    addRegistered registered family pending =
      (liveDescriptors registered).foldl (fun acc desc => maybeAdd family desc acc) pending := by
  unfold addRegistered liveDescriptors
  generalize registered.facesData = data
  induction data generalizing pending with
  | nil => rfl
  | cons entry rest ih =>
    cases hf : entry.face with
    | none => simp [List.filterMap_cons, hf, ih]
    | some face => simp [List.filterMap_cons, hf, ih]

/-- When no requested family gathers a candidate and the fallback list is
`[f1, f2]` with `f1` matching exactly the system font `a` and `f2` exactly the two
other system fonts `b`, `c`, `query` returns the single entry `narrowByWeight` of
`narrowByStyle` of the accumulated candidates `[a, b, c]`. -/
theorem query_fallback_accumulated_entry (sort : StdSort) (m : FontManager)
    (properties : FontProperties) (registered : FontFaceSet) (f1 f2 : List Nat)
    (a b c : FontDescriptor)
    (hreq : ∀ family ∈ properties.families, gatherRequested m registered family [] = [])
    (h1 : (catalog m).filter (fun d => compareFamilyNames f1 d.family) = [a])
    (h2 : (catalog m).filter (fun d => compareFamilyNames f2 d.family) = [b, c])
    (hab : a.addr ≠ b.addr) (hac : a.addr ≠ c.addr) (hbc : b.addr ≠ c.addr) :
    query sort m properties registered [f1, f2] =
      [narrowByWeight sort (narrowByStyle [a, b, c] properties) properties] := by
  have hrequested : properties.families.flatMap (fun family =>
      requestedEntry sort properties (gatherRequested m registered family [])) = [] := by
    rw [List.flatMap_eq_nil_iff]
    intro family hf
    rw [hreq family hf]
    rfl
  have ha : compareFamilyNames f1 a.family = true := by
    have : a ∈ (catalog m).filter (fun d => compareFamilyNames f1 d.family) := by
      rw [h1]; simp
    exact (List.mem_filter.1 this).2
  have hb : compareFamilyNames f2 b.family = true := by
    have : b ∈ (catalog m).filter (fun d => compareFamilyNames f2 d.family) := by
      rw [h2]; simp
    exact (List.mem_filter.1 this).2
  have hc : compareFamilyNames f2 c.family = true := by
    have : c ∈ (catalog m).filter (fun d => compareFamilyNames f2 d.family) := by
      rw [h2]; simp
    exact (List.mem_filter.1 this).2
  have hp1 : addSystemFonts (catalog m) f1 [] = [a] := by
    unfold addSystemFonts
    rw [addList_filter, h1]
    simp [maybeAdd, ha]
  have hp2 : addSystemFonts (catalog m) f2 [a] = [a, b, c] := by
    unfold addSystemFonts
    rw [addList_filter, h2]
    simp [maybeAdd, hb, hc, hab, hac, hbc]
  rw [query_eq, hrequested]
  simp [fallbackEntries, hp1, hp2]

/-- The system fonts Geneva, Arial 400 and Arial 700 with the fallback list
Geneva, Arial: the three are narrowed together. -/
theorem query_fallback_accumulated_entry_example :
    query insertionStdSort
        (loadedManager [mkNamedFont 0 "Geneva" 400 FontStyle.Normal,
          mkNamedFont 1 "Arial" 400 FontStyle.Italic, mkNamedFont 2 "Arial" 700 FontStyle.Normal])
        (mkFamilyRequest [] 700 FontStyle.Normal) emptyFontFaceSet
        [bytes "Geneva", bytes "Arial"] =
      [narrowByWeight insertionStdSort
        (narrowByStyle [mkNamedFont 0 "Geneva" 400 FontStyle.Normal,
          mkNamedFont 1 "Arial" 400 FontStyle.Italic, mkNamedFont 2 "Arial" 700 FontStyle.Normal]
          (mkFamilyRequest [] 700 FontStyle.Normal))
        (mkFamilyRequest [] 700 FontStyle.Normal)] :=
  query_fallback_accumulated_entry insertionStdSort _ _ emptyFontFaceSet (bytes "Geneva")
    (bytes "Arial") (mkNamedFont 0 "Geneva" 400 FontStyle.Normal)
    (mkNamedFont 1 "Arial" 400 FontStyle.Italic) (mkNamedFont 2 "Arial" 700 FontStyle.Normal)
    (by decide) (by decide) (by decide) (by decide) (by decide) (by decide)

theorem addSystemFonts_length (system_fonts : List FontDescriptor) (family : List Nat)
    (pending : List FontDescriptor) :
    pending.length ≤ (addSystemFonts system_fonts family pending).length := by
  obtain ⟨t, ht⟩ := (addList_spec family system_fonts pending).2.1
  unfold addSystemFonts
  rw [ht]
  simp

theorem fallback_pending_length (system_fonts : List FontDescriptor) :
    ∀ (fallbacks : List (List Nat)) (pending : List FontDescriptor),
    pending.length ≤
      (fallbacks.foldl (fun acc fallback => addSystemFonts system_fonts fallback acc)
        pending).length := by
  intro fallbacks
  induction fallbacks with
  | nil => intro pending; exact le_refl _
  | cons fallback rest ih =>
    intro pending
    rw [List.foldl_cons]
    exact le_trans (addSystemFonts_length system_fonts fallback pending) (ih _)

/-- While fewer than 2 candidates are ever pending the fallback list adds no entry. -/
theorem fallbackEntries_none (sort : StdSort) (system_fonts : List FontDescriptor)
    (properties : FontProperties) :
    ∀ (fallbacks : List (List Nat)) (pending : List FontDescriptor),
    (fallbacks.foldl (fun acc fallback => addSystemFonts system_fonts fallback acc)
      pending).length < 2 →
    fallbackEntries sort system_fonts properties fallbacks pending = [] := by
  intro fallbacks
  induction fallbacks with
  | nil => intro pending _; rfl
  | cons fallback rest ih =>
    intro pending h
    rw [List.foldl_cons] at h
    have hle := fallback_pending_length system_fonts rest
      (addSystemFonts system_fonts fallback pending)
    unfold fallbackEntries
    rw [if_neg (by omega)]
    exact ih _ h

/-- C15 as stated fails: with the fallback list Geneva, Arial and the two system
fonts Geneva 400 and Arial 700, the name Arial matches exactly one system font and
at its own iteration the pending list (holding both fonts) is narrowed, the Arial
font is emitted for a request of weight 700, and nothing stays pending. -/
theorem query_second_single_fallback_emitted :
    (loadedManager [mkNamedFont 0 "Geneva" 400 FontStyle.Normal,
        mkNamedFont 1 "Arial" 700 FontStyle.Normal]).system_fonts.filter
      (fun d => compareFamilyNames (bytes "Arial") d.family) =
        [mkNamedFont 1 "Arial" 700 FontStyle.Normal] ∧
    fallbackStep insertionStdSort
        (loadedManager [mkNamedFont 0 "Geneva" 400 FontStyle.Normal,
          mkNamedFont 1 "Arial" 700 FontStyle.Normal])
        (mkFamilyRequest [] 700 FontStyle.Normal)
        { allFamilyResults := [],
          familyResults := [mkNamedFont 0 "Geneva" 400 FontStyle.Normal] } (bytes "Arial") =
      { allFamilyResults := [some (mkNamedFont 1 "Arial" 700 FontStyle.Normal)],
        familyResults := [] } ∧
    query insertionStdSort
        (loadedManager [mkNamedFont 0 "Geneva" 400 FontStyle.Normal,
          mkNamedFont 1 "Arial" 700 FontStyle.Normal])
        (mkFamilyRequest [] 700 FontStyle.Normal) emptyFontFaceSet
        [bytes "Geneva", bytes "Arial"] =
      [some (mkNamedFont 1 "Arial" 700 FontStyle.Normal)] := by
  decide

/-- C15, amended: a fallback name that matches exactly one system font while no
candidate is pending adds no entry at its own iteration and leaves that font
pending; and when over the whole fallback list fewer than 2 candidates are ever
pending, `query` returns what it returns for the empty fallback list. -/
theorem query_fallback_single_pending (sort : StdSort) (m : FontManager)
    (properties : FontProperties) (registered : FontFaceSet) (fallbacks : List (List Nat)) :
    (∀ (all : List (Option FontDescriptor)) (fallback : List Nat) (a : FontDescriptor),
      (catalog m).filter (fun d => compareFamilyNames fallback d.family) = [a] →
      fallbackStep sort m properties { allFamilyResults := all, familyResults := [] }
          fallback =
        { allFamilyResults := all, familyResults := [a] }) ∧
    ((fallbacks.foldl (fun acc fallback => addSystemFonts (catalog m) fallback acc)
        []).length < 2 →
      query sort m properties registered fallbacks = query sort m properties registered []) := by
  constructor
  · intro all fallback a h
    have ha : compareFamilyNames fallback a.family = true := by
      have : a ∈ (catalog m).filter (fun d => compareFamilyNames fallback d.family) := by
        rw [h]; simp
      exact (List.mem_filter.1 this).2
    have hp : addSystemFonts (catalog m) fallback [] = [a] := by
      unfold addSystemFonts
      rw [addList_filter, h]
      simp [maybeAdd, ha]
    unfold fallbackStep
    simp [hp]
  · intro h
    rw [query_eq, query_eq, fallbackEntries_none sort (catalog m) properties fallbacks [] h]
    rfl

/-- C15 with the single fallback name Geneva matching the one system font Geneva:
the font stays pending and `query` returns nothing. -/
theorem query_fallback_single_pending_witness :
    fallbackStep insertionStdSort
        (loadedManager [mkNamedFont 0 "Geneva" 400 FontStyle.Normal])
        (mkFamilyRequest [] 400 FontStyle.Normal)
        { allFamilyResults := [], familyResults := [] } (bytes "Geneva") =
      { allFamilyResults := [],
        familyResults := [mkNamedFont 0 "Geneva" 400 FontStyle.Normal] } ∧
    query insertionStdSort (loadedManager [mkNamedFont 0 "Geneva" 400 FontStyle.Normal])
        (mkFamilyRequest [] 400 FontStyle.Normal) emptyFontFaceSet [bytes "Geneva"] =
      query insertionStdSort (loadedManager [mkNamedFont 0 "Geneva" 400 FontStyle.Normal])
        (mkFamilyRequest [] 400 FontStyle.Normal) emptyFontFaceSet [] :=
  ⟨(query_fallback_single_pending insertionStdSort
      (loadedManager [mkNamedFont 0 "Geneva" 400 FontStyle.Normal])
      (mkFamilyRequest [] 400 FontStyle.Normal) emptyFontFaceSet [bytes "Geneva"]).1
      [] (bytes "Geneva") (mkNamedFont 0 "Geneva" 400 FontStyle.Normal) (by decide),
    (query_fallback_single_pending insertionStdSort
      (loadedManager [mkNamedFont 0 "Geneva" 400 FontStyle.Normal])
      (mkFamilyRequest [] 400 FontStyle.Normal) emptyFontFaceSet [bytes "Geneva"]).2
      (by decide)⟩

theorem gatherRequested_generic (m : FontManager) (registered : FontFaceSet)
    (family : List Nat) (pending : List FontDescriptor) (genericFamilies : List (List Nat))
    (hg : m.getGenericList family = some genericFamilies) :
    gatherRequested m registered family pending =
      genericFamilies.foldl (fun acc generic => addSystemFonts (catalog m) generic acc)
        pending := by
  unfold gatherRequested
  rw [hg]

theorem generic_fold_mem (system_fonts : List FontDescriptor) :
    ∀ (names : List (List Nat)) (pending : List FontDescriptor),
    ∀ x ∈ names.foldl (fun acc generic => addSystemFonts system_fonts generic acc) pending,
      x ∈ pending ∨ x ∈ system_fonts := by
  intro names
  induction names with
  | nil => intro pending x hx; exact Or.inl hx
  | cons name rest ih =>
    intro pending x hx
    rw [List.foldl_cons] at hx
    rcases ih _ x hx with h | h
    · rcases (addList_spec name system_fonts pending).1 x h with h2 | h2
      · exact Or.inl h2
      · exact Or.inr h2.1
    · exact Or.inr h

theorem head?_mem_of (l : List FontDescriptor) (d : FontDescriptor)
    (h : l.head? = some d) : d ∈ l := by
  cases l with
  | nil => simp at h
  | cons x rest =>
    simp only [List.head?_cons, Option.some.injEq] at h
    rw [h]
    exact List.mem_cons_self _ _

theorem requestedEntry_mem (sort : StdSort) (properties : FontProperties)
    (candidates : List FontDescriptor) (d : FontDescriptor)
    (h : some d ∈ requestedEntry sort properties candidates) : d ∈ candidates := by
  unfold requestedEntry at h
  split at h
  · simp at h
  · simp only [List.mem_singleton, Option.some.injEq] at h
    rw [h]; simp
  · simp only [List.mem_singleton] at h
    exact narrowByStyle_subset _ properties d
      (narrowByWeight_mem sort _ properties d h.symm)

theorem fallbackEntries_mem (sort : StdSort) (system_fonts : List FontDescriptor)
    (properties : FontProperties) :
    ∀ (fallbacks : List (List Nat)) (pending : List FontDescriptor) (d : FontDescriptor),
    some d ∈ fallbackEntries sort system_fonts properties fallbacks pending →
    d ∈ pending ∨ d ∈ system_fonts := by
  intro fallbacks
  induction fallbacks with
  | nil => intro pending d h; simp [fallbackEntries] at h
  | cons fallback rest ih =>
    intro pending d h
    have hadd : ∀ x ∈ addSystemFonts system_fonts fallback pending,
        x ∈ pending ∨ x ∈ system_fonts := by
      intro x hx
      rcases (addList_spec fallback system_fonts pending).1 x hx with h2 | h2
      · exact Or.inl h2
      · exact Or.inr h2.1
    unfold fallbackEntries at h
    split_ifs at h with hlen
    · rcases List.mem_cons.1 h with h1 | h1
      · exact hadd d (narrowByStyle_subset _ properties d
          (narrowByWeight_mem sort _ properties d h1.symm))
      · rcases ih [] d h1 with h2 | h2
        · simp at h2
        · exact Or.inr h2
    · rcases ih _ d h with h2 | h2
      · exact hadd d h2
      · exact Or.inr h2

/-- C19: for a request whose family names are all generic keywords of the
provider, `query` returns the same sequence for any two registries, and every
descriptor it returns is one of the system catalog, so never a registered face's. -/
theorem query_generic_ignores_registry (sort : StdSort) (m : FontManager)
    (properties : FontProperties) (registered1 registered2 : FontFaceSet)
    (fallbacks : List (List Nat))
    (hgen : ∀ family ∈ properties.families, (m.getGenericList family).isSome = true) :
    query sort m properties registered1 fallbacks =
      query sort m properties registered2 fallbacks ∧
    ∀ d, some d ∈ query sort m properties registered1 fallbacks → d ∈ catalog m := by
  have hsame : ∀ family ∈ properties.families,
      gatherRequested m registered1 family [] = gatherRequested m registered2 family [] := by
    intro family hf
    obtain ⟨g, hg⟩ := Option.isSome_iff_exists.1 (hgen family hf)
    rw [gatherRequested_generic m registered1 family [] g hg,
      gatherRequested_generic m registered2 family [] g hg]
  constructor
  · rw [query_eq, query_eq]
    congr 1
    apply List.flatMap_congr
    intro family hf
    rw [hsame family hf]
  · intro d hd
    rw [query_eq] at hd
    rcases List.mem_append.1 hd with h | h
    · obtain ⟨family, hf, hmem⟩ := List.mem_flatMap.1 h
      have hcand := requestedEntry_mem sort properties _ d hmem
      obtain ⟨g, hg⟩ := Option.isSome_iff_exists.1 (hgen family hf)
      rw [gatherRequested_generic m registered1 family [] g hg] at hcand
      rcases generic_fold_mem (catalog m) g [] d hcand with h2 | h2
      · simp at h2
      · exact h2
    · rcases fallbackEntries_mem sort (catalog m) properties fallbacks [] d h with h2 | h2
      · simp at h2
      · exact h2

/-- C19 on the request `sans-serif` with a system font Arial: a registry holding a
face of family Arial and the empty registry give the same result. -/
theorem query_generic_ignores_registry_witness :
    query insertionStdSort (loadedManager [mkNamedFont 0 "Arial" 400 FontStyle.Normal])
        (mkFamilyRequest ["sans-serif"] 400 FontStyle.Normal)
        { facesHash := [(7, 0)],
          facesData := [liveSlot 7 (mkNamedFont 9 "Arial" 400 FontStyle.Normal)] } [] =
      query insertionStdSort (loadedManager [mkNamedFont 0 "Arial" 400 FontStyle.Normal])
        (mkFamilyRequest ["sans-serif"] 400 FontStyle.Normal) emptyFontFaceSet [] ∧
    query insertionStdSort (loadedManager [mkNamedFont 0 "Arial" 400 FontStyle.Normal])
        (mkFamilyRequest ["sans-serif"] 400 FontStyle.Normal)
        { facesHash := [(7, 0)],
          facesData := [liveSlot 7 (mkNamedFont 9 "Arial" 400 FontStyle.Normal)] } [] =
      [some (mkNamedFont 0 "Arial" 400 FontStyle.Normal)] :=
  ⟨(query_generic_ignores_registry insertionStdSort
      (loadedManager [mkNamedFont 0 "Arial" 400 FontStyle.Normal])
      (mkFamilyRequest ["sans-serif"] 400 FontStyle.Normal) _ emptyFontFaceSet []
      (by decide)).1, by decide⟩

/-- C20: for a family name that is no generic keyword, the candidates gathered
from an empty pending list have pairwise distinct addresses, each is a matching
descriptor of a live registry slot or of the system catalog, and, the live and
system descriptors being distinct objects, they are the matching live registry
descriptors in slot order followed by the matching system descriptors in catalog
order.  A null slot holds no descriptor and contributes nothing. -/
theorem gatherRequested_non_generic (m : FontManager) (registered : FontFaceSet)
    (family : List Nat) (hnon : m.getGenericList family = none) :
    ((gatherRequested m registered family []).map (fun d => d.addr)).Nodup ∧
    (∀ d ∈ gatherRequested m registered family [],
      (d ∈ liveDescriptors registered ∨ d ∈ catalog m) ∧
        compareFamilyNames family d.family = true) ∧
    (((liveDescriptors registered ++ catalog m).map (fun d => d.addr)).Nodup →
      gatherRequested m registered family [] =
        (liveDescriptors registered).filter (fun d => compareFamilyNames family d.family) ++
          (catalog m).filter (fun d => compareFamilyNames family d.family)) := by
  have hg : gatherRequested m registered family [] =
      (catalog m).foldl (fun acc desc => maybeAdd family desc acc)
        ((liveDescriptors registered).foldl (fun acc desc => maybeAdd family desc acc) []) := by
    unfold gatherRequested
    rw [hnon]
    simp only [addSystemFonts, addRegistered_eq]
  rw [hg]
  obtain ⟨r1, _, r3⟩ := addList_spec family (liveDescriptors registered) []
  obtain ⟨s1, _, s3⟩ := addList_spec family (catalog m)
    ((liveDescriptors registered).foldl (fun acc desc => maybeAdd family desc acc) [])
  refine ⟨s3 (r3 (by simp)), ?_, ?_⟩
  · intro d hd
    rcases s1 d hd with h | ⟨h, hm⟩
    · rcases r1 d h with h2 | ⟨h2, hm⟩
      · simp at h2
      · exact ⟨Or.inl h2, hm⟩
    · exact ⟨Or.inr h, hm⟩
  · intro hn
    have hn1 : ((([] : List FontDescriptor) ++ liveDescriptors registered).map
        (fun d => d.addr)).Nodup := by
      rw [List.map_append, List.nodup_append] at hn
      simpa using hn.1
    rw [addList_distinct family (liveDescriptors registered) [] hn1]
    simp only [List.nil_append]
    have hn2 : (((liveDescriptors registered).filter
        (fun d => compareFamilyNames family d.family) ++ catalog m).map
        (fun d => d.addr)).Nodup := by
      refine List.Nodup.sublist ?_ hn
      apply List.Sublist.map
      exact List.Sublist.append (List.filter_sublist _) (List.Sublist.refl _)
    rw [addList_distinct family (catalog m) _ hn2]

/-- C20 on a registry with a live Arial face, a null slot and a live Geneva face,
and the system fonts Arial and Menlo, for the name `arial`: the registered Arial
comes first, then the system Arial. -/
theorem gatherRequested_non_generic_witness :
    (loadedManager [mkNamedFont 0 "Arial" 400 FontStyle.Normal,
        mkNamedFont 1 "Menlo" 400 FontStyle.Normal]).getGenericList (bytes "arial") = none ∧
    gatherRequested
        (loadedManager [mkNamedFont 0 "Arial" 400 FontStyle.Normal,
          mkNamedFont 1 "Menlo" 400 FontStyle.Normal])
        { facesHash := [(7, 0), (8, 2)],
          facesData := [liveSlot 7 (mkNamedFont 9 "Arial" 700 FontStyle.Normal), nullSlot,
            liveSlot 8 (mkNamedFont 10 "Geneva" 400 FontStyle.Normal)] }
        (bytes "arial") [] =
      [mkNamedFont 9 "Arial" 700 FontStyle.Normal, mkNamedFont 0 "Arial" 400 FontStyle.Normal] ∧
    ((gatherRequested
        (loadedManager [mkNamedFont 0 "Arial" 400 FontStyle.Normal,
          mkNamedFont 1 "Menlo" 400 FontStyle.Normal])
        { facesHash := [(7, 0), (8, 2)],
          facesData := [liveSlot 7 (mkNamedFont 9 "Arial" 700 FontStyle.Normal), nullSlot,
            liveSlot 8 (mkNamedFont 10 "Geneva" 400 FontStyle.Normal)] }
        (bytes "arial") []).map (fun d => d.addr)).Nodup :=
  ⟨by decide, by decide,
    (gatherRequested_non_generic
      (loadedManager [mkNamedFont 0 "Arial" 400 FontStyle.Normal,
        mkNamedFont 1 "Menlo" 400 FontStyle.Normal])
      { facesHash := [(7, 0), (8, 2)],
        facesData := [liveSlot 7 (mkNamedFont 9 "Arial" 700 FontStyle.Normal), nullSlot,
          liveSlot 8 (mkNamedFont 10 "Geneva" 400 FontStyle.Normal)] }
      (bytes "arial") (by decide)).1⟩

/-! ## itemize_next as the merge of the two iterators -/

theorem itemize_next_parts (u : UnicodeData) (text_buffer : List Nat) (st st1 : ItemizeState)
    (hd : st.done = false) (hn : itemize_next u st text_buffer = some st1) :
    (if st.bidi_state.offset = st.offset then
        bidi_iterator_next st.bidi_state text_buffer = some st1.bidi_state
      else st1.bidi_state = st.bidi_state) ∧
    st1.script_state =
      (if st.script_state.offset = st.offset then
        script_iterator_next u st.script_state text_buffer else st.script_state) := by
  unfold itemize_next at hn
  rw [if_neg (by rw [hd]; exact Bool.false_ne_true)] at hn
  by_cases hbo : st.bidi_state.offset = st.offset
  · have hbeq : (st.bidi_state.offset == st.offset) = true := by simpa using hbo
    rw [hbeq] at hn
    simp only [if_true] at hn
    cases hbn : bidi_iterator_next st.bidi_state text_buffer with
    | none => rw [hbn] at hn; simp at hn
    | some b1 =>
      rw [hbn] at hn
      simp only [Option.some.injEq] at hn
      subst hn
      simp [hbo]
  · have hbeq : (st.bidi_state.offset == st.offset) = false := by simpa using hbo
    rw [hbeq] at hn
    simp only [Bool.false_eq_true, if_false, Option.some.injEq] at hn
    subst hn
    simp [hbo]

theorem reported_mono (u : UnicodeData) (levels text_buffer : List Nat) (k o : Nat)
    (h : Reported u levels text_buffer k o) : Reported u levels text_buffer (k + 1) o := by
  obtain ⟨k1, st, h1, h2, h3, h4⟩ := h
  exact ⟨k1, st, h1, by omega, h3, h4⟩

theorem itemize_calls_merged (u : UnicodeData) (levels text_buffer : List Nat) :
    ∀ (k : Nat) (st : ItemizeState), itemize_calls u levels text_buffer (k + 1) = some st →
    Merged u levels text_buffer (k + 1) st := by
  intro k
  induction k with
  | zero =>
    intro st h
    simp only [itemize_calls] at h
    obtain ⟨p1, p2⟩ := itemize_next_parts u text_buffer (itemize_init u levels) st rfl h
    simp only [itemize_init, if_true] at p1 p2
    refine ⟨1, 1, le_refl _, le_refl _, ?_, ?_, ?_, ?_⟩
    · simp only [bidi_calls, bidi_init]
      exact p1
    · simp only [script_calls, script_init]
      exact p2.symm
    · intro i1 b h1 h2; omega
    · intro j1 h1 h2; omega
  | succ k ih =>
    intro st h
    rw [itemize_calls] at h
    cases hprev : itemize_calls u levels text_buffer (k + 1) with
    | none => rw [hprev] at h; simp at h
    | some st0 =>
      rw [hprev] at h
      simp only at h
      obtain ⟨i, j, hi, hj, hb, hs, hbr, hsr⟩ := ih st0 hprev
      by_cases hd : st0.done = true
      · unfold itemize_next at h
        rw [if_pos hd] at h
        simp only [Option.some.injEq] at h
        subst h
        exact ⟨i, j, hi, hj, hb, hs,
          fun i1 b a1 a2 a3 => reported_mono _ _ _ _ _ (hbr i1 b a1 a2 a3),
          fun j1 a1 a2 => reported_mono _ _ _ _ _ (hsr j1 a1 a2)⟩
      · have hd0 : st0.done = false := by simpa using hd
        obtain ⟨p1, p2⟩ := itemize_next_parts u text_buffer st0 st hd0 h
        have hrep : Reported u levels text_buffer (k + 1 + 1) st0.offset :=
          ⟨k + 1, st0, by omega, by omega, hprev, rfl⟩
        have hbidi : ∃ i2, 1 ≤ i2 ∧ bidi_calls levels text_buffer i2 = some st.bidi_state ∧
            ∀ i1 b, 1 ≤ i1 → i1 < i2 → bidi_calls levels text_buffer i1 = some b →
              Reported u levels text_buffer (k + 1 + 1) b.offset := by
          by_cases hbo : st0.bidi_state.offset = st0.offset
          · rw [if_pos hbo] at p1
            refine ⟨i + 1, by omega, ?_, ?_⟩
            · rw [bidi_calls, hb]
              exact p1
            · intro i1 b a1 a2 a3
              by_cases hlt : i1 < i
              · exact reported_mono _ _ _ _ _ (hbr i1 b a1 hlt a3)
              · have hieq : i1 = i := by omega
                subst hieq
                rw [hb] at a3
                simp only [Option.some.injEq] at a3
                rw [← a3, hbo]
                exact hrep
          · rw [if_neg hbo] at p1
            refine ⟨i, hi, by rw [p1]; exact hb, ?_⟩
            intro i1 b a1 a2 a3
            exact reported_mono _ _ _ _ _ (hbr i1 b a1 a2 a3)
        have hscript : ∃ j2, 1 ≤ j2 ∧ script_calls u text_buffer j2 = st.script_state ∧
            ∀ j1, 1 ≤ j1 → j1 < j2 →
              Reported u levels text_buffer (k + 1 + 1)
                (script_calls u text_buffer j1).offset := by
          by_cases hso : st0.script_state.offset = st0.offset
          · rw [if_pos hso] at p2
            refine ⟨j + 1, by omega, ?_, ?_⟩
            · rw [script_calls, hs, p2]
            · intro j1 a1 a2
              by_cases hlt : j1 < j
              · exact reported_mono _ _ _ _ _ (hsr j1 a1 hlt)
              · have hjeq : j1 = j := by omega
                subst hjeq
                rw [hs, hso]
                exact hrep
          · rw [if_neg hso] at p2
            refine ⟨j, hj, by rw [p2]; exact hs, ?_⟩
            intro j1 a1 a2
            exact reported_mono _ _ _ _ _ (hsr j1 a1 a2)
        obtain ⟨i2, c1, c2, c3⟩ := hbidi
        obtain ⟨j2, e1, e2, e3⟩ := hscript
        exact ⟨i2, j2, c1, e1, c2, e2, c3, e3⟩

theorem script_calls_done (u : UnicodeData) (text_buffer : List Nat) (j : Nat)
    (hd : (script_calls u text_buffer j).done = true) :
    ∀ d, script_calls u text_buffer (j + d) = script_calls u text_buffer j := by
  intro d
  induction d with
  | zero => rfl
  | succ d ih =>
    have h1 : script_calls u text_buffer (j + (d + 1)) =
        script_iterator_next u (script_calls u text_buffer (j + d)) text_buffer := rfl
    rw [h1, ih, script_next_done u text_buffer _ hd]

theorem bidi_calls_done (levels text_buffer : List Nat) (i : Nat) (b : BidiIteratorState)
    (hb : bidi_calls levels text_buffer i = some b) (hd : b.done = true) :
    ∀ d, bidi_calls levels text_buffer (i + d) = some b := by
  intro d
  induction d with
  | zero => exact hb
  | succ d ih =>
    have h1 : bidi_calls levels text_buffer (i + (d + 1)) =
        match bidi_calls levels text_buffer (i + d) with
        | none => none
        | some state => bidi_iterator_next state text_buffer := rfl
    rw [h1, ih]
    exact bidi_next_done text_buffer b hd

theorem script_calls_ok (u : UnicodeData) (text_buffer : List Nat) :
    ∀ j : Nat, ScriptOk u text_buffer (script_calls u text_buffer (j + 1)) := by
  intro j
  induction j with
  | zero =>
    have h1 : script_calls u text_buffer (0 + 1) =
        script_iterator_next u (script_init u) text_buffer := rfl
    rw [h1]
    by_cases hlen : text_buffer.length = 0
    · obtain ⟨c1, c2⟩ := script_next_at_end u text_buffer (script_init u) rfl
        (by simp [script_init, hlen])
      exact Or.inl ⟨c1, by rw [c2]; simp [script_init, hlen]⟩
    · exact (script_next_spec u text_buffer (script_init u) rfl
        (by simp only [script_init]; omega)).2
  | succ j ih =>
    have h1 : script_calls u text_buffer (j + 1 + 1) =
        script_iterator_next u (script_calls u text_buffer (j + 1)) text_buffer := rfl
    rw [h1]
    rcases ih with ⟨d1, d2⟩ | ⟨d1, d2, _⟩
    · rw [script_next_done u text_buffer _ d1]
      exact Or.inl ⟨d1, d2⟩
    · exact (script_next_spec u text_buffer _ d1 d2).2

theorem bidi_calls_ok (levels text_buffer : List Nat) :
    ∀ (i : Nat) (b : BidiIteratorState), bidi_calls levels text_buffer (i + 1) = some b →
    BidiOk text_buffer.length b := by
  intro i
  induction i with
  | zero =>
    intro b hb
    have h1 : bidi_calls levels text_buffer (0 + 1) =
        bidi_iterator_next (bidi_init levels) text_buffer := rfl
    rw [h1] at hb
    by_cases hlen : text_buffer.length = 0
    · obtain ⟨c1, c2, _⟩ := bidi_next_at_end (bidi_init levels) b text_buffer rfl
        (by simp [bidi_init, hlen]) hb
      exact Or.inl ⟨c1, by rw [c2]; simp [bidi_init, hlen]⟩
    · exact (bidi_next_spec (bidi_init levels) b text_buffer rfl
        (by simp only [bidi_init]; omega) hb).2.2.2
  | succ i ih =>
    intro b hb
    rw [bidi_calls] at hb
    cases hprev : bidi_calls levels text_buffer (i + 1) with
    | none => rw [hprev] at hb; simp at hb
    | some b0 =>
      rw [hprev] at hb
      simp only at hb
      rcases ih b0 hprev with ⟨d1, d2⟩ | ⟨d1, d2, _⟩
      · rw [bidi_next_done text_buffer b0 d1] at hb
        simp only [Option.some.injEq] at hb
        subst hb
        exact Or.inl ⟨d1, d2⟩
      · exact (bidi_next_spec b0 b text_buffer d1 d2 hb).2.2.2

/-- C18: whenever a pass of `itemize_next` runs to `done`, the offsets its calls
report are exactly the offsets the script iterator reports when run alone on the
text together with the offsets the bidi iterator reports when run alone on the
levels (each clamped to the text length); the script iterator inside the itemizer
is always in a state of the script iterator run alone, which does not mention the
levels.  For a non-empty text with as many levels the pass does run to `done`. -/
theorem itemize_offsets_union (u : UnicodeData) (levels text_buffer : List Nat) :
    (text_buffer ≠ [] → levels.length = text_buffer.length →
      ∃ st, itemize_calls u levels text_buffer text_buffer.length = some st ∧
        st.done = true) ∧
    (∀ (n : Nat) (st : ItemizeState), itemize_calls u levels text_buffer n = some st →
      st.done = true →
      ∀ o : Nat,
        (∃ k st1, 1 ≤ k ∧ itemize_calls u levels text_buffer k = some st1 ∧ st1.offset = o) ↔
          ((∃ j, 1 ≤ j ∧
              min (script_calls u text_buffer j).offset text_buffer.length = o) ∨
            (∃ i b, 1 ≤ i ∧ bidi_calls levels text_buffer i = some b ∧
              min b.offset text_buffer.length = o))) ∧
    (∀ (k : Nat) (st1 : ItemizeState), itemize_calls u levels text_buffer k = some st1 →
      ∃ j, st1.script_state = script_calls u text_buffer j) := by
  refine ⟨?_, ?_, ?_⟩
  · intro hne hlen
    obtain ⟨st, h1, h2⟩ := itemize_calls_bound u levels text_buffer hne hlen text_buffer.length
    rcases h2 with ⟨d1, _⟩ | ⟨_, d2, d3⟩
    · exact ⟨st, h1, d1⟩
    · omega
  · intro n st hn hdone o
    obtain ⟨n0, rfl⟩ : ∃ n0, n = n0 + 1 := by
      cases n with
      | zero =>
        simp only [itemize_calls, Option.some.injEq] at hn
        subst hn
        simp [itemize_init] at hdone
      | succ n0 => exact ⟨n0, rfl⟩
    have hok := itemize_calls_ok u levels text_buffer n0 st hn
    obtain ⟨hb, hs, hoff, hdn, _⟩ := hok
    obtain ⟨i0, j0, hi0, hj0, hbi, hsj, hbr, hsr⟩ :=
      itemize_calls_merged u levels text_buffer n0 st hn
    have hboth : st.bidi_state.done = true ∧ st.script_state.done = true := by
      rw [hdone] at hdn
      simpa using hdn.symm
    have hbn := (bidiOk_le _ _ hb).2.1 hboth.1
    have hsn := (scriptOk_le _ _ _ hs).2.1 hboth.2
    have hstn : st.offset = text_buffer.length := by omega
    constructor
    · rintro ⟨k, st1, hk, hcall, ho⟩
      obtain ⟨k0, rfl⟩ : ∃ k0, k = k0 + 1 := ⟨k - 1, by omega⟩
      obtain ⟨hb1, hs1, hoff1, _, _⟩ := itemize_calls_ok u levels text_buffer k0 st1 hcall
      obtain ⟨i, j, hi, hj, hbi1, hsj1, _, _⟩ :=
        itemize_calls_merged u levels text_buffer k0 st1 hcall
      have hble := (bidiOk_le _ _ hb1).1
      have hsle := (scriptOk_le _ _ _ hs1).1
      by_cases hmin : st1.script_state.offset ≤ st1.bidi_state.offset
      · left
        refine ⟨j, hj, ?_⟩
        rw [hsj1]
        omega
      · right
        refine ⟨i, st1.bidi_state, hi, hbi1, ?_⟩
        omega
    · rintro (⟨j, hj, ho⟩ | ⟨i, b, hi, hcall, ho⟩)
      · obtain ⟨j1, rfl⟩ : ∃ j1, j = j1 + 1 := ⟨j - 1, by omega⟩
        have hle := (scriptOk_le _ _ _ (script_calls_ok u text_buffer j1)).1
        have ho2 : (script_calls u text_buffer (j1 + 1)).offset = o := by omega
        by_cases hlt : j1 + 1 < j0
        · obtain ⟨k1, st1, a1, _, a3, a4⟩ := hsr (j1 + 1) (by omega) hlt
          exact ⟨k1, st1, a1, a3, by rw [a4, ho2]⟩
        · obtain ⟨d, hd⟩ : ∃ d, j1 + 1 = j0 + d := ⟨j1 + 1 - j0, by omega⟩
          have hstat := script_calls_done u text_buffer j0 (by rw [hsj]; exact hboth.2) d
          rw [hd, hstat, hsj] at ho2
          exact ⟨n0 + 1, st, by omega, hn, by omega⟩
      · obtain ⟨i1, rfl⟩ : ∃ i1, i = i1 + 1 := ⟨i - 1, by omega⟩
        have hle := (bidiOk_le _ _ (bidi_calls_ok levels text_buffer i1 b hcall)).1
        have ho2 : b.offset = o := by omega
        by_cases hlt : i1 + 1 < i0
        · obtain ⟨k1, st1, a1, _, a3, a4⟩ := hbr (i1 + 1) b (by omega) hlt hcall
          exact ⟨k1, st1, a1, a3, by rw [a4, ho2]⟩
        · obtain ⟨d, hd⟩ : ∃ d, i1 + 1 = i0 + d := ⟨i1 + 1 - i0, by omega⟩
          have hstat := bidi_calls_done levels text_buffer i0 st.bidi_state hbi hboth.1 d
          rw [hd, hstat] at hcall
          simp only [Option.some.injEq] at hcall
          rw [← hcall] at ho2
          exact ⟨n0 + 1, st, by omega, hn, by omega⟩
  · intro k st1 hcall
    cases k with
    | zero =>
      simp only [itemize_calls, Option.some.injEq] at hcall
      subst hcall
      exact ⟨0, rfl⟩
    | succ k0 =>
      obtain ⟨_, j, _, _, _, hsj1, _, _⟩ :=
        itemize_calls_merged u levels text_buffer k0 st1 hcall
      exact ⟨j, hsj1.symm⟩

/-- C18 on the letters `a`, `b`, Arabic alef with the levels 0, 1, 1: the script
iterator alone reports 2 and 3, the bidi iterator alone 1 and 3, and the pass of
`itemize_next`, done after 3 calls, reports 1, 2 and 3. -/
theorem itemize_offsets_union_witness :
    (∃ st, itemize_calls exampleUnicode [0, 1, 1] [97, 98, 0x0627] 3 = some st ∧
      st.done = true) ∧
    (script_calls exampleUnicode [97, 98, 0x0627] 1).offset = 2 ∧
    (script_calls exampleUnicode [97, 98, 0x0627] 2).offset = 3 ∧
    (bidi_calls [0, 1, 1] [97, 98, 0x0627] 1).map (fun b => b.offset) = some 1 ∧
    (bidi_calls [0, 1, 1] [97, 98, 0x0627] 2).map (fun b => b.offset) = some 3 ∧
    (itemize_calls exampleUnicode [0, 1, 1] [97, 98, 0x0627] 1).map (fun s => s.offset) =
      some 1 ∧
    (itemize_calls exampleUnicode [0, 1, 1] [97, 98, 0x0627] 2).map (fun s => s.offset) =
      some 2 ∧
    (itemize_calls exampleUnicode [0, 1, 1] [97, 98, 0x0627] 3).map (fun s => s.offset) =
      some 3 :=
  ⟨(itemize_offsets_union exampleUnicode [0, 1, 1] [97, 98, 0x0627]).1 (by decide) (by decide),
    by decide, by decide, by decide, by decide, by decide, by decide, by decide⟩

/-! ## get_pair_index and the code points of a text -/

theorem get_pair_index_loop_spec (ch : Nat) :
    ∀ (fuel : Nat) (lower upper : Int), 0 ≤ lower → upper < (paired_chars.length : Int) →
    get_pair_index_loop ch fuel lower upper = -1 ∨
      (0 ≤ get_pair_index_loop ch fuel lower upper ∧
        (get_pair_index_loop ch fuel lower upper).toNat < paired_chars.length ∧
        paired_chars.getD (get_pair_index_loop ch fuel lower upper).toNat 0 = ch) := by
  intro fuel
  induction fuel with
  | zero => intro lower upper _ _; exact Or.inl rfl
  | succ fuel ih =>
    intro lower upper h0 h1
    unfold get_pair_index_loop
    by_cases hle : lower ≤ upper
    · rw [if_pos hle]
      have hmid : Int.tdiv (lower + upper) 2 = (lower + upper) / 2 :=
        Int.tdiv_eq_ediv (by omega) (by omega)
      simp only [hmid]
      by_cases hlt : ch < paired_chars.getD ((lower + upper) / 2).toNat 0
      · rw [if_pos hlt]
        exact ih lower _ h0 (by omega)
      · rw [if_neg hlt]
        by_cases hgt : ch > paired_chars.getD ((lower + upper) / 2).toNat 0
        · rw [if_pos hgt]
          exact ih _ upper (by omega) h1
        · rw [if_neg hgt]
          right
          exact ⟨by omega, by omega, by omega⟩
    · rw [if_neg hle]
      exact Or.inl rfl

/-- A code point outside the table is not found. -/
theorem get_pair_index_not_mem (ch : Nat) (h : ch ∉ paired_chars) : get_pair_index ch = -1 := by
  unfold get_pair_index
  rcases get_pair_index_loop_spec ch paired_chars_count 0 ((paired_chars_count : Int) - 1)
    (le_refl _) (by unfold paired_chars_count; omega) with h1 | ⟨_, h2, h3⟩
  · exact h1
  · exfalso
    apply h
    rw [← h3, List.getD_eq_getElem _ _ h2]
    exact List.getElem_mem _

theorem pairIndex_not_mem (u : UnicodeData) (ch : Nat) (h : ch ∉ paired_chars) :
    pairIndex u ch = -1 := by
  unfold pairIndex
  split_ifs
  · rfl
  · exact get_pair_index_not_mem ch h

set_option maxRecDepth 100000 in
/-- No entry of the table is a surrogate code unit. -/
theorem paired_chars_bmp : ∀ c ∈ paired_chars, c < 0xd800 ∨ 0xdfff < c := by decide

set_option maxRecDepth 1000000 in
/-- The binary search finds every entry of the table at its index. -/
theorem get_pair_index_table :
    ∀ k, k < 116 → get_pair_index (paired_chars.getD k 0) = (k : Int) := by
  decide

theorem codePoints_drop (text_buffer : List Nat) (o : Nat) (h : o < text_buffer.length) :
    codePoints (text_buffer.drop o) =
      (decode text_buffer o).1 :: codePoints (text_buffer.drop (o + (decode text_buffer o).2)) ∧
    1 ≤ (decode text_buffer o).2 ∧ o + (decode text_buffer o).2 ≤ text_buffer.length := by
  have hj := decode_jump text_buffer o
  refine ⟨?_, by omega, by omega⟩
  rw [List.drop_eq_getElem_cons h]
  unfold decode
  simp only [List.getD_eq_getElem _ _ h]
  by_cases h1 : o + 1 < text_buffer.length
  · rw [List.drop_eq_getElem_cons h1]
    simp only [h1, if_true, List.getD_eq_getElem _ _ h1]
    rw [codePoints]
    split_ifs with hc
    · rfl
    · simp only
      rw [List.drop_eq_getElem_cons h1]
  · have hnil : text_buffer.drop (o + 1) = [] := List.drop_eq_nil_of_le (by omega)
    simp only [h1, if_false, hnil]
    rfl

theorem codePoints_eq_nil (l : List Nat) (h : codePoints l = []) : l = [] := by
  cases l with
  | nil => rfl
  | cons c tail =>
    cases tail with
    | nil => simp [codePoints] at h
    | cons n rest =>
      rw [codePoints] at h
      split_ifs at h

theorem codePoints_append_single (x : Nat) (hx : ¬ (0xdc00 ≤ x ∧ x ≤ 0xdfff)) :
    ∀ (n : Nat) (l : List Nat), l.length ≤ n → codePoints (l ++ [x]) = codePoints l ++ [x] := by
  intro n
  induction n with
  | zero =>
    intro l hl
    have : l = [] := List.length_eq_zero.1 (by omega)
    subst this
    rfl
  | succ n ih =>
    intro l hl
    cases l with
    | nil => rfl
    | cons c tail =>
      cases tail with
      | nil =>
        have hc : ((0xd800 ≤ c && c ≤ 0xdbff) && (0xdc00 ≤ x && x ≤ 0xdfff)) = false := by
          simp only [Bool.and_eq_false_iff, Bool.and_eq_true, decide_eq_true_eq,
            decide_eq_false_iff_not]
          right
          by_contra hcon
          push_neg at hcon
          exact hx (by omega)
        simp only [List.cons_append, List.nil_append, codePoints, hc, Bool.false_eq_true,
          if_false]
      | cons m rest =>
        simp only [List.cons_append]
        rw [codePoints, codePoints]
        simp only [List.length_cons] at hl
        split_ifs with hc
        · rw [ih rest (by omega)]
          rfl
        · have := ih (m :: rest) (by simp only [List.length_cons]; omega)
          simp only [List.cons_append] at this
          rw [this]
          rfl

theorem codePoints_cons_bmp (c : Nat) (hc : c < 0xd800 ∨ 0xdfff < c) (l : List Nat) :
    codePoints (c :: l) = c :: codePoints l := by
  cases l with
  | nil => rfl
  | cons n rest =>
    rw [codePoints]
    have : ((0xd800 ≤ c && c ≤ 0xdbff) && (0xdc00 ≤ n && n ≤ 0xdfff)) = false := by
      simp only [Bool.and_eq_false_iff, Bool.and_eq_true, decide_eq_true_eq,
        decide_eq_false_iff_not]
      left
      omega
    rw [this]
    rfl

/-! ## script_iterator_next on code points outside the table -/

theorem runScript_real (u : UnicodeData) (s0 : Nat) (cps : List Nat)
    (h : isReal u s0 = true) : runScript u s0 cps = s0 := by
  simp [runScript, h]

theorem runScript_nil (u : UnicodeData) (s0 : Nat) : runScript u s0 [] = s0 := by
  simp [runScript]

theorem runScript_cons_real (u : UnicodeData) (s0 c : Nat) (cps : List Nat)
    (h0 : isReal u s0 = false) (hc : isReal u (u.get_script c) = true) :
    runScript u s0 (c :: cps) = u.get_script c := by
  simp [runScript, h0, List.find?, hc]

theorem runScript_cons_unreal (u : UnicodeData) (s0 c : Nat) (cps : List Nat)
    (h0 : isReal u s0 = false) (hc : isReal u (u.get_script c) = false) :
    runScript u s0 (c :: cps) = runScript u s0 cps := by
  simp [runScript, h0, List.find?, hc]

theorem classify_nonbracket (u : UnicodeData) (text_buffer : List Nat)
    (st : ScriptIteratorState) (hp : pairIndex u (decode text_buffer st.offset).1 < 0) :
    classify u text_buffer st =
      { script := u.get_script (decode text_buffer st.offset).1, parens := st.parens,
        start_paren := st.start_paren } := by
  unfold classify pairedChar
  rw [if_neg (by omega)]

/-- One iteration on a code point outside the table. -/
theorem scriptStep_nonbracket (u : UnicodeData) (text_buffer : List Nat)
    (st : ScriptIteratorState) (hp : pairIndex u (decode text_buffer st.offset).1 < 0) :
    scriptStep u text_buffer st =
      if (!isReal u st.script || !isReal u (u.get_script (decode text_buffer st.offset).1) ||
          u.get_script (decode text_buffer st.offset).1 == st.script) then
        if (!isReal u st.script && isReal u (u.get_script (decode text_buffer st.offset).1)) then
          ({ st with
              script := u.get_script (decode text_buffer st.offset).1
              parens := (backfill (u.get_script (decode text_buffer st.offset).1)
                ((st.parens.length : Int) - 1 - st.start_paren).toNat st.parens
                st.start_paren).1
              start_paren := (backfill (u.get_script (decode text_buffer st.offset).1)
                ((st.parens.length : Int) - 1 - st.start_paren).toNat st.parens
                st.start_paren).2
              offset := st.offset + (decode text_buffer st.offset).2 }, false)
        else ({ st with offset := st.offset + (decode text_buffer st.offset).2 }, false)
      else ({ st with start_paren := (st.parens.length : Int) - 1 }, true) := by
  have hneg : ¬ (pairIndex u (decode text_buffer st.offset).1 ≥ 0) := by omega
  unfold scriptStep
  rw [classify_nonbracket u text_buffer st hp]
  simp only [hneg, decide_False, Bool.false_and]
  split_ifs <;> first | rfl | contradiction

theorem scriptStep_plain (u : UnicodeData) (text_buffer : List Nat)
    (st : ScriptIteratorState) (hp : pairIndex u (decode text_buffer st.offset).1 < 0)
    (hpl : Plain st) :
    scriptStep u text_buffer st =
      if (!isReal u st.script || !isReal u (u.get_script (decode text_buffer st.offset).1) ||
          u.get_script (decode text_buffer st.offset).1 == st.script) then
        ({ st with
            script := if (!isReal u st.script &&
                isReal u (u.get_script (decode text_buffer st.offset).1)) then
              u.get_script (decode text_buffer st.offset).1 else st.script
            offset := st.offset + (decode text_buffer st.offset).2 }, false)
      else (st, true) := by
  rw [scriptStep_nonbracket u text_buffer st hp]
  obtain ⟨h1, h2⟩ := hpl
  cases st with
  | mk offset script done parens start_paren =>
    simp only at h1 h2
    subst h1 h2
    split_ifs <;> simp [backfill]

theorem scriptLoop_plain (u : UnicodeData) (text_buffer : List Nat) :
    ∀ (fuel : Nat) (st : ScriptIteratorState), st.offset ≤ text_buffer.length →
    text_buffer.length - st.offset ≤ fuel → Plain st →
    (∀ c ∈ codePoints (text_buffer.drop st.offset), pairIndex u c < 0) →
    ∃ runCps,
      codePoints (text_buffer.drop st.offset) =
        runCps ++ codePoints (text_buffer.drop (scriptLoop u text_buffer fuel st).offset) ∧
      st.offset ≤ (scriptLoop u text_buffer fuel st).offset ∧
      (scriptLoop u text_buffer fuel st).offset ≤ text_buffer.length ∧
      Plain (scriptLoop u text_buffer fuel st) ∧
      (scriptLoop u text_buffer fuel st).done = st.done ∧
      (scriptLoop u text_buffer fuel st).script = runScript u st.script runCps ∧
      (∀ c ∈ runCps, isReal u (u.get_script c) = false ∨
        u.get_script c = (scriptLoop u text_buffer fuel st).script) ∧
      ((scriptLoop u text_buffer fuel st).offset = text_buffer.length ∨
        ((scriptLoop u text_buffer fuel st).offset < text_buffer.length ∧
          isReal u (scriptLoop u text_buffer fuel st).script = true ∧
          ∃ c tail,
            codePoints (text_buffer.drop (scriptLoop u text_buffer fuel st).offset) =
              c :: tail ∧
            isReal u (u.get_script c) = true ∧
            u.get_script c ≠ (scriptLoop u text_buffer fuel st).script)) ∧
      (isReal u st.script = false → st.offset < text_buffer.length → runCps ≠ []) := by
  intro fuel
  induction fuel with
  | zero =>
    intro st h1 h2 hpl _
    have h0 : scriptLoop u text_buffer 0 st = st := rfl
    rw [h0]
    exact ⟨[], by simp, le_refl _, h1, hpl, rfl, (runScript_nil u st.script).symm,
      by simp, Or.inl (by omega), fun _ hlt => by omega⟩
  | succ fuel ih =>
    intro st h1 h2 hpl hnb
    by_cases hlt : st.offset < text_buffer.length
    · obtain ⟨hcp, hj1, hj2⟩ := codePoints_drop text_buffer st.offset hlt
      have hp : pairIndex u (decode text_buffer st.offset).1 < 0 :=
        hnb _ (by rw [hcp]; exact List.mem_cons_self _ _)
      have hstep := scriptStep_plain u text_buffer st hp hpl
      by_cases hsame : (!isReal u st.script ||
          !isReal u (u.get_script (decode text_buffer st.offset).1) ||
          u.get_script (decode text_buffer st.offset).1 == st.script) = true
      · rw [if_pos hsame] at hstep
        have hloop : scriptLoop u text_buffer (fuel + 1) st = scriptLoop u text_buffer fuel
            { st with
              script := if (!isReal u st.script &&
                  isReal u (u.get_script (decode text_buffer st.offset).1)) then
                u.get_script (decode text_buffer st.offset).1 else st.script
              offset := st.offset + (decode text_buffer st.offset).2 } := by
          rw [scriptLoop, if_pos hlt, hstep]
        rw [hloop]
        obtain ⟨runCps, a1, a2, a3, a4, a5, a6, a7, a8, _⟩ := ih
          { st with
            script := if (!isReal u st.script &&
                isReal u (u.get_script (decode text_buffer st.offset).1)) then
              u.get_script (decode text_buffer st.offset).1 else st.script
            offset := st.offset + (decode text_buffer st.offset).2 }
          (by simp only; omega) (by simp only; omega) hpl
          (by
            intro c hc
            exact hnb c (by rw [hcp]; exact List.mem_cons_of_mem _ hc))
        simp only at a1 a2 a5 a6
        refine ⟨(decode text_buffer st.offset).1 :: runCps, ?_, by omega, a3, a4, a5, ?_, ?_,
          a8, fun _ _ => by simp⟩
        · rw [hcp, a1]; rfl
        · rw [a6]
          cases hr0 : isReal u st.script with
          | true =>
            simp only [hr0, Bool.not_true, Bool.false_and, Bool.false_eq_true, if_false]
            rw [runScript_real u _ _ hr0, runScript_real u _ _ hr0]
          | false =>
            cases hr1 : isReal u (u.get_script (decode text_buffer st.offset).1) with
            | true =>
              simp only [hr0, hr1, Bool.not_false, Bool.and_self, if_true]
              rw [runScript_real u _ _ hr1, runScript_cons_real u _ _ _ hr0 hr1]
            | false =>
              simp only [hr0, hr1, Bool.not_false, Bool.and_false, Bool.false_eq_true,
                if_false]
              rw [runScript_cons_unreal u _ _ _ hr0 hr1]
        · intro c hc
          rcases List.mem_cons.1 hc with hc1 | hc1
          · subst hc1
            rw [a6]
            cases hr1 : isReal u (u.get_script (decode text_buffer st.offset).1) with
            | false => exact Or.inl rfl
            | true =>
              right
              cases hr0 : isReal u st.script with
              | true =>
                simp only [hr0, hr1, Bool.not_true, Bool.false_or, beq_iff_eq] at hsame
                simp only [hr0, Bool.not_true, Bool.false_and, Bool.false_eq_true, if_false]
                rw [runScript_real u _ _ hr0]
                exact hsame
              | false =>
                simp only [hr0, hr1, Bool.not_false, Bool.and_self, if_true]
                rw [runScript_real u _ _ hr1]
          · exact a7 c hc1
      · rw [if_neg hsame] at hstep
        have hloop : scriptLoop u text_buffer (fuel + 1) st = st := by
          rw [scriptLoop, if_pos hlt, hstep]
        rw [hloop]
        simp only [Bool.or_eq_true, Bool.not_eq_true', beq_iff_eq, not_or,
          Bool.not_eq_false] at hsame
        exact ⟨[], by simp, le_refl _, h1, hpl, rfl, (runScript_nil u st.script).symm,
          by simp, Or.inr ⟨hlt, hsame.1.1, _, _, hcp, hsame.1.2, hsame.2⟩,
          fun hc _ => by rw [hsame.1.1] at hc; exact absurd hc (by decide)⟩
    · have hloop : scriptLoop u text_buffer (fuel + 1) st = st := by
        rw [scriptLoop, if_neg hlt]
      rw [hloop]
      exact ⟨[], by simp, le_refl _, h1, hpl, rfl, (runScript_nil u st.script).symm,
        by simp, Or.inl (by omega), fun _ h => absurd h hlt⟩

theorem isReal_false_iff (u : UnicodeData) (s : Nat) :
    isReal u s = false ↔ s = u.SCRIPT_COMMON ∨ s = u.SCRIPT_INHERITED := by
  unfold isReal
  by_cases h1 : s = u.SCRIPT_COMMON <;> by_cases h2 : s = u.SCRIPT_INHERITED <;>
    simp [h1, h2]

/-- One call of `script_iterator_next` on a bracket-free remainder. -/
theorem script_next_plain (u : UnicodeData) (text_buffer : List Nat) (s : ScriptIteratorState)
    (hd : s.done = false) (hle : s.offset ≤ text_buffer.length) (hpl : Plain s)
    (hnb : ∀ c ∈ codePoints (text_buffer.drop s.offset), pairIndex u c < 0) :
    ∃ runCps,
      codePoints (text_buffer.drop s.offset) =
        runCps ++ codePoints (text_buffer.drop (script_iterator_next u s text_buffer).offset) ∧
      s.offset ≤ (script_iterator_next u s text_buffer).offset ∧
      (script_iterator_next u s text_buffer).offset ≤ text_buffer.length ∧
      Plain (script_iterator_next u s text_buffer) ∧
      (script_iterator_next u s text_buffer).script = runScript u u.SCRIPT_COMMON runCps ∧
      (∀ c ∈ runCps, isReal u (u.get_script c) = false ∨
        u.get_script c = (script_iterator_next u s text_buffer).script) ∧
      ((script_iterator_next u s text_buffer).done = false →
        isReal u (script_iterator_next u s text_buffer).script = true ∧
        ∃ c tail,
          codePoints (text_buffer.drop (script_iterator_next u s text_buffer).offset) =
            c :: tail ∧
          isReal u (u.get_script c) = true ∧
          u.get_script c ≠ (script_iterator_next u s text_buffer).script) ∧
      (s.offset < text_buffer.length → runCps ≠ []) := by
  obtain ⟨runCps, a1, a2, a3, a4, a5, a6, a7, a8, a9⟩ :=
    scriptLoop_plain u text_buffer (text_buffer.length - s.offset)
      { s with script := u.SCRIPT_COMMON } hle (le_refl _) hpl hnb
  simp only at a1 a2 a5 a6 a9
  have hnext : script_iterator_next u s text_buffer =
      if (scriptLoop u text_buffer (text_buffer.length - s.offset)
          { s with script := u.SCRIPT_COMMON }).offset ≥ text_buffer.length then
        { scriptLoop u text_buffer (text_buffer.length - s.offset)
            { s with script := u.SCRIPT_COMMON } with done := true }
      else scriptLoop u text_buffer (text_buffer.length - s.offset)
        { s with script := u.SCRIPT_COMMON } := by
    unfold script_iterator_next
    rw [if_neg (by rw [hd]; exact Bool.false_ne_true)]
  by_cases hge : (scriptLoop u text_buffer (text_buffer.length - s.offset)
      { s with script := u.SCRIPT_COMMON }).offset ≥ text_buffer.length
  · rw [if_pos hge] at hnext
    rw [hnext]
    exact ⟨runCps, a1, a2, a3, a4, a6, a7, fun h => absurd h (by simp),
      a9 (isReal_common u)⟩
  · rw [if_neg hge] at hnext
    rw [hnext]
    refine ⟨runCps, a1, a2, a3, a4, a6, a7, fun _ => ?_, a9 (isReal_common u)⟩
    rcases a8 with h | h
    · exact absurd (by omega) hge
    · exact ⟨h.2.1, h.2.2⟩

/-- On a text without code points that index the table, every state of the
script iterator run alone has an empty stack, and after a run that did not end
the text the next code point has a real script other than the run's. -/
theorem script_calls_plain (u : UnicodeData) (text_buffer : List Nat)
    (hnb : ∀ c ∈ codePoints text_buffer, pairIndex u c < 0) :
    ∀ j : Nat,
      (script_calls u text_buffer j).offset ≤ text_buffer.length ∧
      Plain (script_calls u text_buffer j) ∧
      (∀ c ∈ codePoints (text_buffer.drop (script_calls u text_buffer j).offset),
        pairIndex u c < 0) ∧
      (1 ≤ j → (script_calls u text_buffer j).done = false →
        isReal u (script_calls u text_buffer j).script = true ∧
        ∃ c tail,
          codePoints (text_buffer.drop (script_calls u text_buffer j).offset) = c :: tail ∧
          isReal u (u.get_script c) = true ∧
          u.get_script c ≠ (script_calls u text_buffer j).script) := by
  intro j
  induction j with
  | zero =>
    refine ⟨Nat.zero_le _, ⟨rfl, rfl⟩, ?_, fun h => absurd h (by decide)⟩
    intro c hc
    exact hnb c (by simpa [script_calls, script_init] using hc)
  | succ j ih =>
    obtain ⟨i1, i2, i3, i4⟩ := ih
    have hcall : script_calls u text_buffer (j + 1) =
        script_iterator_next u (script_calls u text_buffer j) text_buffer := rfl
    cases hd : (script_calls u text_buffer j).done with
    | true =>
      have hsame := script_next_done u text_buffer _ hd
      rw [hcall, hsame]
      exact ⟨i1, i2, i3, fun _ h => absurd (hd.symm.trans h) (by decide)⟩
    | false =>
      obtain ⟨runCps, a1, a2, a3, a4, a5, a6, a7, a8⟩ :=
        script_next_plain u text_buffer _ hd i1 i2 i3
      rw [hcall]
      refine ⟨a3, a4, ?_, fun _ h => a7 h⟩
      intro c hc
      exact i3 c (by rw [a1]; exact List.mem_append_right _ hc)

/-- C17: on a text none of whose code points is in the paired-punctuation
table, the run produced by call `j + 1` of the script iterator (the code points
`runCps` between the offsets before and after the call) has as its script the
script of its first code point that is neither Common nor Inherited, or Common
when it has none; every code point of the run has script Common, Inherited or
the run's script; and a run after the first starts at a code point whose script
is real and differs from the previous run's script. -/
theorem script_runs_without_brackets (u : UnicodeData) (text_buffer : List Nat)
    (hnb : ∀ c ∈ codePoints text_buffer, c ∉ paired_chars) (j : Nat)
    (hd : (script_calls u text_buffer j).done = false) :
    ∃ runCps,
      codePoints (text_buffer.drop (script_calls u text_buffer j).offset) =
        runCps ++ codePoints (text_buffer.drop (script_calls u text_buffer (j + 1)).offset) ∧
      (script_calls u text_buffer j).offset ≤ (script_calls u text_buffer (j + 1)).offset ∧
      (script_calls u text_buffer (j + 1)).offset ≤ text_buffer.length ∧
      (script_calls u text_buffer (j + 1)).script =
        (match runCps.find? (fun c => isReal u (u.get_script c)) with
          | some c => u.get_script c
          | none => u.SCRIPT_COMMON) ∧
      (∀ c ∈ runCps, u.get_script c = u.SCRIPT_COMMON ∨ u.get_script c = u.SCRIPT_INHERITED ∨
        u.get_script c = (script_calls u text_buffer (j + 1)).script) ∧
      (1 ≤ j → ∃ c tail, runCps = c :: tail ∧ isReal u (u.get_script c) = true ∧
        u.get_script c ≠ (script_calls u text_buffer j).script) := by
  have hnb' : ∀ c ∈ codePoints text_buffer, pairIndex u c < 0 := by
    intro c hc
    rw [pairIndex_not_mem u c (hnb c hc)]
    decide
  obtain ⟨i1, i2, i3, i4⟩ := script_calls_plain u text_buffer hnb' j
  obtain ⟨runCps, a1, a2, a3, a4, a5, a6, a7, a8⟩ :=
    script_next_plain u text_buffer _ hd i1 i2 i3
  have hcall : script_calls u text_buffer (j + 1) =
      script_iterator_next u (script_calls u text_buffer j) text_buffer := rfl
  rw [hcall]
  refine ⟨runCps, a1, a2, a3, ?_, ?_, ?_⟩
  · rw [a5]
    simp [runScript, isReal_common]
  · intro c hc
    rcases a6 c hc with h | h
    · rcases (isReal_false_iff u _).1 h with h1 | h1
      · exact Or.inl h1
      · exact Or.inr (Or.inl h1)
    · exact Or.inr (Or.inr h)
  · intro hj
    obtain ⟨_, c, tail, hc1, hc2, hc3⟩ := i4 hj hd
    have hlt : (script_calls u text_buffer j).offset < text_buffer.length := by
      by_contra hge
      rw [List.drop_of_length_le (by omega)] at hc1
      simp [codePoints] at hc1
    have hne := a8 hlt
    rw [hc1] at a1
    cases runCps with
    | nil => exact absurd rfl hne
    | cons c' tail' =>
      rw [List.cons_append] at a1
      obtain ⟨h1, _⟩ := List.cons.inj a1
      subst h1
      exact ⟨c, tail', rfl, hc2, hc3⟩

set_option maxRecDepth 100000 in
theorem script_runs_without_brackets_witness :
    (∀ c ∈ codePoints [97, 0x20, 0x627, 0x628], c ∉ paired_chars) ∧
    (script_calls exampleUnicode [97, 0x20, 0x627, 0x628] 1).done = false ∧
    ∃ runCps,
      codePoints ([97, 0x20, 0x627, 0x628].drop
          (script_calls exampleUnicode [97, 0x20, 0x627, 0x628] 1).offset) =
        runCps ++ codePoints ([97, 0x20, 0x627, 0x628].drop
          (script_calls exampleUnicode [97, 0x20, 0x627, 0x628] (1 + 1)).offset) ∧
      (script_calls exampleUnicode [97, 0x20, 0x627, 0x628] 1).offset ≤
        (script_calls exampleUnicode [97, 0x20, 0x627, 0x628] (1 + 1)).offset ∧
      (script_calls exampleUnicode [97, 0x20, 0x627, 0x628] (1 + 1)).offset ≤
        [97, 0x20, 0x627, 0x628].length ∧
      (script_calls exampleUnicode [97, 0x20, 0x627, 0x628] (1 + 1)).script =
        (match runCps.find? (fun c => isReal exampleUnicode (exampleUnicode.get_script c)) with
          | some c => exampleUnicode.get_script c
          | none => exampleUnicode.SCRIPT_COMMON) ∧
      (∀ c ∈ runCps, exampleUnicode.get_script c = exampleUnicode.SCRIPT_COMMON ∨
        exampleUnicode.get_script c = exampleUnicode.SCRIPT_INHERITED ∨
        exampleUnicode.get_script c =
          (script_calls exampleUnicode [97, 0x20, 0x627, 0x628] (1 + 1)).script) ∧
      (1 ≤ 1 → ∃ c tail, runCps = c :: tail ∧
        isReal exampleUnicode (exampleUnicode.get_script c) = true ∧
        exampleUnicode.get_script c ≠
          (script_calls exampleUnicode [97, 0x20, 0x627, 0x628] 1).script) :=
  ⟨by decide, by decide,
    script_runs_without_brackets exampleUnicode [97, 0x20, 0x627, 0x628] (by decide) 1
      (by decide)⟩

/-! ## script_iterator_next on a bracketed run -/

theorem scriptLoop_at_end (u : UnicodeData) (text_buffer : List Nat) (fuel : Nat)
    (st : ScriptIteratorState) (h : text_buffer.length ≤ st.offset) :
    scriptLoop u text_buffer fuel st = st := by
  cases fuel with
  | zero => rfl
  | succ fuel => rw [scriptLoop, if_neg (by omega)]

/-- The iteration on an opening bracket while the running script is Common:
a frame with the bracket's index is pushed. -/
theorem scriptStep_open (u : UnicodeData) (text_buffer : List Nat) (st : ScriptIteratorState)
    (k : Nat) (hp : pairIndex u (decode text_buffer st.offset).1 = ((2 * k : Nat) : Int))
    (hcm : u.get_script (decode text_buffer st.offset).1 = u.SCRIPT_COMMON)
    (hs : st.script = u.SCRIPT_COMMON) :
    scriptStep u text_buffer st =
      ({ st with
          parens := st.parens ++ [{ index := ((2 * k : Nat) : Int), script := u.SCRIPT_COMMON }]
          offset := st.offset + (decode text_buffer st.offset).2 }, false) := by
  have hclass : classify u text_buffer st =
      { script := u.SCRIPT_COMMON
        parens := st.parens ++ [{ index := ((2 * k : Nat) : Int), script := u.SCRIPT_COMMON }]
        start_paren := st.start_paren } := by
    unfold classify pairedChar
    rw [hp, hcm, hs, if_pos (by omega), if_pos (by simp)]
  unfold scriptStep
  rw [hclass]
  simp [hs, isReal_common]

/-- The iteration on the closing bracket that matches the only frame, while the
running script is the real script of that frame. -/
theorem scriptStep_close (u : UnicodeData) (text_buffer : List Nat) (st : ScriptIteratorState)
    (k S : Nat) (hp : pairIndex u (decode text_buffer st.offset).1 = ((2 * k + 1 : Nat) : Int))
    (hS : isReal u S = true) (h1 : st.script = S)
    (h2 : st.parens = [{ index := ((2 * k : Nat) : Int), script := S }])
    (h3 : st.start_paren = 0) :
    scriptStep u text_buffer st =
      ({ st with offset := st.offset + (decode text_buffer st.offset).2 }, false) := by
  have hodd : ((2 * k + 1 : Nat) : Int) % 2 = 1 := by omega
  have hclass : classify u text_buffer st =
      { script := S, parens := st.parens, start_paren := st.start_paren } := by
    unfold classify pairedChar
    rw [hp, h2, h3, if_pos (by omega), if_neg (by rw [hodd]; decide), hodd]
    have hpi : ((2 * k + 1 : Nat) : Int) - 1 = ((2 * k : Nat) : Int) := by omega
    simp [hpi, List.rdropWhile]
  unfold scriptStep
  rw [hclass]
  cases st with
  | mk offset script done parens start_paren =>
    simp only at h1 h2 h3
    subst h1 h2 h3
    simp [hS]

theorem backfill_single (i : Int) (S T : Nat) :
    backfill S (((([{ index := i, script := T }] : List ParenInfo).length : Int) - 1 -
      (-1)).toNat) [{ index := i, script := T }] (-1) = ([{ index := i, script := S }], 0) := by
  simp [backfill, setScript]

theorem paired_chars_getD_mem (i : Nat) (h : i < 116) : paired_chars.getD i 0 ∈ paired_chars := by
  have hlen : paired_chars.length = 116 := rfl
  rw [List.getD_eq_getElem paired_chars 0 (by omega)]
  exact List.getElem_mem _

/-- The loop between an opening bracket and its closing bracket: with the
frame of the opening bracket on the stack, code points of script `S`, Common or
Inherited (at least one of script `S` when none was seen yet) followed by the
matching closing bracket are all consumed, and the running script is `S`. -/
theorem scriptLoop_bracketed (u : UnicodeData) (text_buffer : List Nat) (k S close : Nat)
    (hS : isReal u S = true) (hclp : pairIndex u close = ((2 * k + 1 : Nat) : Int)) :
    ∀ (fuel : Nat) (st : ScriptIteratorState) (mids : List Nat),
    st.offset ≤ text_buffer.length → text_buffer.length - st.offset ≤ fuel →
    codePoints (text_buffer.drop st.offset) = mids ++ [close] →
    (∀ c ∈ mids, pairIndex u c < 0 ∧ (u.get_script c = S ∨ isReal u (u.get_script c) = false)) →
    ((st.script = u.SCRIPT_COMMON ∧
        st.parens = [{ index := ((2 * k : Nat) : Int), script := u.SCRIPT_COMMON }] ∧
        st.start_paren = -1 ∧ ∃ c ∈ mids, u.get_script c = S) ∨
      (st.script = S ∧ st.parens = [{ index := ((2 * k : Nat) : Int), script := S }] ∧
        st.start_paren = 0)) →
    (scriptLoop u text_buffer fuel st).offset = text_buffer.length ∧
    (scriptLoop u text_buffer fuel st).script = S ∧
    (scriptLoop u text_buffer fuel st).done = st.done := by
  intro fuel
  induction fuel with
  | zero =>
    intro st mids h1 h2 hcps _ _
    rw [List.drop_of_length_le (by omega)] at hcps
    simp [codePoints] at hcps
  | succ fuel ih =>
    intro st mids h1 h2 hcps hmids hphase
    by_cases hlt : st.offset < text_buffer.length
    · obtain ⟨hcp, hj1, hj2⟩ := codePoints_drop text_buffer st.offset hlt
      rw [hcp] at hcps
      cases mids with
      | nil =>
        rw [List.nil_append] at hcps
        obtain ⟨hc1, hc2⟩ := List.cons.inj hcps
        have hend : text_buffer.length ≤ st.offset + (decode text_buffer st.offset).2 :=
          List.drop_eq_nil_iff.1 (codePoints_eq_nil _ hc2)
        rcases hphase with ⟨_, _, _, c, hc, _⟩ | ⟨p1, p2, p3⟩
        · exact absurd hc (List.not_mem_nil c)
        · have hstep := scriptStep_close u text_buffer st k S (by rw [hc1]; exact hclp) hS
            p1 p2 p3
          have hloop : scriptLoop u text_buffer (fuel + 1) st =
              { st with offset := st.offset + (decode text_buffer st.offset).2 } := by
            rw [scriptLoop, if_pos hlt, hstep]
            exact scriptLoop_at_end u text_buffer fuel _ hend
          rw [hloop]
          exact ⟨by simp only; omega, p1, rfl⟩
      | cons m mids =>
        rw [List.cons_append] at hcps
        obtain ⟨hc1, hc2⟩ := List.cons.inj hcps
        obtain ⟨hm1, hm2⟩ := hmids m (List.mem_cons_self _ _)
        rw [← hc1] at hm1 hm2
        have hstep := scriptStep_nonbracket u text_buffer st hm1
        have hrest : ∀ c ∈ mids, pairIndex u c < 0 ∧
            (u.get_script c = S ∨ isReal u (u.get_script c) = false) :=
          fun c hc => hmids c (List.mem_cons_of_mem _ hc)
        rcases hphase with ⟨p1, p2, p3, c, hc, hcS⟩ | ⟨p1, p2, p3⟩
        · cases hr : isReal u (u.get_script (decode text_buffer st.offset).1) with
          | false =>
            have hstep' : scriptStep u text_buffer st =
                ({ st with offset := st.offset + (decode text_buffer st.offset).2 }, false) := by
              rw [hstep, p1]
              simp [hr, isReal_common]
            have hloop : scriptLoop u text_buffer (fuel + 1) st = scriptLoop u text_buffer fuel
                { st with offset := st.offset + (decode text_buffer st.offset).2 } := by
              rw [scriptLoop, if_pos hlt, hstep']
            rw [hloop]
            have hc' : c ∈ mids := by
              rcases List.mem_cons.1 hc with hcm | hcm
              · have hf : isReal u S = false := by
                  rw [← hcS, hcm, ← hc1]
                  exact hr
                rw [hS] at hf
                exact absurd hf (by decide)
              · exact hcm
            exact ih _ mids (by simp only; omega) (by simp only; omega) hc2 hrest
              (Or.inl ⟨p1, p2, p3, c, hc', hcS⟩)
          | true =>
            have hmS : u.get_script (decode text_buffer st.offset).1 = S := by
              rcases hm2 with h | h
              · exact h
              · rw [hr] at h
                exact absurd h (by decide)
            have hstep' : scriptStep u text_buffer st =
                ({ st with
                    script := S
                    parens := [{ index := ((2 * k : Nat) : Int), script := S }]
                    start_paren := 0
                    offset := st.offset + (decode text_buffer st.offset).2 }, false) := by
              rw [hstep, p1, p2, p3, hmS, backfill_single]
              simp [hS, isReal_common]
            have hloop : scriptLoop u text_buffer (fuel + 1) st = scriptLoop u text_buffer fuel
                { st with
                    script := S
                    parens := [{ index := ((2 * k : Nat) : Int), script := S }]
                    start_paren := 0
                    offset := st.offset + (decode text_buffer st.offset).2 } := by
              rw [scriptLoop, if_pos hlt, hstep']
            rw [hloop]
            exact ih _ mids (by simp only; omega) (by simp only; omega) hc2 hrest
              (Or.inr ⟨rfl, rfl, rfl⟩)
        · have hstep' : scriptStep u text_buffer st =
              ({ st with offset := st.offset + (decode text_buffer st.offset).2 }, false) := by
            rw [hstep, p1]
            rcases hm2 with h | h
            · simp [hS, h]
            · simp [hS, h]
          have hloop : scriptLoop u text_buffer (fuel + 1) st = scriptLoop u text_buffer fuel
              { st with offset := st.offset + (decode text_buffer st.offset).2 } := by
            rw [scriptLoop, if_pos hlt, hstep']
          rw [hloop]
          exact ih _ mids (by simp only; omega) (by simp only; omega) hc2 hrest
            (Or.inr ⟨p1, p2, p3⟩)
    · rw [List.drop_of_length_le (by omega)] at hcps
      simp [codePoints] at hcps

/-- C16: bracket inheritance.  For a text made of an opening bracket of the
paired table, UTF-16 units whose code points are outside the table and have
script `S`, Common or Inherited with at least one of the real script `S`, and
the matching closing bracket, both brackets classified Common, the first call
of the script iterator consumes the whole text, ends the iteration, and reports
the script `S`. -/
theorem script_bracket_inheritance (u : UnicodeData) (k S : Nat) (middle : List Nat)
    (hk : k < 58)
    (hopen : u.get_script (paired_chars.getD (2 * k) 0) = u.SCRIPT_COMMON)
    (hclose : u.get_script (paired_chars.getD (2 * k + 1) 0) = u.SCRIPT_COMMON)
    (hS : isReal u S = true)
    (hmid : ∀ c ∈ codePoints middle, c ∉ paired_chars ∧
      (u.get_script c = S ∨ u.get_script c = u.SCRIPT_COMMON ∨
        u.get_script c = u.SCRIPT_INHERITED))
    (hex : ∃ c ∈ codePoints middle, u.get_script c = S) :
    (script_iterator_next u (script_init u) (bracketed k middle)).offset =
      (bracketed k middle).length ∧
    (script_iterator_next u (script_init u) (bracketed k middle)).done = true ∧
    (script_iterator_next u (script_init u) (bracketed k middle)).script = S := by
  have hom := paired_chars_getD_mem (2 * k) (by omega)
  have hcm := paired_chars_getD_mem (2 * k + 1) (by omega)
  have hcb := paired_chars_bmp _ hcm
  have hcps : codePoints (bracketed k middle) =
      paired_chars.getD (2 * k) 0 :: (codePoints middle ++ [paired_chars.getD (2 * k + 1) 0]) := by
    unfold bracketed
    rw [codePoints_cons_bmp _ (paired_chars_bmp _ hom),
      codePoints_append_single _ (by omega) middle.length middle (le_refl _)]
  have hlen : (bracketed k middle).length = middle.length + 1 + 1 := by
    simp [bracketed]
  have hlt : (script_init u).offset < (bracketed k middle).length := by
    rw [hlen]
    exact Nat.succ_pos _
  obtain ⟨hcp, hj1, hj2⟩ := codePoints_drop (bracketed k middle) (script_init u).offset hlt
  have hd0 : (bracketed k middle).drop (script_init u).offset = bracketed k middle := rfl
  rw [hd0, hcps] at hcp
  obtain ⟨hc1, hc2⟩ := List.cons.inj hcp
  have hpo : pairIndex u (decode (bracketed k middle) (script_init u).offset).1 =
      ((2 * k : Nat) : Int) := by
    rw [← hc1]
    unfold pairIndex
    rw [if_neg (by rw [hopen]; simp)]
    exact get_pair_index_table (2 * k) (by omega)
  have hpc : pairIndex u (paired_chars.getD (2 * k + 1) 0) = ((2 * k + 1 : Nat) : Int) := by
    unfold pairIndex
    rw [if_neg (by rw [hclose]; simp)]
    exact get_pair_index_table (2 * k + 1) (by omega)
  have hstep := scriptStep_open u (bracketed k middle) (script_init u) k hpo
    (by rw [← hc1]; exact hopen) rfl
  have hloop : scriptLoop u (bracketed k middle) (middle.length + 1 + 1) (script_init u) =
      scriptLoop u (bracketed k middle) (middle.length + 1)
        { script_init u with
          parens := (script_init u).parens ++
            [{ index := ((2 * k : Nat) : Int), script := u.SCRIPT_COMMON }]
          offset := (script_init u).offset +
            (decode (bracketed k middle) (script_init u).offset).2 } := by
    rw [scriptLoop, if_pos hlt, hstep]
  obtain ⟨r1, r2, r3⟩ := scriptLoop_bracketed u (bracketed k middle) k S
    (paired_chars.getD (2 * k + 1) 0) hS hpc (middle.length + 1)
    { script_init u with
      parens := (script_init u).parens ++
        [{ index := ((2 * k : Nat) : Int), script := u.SCRIPT_COMMON }]
      offset := (script_init u).offset +
        (decode (bracketed k middle) (script_init u).offset).2 }
    (codePoints middle) hj2
    (by
      simp only [hlen]
      have h0 : (script_init u).offset = 0 := rfl
      omega)
    hc2.symm
    (by
      intro c hc
      obtain ⟨hn, hs⟩ := hmid c hc
      refine ⟨by rw [pairIndex_not_mem u c hn]; decide, ?_⟩
      rcases hs with h | h | h
      · exact Or.inl h
      · exact Or.inr ((isReal_false_iff u _).2 (Or.inl h))
      · exact Or.inr ((isReal_false_iff u _).2 (Or.inr h)))
    (Or.inl ⟨rfl, rfl, rfl, hex⟩)
  rw [← hloop] at r1 r2 r3
  have hnext : script_iterator_next u (script_init u) (bracketed k middle) =
      { scriptLoop u (bracketed k middle) (middle.length + 1 + 1) (script_init u) with
        done := true } := by
    unfold script_iterator_next
    rw [if_neg (by simp [script_init])]
    have hfuel : (bracketed k middle).length - (script_init u).offset =
        middle.length + 1 + 1 := by
      rw [hlen]
      rfl
    have hst : ({ script_init u with script := u.SCRIPT_COMMON } : ScriptIteratorState) =
        script_init u := rfl
    simp only [hfuel, hst]
    rw [if_pos (by omega)]
  rw [hnext]
  exact ⟨r1, rfl, r2⟩

set_option maxRecDepth 1000000 in
theorem script_bracket_inheritance_witness :
    bracketed 0 [0x645, 0x631, 0x62d, 0x628, 0x627] =
      [0x28, 0x645, 0x631, 0x62d, 0x628, 0x627, 0x29] ∧
    isReal exampleUnicode 2 = true ∧
    (script_iterator_next exampleUnicode (script_init exampleUnicode)
      (bracketed 0 [0x645, 0x631, 0x62d, 0x628, 0x627])).offset =
      (bracketed 0 [0x645, 0x631, 0x62d, 0x628, 0x627]).length ∧
    (script_iterator_next exampleUnicode (script_init exampleUnicode)
      (bracketed 0 [0x645, 0x631, 0x62d, 0x628, 0x627])).done = true ∧
    (script_iterator_next exampleUnicode (script_init exampleUnicode)
      (bracketed 0 [0x645, 0x631, 0x62d, 0x628, 0x627])).script = 2 :=
  ⟨by decide, by decide,
    script_bracket_inheritance exampleUnicode 0 2 [0x645, 0x631, 0x62d, 0x628, 0x627]
      (by decide) (by decide) (by decide) (by decide) (by decide) (by decide)⟩

/-! ## narrowByWeight on the weights 100..900 -/

theorem distance_le_800 (w : Nat) (f : FontDescriptor) (hw : 100 ≤ w ∧ w ≤ 900)
    (hf : 100 ≤ f.weight ∧ f.weight ≤ 900) : distance w f ≤ 800 := by
  unfold distance
  split_ifs <;> omega

/-- With all weights in 100..900 one of the two trackers of the scan is set, so
the result is not the null pointer. -/
theorem narrowByWeight_some_100_900 (sort : StdSort) (fonts : List FontDescriptor)
    (properties : FontProperties) (hne : fonts ≠ [])
    (hw : 100 ≤ properties.weight ∧ properties.weight ≤ 900)
    (hf : ∀ f ∈ fonts, 100 ≤ f.weight ∧ f.weight ≤ 900) :
    ∃ r, narrowByWeight sort fonts properties = some r := by
  by_cases hex : ∃ d ∈ fonts, d.weight = properties.weight
  · obtain ⟨r, h1, _, _⟩ := narrowByWeight_exact sort fonts properties hex
    exact ⟨r, h1⟩
  · have hno : ∀ f ∈ fonts, f.weight ≠ properties.weight :=
      fun f hfm heq => hex ⟨f, hfm, heq⟩
    obtain ⟨best, ⟨hbn, _, han, _⟩, heq⟩ := narrowByWeight_scan sort fonts properties hno
    obtain ⟨f, hfm⟩ := List.exists_mem_of_ne_nil fonts hne
    have hdist := distance_le_800 properties.weight f hw (hf f hfm)
    rw [heq]
    cases hb : best.bestBelow with
    | some below =>
      cases ha : best.bestAbove with
      | some above =>
        by_cases hd : divider properties.weight ≤ 500
        · exact ⟨below, by simp [hd]⟩
        · exact ⟨above, by simp [hd]⟩
      | none => exact ⟨below, rfl⟩
    | none =>
      cases ha : best.bestAbove with
      | some above => exact ⟨above, rfl⟩
      | none =>
        exfalso
        by_cases hlt : f.weight < divider properties.weight
        · have := (hbn hb).2 f hfm hlt
          omega
        · have := (han ha).2 f hfm (by omega)
          omega

/-- C29: when the requested weight and every candidate weight lie in 100..900,
`narrowByWeight` returns, for every non-empty candidate list and every result of
`std::sort`, a descriptor (not the null pointer) that is an element of the list. -/
theorem narrowByWeight_non_null_100_900 (sort : StdSort) (fonts : List FontDescriptor)
    (properties : FontProperties) (hne : fonts ≠ [])
    (hw : 100 ≤ properties.weight ∧ properties.weight ≤ 900)
    (hf : ∀ f ∈ fonts, 100 ≤ f.weight ∧ f.weight ≤ 900) :
    ∃ r, narrowByWeight sort fonts properties = some r ∧ r ∈ fonts := by
  obtain ⟨r, hr⟩ := narrowByWeight_some_100_900 sort fonts properties hne hw hf
  exact ⟨r, hr, narrowByWeight_mem sort fonts properties r hr⟩

theorem narrowByWeight_non_null_100_900_witness :
    [mkFont 0 900 FontStyle.Normal] ≠ [] ∧
    (100 ≤ (mkRequest 100 FontStyle.Normal).weight ∧
      (mkRequest 100 FontStyle.Normal).weight ≤ 900) ∧
    ∃ r, narrowByWeight insertionStdSort [mkFont 0 900 FontStyle.Normal]
        (mkRequest 100 FontStyle.Normal) = some r ∧
      r ∈ [mkFont 0 900 FontStyle.Normal] :=
  ⟨by decide, by decide,
    narrowByWeight_non_null_100_900 insertionStdSort [mkFont 0 900 FontStyle.Normal]
      (mkRequest 100 FontStyle.Normal) (by decide) (by decide) (by decide)⟩

/-! ## query: the fallback loop and the registry -/

/-- C30: with no requested family, `query` returns the same sequence for any two
registries, and every descriptor in it is a descriptor of the system catalog. -/
theorem query_fallback_only_catalog (sort : StdSort) (m : FontManager)
    (properties : FontProperties) (registered1 registered2 : FontFaceSet)
    (fallbacks : List (List Nat)) (hfam : properties.families = []) :
    query sort m properties registered1 fallbacks =
      query sort m properties registered2 fallbacks ∧
    ∀ d, some d ∈ query sort m properties registered1 fallbacks → d ∈ catalog m := by
  have h : ∀ registered, query sort m properties registered fallbacks =
      fallbackEntries sort (catalog m) properties fallbacks [] := by
    intro registered
    rw [query_eq, hfam]
    rfl
  refine ⟨by rw [h, h], ?_⟩
  intro d hd
  rw [h] at hd
  rcases fallbackEntries_mem sort (catalog m) properties fallbacks [] d hd with hp | hp
  · exact absurd hp (List.not_mem_nil d)
  · exact hp

/-- C30 on a registry that holds a face named like the first fallback name. -/
theorem query_fallback_only_catalog_witness :
    (mkFamilyRequest [] 700 FontStyle.Normal).families = [] ∧
    query insertionStdSort
        (loadedManager [mkNamedFont 0 "Geneva" 400 FontStyle.Normal,
          mkNamedFont 1 "Arial" 700 FontStyle.Normal])
        (mkFamilyRequest [] 700 FontStyle.Normal)
        { facesHash := [(7, 0)],
          facesData := [liveSlot 7 (mkNamedFont 9 "Geneva" 700 FontStyle.Normal)] }
        [bytes "Geneva", bytes "Arial"] =
      [some (mkNamedFont 1 "Arial" 700 FontStyle.Normal)] ∧
    (query insertionStdSort
        (loadedManager [mkNamedFont 0 "Geneva" 400 FontStyle.Normal,
          mkNamedFont 1 "Arial" 700 FontStyle.Normal])
        (mkFamilyRequest [] 700 FontStyle.Normal)
        { facesHash := [(7, 0)],
          facesData := [liveSlot 7 (mkNamedFont 9 "Geneva" 700 FontStyle.Normal)] }
        [bytes "Geneva", bytes "Arial"] =
      query insertionStdSort
        (loadedManager [mkNamedFont 0 "Geneva" 400 FontStyle.Normal,
          mkNamedFont 1 "Arial" 700 FontStyle.Normal])
        (mkFamilyRequest [] 700 FontStyle.Normal) emptyFontFaceSet
        [bytes "Geneva", bytes "Arial"] ∧
      ∀ d, some d ∈ query insertionStdSort
          (loadedManager [mkNamedFont 0 "Geneva" 400 FontStyle.Normal,
            mkNamedFont 1 "Arial" 700 FontStyle.Normal])
          (mkFamilyRequest [] 700 FontStyle.Normal)
          { facesHash := [(7, 0)],
            facesData := [liveSlot 7 (mkNamedFont 9 "Geneva" 700 FontStyle.Normal)] }
          [bytes "Geneva", bytes "Arial"] →
        d ∈ catalog (loadedManager [mkNamedFont 0 "Geneva" 400 FontStyle.Normal,
          mkNamedFont 1 "Arial" 700 FontStyle.Normal])) :=
  ⟨rfl, by decide,
    query_fallback_only_catalog insertionStdSort
      (loadedManager [mkNamedFont 0 "Geneva" 400 FontStyle.Normal,
        mkNamedFont 1 "Arial" 700 FontStyle.Normal])
      (mkFamilyRequest [] 700 FontStyle.Normal)
      { facesHash := [(7, 0)],
        facesData := [liveSlot 7 (mkNamedFont 9 "Geneva" 700 FontStyle.Normal)] }
      emptyFontFaceSet [bytes "Geneva", bytes "Arial"] rfl⟩

/-! ## getGenericList -/

/-- C25: `getGenericList` returns a list exactly for the five keywords compared
byte for byte, each with its fixed list; a keyword in another case or with a
leading space gets no list, and `query` then gathers for it as for any family
name, from the registry and the system fonts. -/
theorem getGenericList_keywords :
    (∀ generic families, getGenericListMacos generic = some families ↔
      (generic = bytes "serif" ∧ families = [bytes "Times", bytes "Times New Roman"]) ∨
      (generic = bytes "sans-serif" ∧ families = [bytes "Helvetica", bytes "Arial"]) ∨
      (generic = bytes "monospace" ∧ families = [bytes "Menlo"]) ∨
      (generic = bytes "cursive" ∧ families = [bytes "Apple Chancery"]) ∨
      (generic = bytes "fantasy" ∧ families = [bytes "Papyrus"])) ∧
    (∀ generic, getGenericListMacos generic = none ↔
      generic ∉ [bytes "serif", bytes "sans-serif", bytes "monospace", bytes "cursive",
        bytes "fantasy"]) ∧
    getGenericListMacos (bytes "Sans-Serif") = none ∧
    getGenericListMacos (bytes " serif") = none ∧
    (∀ (m : FontManager) (registered : FontFaceSet) (family : List Nat),
      m.getGenericList = getGenericListMacos →
      family = bytes "Sans-Serif" ∨ family = bytes " serif" →
      gatherRequested m registered family [] =
        addSystemFonts (catalog m) family (addRegistered registered family [])) := by
  have h1 : bytes "sans-serif" ≠ bytes "serif" := by decide
  have h2 : bytes "monospace" ≠ bytes "serif" := by decide
  have h3 : bytes "monospace" ≠ bytes "sans-serif" := by decide
  have h4 : bytes "cursive" ≠ bytes "serif" := by decide
  have h5 : bytes "cursive" ≠ bytes "sans-serif" := by decide
  have h6 : bytes "cursive" ≠ bytes "monospace" := by decide
  have h7 : bytes "fantasy" ≠ bytes "serif" := by decide
  have h8 : bytes "fantasy" ≠ bytes "sans-serif" := by decide
  have h9 : bytes "fantasy" ≠ bytes "monospace" := by decide
  have h10 : bytes "fantasy" ≠ bytes "cursive" := by decide
  refine ⟨?_, ?_, by decide, by decide, ?_⟩
  · intro generic families
    unfold getGenericListMacos
    constructor
    · intro h
      split_ifs at h with c1 c2 c3 c4 c5
      · exact Or.inl ⟨c1, (Option.some.inj h).symm⟩
      · exact Or.inr (Or.inl ⟨c2, (Option.some.inj h).symm⟩)
      · exact Or.inr (Or.inr (Or.inl ⟨c3, (Option.some.inj h).symm⟩))
      · exact Or.inr (Or.inr (Or.inr (Or.inl ⟨c4, (Option.some.inj h).symm⟩)))
      · exact Or.inr (Or.inr (Or.inr (Or.inr ⟨c5, (Option.some.inj h).symm⟩)))
    · intro h
      rcases h with ⟨c, f⟩ | ⟨c, f⟩ | ⟨c, f⟩ | ⟨c, f⟩ | ⟨c, f⟩
      · rw [if_pos c, f]
      · rw [if_neg (by rw [c]; exact h1), if_pos c, f]
      · rw [if_neg (by rw [c]; exact h2), if_neg (by rw [c]; exact h3), if_pos c, f]
      · rw [if_neg (by rw [c]; exact h4), if_neg (by rw [c]; exact h5),
          if_neg (by rw [c]; exact h6), if_pos c, f]
      · rw [if_neg (by rw [c]; exact h7), if_neg (by rw [c]; exact h8),
          if_neg (by rw [c]; exact h9), if_neg (by rw [c]; exact h10), if_pos c, f]
  · intro generic
    unfold getGenericListMacos
    simp only [List.mem_cons, List.mem_singleton, List.not_mem_nil, or_false, not_or]
    constructor
    · intro h
      split_ifs at h with c1 c2 c3 c4 c5
      exact ⟨c1, c2, c3, c4, c5⟩
    · rintro ⟨c1, c2, c3, c4, c5⟩
      rw [if_neg c1, if_neg c2, if_neg c3, if_neg c4, if_neg c5]
  · intro m registered family hm hfam
    have hnone : m.getGenericList family = none := by
      rw [hm]
      rcases hfam with h | h <;> rw [h] <;> decide
    unfold gatherRequested
    rw [hnone]

/-! ## bidi_iterator_next: the run it reports -/

theorem bidiInner_run (levels : List Nat) (level n : Nat) :
    ∀ (fuel offset o : Nat) (sb : Bool),
    bidiInner levels level n fuel offset = some (o, sb) →
    ∀ i, offset ≤ i → i < o → levels[i]? = some level := by
  intro fuel
  induction fuel with
  | zero =>
    intro offset o sb h i h1 h2
    simp only [bidiInner, Option.some.injEq, Prod.mk.injEq] at h
    omega
  | succ fuel ih =>
    intro offset o sb h i h1 h2
    unfold bidiInner at h
    by_cases hlt : offset < n
    · rw [if_pos hlt] at h
      cases hl : levels[offset]? with
      | none => rw [hl] at h; simp at h
      | some l =>
        rw [hl] at h
        simp only at h
        by_cases hne : l = level
        · have hb : (l != level) = false := Bool.eq_false_iff.2 (fun hc => (bne_iff_ne.1 hc) hne)
          rw [hb] at h
          simp only [Bool.false_eq_true, if_false] at h
          by_cases hi : i = offset
          · rw [hi, hl, hne]
          · exact ih (offset + 1) o sb h i (by omega) h2
        · have hb : (l != level) = true := bne_iff_ne.2 hne
          rw [hb] at h
          simp only [if_true, Option.some.injEq, Prod.mk.injEq] at h
          omega
    · rw [if_neg hlt] at h
      simp only [Option.some.injEq, Prod.mk.injEq] at h
      omega

/-- C28: on a state that is not done at an offset `o` below the text length `n`,
with `n` levels, `bidi_iterator_next` returns (so no level is read at an index
`n` or above, which the embedding answers with `none`), sets `level` to
`levels[o]` and `offset` to an `o1` with `o < o1 ≤ n` such that every position of
`[o, o1)` has that level and `o1` is `n` or a position of another level, which
makes `o1` the smallest such index; `done` is set exactly when `o1 = n`. -/
theorem bidi_iterator_next_run (b : BidiIteratorState) (text_buffer : List Nat)
    (hd : b.done = false) (hlt : b.offset < text_buffer.length)
    (hlen : b.levels.length = text_buffer.length) :
    ∃ b1, bidi_iterator_next b text_buffer = some b1 ∧
      b.levels[b.offset]? = some b1.level ∧ b1.levels = b.levels ∧
      b.offset < b1.offset ∧ b1.offset ≤ text_buffer.length ∧
      (∀ i, b.offset ≤ i → i < b1.offset → b.levels[i]? = some b1.level) ∧
      (b1.offset < text_buffer.length →
        ∃ l, b.levels[b1.offset]? = some l ∧ l ≠ b1.level) ∧
      (∀ o2, b.offset < o2 → o2 ≤ text_buffer.length →
        (o2 = text_buffer.length ∨ ∃ l, b.levels[o2]? = some l ∧ l ≠ b1.level) →
        b1.offset ≤ o2) ∧
      (b1.done = true ↔ b1.offset = text_buffer.length) := by
  obtain ⟨b1, h⟩ := bidi_next_isSome b text_buffer (by omega) (Or.inl hlt)
  obtain ⟨s1, s2, s3, s4⟩ := bidi_next_spec b b1 text_buffer hd hlt h
  have hrun : ∀ i, b.offset ≤ i → i < b1.offset → b.levels[i]? = some b1.level := by
    have h' := h
    unfold bidi_iterator_next at h'
    rw [hd] at h'
    simp only [Bool.false_eq_true, if_false] at h'
    cases hl : b.levels[b.offset]? with
    | none => rw [hl] at h'; simp at h'
    | some level =>
      rw [hl] at h'
      simp only at h'
      rw [bidiOuter_eq _ _ _ _ hlt] at h'
      cases hin : bidiInner b.levels level text_buffer.length
          (text_buffer.length - b.offset) b.offset with
      | none => rw [hin] at h'; simp at h'
      | some r =>
        obtain ⟨o, sb⟩ := r
        rw [hin] at h'
        simp only [Option.map_some', Option.some.injEq] at h'
        subst h'
        exact bidiInner_run b.levels level text_buffer.length _ _ o sb hin
  have hle : b1.offset ≤ text_buffer.length := by
    rcases s4 with ⟨_, h2⟩ | ⟨_, h2, _⟩ <;> omega
  refine ⟨b1, h, s3, s2, s1, hle, hrun, ?_, ?_, ?_⟩
  · intro hlt1
    rcases s4 with ⟨_, h2⟩ | ⟨_, _, l, h3, h4⟩
    · omega
    · exact ⟨l, by rw [← s2]; exact h3, h4⟩
  · intro o2 h1 h2 h3
    by_contra hcon
    have hr := hrun o2 (by omega) (by omega)
    rcases h3 with h3 | ⟨l, h3, h4⟩
    · omega
    · rw [hr] at h3
      exact h4 (Option.some.inj h3).symm
  · rcases s4 with ⟨h1, h2⟩ | ⟨h1, h2, _⟩
    · exact ⟨fun _ => h2, fun _ => h1⟩
    · constructor
      · intro hc
        rw [h1] at hc
        exact absurd hc (by decide)
      · intro hc
        omega

theorem bidi_iterator_next_run_witness :
    (bidi_init [0, 0, 1, 1, 0]).done = false ∧
    ∃ b1, bidi_iterator_next (bidi_init [0, 0, 1, 1, 0]) [97, 98, 0x627, 0x628, 99] = some b1 ∧
      (bidi_init [0, 0, 1, 1, 0]).levels[(bidi_init [0, 0, 1, 1, 0]).offset]? = some b1.level ∧
      b1.levels = (bidi_init [0, 0, 1, 1, 0]).levels ∧
      (bidi_init [0, 0, 1, 1, 0]).offset < b1.offset ∧
      b1.offset ≤ [97, 98, 0x627, 0x628, 99].length ∧
      (∀ i, (bidi_init [0, 0, 1, 1, 0]).offset ≤ i → i < b1.offset →
        (bidi_init [0, 0, 1, 1, 0]).levels[i]? = some b1.level) ∧
      (b1.offset < [97, 98, 0x627, 0x628, 99].length →
        ∃ l, (bidi_init [0, 0, 1, 1, 0]).levels[b1.offset]? = some l ∧ l ≠ b1.level) ∧
      (∀ o2, (bidi_init [0, 0, 1, 1, 0]).offset < o2 → o2 ≤ [97, 98, 0x627, 0x628, 99].length →
        (o2 = [97, 98, 0x627, 0x628, 99].length ∨
          ∃ l, (bidi_init [0, 0, 1, 1, 0]).levels[o2]? = some l ∧ l ≠ b1.level) →
        b1.offset ≤ o2) ∧
      (b1.done = true ↔ b1.offset = [97, 98, 0x627, 0x628, 99].length) :=
  ⟨rfl, bidi_iterator_next_run (bidi_init [0, 0, 1, 1, 0]) [97, 98, 0x627, 0x628, 99] rfl
    (by decide) rfl⟩

/-! ## itemize_next on an empty text -/

/-- C24 fails in the code: on an empty text with an empty level array the first
statement of `bidi_iterator_next` after the `done` test reads `levels[0]`, outside
the array, so neither it nor `itemize_next` completes within the array.  Only
when the array holds at least one level does the call leave offset 0 with `done`
set. -/
theorem itemize_next_empty_text_reads_levels :
    bidi_iterator_next (bidi_init []) [] = none ∧
    (∀ u : UnicodeData, itemize_next u (itemize_init u []) [] = none) ∧
    (∀ (u : UnicodeData) (level : Nat) (rest : List Nat),
      itemize_next u (itemize_init u (level :: rest)) [] =
        some { offset := 0, done := true,
               bidi_state := { offset := 0, level := level, done := true,
                               levels := level :: rest },
               script_state := { offset := 0, script := u.SCRIPT_COMMON, done := true,
                                 parens := [], start_paren := -1 } }) := by
  refine ⟨rfl, fun u => rfl, fun u level rest => ?_⟩
  simp [itemize_next, itemize_init, bidi_iterator_next, bidiOuter, script_iterator_next,
    scriptLoop]

/-! ## script_iterator_next: surrogate pairs -/

theorem decode_pair (text_buffer : List Nat) (o h l : Nat)
    (ho : text_buffer[o]? = some h) (hl : text_buffer[o + 1]? = some l)
    (hh : 0xd800 ≤ h ∧ h ≤ 0xdbff) (hlo : 0xdc00 ≤ l ∧ l ≤ 0xdfff) :
    decode text_buffer o = ((h - 0xd800) * 0x400 + (l - 0xdc00) + 0x10000, 2) := by
  have h1 : o + 1 < text_buffer.length := by
    by_contra hc
    rw [List.getElem?_eq_none (by omega)] at hl
    exact absurd hl (by simp)
  have h2 : text_buffer.getD o 0 = h := by
    rw [List.getD_eq_getElem?_getD, ho]; rfl
  have h3 : text_buffer.getD (o + 1) 0 = l := by
    rw [List.getD_eq_getElem?_getD, hl]; rfl
  unfold decode
  simp only [h2, h3]
  rw [if_pos h1, if_pos (by simp; omega)]

theorem decode_single (text_buffer : List Nat) (o c : Nat) (ho : text_buffer[o]? = some c)
    (hno : ¬ ((0xd800 ≤ c ∧ c ≤ 0xdbff) ∧
      ∃ l, text_buffer[o + 1]? = some l ∧ 0xdc00 ≤ l ∧ l ≤ 0xdfff)) :
    decode text_buffer o = (c, 1) := by
  have h2 : text_buffer.getD o 0 = c := by
    rw [List.getD_eq_getElem?_getD, ho]; rfl
  unfold decode
  simp only [h2]
  by_cases h1 : o + 1 < text_buffer.length
  · rw [if_pos h1]
    have h3 : text_buffer[o + 1]? = some (text_buffer.getD (o + 1) 0) := by
      rw [List.getD_eq_getElem?_getD, List.getElem?_eq_getElem h1]; rfl
    rw [if_neg]
    intro hc
    simp only [Bool.and_eq_true, decide_eq_true_eq] at hc
    exact hno ⟨hc.1, _, h3, hc.2⟩
  · rw [if_neg h1]

theorem decode_two (text_buffer : List Nat) (x : Nat) (h : (decode text_buffer x).2 = 2) :
    (0xd800 ≤ text_buffer.getD x 0 ∧ text_buffer.getD x 0 ≤ 0xdbff) ∧
      (0xdc00 ≤ text_buffer.getD (x + 1) 0 ∧ text_buffer.getD (x + 1) 0 ≤ 0xdfff) := by
  unfold decode at h
  simp only at h
  split_ifs at h with h1 h2
  · simpa using h2
  · simp at h
  · simp at h

theorem scriptStep_offset (u : UnicodeData) (text_buffer : List Nat)
    (st : ScriptIteratorState) :
    (scriptStep u text_buffer st).1.offset = st.offset ∨
      (scriptStep u text_buffer st).1.offset =
        st.offset + (decode text_buffer st.offset).2 := by
  cases hb : (scriptStep u text_buffer st).2 with
  | false => exact Or.inr (scriptStep_continue u text_buffer st hb)
  | true =>
    left
    rw [(scriptStep_break u text_buffer st hb).1]

/-- A jump of the script iterator never lands between the halves of a
surrogate pair. -/
theorem jump_not_inside (text_buffer : List Nat) (o h l x : Nat)
    (ho : text_buffer[o]? = some h) (hl : text_buffer[o + 1]? = some l)
    (hh : 0xd800 ≤ h ∧ h ≤ 0xdbff) (hlo : 0xdc00 ≤ l ∧ l ≤ 0xdfff) :
    x + (decode text_buffer x).2 ≠ o + 1 := by
  intro hc
  rcases decode_jump text_buffer x with hj | ⟨hj, _⟩
  · have hxo : x = o := by omega
    rw [hxo, decode_pair text_buffer o h l ho hl hh hlo] at hj
    simp at hj
  · obtain ⟨_, h2⟩ := decode_two text_buffer x hj
    have hxo : x + 1 = o := by omega
    have h3 : text_buffer.getD (x + 1) 0 = h := by
      rw [hxo, List.getD_eq_getElem?_getD, ho]; rfl
    omega

theorem scriptLoop_not_inside (u : UnicodeData) (text_buffer : List Nat) (o h l : Nat)
    (ho : text_buffer[o]? = some h) (hl : text_buffer[o + 1]? = some l)
    (hh : 0xd800 ≤ h ∧ h ≤ 0xdbff) (hlo : 0xdc00 ≤ l ∧ l ≤ 0xdfff) :
    ∀ (fuel : Nat) (st : ScriptIteratorState), st.offset ≠ o + 1 →
    (scriptLoop u text_buffer fuel st).offset ≠ o + 1 := by
  intro fuel
  induction fuel with
  | zero => intro st hst; exact hst
  | succ fuel ih =>
    intro st hst
    rw [scriptLoop]
    by_cases hlt : st.offset < text_buffer.length
    · rw [if_pos hlt]
      have hoff := scriptStep_offset u text_buffer st
      have hnext : (scriptStep u text_buffer st).1.offset ≠ o + 1 := by
        rcases hoff with h1 | h1
        · rw [h1]; exact hst
        · rw [h1]; exact jump_not_inside text_buffer o h l st.offset ho hl hh hlo
      cases hs : scriptStep u text_buffer st with
      | mk st1 brk =>
        rw [hs] at hnext
        cases brk with
        | true => exact hnext
        | false => exact ih st1 hnext
    · rw [if_neg hlt]; exact hst

theorem script_next_not_inside (u : UnicodeData) (text_buffer : List Nat) (o h l : Nat)
    (ho : text_buffer[o]? = some h) (hl : text_buffer[o + 1]? = some l)
    (hh : 0xd800 ≤ h ∧ h ≤ 0xdbff) (hlo : 0xdc00 ≤ l ∧ l ≤ 0xdfff)
    (s : ScriptIteratorState) (hs : s.offset ≠ o + 1) :
    (script_iterator_next u s text_buffer).offset ≠ o + 1 := by
  unfold script_iterator_next
  by_cases hd : s.done = true
  · rw [if_pos hd]; exact hs
  · rw [if_neg hd]
    have := scriptLoop_not_inside u text_buffer o h l ho hl hh hlo
      (text_buffer.length - s.offset) { s with script := u.SCRIPT_COMMON } hs
    simp only
    split_ifs
    · exact this
    · exact this

/-- C23: a high surrogate `h` at offset `o` immediately followed by a low
surrogate `l` is decoded to the one code point
`0x10000 + (h - 0xD800) * 0x400 + (l - 0xDC00)`, which lies in 0x10000..0x10FFFF,
with a jump of two code units; that code point is what the iteration standing at
`o` hands to `get_script`, the iteration leaves the offset at `o` (on `break`) or
at `o + 2`, and no state of the script iterator has its offset at `o + 1`.  Any
other code unit, a lone surrogate included, is decoded to itself with a jump of
one. -/
theorem script_surrogate_pairs (u : UnicodeData) (text_buffer : List Nat) :
    (∀ o h l, text_buffer[o]? = some h → text_buffer[o + 1]? = some l →
      0xd800 ≤ h ∧ h ≤ 0xdbff → 0xdc00 ≤ l ∧ l ≤ 0xdfff →
      decode text_buffer o = (0x10000 + (h - 0xd800) * 0x400 + (l - 0xdc00), 2) ∧
      0x10000 ≤ (decode text_buffer o).1 ∧ (decode text_buffer o).1 ≤ 0x10ffff ∧
      (∀ st : ScriptIteratorState, st.offset = o →
        classify u text_buffer st =
          pairedChar st (u.get_script (0x10000 + (h - 0xd800) * 0x400 + (l - 0xdc00)))
            (pairIndex u (0x10000 + (h - 0xd800) * 0x400 + (l - 0xdc00))) ∧
        ((scriptStep u text_buffer st).1.offset = o ∨
          (scriptStep u text_buffer st).1.offset = o + 2)) ∧
      (∀ j, (script_calls u text_buffer j).offset ≠ o + 1)) ∧
    (∀ o c, text_buffer[o]? = some c →
      ¬ ((0xd800 ≤ c ∧ c ≤ 0xdbff) ∧
        ∃ l, text_buffer[o + 1]? = some l ∧ 0xdc00 ≤ l ∧ l ≤ 0xdfff) →
      decode text_buffer o = (c, 1) ∧
      (∀ st : ScriptIteratorState, st.offset = o →
        classify u text_buffer st = pairedChar st (u.get_script c) (pairIndex u c) ∧
        ((scriptStep u text_buffer st).1.offset = o ∨
          (scriptStep u text_buffer st).1.offset = o + 1))) := by
  constructor
  · intro o h l ho hl hh hlo
    have hdec : decode text_buffer o =
        (0x10000 + (h - 0xd800) * 0x400 + (l - 0xdc00), 2) := by
      rw [decode_pair text_buffer o h l ho hl hh hlo]
      exact Prod.ext (by simp only; omega) rfl
    refine ⟨hdec, by rw [hdec]; simp only; omega, by rw [hdec]; simp only; omega, ?_, ?_⟩
    · intro st hst
      refine ⟨by unfold classify; rw [hst, hdec], ?_⟩
      have := scriptStep_offset u text_buffer st
      rw [hst, hdec] at this
      exact this
    · intro j
      induction j with
      | zero =>
        have h0 : (script_calls u text_buffer 0).offset = 0 := rfl
        omega
      | succ j ih =>
        exact script_next_not_inside u text_buffer o h l ho hl hh hlo _ ih
  · intro o c ho hno
    have hdec := decode_single text_buffer o c ho hno
    refine ⟨hdec, ?_⟩
    intro st hst
    refine ⟨by unfold classify; rw [hst, hdec], ?_⟩
    have := scriptStep_offset u text_buffer st
    rw [hst, hdec] at this
    exact this

set_option maxRecDepth 100000 in
/-- C23 on the text U+1F600 (the units D83D DE00), a lone high surrogate, `a`. -/
theorem script_surrogate_pairs_witness :
    decode [0xd83d, 0xde00, 0xd83d, 97] 0 = (0x1f600, 2) ∧
    decode [0xd83d, 0xde00, 0xd83d, 97] 2 = (0xd83d, 1) ∧
    (script_calls exampleUnicode [0xd83d, 0xde00, 0xd83d, 97] 1).offset = 4 ∧
    (∀ j, (script_calls exampleUnicode [0xd83d, 0xde00, 0xd83d, 97] j).offset ≠ 0 + 1) :=
  ⟨by decide, by decide, by decide,
    ((script_surrogate_pairs exampleUnicode [0xd83d, 0xde00, 0xd83d, 97]).1 0 0xd83d 0xde00
      rfl rfl (by decide) (by decide)).2.2.2.2⟩

/-! ## script_iterator_next: the closing bracket -/

theorem getLast?_snoc (l : List ParenInfo) (a : ParenInfo) : (l ++ [a]).getLast? = some a := by
  simp

/-- The pop loop, run for at most as many iterations as the stack has frames,
is what `pairedChar` computes with `rdropWhile`. -/
theorem popUnmatched_eq (pi : Int) :
    ∀ (fuel : Nat) (parens : List ParenInfo), parens.length ≤ fuel →
    popUnmatched pi fuel parens = parens.rdropWhile (fun frame => frame.index != pi) := by
  intro fuel
  induction fuel with
  | zero =>
    intro parens h
    have : parens = [] := List.length_eq_zero.1 (by omega)
    subst this
    rfl
  | succ fuel ih =>
    intro parens h
    rcases List.eq_nil_or_concat parens with hnil | ⟨init, top, hcat⟩
    · subst hnil; rfl
    · subst hcat
      rw [popUnmatched]
      simp only [List.concat_eq_append, getLast?_snoc, List.dropLast_concat]
      by_cases hne : (top.index != pi) = true
      · rw [if_pos hne, ih init (by simp at h; omega),
          List.rdropWhile_concat_pos (fun frame => frame.index != pi) init top hne]
      · rw [if_neg hne,
          List.rdropWhile_concat_neg (fun frame => frame.index != pi) init top hne]

theorem rdropWhile_split (p : ParenInfo → Bool) :
    ∀ (l : List ParenInfo), ∃ discarded, l = l.rdropWhile p ++ discarded ∧
      (∀ f ∈ discarded, p f = true) ∧
      (∀ top, (l.rdropWhile p).getLast? = some top → p top = false) := by
  intro l
  induction l using List.reverseRecOn with
  | nil => exact ⟨[], by simp, by simp, by simp⟩
  | append_singleton init top ih =>
    by_cases hp : p top = true
    · obtain ⟨d, h1, h2, h3⟩ := ih
      rw [List.rdropWhile_concat_pos _ _ _ hp]
      refine ⟨d ++ [top], ?_, ?_, h3⟩
      · rw [← List.append_assoc, ← h1]
      · intro f hf
        rcases List.mem_append.1 hf with hf | hf
        · exact h2 f hf
        · rw [List.mem_singleton.1 hf]; exact hp
    · rw [List.rdropWhile_concat_neg _ _ _ hp]
      refine ⟨[], by simp, by simp, ?_⟩
      intro t ht
      simp only [getLast?_snoc, Option.some.injEq] at ht
      rw [← ht]
      simpa using hp

theorem setScript_index (parens : List ParenInfo) (i : Int) (script : Nat) :
    (setScript parens i script).map (fun frame => frame.index) =
      parens.map (fun frame => frame.index) := by
  unfold setScript
  cases h : parens[i.toNat]? with
  | none => rfl
  | some frame =>
    simp only
    split_ifs
    · obtain ⟨hlt, hget⟩ := List.getElem?_eq_some_iff.1 h
      apply List.ext_getElem
      · simp
      · intro n h1 h2
        simp only [List.getElem_map, List.getElem_set]
        split_ifs with heq
        · subst heq
          simp [hget]
        · rfl
    · rfl

theorem backfill_index (script : Nat) :
    ∀ (fuel : Nat) (parens : List ParenInfo) (start_paren : Int),
    (backfill script fuel parens start_paren).1.map (fun frame => frame.index) =
      parens.map (fun frame => frame.index) := by
  intro fuel
  induction fuel with
  | zero => intro parens start_paren; rfl
  | succ fuel ih =>
    intro parens start_paren
    rw [backfill]
    split_ifs
    · rw [ih, setScript_index]
    · rfl

/-- C27: in the paired-character block, a closing bracket (odd pair index `p`,
its pair being the frames of index `p - 1`) met with a non-empty stack pops
frames from the top until the top frame has index `p - 1` or the stack is
empty: the frames left are a prefix of the stack, every discarded frame has
another index, and the closer's script becomes the recorded script of the top
frame exactly when a frame is left.  Met with an empty stack it leaves the stack
empty and its script alone, also at the end of the iteration.  A code point not
classified Common, bracket or not, leaves the stack as it is in the block, and
at the end of the iteration the stack has the same frames by index. -/
theorem script_closing_bracket (u : UnicodeData) (text_buffer : List Nat)
    (st : ScriptIteratorState) :
    (0 ≤ pairIndex u (decode text_buffer st.offset).1 →
      pairIndex u (decode text_buffer st.offset).1 % 2 = 1 → st.parens ≠ [] →
      (classify u text_buffer st).parens =
        popUnmatched (pairIndex u (decode text_buffer st.offset).1 - 1) st.parens.length
          st.parens ∧
      (∃ discarded, st.parens = (classify u text_buffer st).parens ++ discarded ∧
        ∀ f ∈ discarded, f.index ≠ pairIndex u (decode text_buffer st.offset).1 - 1) ∧
      (∀ top, (classify u text_buffer st).parens.getLast? = some top →
        top.index = pairIndex u (decode text_buffer st.offset).1 - 1 ∧
          (classify u text_buffer st).script = top.script) ∧
      ((classify u text_buffer st).parens = [] →
        (classify u text_buffer st).script = u.get_script (decode text_buffer st.offset).1)) ∧
    (0 ≤ pairIndex u (decode text_buffer st.offset).1 →
      pairIndex u (decode text_buffer st.offset).1 % 2 = 1 → st.parens = [] →
      (classify u text_buffer st).parens = [] ∧
      (classify u text_buffer st).script = u.get_script (decode text_buffer st.offset).1 ∧
      (scriptStep u text_buffer st).1.parens = []) ∧
    (u.get_script (decode text_buffer st.offset).1 ≠ u.SCRIPT_COMMON →
      (classify u text_buffer st).parens = st.parens ∧
      (classify u text_buffer st).script = u.get_script (decode text_buffer st.offset).1 ∧
      (scriptStep u text_buffer st).1.parens.map (fun frame => frame.index) =
        st.parens.map (fun frame => frame.index)) := by
  refine ⟨?_, ?_, ?_⟩
  · intro h0 hodd hne
    have hpar : (classify u text_buffer st).parens =
        st.parens.rdropWhile
          (fun frame => frame.index != pairIndex u (decode text_buffer st.offset).1 - 1) := by
      unfold classify
      rw [pairedChar_parens, if_pos h0, if_neg (by rw [hodd]; decide),
        if_pos (by simpa using hne), hodd]
    have hscr : (classify u text_buffer st).script =
        match (st.parens.rdropWhile
          (fun frame => frame.index != pairIndex u (decode text_buffer st.offset).1 - 1)).getLast?
          with
        | some top => top.script
        | none => u.get_script (decode text_buffer st.offset).1 := by
      unfold classify
      rw [pairedChar_script, if_pos h0, if_neg (by rw [hodd]; decide),
        if_pos (by simpa using hne), hodd]
    obtain ⟨discarded, d1, d2, d3⟩ := rdropWhile_split
      (fun frame => frame.index != pairIndex u (decode text_buffer st.offset).1 - 1) st.parens
    refine ⟨?_, ?_, ?_, ?_⟩
    · rw [hpar, popUnmatched_eq _ _ _ (le_refl _)]
    · refine ⟨discarded, by rw [hpar]; exact d1, ?_⟩
      intro f hf
      exact bne_iff_ne.1 (d2 f hf)
    · intro top htop
      rw [hpar] at htop
      refine ⟨?_, ?_⟩
      · have := d3 top htop
        simpa using this
      · rw [hscr, htop]
    · intro hnil
      rw [hpar] at hnil
      rw [hscr, hnil]
      rfl
  · intro h0 hodd hnil
    have hpar : (classify u text_buffer st).parens = [] := by
      unfold classify
      rw [pairedChar_parens, if_pos h0, if_neg (by rw [hodd]; decide),
        if_neg (by simp [hnil]), hnil]
    have hscr : (classify u text_buffer st).script =
        u.get_script (decode text_buffer st.offset).1 := by
      unfold classify
      rw [pairedChar_script, if_pos h0, if_neg (by rw [hodd]; decide),
        if_neg (by simp [hnil])]
    refine ⟨hpar, hscr, ?_⟩
    have hcm : u.get_script (decode text_buffer st.offset).1 = u.SCRIPT_COMMON := by
      by_contra hc
      have : pairIndex u (decode text_buffer st.offset).1 = -1 := by
        unfold pairIndex
        rw [if_pos (bne_iff_ne.2 hc)]
      omega
    cases hb : (scriptStep u text_buffer st).2 with
    | true =>
      rw [(scriptStep_break u text_buffer st hb).1]
      exact hpar
    | false =>
      have hreal : isReal u (classify u text_buffer st).script = false := by
        rw [hscr, hcm]; exact isReal_common u
      unfold scriptStep
      simp only [hreal, Bool.not_false, Bool.and_false, Bool.or_true, Bool.true_or,
        Bool.false_eq_true, if_true, if_false]
      exact hpar
  · intro hnc
    have hp : pairIndex u (decode text_buffer st.offset).1 < 0 := by
      unfold pairIndex
      rw [if_pos (bne_iff_ne.2 hnc)]
      decide
    have hclass := classify_nonbracket u text_buffer st hp
    refine ⟨by rw [hclass], by rw [hclass], ?_⟩
    rw [scriptStep_nonbracket u text_buffer st hp]
    split_ifs
    · simp only
      exact backfill_index _ _ _ _
    · rfl
    · rfl

set_option maxRecDepth 100000 in
/-- C27 on the closing parenthesis met with the stack `(`, `[` (indices 0 and 4):
the frame of `[` is discarded and the script recorded for `(` is taken. -/
theorem script_closing_bracket_witness :
    (classify exampleUnicode [0x29]
        { offset := 0, script := 1, done := false,
          parens := [{ index := 0, script := 2 }, { index := 4, script := 1 }],
          start_paren := 1 }).parens =
      popUnmatched (pairIndex exampleUnicode (decode [0x29] 0).1 - 1) 2
        [{ index := 0, script := 2 }, { index := 4, script := 1 }] ∧
    classify exampleUnicode [0x29]
        { offset := 0, script := 1, done := false,
          parens := [{ index := 0, script := 2 }, { index := 4, script := 1 }],
          start_paren := 1 } =
      { script := 2, parens := [{ index := 0, script := 2 }], start_paren := 0 } :=
  ⟨((script_closing_bracket exampleUnicode [0x29]
      { offset := 0, script := 1, done := false,
        parens := [{ index := 0, script := 2 }, { index := 4, script := 1 }],
        start_paren := 1 }).1 (by decide) (by decide) (by decide)).1, by decide⟩

/-! ## query: the assertions of the narrowing steps -/

theorem narrowByStyle_ne_nil (fonts : List FontDescriptor) (properties : FontProperties)
    (hne : fonts ≠ []) : narrowByStyle fonts properties ≠ [] := by
  have hfirst := chooseStyle_first fonts properties hne
  obtain ⟨_, h2⟩ := narrowByStyleLoop_spec (chooseStyle fonts properties) fonts.length 0 fonts
  have hany := List.find?_some hfirst
  simp only [List.any_eq_true, beq_iff_eq] at hany
  obtain ⟨f, hf, hs⟩ := hany
  have hfin : f ∈ fonts.filter (fun f => f.style == chooseStyle fonts properties) := by
    simp [hf, hs]
  have := h2.symm.subset hfin
  exact List.ne_nil_of_mem (List.mem_filter.1 this).1

theorem narrowChecked_eq (sort : StdSort) (properties : FontProperties) (st : QueryState)
    (familyResults : List FontDescriptor) (h : familyResults.length > 1) :
    narrowChecked sort properties st familyResults =
      some { allFamilyResults := st.allFamilyResults ++
               [narrowByWeight sort (narrowByStyle familyResults properties) properties]
             familyResults := [] } := by
  have hne : familyResults ≠ [] := by
    intro hc; subst hc; simp at h
  have hn := narrowByStyle_ne_nil familyResults properties hne
  have hlen : (sort.run (narrowByStyle familyResults properties)).length ≠ 0 := by
    rw [(sort.perm _).length_eq]
    exact fun hc => hn (List.length_eq_zero.1 hc)
  unfold narrowChecked narrowByStyleChecked narrowByWeightChecked
  rw [if_pos h]
  simp only
  rw [if_pos (bne_iff_ne.2 hlen)]
  rfl

theorem requestedStepChecked_eq (sort : StdSort) (m : FontManager)
    (properties : FontProperties) (registered : FontFaceSet) (st : QueryState)
    (family : List Nat) :
    requestedStepChecked sort m properties registered st family =
      some (requestedStep sort m properties registered st family) := by
  unfold requestedStepChecked requestedStep
  simp only
  split_ifs with h1 h2
  · rfl
  · exact narrowChecked_eq sort properties st _ h2
  · rfl

theorem fallbackStepChecked_eq (sort : StdSort) (m : FontManager)
    (properties : FontProperties) (st : QueryState) (fallback : List Nat) :
    fallbackStepChecked sort m properties st fallback =
      some (fallbackStep sort m properties st fallback) := by
  unfold fallbackStepChecked fallbackStep
  simp only
  split_ifs with h1
  · exact narrowChecked_eq sort properties st _ h1
  · rfl

theorem loopChecked_eq (stepChecked : QueryState → List Nat → Option QueryState)
    (step : QueryState → List Nat → QueryState)
    (h : ∀ st name, stepChecked st name = some (step st name)) :
    ∀ (names : List (List Nat)) (st : QueryState),
    loopChecked stepChecked names st = some (names.foldl step st) := by
  intro names
  induction names with
  | nil => intro st; rfl
  | cons name rest ih =>
    intro st
    rw [loopChecked, h st name]
    exact ih (step st name)

/-- C22: in `query`, for every result of `std::sort`, manager, request, registry
and fallback list, no assertion of `narrowByStyle` or `narrowByWeight` fails:
the execution with the assertions in place ends with the result of `query`.
The assertion of `narrowByStyle` fails exactly on fewer than 2 candidates and
that of `narrowByWeight` exactly on none, so `narrowByStyle` is only reached
with at least 2 candidates and `narrowByWeight` with at least 1. -/
theorem query_asserts_hold (sort : StdSort) (m : FontManager) (properties : FontProperties)
    (registered : FontFaceSet) (fallbacks : List (List Nat)) :
    queryChecked sort m properties registered fallbacks =
      some (query sort m properties registered fallbacks) ∧
    (∀ fonts, narrowByStyleChecked fonts properties = none ↔ fonts.length < 2) ∧
    (∀ fonts, narrowByWeightChecked sort fonts properties = none ↔ fonts.length < 1) ∧
    (∀ (st : QueryState) (family : List Nat),
      (requestedStepChecked sort m properties registered st family).isSome = true) ∧
    (∀ (st : QueryState) (fallback : List Nat),
      (fallbackStepChecked sort m properties st fallback).isSome = true) := by
  refine ⟨?_, ?_, ?_, ?_, ?_⟩
  · unfold queryChecked query
    rw [loopChecked_eq _ _ (requestedStepChecked_eq sort m properties registered)]
    simp only
    rw [loopChecked_eq _ _ (fallbackStepChecked_eq sort m properties)]
  · intro fonts
    unfold narrowByStyleChecked
    split_ifs with h
    · simp; omega
    · simp; omega
  · intro fonts
    unfold narrowByWeightChecked
    have hl := (sort.perm fonts).length_eq
    split_ifs with h
    · have h' := bne_iff_ne.1 h
      exact ⟨fun hc => absurd hc (by simp), fun hlt => by omega⟩
    · have h' : (sort.run fonts).length = 0 := by
        by_contra hc
        exact h (bne_iff_ne.2 hc)
      exact ⟨fun _ => by omega, fun _ => rfl⟩
  · intro st family
    rw [requestedStepChecked_eq]
    rfl
  · intro st fallback
    rw [fallbackStepChecked_eq]
    rfl

/-! ## query: an unknown family followed by a generic keyword -/

theorem narrowByWeight_null_far (sort : StdSort) (fonts : List FontDescriptor)
    (properties : FontProperties)
    (hbelow : ∀ f ∈ fonts, f.weight < divider properties.weight →
      900 < distance properties.weight f)
    (habove : ∀ f ∈ fonts, divider properties.weight ≤ f.weight →
      900 ≤ distance properties.weight f)
    (hno : ∀ f ∈ fonts, f.weight ≠ properties.weight) :
    narrowByWeight sort fonts properties = none := by
  obtain ⟨best, ⟨_, hbs, _, has⟩, heq⟩ := narrowByWeight_scan sort fonts properties hno
  rw [heq]
  cases hb : best.bestBelow with
  | some below =>
    obtain ⟨h1, h2, _, h4, _⟩ := hbs below hb
    have := hbelow below h1 h2
    omega
  | none =>
    cases ha : best.bestAbove with
    | some above =>
      obtain ⟨h1, h2, _, h4, _⟩ := has above ha
      have := habove above h1 h2
      omega
    | none => rfl

theorem maybeAdd_match_ne_nil (family : List Nat) (desc : FontDescriptor)
    (pending : List FontDescriptor) (h : compareFamilyNames family desc.family = true) :
    maybeAdd family desc pending ≠ [] := by
  unfold maybeAdd
  rw [h]
  by_cases hany : pending.any (fun found => found.addr == desc.addr) = true
  · simp only [hany, Bool.not_true, Bool.and_false, Bool.false_eq_true, if_false]
    intro hc
    rw [hc] at hany
    simp at hany
  · simp [hany]

theorem addSystemFonts_ne_nil_of_ne_nil (system_fonts : List FontDescriptor)
    (family : List Nat) (pending : List FontDescriptor) (h : pending ≠ []) :
    addSystemFonts system_fonts family pending ≠ [] := by
  have := addSystemFonts_length system_fonts family pending
  intro hc
  rw [hc] at this
  exact h (List.length_eq_zero.1 (by simpa using this))

theorem addSystemFonts_ne_nil_of_match (system_fonts : List FontDescriptor)
    (family : List Nat) (pending : List FontDescriptor)
    (h : ∃ d ∈ system_fonts, compareFamilyNames family d.family = true) :
    addSystemFonts system_fonts family pending ≠ [] := by
  obtain ⟨d, hd, hm⟩ := h
  obtain ⟨l1, l2, hsplit⟩ := List.append_of_mem hd
  have : addSystemFonts system_fonts family pending =
      addSystemFonts l2 family (maybeAdd family d (addSystemFonts l1 family pending)) := by
    unfold addSystemFonts
    rw [hsplit, List.foldl_append, List.foldl_cons]
  rw [this]
  exact addSystemFonts_ne_nil_of_ne_nil _ _ _ (maybeAdd_match_ne_nil _ _ _ hm)

theorem addSystemFonts_mem (system_fonts : List FontDescriptor) (family : List Nat)
    (pending : List FontDescriptor) :
    ∀ x ∈ addSystemFonts system_fonts family pending,
      x ∈ pending ∨ (x ∈ system_fonts ∧ compareFamilyNames family x.family = true) :=
  (addList_spec family system_fonts pending).1

theorem requestedEntry_shape (sort : StdSort) (properties : FontProperties)
    (candidates : List FontDescriptor) (hne : candidates ≠ []) :
    ∃ entry, requestedEntry sort properties candidates = [entry] ∧
      (∀ d, entry = some d → d ∈ candidates) ∧
      (100 ≤ properties.weight ∧ properties.weight ≤ 900 →
        (∀ d ∈ candidates, 100 ≤ d.weight ∧ d.weight ≤ 900) → entry ≠ none) := by
  cases candidates with
  | nil => exact absurd rfl hne
  | cons a rest =>
    cases rest with
    | nil =>
      refine ⟨some a, rfl, ?_, fun _ _ => by simp⟩
      intro d hd
      rw [← Option.some.inj hd]
      exact List.mem_singleton.2 rfl
    | cons b rest =>
      refine ⟨narrowByWeight sort (narrowByStyle (a :: b :: rest) properties) properties, rfl,
        ?_, ?_⟩
      · intro d hd
        exact narrowByStyle_subset _ _ d (narrowByWeight_mem sort _ properties d hd)
      · intro hw hf
        obtain ⟨r, hr⟩ := narrowByWeight_some_100_900 sort
          (narrowByStyle (a :: b :: rest) properties) properties
          (narrowByStyle_ne_nil _ properties (by simp)) hw
          (fun f hfm => hf f (narrowByStyle_subset _ _ f hfm))
        rw [hr]
        simp

/-- C21 fails in the code: for the families Unknown, sans-serif with requested
weight 100 and the system fonts Helvetica and Arial, both of weight 1000, `query`
returns one entry and it is the null pointer, for every result of `std::sort`
(the initial best distance 900 of `narrowByWeight`).  What holds for every
catalog with no match for Unknown and a match for Helvetica or Arial: the result
has exactly one entry; when it is a descriptor, it is one of the catalog whose
family matches Helvetica or Arial; and it is a descriptor when all weights lie in
100..900. -/
theorem query_unknown_sans_serif_null :
    (∀ d ∈ [mkNamedFont 0 "Helvetica" 1000 FontStyle.Normal,
        mkNamedFont 1 "Arial" 1000 FontStyle.Normal],
      compareFamilyNames (bytes "Unknown") d.family = false) ∧
    compareFamilyNames (bytes "Helvetica")
      (mkNamedFont 0 "Helvetica" 1000 FontStyle.Normal).family = true ∧
    (∀ sort : StdSort,
      query sort
        (loadedManager [mkNamedFont 0 "Helvetica" 1000 FontStyle.Normal,
          mkNamedFont 1 "Arial" 1000 FontStyle.Normal])
        (mkFamilyRequest ["Unknown", "sans-serif"] 100 FontStyle.Normal)
        emptyFontFaceSet [] = [none]) ∧
    (∀ (sort : StdSort) (m : FontManager) (properties : FontProperties),
      m.getGenericList = getGenericListMacos →
      properties.families = [bytes "Unknown", bytes "sans-serif"] →
      (∀ d ∈ catalog m, compareFamilyNames (bytes "Unknown") d.family = false) →
      (∃ d ∈ catalog m, compareFamilyNames (bytes "Helvetica") d.family = true ∨
        compareFamilyNames (bytes "Arial") d.family = true) →
      ∃ entry, query sort m properties emptyFontFaceSet [] = [entry] ∧
        (∀ d, entry = some d → d ∈ catalog m ∧
          (compareFamilyNames (bytes "Helvetica") d.family = true ∨
            compareFamilyNames (bytes "Arial") d.family = true)) ∧
        (100 ≤ properties.weight ∧ properties.weight ≤ 900 →
          (∀ d ∈ catalog m, 100 ≤ d.weight ∧ d.weight ≤ 900) → entry ≠ none)) := by
  have hgeneral : ∀ (sort : StdSort) (m : FontManager) (properties : FontProperties),
      m.getGenericList = getGenericListMacos →
      properties.families = [bytes "Unknown", bytes "sans-serif"] →
      (∀ d ∈ catalog m, compareFamilyNames (bytes "Unknown") d.family = false) →
      query sort m properties emptyFontFaceSet [] =
        requestedEntry sort properties
          (addSystemFonts (catalog m) (bytes "Arial")
            (addSystemFonts (catalog m) (bytes "Helvetica") [])) := by
    intro sort m properties hm hfam hunk
    have hu : gatherRequested m emptyFontFaceSet (bytes "Unknown") [] = [] := by
      have hnone : m.getGenericList (bytes "Unknown") = none := by
        rw [hm]; decide
      unfold gatherRequested
      rw [hnone]
      simp only
      have hreg : addRegistered emptyFontFaceSet (bytes "Unknown") [] = [] := rfl
      rw [hreg]
      apply List.eq_nil_iff_forall_not_mem.2
      intro x hx
      rcases addSystemFonts_mem _ _ _ x hx with h | ⟨h1, h2⟩
      · exact absurd h (List.not_mem_nil x)
      · rw [hunk x h1] at h2
        exact absurd h2 (by decide)
    have hs : gatherRequested m emptyFontFaceSet (bytes "sans-serif") [] =
        addSystemFonts (catalog m) (bytes "Arial")
          (addSystemFonts (catalog m) (bytes "Helvetica") []) := by
      rw [gatherRequested_generic m emptyFontFaceSet (bytes "sans-serif") []
        [bytes "Helvetica", bytes "Arial"] (by rw [hm]; decide)]
      rfl
    rw [query_eq, hfam]
    simp only [List.flatMap_cons, List.flatMap_nil, hu, hs, List.append_nil]
    have h0 : requestedEntry sort properties [] = [] := rfl
    have h1 : fallbackEntries sort (catalog m) properties [] [] = [] := rfl
    rw [h0, h1]
    simp
  refine ⟨by decide, by decide, ?_, ?_⟩
  · intro sort
    rw [hgeneral sort _ _ rfl rfl (by decide)]
    have hc : addSystemFonts
        (catalog (loadedManager [mkNamedFont 0 "Helvetica" 1000 FontStyle.Normal,
          mkNamedFont 1 "Arial" 1000 FontStyle.Normal])) (bytes "Arial")
        (addSystemFonts
          (catalog (loadedManager [mkNamedFont 0 "Helvetica" 1000 FontStyle.Normal,
            mkNamedFont 1 "Arial" 1000 FontStyle.Normal])) (bytes "Helvetica") []) =
        [mkNamedFont 0 "Helvetica" 1000 FontStyle.Normal,
          mkNamedFont 1 "Arial" 1000 FontStyle.Normal] := by decide
    rw [hc]
    have hst : narrowByStyle [mkNamedFont 0 "Helvetica" 1000 FontStyle.Normal,
        mkNamedFont 1 "Arial" 1000 FontStyle.Normal]
        (mkFamilyRequest ["Unknown", "sans-serif"] 100 FontStyle.Normal) =
        [mkNamedFont 0 "Helvetica" 1000 FontStyle.Normal,
          mkNamedFont 1 "Arial" 1000 FontStyle.Normal] := by decide
    have hre : requestedEntry sort
        (mkFamilyRequest ["Unknown", "sans-serif"] 100 FontStyle.Normal)
        [mkNamedFont 0 "Helvetica" 1000 FontStyle.Normal,
          mkNamedFont 1 "Arial" 1000 FontStyle.Normal] =
        [narrowByWeight sort (narrowByStyle [mkNamedFont 0 "Helvetica" 1000 FontStyle.Normal,
          mkNamedFont 1 "Arial" 1000 FontStyle.Normal]
          (mkFamilyRequest ["Unknown", "sans-serif"] 100 FontStyle.Normal))
          (mkFamilyRequest ["Unknown", "sans-serif"] 100 FontStyle.Normal)] := rfl
    rw [hre, hst, narrowByWeight_null_far sort _ _ (by decide) (by decide) (by decide)]
  · intro sort m properties hm hfam hunk hex
    rw [hgeneral sort m properties hm hfam hunk]
    have hne : addSystemFonts (catalog m) (bytes "Arial")
        (addSystemFonts (catalog m) (bytes "Helvetica") []) ≠ [] := by
      obtain ⟨d, hd, hmatch⟩ := hex
      rcases hmatch with h | h
      · exact addSystemFonts_ne_nil_of_ne_nil _ _ _
          (addSystemFonts_ne_nil_of_match _ _ _ ⟨d, hd, h⟩)
      · exact addSystemFonts_ne_nil_of_match _ _ _ ⟨d, hd, h⟩
    have hmem : ∀ x ∈ addSystemFonts (catalog m) (bytes "Arial")
        (addSystemFonts (catalog m) (bytes "Helvetica") []),
        x ∈ catalog m ∧ (compareFamilyNames (bytes "Helvetica") x.family = true ∨
          compareFamilyNames (bytes "Arial") x.family = true) := by
      intro x hx
      rcases addSystemFonts_mem _ _ _ x hx with h | ⟨h1, h2⟩
      · rcases addSystemFonts_mem _ _ _ x h with h' | ⟨h1, h2⟩
        · exact absurd h' (List.not_mem_nil x)
        · exact ⟨h1, Or.inl h2⟩
      · exact ⟨h1, Or.inr h2⟩
    obtain ⟨entry, e1, e2, e3⟩ := requestedEntry_shape sort properties _ hne
    refine ⟨entry, e1, fun d hd => hmem d (e2 d hd), ?_⟩
    intro hw hf
    exact e3 hw (fun d hd => hf d (hmem d hd).1)

/-! ## script_iterator_next: a closing bracket across run boundaries -/

theorem paired_chars_lt : ∀ c ∈ paired_chars, c < 0x10000 := by decide

theorem decode_bmp (text_buffer : List Nat) (o c : Nat) (ho : text_buffer[o]? = some c)
    (hc : c < 0xd800 ∨ 0xdfff < c) : decode text_buffer o = (c, 1) :=
  decode_single text_buffer o c ho (fun h => by omega)

theorem decode_fst_lt (text_buffer : List Nat) (o : Nat)
    (h : (decode text_buffer o).1 < 0x10000) :
    decode text_buffer o = (text_buffer.getD o 0, 1) := by
  unfold decode at h ⊢
  simp only at h ⊢
  split_ifs at h ⊢ with h1 h2
  · simp only at h; omega
  · rfl
  · rfl

theorem decode_two_ge (text_buffer : List Nat) (o : Nat)
    (h : (decode text_buffer o).2 = 2) : 0x10000 ≤ (decode text_buffer o).1 := by
  unfold decode at h ⊢
  simp only at h ⊢
  split_ifs at h ⊢ with h1 h2
  · simp only; omega
  · simp at h
  · simp at h

theorem scriptLoop_continue (u : UnicodeData) (text_buffer : List Nat) (fuel : Nat)
    (st st1 : ScriptIteratorState) (hlt : st.offset < text_buffer.length)
    (hstep : scriptStep u text_buffer st = (st1, false)) :
    scriptLoop u text_buffer (fuel + 1) st = scriptLoop u text_buffer fuel st1 := by
  rw [scriptLoop, if_pos hlt, hstep]

theorem scriptLoop_break (u : UnicodeData) (text_buffer : List Nat) (fuel : Nat)
    (st st1 : ScriptIteratorState) (hlt : st.offset < text_buffer.length)
    (hstep : scriptStep u text_buffer st = (st1, true)) :
    scriptLoop u text_buffer (fuel + 1) st = st1 := by
  rw [scriptLoop, if_pos hlt, hstep]

/-- The iteration on the first code point of real script after an opening
bracket: the frame of the bracket takes that script. -/
theorem scriptStep_first_real (u : UnicodeData) (text_buffer : List Nat)
    (st : ScriptIteratorState) (k S : Nat)
    (hp : pairIndex u (decode text_buffer st.offset).1 < 0)
    (hgs : u.get_script (decode text_buffer st.offset).1 = S) (hS : isReal u S = true)
    (p1 : st.script = u.SCRIPT_COMMON)
    (p2 : st.parens = [{ index := ((2 * k : Nat) : Int), script := u.SCRIPT_COMMON }])
    (p3 : st.start_paren = -1) :
    scriptStep u text_buffer st =
      ({ st with
          script := S
          parens := [{ index := ((2 * k : Nat) : Int), script := S }]
          start_paren := 0
          offset := st.offset + (decode text_buffer st.offset).2 }, false) := by
  rw [scriptStep_nonbracket u text_buffer st hp, p1, p2, p3, hgs, backfill_single]
  simp [hS, isReal_common]

/-- The iteration on a code point outside the table whose real script differs
from the real running script: the loop is left. -/
theorem scriptStep_other_real (u : UnicodeData) (text_buffer : List Nat)
    (st : ScriptIteratorState) (S : Nat)
    (hp : pairIndex u (decode text_buffer st.offset).1 < 0)
    (hgs : u.get_script (decode text_buffer st.offset).1 = S) (hS : isReal u S = true)
    (hrun : isReal u st.script = true) (hne : S ≠ st.script) :
    scriptStep u text_buffer st =
      ({ st with start_paren := (st.parens.length : Int) - 1 }, true) := by
  rw [scriptStep_nonbracket u text_buffer st hp, hgs]
  simp [hS, hrun, hne]

/-- The iteration on a code point outside the table, of real script `S`, at the
start of a run whose stack is the one back-filled frame. -/
theorem scriptStep_start_real (u : UnicodeData) (text_buffer : List Nat)
    (st : ScriptIteratorState) (i : Int) (S T : Nat)
    (hp : pairIndex u (decode text_buffer st.offset).1 < 0)
    (hgs : u.get_script (decode text_buffer st.offset).1 = S) (hS : isReal u S = true)
    (p1 : st.script = u.SCRIPT_COMMON)
    (p2 : st.parens = [{ index := i, script := T }]) (p3 : st.start_paren = 0) :
    scriptStep u text_buffer st =
      ({ st with script := S, offset := st.offset + (decode text_buffer st.offset).2 },
        false) := by
  rw [scriptStep_nonbracket u text_buffer st hp, hgs]
  cases st with
  | mk offset script done parens start_paren =>
    simp only at p1 p2 p3
    subst p1 p2 p3
    simp [hS, isReal_common, backfill]

/-- The iteration on a code point outside the table that has the running
script. -/
theorem scriptStep_same_real (u : UnicodeData) (text_buffer : List Nat)
    (st : ScriptIteratorState)
    (hp : pairIndex u (decode text_buffer st.offset).1 < 0)
    (hgs : u.get_script (decode text_buffer st.offset).1 = st.script)
    (hrun : isReal u st.script = true) :
    scriptStep u text_buffer st =
      ({ st with offset := st.offset + (decode text_buffer st.offset).2 }, false) := by
  rw [scriptStep_nonbracket u text_buffer st hp, hgs]
  simp [hrun]

theorem classify_close_single (u : UnicodeData) (text_buffer : List Nat)
    (st : ScriptIteratorState) (k S : Nat)
    (hp : pairIndex u (decode text_buffer st.offset).1 = ((2 * k + 1 : Nat) : Int))
    (h2 : st.parens = [{ index := ((2 * k : Nat) : Int), script := S }])
    (h3 : st.start_paren = 0) :
    classify u text_buffer st =
      { script := S, parens := st.parens, start_paren := st.start_paren } := by
  have hodd : ((2 * k + 1 : Nat) : Int) % 2 = 1 := by omega
  unfold classify pairedChar
  rw [hp, h2, h3, if_pos (by omega), if_neg (by rw [hodd]; decide), hodd]
  have hpi : ((2 * k + 1 : Nat) : Int) - 1 = ((2 * k : Nat) : Int) := by omega
  simp [hpi, List.rdropWhile]

/-- The iteration on the closing bracket whose frame holds the real script `S`
while the running script is another real script: the loop is left, the frame
stays. -/
theorem scriptStep_close_other (u : UnicodeData) (text_buffer : List Nat)
    (st : ScriptIteratorState) (k S : Nat)
    (hp : pairIndex u (decode text_buffer st.offset).1 = ((2 * k + 1 : Nat) : Int))
    (hS : isReal u S = true) (hrun : isReal u st.script = true) (hne : S ≠ st.script)
    (h2 : st.parens = [{ index := ((2 * k : Nat) : Int), script := S }])
    (h3 : st.start_paren = 0) :
    scriptStep u text_buffer st = (st, true) := by
  have hclass := classify_close_single u text_buffer st k S hp h2 h3
  unfold scriptStep
  rw [hclass]
  cases st with
  | mk offset script done parens start_paren =>
    simp only at h2 h3 hrun hne
    subst h2 h3
    simp [hS, hrun, hne]

/-- The iteration on the closing bracket at the start of a run: the script of
its frame becomes the running script and the frame is popped. -/
theorem scriptStep_close_start (u : UnicodeData) (text_buffer : List Nat)
    (st : ScriptIteratorState) (k S : Nat)
    (hp : pairIndex u (decode text_buffer st.offset).1 = ((2 * k + 1 : Nat) : Int))
    (hS : isReal u S = true) (h1 : st.script = u.SCRIPT_COMMON)
    (h2 : st.parens = [{ index := ((2 * k : Nat) : Int), script := S }])
    (h3 : st.start_paren = 0) :
    scriptStep u text_buffer st =
      ({ st with
          script := S
          parens := []
          start_paren := -1
          offset := st.offset + (decode text_buffer st.offset).2 }, false) := by
  have hclass := classify_close_single u text_buffer st k S hp h2 h3
  unfold scriptStep
  rw [hclass, hp]
  cases st with
  | mk offset script done parens start_paren =>
    simp only at h1 h2 h3
    subst h1 h2 h3
    simp [hS, isReal_common, backfill]
    constructor <;> omega

theorem decode_one (text_buffer : List Nat) (o : Nat) (h : (decode text_buffer o).2 = 1) :
    (decode text_buffer o).1 = text_buffer.getD o 0 := by
  unfold decode at h ⊢
  simp only at h ⊢
  split_ifs at h ⊢ with h1 h2
  · simp at h
  · rfl
  · rfl

/-- The loop of the run between the first real code point after an opening
bracket and the closing bracket: code points of the real script `S2`, then the
closing bracket whose frame holds another real script `S1`.  The loop is left at
the closing bracket, the last code unit, with running script `S2`. -/
theorem scriptLoop_inner_run (u : UnicodeData) (text_buffer : List Nat) (k S1 S2 close : Nat)
    (hS1 : isReal u S1 = true) (hS2 : isReal u S2 = true) (hne : S1 ≠ S2)
    (hclp : pairIndex u close = ((2 * k + 1 : Nat) : Int)) (hcl : close < 0x10000) :
    ∀ (fuel : Nat) (st : ScriptIteratorState) (mids : List Nat),
    st.offset ≤ text_buffer.length → text_buffer.length - st.offset ≤ fuel →
    codePoints (text_buffer.drop st.offset) = mids ++ [close] →
    (∀ c ∈ mids, pairIndex u c < 0 ∧ u.get_script c = S2) →
    st.parens = [{ index := ((2 * k : Nat) : Int), script := S1 }] → st.start_paren = 0 →
    ((st.script = u.SCRIPT_COMMON ∧ mids ≠ []) ∨ st.script = S2) →
    scriptLoop u text_buffer fuel st =
      { st with script := S2, offset := text_buffer.length - 1 } := by
  intro fuel
  induction fuel with
  | zero =>
    intro st mids h1 h2 hcps _ _ _ _
    rw [List.drop_of_length_le (by omega)] at hcps
    simp [codePoints] at hcps
  | succ fuel ih =>
    intro st mids h1 h2 hcps hmids p2 p3 hphase
    by_cases hlt : st.offset < text_buffer.length
    · obtain ⟨hcp, hj1, hj2⟩ := codePoints_drop text_buffer st.offset hlt
      rw [hcp] at hcps
      cases mids with
      | nil =>
        rw [List.nil_append] at hcps
        obtain ⟨hc1, hc2⟩ := List.cons.inj hcps
        have hend : text_buffer.length ≤ st.offset + (decode text_buffer st.offset).2 :=
          List.drop_eq_nil_iff.1 (codePoints_eq_nil _ hc2)
        have hjump : (decode text_buffer st.offset).2 = 1 := by
          rw [decode_fst_lt text_buffer st.offset (by rw [hc1]; exact hcl)]
        rcases hphase with ⟨_, hn⟩ | p1
        · exact absurd rfl hn
        · have hstep := scriptStep_close_other u text_buffer st k S1
            (by rw [hc1]; exact hclp) hS1 (by rw [p1]; exact hS2) (by rw [p1]; exact hne)
            p2 p3
          rw [scriptLoop_break u text_buffer fuel st st hlt hstep]
          have hoff : st.offset = text_buffer.length - 1 := by omega
          cases st with
          | mk offset script done parens start_paren =>
            simp only at p1 hoff
            rw [p1, ← hoff]
      | cons m mids =>
        rw [List.cons_append] at hcps
        obtain ⟨hc1, hc2⟩ := List.cons.inj hcps
        obtain ⟨hm1, hm2⟩ := hmids m (List.mem_cons_self _ _)
        rw [← hc1] at hm1 hm2
        have hrest : ∀ c ∈ mids, pairIndex u c < 0 ∧ u.get_script c = S2 :=
          fun c hc => hmids c (List.mem_cons_of_mem _ hc)
        rcases hphase with ⟨p1, _⟩ | p1
        · have hstep := scriptStep_start_real u text_buffer st ((2 * k : Nat) : Int) S2 S1
            hm1 hm2 hS2 p1 p2 p3
          rw [scriptLoop_continue u text_buffer fuel st _ hlt hstep]
          exact ih { st with script := S2,
                             offset := st.offset + (decode text_buffer st.offset).2 } mids
            (by simp only; omega) (by simp only; omega) hc2 hrest p2 p3 (Or.inr rfl)
        · have hstep := scriptStep_same_real u text_buffer st hm1 (by rw [hm2, p1])
            (by rw [p1]; exact hS2)
          rw [scriptLoop_continue u text_buffer fuel st _ hlt hstep]
          exact ih { st with offset := st.offset + (decode text_buffer st.offset).2 } mids
            (by simp only; omega) (by simp only; omega) hc2 hrest p2 p3 (Or.inr p1)
    · rw [List.drop_of_length_le (by omega)] at hcps
      simp [codePoints] at hcps

theorem bracketed_length (k : Nat) (middle : List Nat) :
    (bracketed k middle).length = middle.length + 1 + 1 := by
  simp [bracketed]

theorem bracketed_first (k : Nat) (middle : List Nat) :
    (bracketed k middle)[0]? = some (paired_chars.getD (2 * k) 0) := by
  simp [bracketed]

theorem bracketed_last (k : Nat) (middle : List Nat) :
    (bracketed k middle)[middle.length + 1]? = some (paired_chars.getD (2 * k + 1) 0) := by
  simp [bracketed]

theorem bracketed_drop_one (k : Nat) (middle : List Nat) :
    (bracketed k middle).drop 1 = middle ++ [paired_chars.getD (2 * k + 1) 0] := rfl

/-- The three calls of the script iterator on an opening bracket, a code point of
real script `S1`, code points of another real script `S2` and the matching
closing bracket, with the states they leave. -/
theorem script_calls_bracket_runs (u : UnicodeData) (k S1 S2 a : Nat) (bs middle : List Nat)
    (hk : k < 58)
    (hopen : u.get_script (paired_chars.getD (2 * k) 0) = u.SCRIPT_COMMON)
    (hclose : u.get_script (paired_chars.getD (2 * k + 1) 0) = u.SCRIPT_COMMON)
    (hS1 : isReal u S1 = true) (hS2 : isReal u S2 = true) (hne : S1 ≠ S2)
    (hunits : ∀ c ∈ middle, c < 0x10000)
    (hmid : codePoints middle = a :: bs) (hbs : bs ≠ [])
    (ha : a ∉ paired_chars ∧ u.get_script a = S1)
    (hb : ∀ b ∈ bs, b ∉ paired_chars ∧ u.get_script b = S2) :
    1 + (if a < 0x10000 then 1 else 2) < (bracketed k middle).length - 1 ∧
    script_calls u (bracketed k middle) 1 =
      { offset := 1 + (if a < 0x10000 then 1 else 2), script := S1, done := false,
        parens := [{ index := ((2 * k : Nat) : Int), script := S1 }], start_paren := 0 } ∧
    script_calls u (bracketed k middle) 2 =
      { offset := (bracketed k middle).length - 1, script := S2, done := false,
        parens := [{ index := ((2 * k : Nat) : Int), script := S1 }], start_paren := 0 } ∧
    script_calls u (bracketed k middle) 3 =
      { offset := (bracketed k middle).length, script := S1, done := true,
        parens := [], start_paren := -1 } := by
  have hom := paired_chars_getD_mem (2 * k) (by omega)
  have hcm := paired_chars_getD_mem (2 * k + 1) (by omega)
  have hlen := bracketed_length k middle
  -- the code points of the text
  have hcps1 : codePoints ((bracketed k middle).drop 1) =
      a :: (bs ++ [paired_chars.getD (2 * k + 1) 0]) := by
    rw [bracketed_drop_one, codePoints_append_single _
      (by have := paired_chars_bmp _ hcm; omega) middle.length middle (le_refl _), hmid]
    rfl
  have hdec0 : decode (bracketed k middle) 0 = (paired_chars.getD (2 * k) 0, 1) :=
    decode_bmp _ 0 _ (bracketed_first k middle) (paired_chars_bmp _ hom)
  have hpo : pairIndex u (paired_chars.getD (2 * k) 0) = ((2 * k : Nat) : Int) := by
    unfold pairIndex
    rw [if_neg (by rw [hopen]; simp)]
    exact get_pair_index_table (2 * k) (by omega)
  have hpc : pairIndex u (paired_chars.getD (2 * k + 1) 0) = ((2 * k + 1 : Nat) : Int) := by
    unfold pairIndex
    rw [if_neg (by rw [hclose]; simp)]
    exact get_pair_index_table (2 * k + 1) (by omega)
  have hmne : middle ≠ [] := by
    intro hc
    rw [hc] at hmid
    simp [codePoints] at hmid
  have h1lt : 1 < (bracketed k middle).length := by
    have := List.length_pos.2 hmne
    omega
  obtain ⟨hcp1, hj1, hj1'⟩ := codePoints_drop (bracketed k middle) 1 h1lt
  rw [hcps1] at hcp1
  obtain ⟨ha1, hrest1⟩ := List.cons.inj hcp1
  -- the width of the code point a
  have hw : (decode (bracketed k middle) 1).2 = if a < 0x10000 then 1 else 2 := by
    rcases decode_jump (bracketed k middle) 1 with hj | ⟨hj, _⟩
    · have h1 := decode_one _ _ hj
      have hget : (bracketed k middle).getD 1 0 ∈ middle := by
        cases middle with
        | nil => exact absurd rfl hmne
        | cons c rest => simp [bracketed]
      have := hunits _ hget
      rw [hj, if_pos (by omega)]
    · have := decode_two_ge _ _ hj
      rw [hj, if_neg (by omega)]
  obtain ⟨b1, bs1, hbs1⟩ := List.exists_cons_of_ne_nil hbs
  have h2lt : 1 + (decode (bracketed k middle) 1).2 < (bracketed k middle).length := by
    by_contra hc
    rw [List.drop_of_length_le (by omega)] at hrest1
    rw [hbs1] at hrest1
    simp [codePoints] at hrest1
  obtain ⟨hcp2, hj2, hj2'⟩ := codePoints_drop (bracketed k middle)
    (1 + (decode (bracketed k middle) 1).2) h2lt
  rw [← hrest1, hbs1, List.cons_append] at hcp2
  obtain ⟨hb1, _⟩ := List.cons.inj hcp2
  have hlt3 : 1 + (decode (bracketed k middle) 1).2 < (bracketed k middle).length - 1 := by
    by_contra hc
    have hoff : 1 + (decode (bracketed k middle) 1).2 = middle.length + 1 := by omega
    have hdl := decode_bmp _ _ _ (bracketed_last k middle) (paired_chars_bmp _ hcm)
    rw [hoff, hdl] at hb1
    simp only at hb1
    have := (hb b1 (by rw [hbs1]; exact List.mem_cons_self _ _)).1
    rw [hb1] at this
    exact this hcm
  -- call 1
  have hstep0 : scriptStep u (bracketed k middle) (script_init u) =
      ({ offset := 1, script := u.SCRIPT_COMMON, done := false,
         parens := [{ index := ((2 * k : Nat) : Int), script := u.SCRIPT_COMMON }],
         start_paren := -1 }, false) := by
    have hz : (script_init u).offset = 0 := rfl
    rw [scriptStep_open u (bracketed k middle) (script_init u) k
      (by rw [hz, hdec0]; exact hpo) (by rw [hz, hdec0]; exact hopen) rfl, hz, hdec0]
    rfl
  have hstep1 : scriptStep u (bracketed k middle)
      { offset := 1, script := u.SCRIPT_COMMON, done := false,
        parens := [{ index := ((2 * k : Nat) : Int), script := u.SCRIPT_COMMON }],
        start_paren := -1 } =
      ({ offset := 1 + (decode (bracketed k middle) 1).2, script := S1, done := false,
         parens := [{ index := ((2 * k : Nat) : Int), script := S1 }],
         start_paren := 0 }, false) :=
    scriptStep_first_real u (bracketed k middle) _ k S1
      (by
        simp only
        rw [← ha1, pairIndex_not_mem u a ha.1]
        decide)
      (by simp only; rw [← ha1]; exact ha.2) hS1 rfl rfl rfl
  have hstep2 : scriptStep u (bracketed k middle)
      { offset := 1 + (decode (bracketed k middle) 1).2, script := S1, done := false,
        parens := [{ index := ((2 * k : Nat) : Int), script := S1 }],
        start_paren := 0 } =
      ({ offset := 1 + (decode (bracketed k middle) 1).2, script := S1, done := false,
         parens := [{ index := ((2 * k : Nat) : Int), script := S1 }],
         start_paren := 0 }, true) := by
    have hbb := hb b1 (by rw [hbs1]; exact List.mem_cons_self _ _)
    rw [scriptStep_other_real u (bracketed k middle) _ S2
      (by
        simp only
        rw [← hb1, pairIndex_not_mem u b1 hbb.1]
        decide)
      (by simp only; rw [← hb1]; exact hbb.2) hS2 hS1 (fun h => hne h.symm)]
    rfl
  have hcall1 : script_iterator_next u (script_init u) (bracketed k middle) =
      { offset := 1 + (decode (bracketed k middle) 1).2, script := S1, done := false,
        parens := [{ index := ((2 * k : Nat) : Int), script := S1 }], start_paren := 0 } := by
    obtain ⟨f, hf⟩ : ∃ f, (bracketed k middle).length - (script_init u).offset = f + 1 + 1 + 1 :=
      ⟨(bracketed k middle).length - 3, by
        have hz : (script_init u).offset = 0 := rfl
        omega⟩
    have hst : ({ script_init u with script := u.SCRIPT_COMMON } : ScriptIteratorState) =
        script_init u := rfl
    unfold script_iterator_next
    rw [if_neg (by simp [script_init])]
    simp only [hf, hst]
    rw [scriptLoop_continue u _ _ _ _ (by exact Nat.lt_trans Nat.zero_lt_one h1lt) hstep0,
      scriptLoop_continue u _ _ _ _ h1lt hstep1,
      scriptLoop_break u _ _ _ _ h2lt hstep2]
    rw [if_neg (by simp only; omega)]
  -- call 2
  have hcall2 : script_iterator_next u
      { offset := 1 + (decode (bracketed k middle) 1).2, script := S1, done := false,
        parens := [{ index := ((2 * k : Nat) : Int), script := S1 }], start_paren := 0 }
      (bracketed k middle) =
      { offset := (bracketed k middle).length - 1, script := S2, done := false,
        parens := [{ index := ((2 * k : Nat) : Int), script := S1 }], start_paren := 0 } := by
    have hloop := scriptLoop_inner_run u (bracketed k middle) k S1 S2
      (paired_chars.getD (2 * k + 1) 0) hS1 hS2 hne hpc (paired_chars_lt _ hcm)
      ((bracketed k middle).length - (1 + (decode (bracketed k middle) 1).2))
      { offset := 1 + (decode (bracketed k middle) 1).2, script := u.SCRIPT_COMMON,
        done := false, parens := [{ index := ((2 * k : Nat) : Int), script := S1 }],
        start_paren := 0 }
      bs (by simp only; omega) (le_refl _) hrest1.symm
      (fun c hc => ⟨by rw [pairIndex_not_mem u c (hb c hc).1]; decide, (hb c hc).2⟩)
      rfl rfl (Or.inl ⟨rfl, hbs⟩)
    unfold script_iterator_next
    rw [if_neg (by simp)]
    simp only
    rw [hloop]
    rw [if_neg (by simp only; omega)]
  -- call 3
  have hoff : (bracketed k middle).length - 1 = middle.length + 1 := by omega
  have hcall3 : script_iterator_next u
      { offset := middle.length + 1, script := S2, done := false,
        parens := [{ index := ((2 * k : Nat) : Int), script := S1 }], start_paren := 0 }
      (bracketed k middle) =
      { offset := middle.length + 1 + 1, script := S1, done := true,
        parens := [], start_paren := -1 } := by
    have hdl : decode (bracketed k middle) (middle.length + 1) =
        (paired_chars.getD (2 * k + 1) 0, 1) :=
      decode_bmp _ _ _ (bracketed_last k middle) (paired_chars_bmp _ hcm)
    have hstep3 : scriptStep u (bracketed k middle)
        { offset := middle.length + 1, script := u.SCRIPT_COMMON, done := false,
          parens := [{ index := ((2 * k : Nat) : Int), script := S1 }], start_paren := 0 } =
        ({ offset := middle.length + 1 + 1, script := S1, done := false,
           parens := [], start_paren := -1 }, false) := by
      rw [scriptStep_close_start u (bracketed k middle) _ k S1
        (by simp only; rw [hdl]; exact hpc) hS1 rfl rfl rfl]
      simp only [hdl]
    have hfuel : (bracketed k middle).length - (middle.length + 1) = 0 + 1 := by omega
    have hloop : scriptLoop u (bracketed k middle)
        ((bracketed k middle).length - (middle.length + 1))
        { offset := middle.length + 1, script := u.SCRIPT_COMMON, done := false,
          parens := [{ index := ((2 * k : Nat) : Int), script := S1 }], start_paren := 0 } =
        { offset := middle.length + 1 + 1, script := S1, done := false,
          parens := [], start_paren := -1 } := by
      rw [hfuel, scriptLoop_continue u _ _ _ _ (by simp only; omega) hstep3]
      rfl
    unfold script_iterator_next
    rw [if_neg (by simp)]
    simp only
    rw [hloop]
    rw [if_pos (by simp only; omega)]
  rw [hw] at hcall1 hcall2 hlt3
  refine ⟨hlt3, hcall1, ?_, ?_⟩
  · have h2 : script_calls u (bracketed k middle) 2 =
        script_iterator_next u (script_iterator_next u (script_init u) (bracketed k middle))
          (bracketed k middle) := rfl
    rw [h2, hcall1, hcall2]
  · have h3 : script_calls u (bracketed k middle) 3 =
        script_iterator_next u
          (script_iterator_next u (script_iterator_next u (script_init u) (bracketed k middle))
            (bracketed k middle)) (bracketed k middle) := rfl
    rw [h3, hcall1, hcall2, hoff, hcall3, hlen]

set_option maxRecDepth 1000000 in
/-- C26 as stated fails when the code point of script `S1` lies outside the BMP:
for the text `(`, U+1E900 (the units D83A DD00, script Adlam), an Arabic letter,
`)` the first run the script iterator reports ends at offset 3, not 2; the runs
are [0, 3) Adlam, [3, 4) Arabic, [4, 5) Adlam. -/
theorem script_bracket_supplementary_first_run :
    codePoints [0x28, 0xd83a, 0xdd00, 0x645, 0x29] = [0x28, 0x1e900, 0x645, 0x29] ∧
    bracketed 0 [0xd83a, 0xdd00, 0x645] = [0x28, 0xd83a, 0xdd00, 0x645, 0x29] ∧
    exampleUnicodeAdlam.get_script 0x28 = exampleUnicodeAdlam.SCRIPT_COMMON ∧
    exampleUnicodeAdlam.get_script 0x29 = exampleUnicodeAdlam.SCRIPT_COMMON ∧
    exampleUnicodeAdlam.get_script 0x1e900 = 4 ∧ exampleUnicodeAdlam.get_script 0x645 = 2 ∧
    isReal exampleUnicodeAdlam 4 = true ∧ isReal exampleUnicodeAdlam 2 = true ∧
    0x1e900 ∉ paired_chars ∧ 0x645 ∉ paired_chars ∧
    (script_calls exampleUnicodeAdlam [0x28, 0xd83a, 0xdd00, 0x645, 0x29] 1).offset ≠ 2 ∧
    (script_calls exampleUnicodeAdlam [0x28, 0xd83a, 0xdd00, 0x645, 0x29] 1).offset = 3 ∧
    (script_calls exampleUnicodeAdlam [0x28, 0xd83a, 0xdd00, 0x645, 0x29] 1).script = 4 ∧
    (script_calls exampleUnicodeAdlam [0x28, 0xd83a, 0xdd00, 0x645, 0x29] 2).offset = 4 ∧
    (script_calls exampleUnicodeAdlam [0x28, 0xd83a, 0xdd00, 0x645, 0x29] 2).script = 2 ∧
    (script_calls exampleUnicodeAdlam [0x28, 0xd83a, 0xdd00, 0x645, 0x29] 3).offset = 5 ∧
    (script_calls exampleUnicodeAdlam [0x28, 0xd83a, 0xdd00, 0x645, 0x29] 3).script = 4 ∧
    (script_calls exampleUnicodeAdlam [0x28, 0xd83a, 0xdd00, 0x645, 0x29] 3).done = true := by
  decide

/-- C26, amended: for a text of UTF-16 code units made of an opening bracket, a
code point `a` outside the table of real script `S1`, one or more code points
outside the table of a real script `S2` other than `S1`, and the matching closing
bracket, both brackets classified Common, the script iterator yields exactly
three runs: [0, 1 + w) with script `S1`, [1 + w, n - 1) with script `S2` and
[n - 1, n) with script `S1`, where `n` is the number of code units and `w` the
number of code units of `a`, 1 for a code point of the BMP and 2 for a surrogate
pair. -/
theorem script_bracket_three_runs (u : UnicodeData) (k S1 S2 a : Nat) (bs middle : List Nat)
    (hk : k < 58)
    (hopen : u.get_script (paired_chars.getD (2 * k) 0) = u.SCRIPT_COMMON)
    (hclose : u.get_script (paired_chars.getD (2 * k + 1) 0) = u.SCRIPT_COMMON)
    (hS1 : isReal u S1 = true) (hS2 : isReal u S2 = true) (hne : S1 ≠ S2)
    (hunits : ∀ c ∈ middle, c < 0x10000)
    (hmid : codePoints middle = a :: bs) (hbs : bs ≠ [])
    (ha : a ∉ paired_chars ∧ u.get_script a = S1)
    (hb : ∀ b ∈ bs, b ∉ paired_chars ∧ u.get_script b = S2) :
    ((script_calls u (bracketed k middle) 1).offset = 1 + (if a < 0x10000 then 1 else 2) ∧
      (script_calls u (bracketed k middle) 1).script = S1 ∧
      (script_calls u (bracketed k middle) 1).done = false) ∧
    ((script_calls u (bracketed k middle) 2).offset = (bracketed k middle).length - 1 ∧
      (script_calls u (bracketed k middle) 2).script = S2 ∧
      (script_calls u (bracketed k middle) 2).done = false) ∧
    ((script_calls u (bracketed k middle) 3).offset = (bracketed k middle).length ∧
      (script_calls u (bracketed k middle) 3).script = S1 ∧
      (script_calls u (bracketed k middle) 3).done = true) ∧
    1 + (if a < 0x10000 then 1 else 2) < (bracketed k middle).length - 1 := by
  obtain ⟨h0, h1, h2, h3⟩ := script_calls_bracket_runs u k S1 S2 a bs middle hk hopen hclose
    hS1 hS2 hne hunits hmid hbs ha hb
  rw [h1, h2, h3]
  exact ⟨⟨rfl, rfl, rfl⟩, ⟨rfl, rfl, rfl⟩, ⟨rfl, rfl, rfl⟩, h0⟩

set_option maxRecDepth 1000000 in
/-- C26 on `(a` followed by two Arabic letters and `)`: the runs are [0, 2) of the
script of `a`, [2, 4) Arabic and [4, 5) of the script of `a` again. -/
theorem script_bracket_three_runs_witness :
    bracketed 0 [97, 0x645, 0x631] = [0x28, 97, 0x645, 0x631, 0x29] ∧
    codePoints [97, 0x645, 0x631] = 97 :: [0x645, 0x631] ∧
    ((script_calls exampleUnicode (bracketed 0 [97, 0x645, 0x631]) 1).offset =
        1 + (if 97 < 0x10000 then 1 else 2) ∧
      (script_calls exampleUnicode (bracketed 0 [97, 0x645, 0x631]) 1).script = 1 ∧
      (script_calls exampleUnicode (bracketed 0 [97, 0x645, 0x631]) 1).done = false) ∧
    ((script_calls exampleUnicode (bracketed 0 [97, 0x645, 0x631]) 2).offset =
        (bracketed 0 [97, 0x645, 0x631]).length - 1 ∧
      (script_calls exampleUnicode (bracketed 0 [97, 0x645, 0x631]) 2).script = 2 ∧
      (script_calls exampleUnicode (bracketed 0 [97, 0x645, 0x631]) 2).done = false) ∧
    ((script_calls exampleUnicode (bracketed 0 [97, 0x645, 0x631]) 3).offset =
        (bracketed 0 [97, 0x645, 0x631]).length ∧
      (script_calls exampleUnicode (bracketed 0 [97, 0x645, 0x631]) 3).script = 1 ∧
      (script_calls exampleUnicode (bracketed 0 [97, 0x645, 0x631]) 3).done = true) ∧
    1 + (if 97 < 0x10000 then 1 else 2) < (bracketed 0 [97, 0x645, 0x631]).length - 1 :=
  ⟨by decide, by decide,
    script_bracket_three_runs exampleUnicode 0 1 2 97 [0x645, 0x631] [97, 0x645, 0x631]
      (by decide) (by decide) (by decide) (by decide) (by decide) (by decide) (by decide)
      (by decide) (by decide) (by decide) (by decide)⟩

/-! ## get_pair_index: the table and the binary search -/

set_option maxRecDepth 1000000 in
theorem paired_chars_increasing : paired_chars.Pairwise (fun a b => a < b) := by decide

theorem linearSearch_not_mem (ch : Nat) :
    ∀ (l : List Nat) (i : Int), ch ∉ l → linearSearch ch l i = -1 := by
  intro l
  induction l with
  | nil => intro i _; rfl
  | cons c rest ih =>
    intro i h
    rw [linearSearch, if_neg (fun hc => h (by rw [hc]; exact List.mem_cons_self _ _))]
    exact ih (i + 1) (fun hm => h (List.mem_cons_of_mem _ hm))

set_option maxRecDepth 1000000 in
theorem linearSearch_table :
    ∀ k, k < 116 → linearSearch (paired_chars.getD k 0) paired_chars 0 = (k : Int) := by
  decide

theorem mem_paired_chars_iff (ch : Nat) :
    ch ∈ paired_chars ↔ ∃ k, k < 116 ∧ paired_chars.getD k 0 = ch := by
  have hlen : paired_chars.length = 116 := rfl
  constructor
  · intro h
    obtain ⟨k, hk, hget⟩ := List.getElem_of_mem h
    exact ⟨k, by omega, by rw [List.getD_eq_getElem paired_chars 0 hk]; exact hget⟩
  · rintro ⟨k, hk, hget⟩
    rw [← hget]
    exact paired_chars_getD_mem k hk

/-- With a budget of at least the width of the interval the loop of
`get_pair_index` has ended: a larger budget changes nothing. -/
theorem get_pair_index_loop_budget (ch : Nat) :
    ∀ (fuel : Nat) (lower upper : Int), 0 ≤ lower → (upper - lower + 1).toNat ≤ fuel →
    ∀ extra : Nat, get_pair_index_loop ch (fuel + extra) lower upper =
      get_pair_index_loop ch fuel lower upper := by
  have hs : ∀ (f : Nat) (l u : Int), get_pair_index_loop ch (f + 1) l u =
      if l ≤ u then
        if ch < paired_chars.getD (Int.tdiv (l + u) 2).toNat 0 then
          get_pair_index_loop ch f l (Int.tdiv (l + u) 2 - 1)
        else if ch > paired_chars.getD (Int.tdiv (l + u) 2).toNat 0 then
          get_pair_index_loop ch f (Int.tdiv (l + u) 2 + 1) u
        else Int.tdiv (l + u) 2
      else -1 := fun _ _ _ => rfl
  intro fuel
  induction fuel with
  | zero =>
    intro lower upper _ h extra
    have hlt : ¬ lower ≤ upper := by omega
    cases extra with
    | zero => rfl
    | succ extra =>
      have h0 : 0 + (extra + 1) = extra + 1 := by omega
      rw [h0, hs, if_neg hlt]
      rfl
  | succ fuel ih =>
    intro lower upper h0 h extra
    have h1 : fuel + 1 + extra = (fuel + extra) + 1 := by omega
    rw [h1, hs, hs]
    by_cases hle : lower ≤ upper
    · have hmid : Int.tdiv (lower + upper) 2 = (lower + upper) / 2 :=
        Int.tdiv_eq_ediv (by omega) (by omega)
      rw [if_pos hle, if_pos hle, hmid,
        ih lower ((lower + upper) / 2 - 1) h0 (by omega) extra,
        ih ((lower + upper) / 2 + 1) upper (by omega) (by omega) extra]
    · rw [if_neg hle, if_neg hle]

/-- C34: the table `paired_chars` is strictly increasing and has an even number
of entries (116); for every code point `get_pair_index` gives the answer of a
linear search of the table, the index of the entry when there is one and `-1`
otherwise; the loop has ended within the budget (any larger budget gives the same
answer); the entry at an even index `2 * k` is found at `2 * k` and the next
entry at `2 * k + 1`, which the iterator pairs with `2 * k`. -/
theorem get_pair_index_linear_search :
    paired_chars.Pairwise (fun a b => a < b) ∧
    paired_chars.length = 116 ∧ paired_chars.length % 2 = 0 ∧
    (∀ ch, get_pair_index ch = linearSearch ch paired_chars 0) ∧
    (∀ ch, ch ∈ paired_chars →
      0 ≤ get_pair_index ch ∧ (get_pair_index ch).toNat < paired_chars.length ∧
        paired_chars.getD (get_pair_index ch).toNat 0 = ch) ∧
    (∀ ch, ch ∉ paired_chars → get_pair_index ch = -1) ∧
    (∀ ch extra, get_pair_index_loop ch (paired_chars_count + extra) 0
        ((paired_chars_count : Int) - 1) = get_pair_index ch) ∧
    (∀ k, k < 58 →
      get_pair_index (paired_chars.getD (2 * k) 0) = ((2 * k : Nat) : Int) ∧
      get_pair_index (paired_chars.getD (2 * k + 1) 0) = ((2 * k + 1 : Nat) : Int) ∧
      ((2 * k + 1 : Nat) : Int) - ((2 * k + 1 : Nat) : Int) % 2 = ((2 * k : Nat) : Int)) := by
  have hmem : ∀ ch, ch ∈ paired_chars →
      ∃ k, k < 116 ∧ paired_chars.getD k 0 = ch ∧ get_pair_index ch = (k : Int) := by
    intro ch h
    obtain ⟨k, hk, hget⟩ := (mem_paired_chars_iff ch).1 h
    exact ⟨k, hk, hget, by rw [← hget]; exact get_pair_index_table k hk⟩
  refine ⟨paired_chars_increasing, rfl, rfl, ?_, ?_, get_pair_index_not_mem, ?_, ?_⟩
  · intro ch
    by_cases h : ch ∈ paired_chars
    · obtain ⟨k, hk, hget, hidx⟩ := hmem ch h
      rw [hidx, ← hget, linearSearch_table k hk]
    · rw [get_pair_index_not_mem ch h, linearSearch_not_mem ch paired_chars 0 h]
  · intro ch h
    obtain ⟨k, hk, hget, hidx⟩ := hmem ch h
    have hlen : paired_chars.length = 116 := rfl
    rw [hidx]
    exact ⟨by omega, by simp only [Int.toNat_ofNat]; omega, by simpa using hget⟩
  · intro ch extra
    have hc : paired_chars_count = 116 := rfl
    exact get_pair_index_loop_budget ch paired_chars_count 0 ((paired_chars_count : Int) - 1)
      (le_refl _) (by rw [hc]; decide) extra
  · intro k hk
    exact ⟨get_pair_index_table (2 * k) (by omega), get_pair_index_table (2 * k + 1) (by omega),
      by omega⟩

/-! ## narrowByWeight: the selected weight and the order of the candidates -/

theorem distance_congr (w : Nat) (f g : FontDescriptor) (h : f.weight = g.weight) :
    distance w f = distance w g := by
  unfold distance
  rw [h]

/-- The weights of the trackers of the scan are fixed by the weights that occur
among the candidates. -/
theorem scanInv_weights (w d : Nat) (l1 l2 : List FontDescriptor) (best1 best2 : Best)
    (h12 : ∀ f ∈ l1, ∃ g ∈ l2, g.weight = f.weight)
    (h21 : ∀ f ∈ l2, ∃ g ∈ l1, g.weight = f.weight)
    (hi1 : ScanInv w d l1 best1) (hi2 : ScanInv w d l2 best2) :
    best1.bestBelow.map (fun f => f.weight) = best2.bestBelow.map (fun f => f.weight) ∧
    best1.bestAbove.map (fun f => f.weight) = best2.bestAbove.map (fun f => f.weight) := by
  obtain ⟨bn1, bs1, an1, as1⟩ := hi1
  obtain ⟨bn2, bs2, an2, as2⟩ := hi2
  constructor
  · cases hb1 : best1.bestBelow with
    | none =>
      cases hb2 : best2.bestBelow with
      | none => rfl
      | some b2 =>
        exfalso
        obtain ⟨m2, lt2, _, le2, _⟩ := bs2 b2 hb2
        obtain ⟨g, hg, hgw⟩ := h21 b2 m2
        have := (bn1 hb1).2 g hg (by omega)
        rw [distance_congr w g b2 hgw] at this
        omega
    | some b1 =>
      obtain ⟨m1, lt1, _, le1, min1⟩ := bs1 b1 hb1
      cases hb2 : best2.bestBelow with
      | none =>
        exfalso
        obtain ⟨g, hg, hgw⟩ := h12 b1 m1
        have := (bn2 hb2).2 g hg (by omega)
        rw [distance_congr w g b1 hgw] at this
        omega
      | some b2 =>
        obtain ⟨m2, lt2, _, le2, min2⟩ := bs2 b2 hb2
        obtain ⟨g1, hg1, hgw1⟩ := h12 b1 m1
        obtain ⟨g2, hg2, hgw2⟩ := h21 b2 m2
        have e1 := min1 g2 hg2 (by omega)
        have e2 := min2 g1 hg1 (by omega)
        rw [distance_congr w g2 b2 hgw2] at e1
        rw [distance_congr w g1 b1 hgw1] at e2
        have hd : distance w b1 = distance w b2 := by omega
        have := e1.2 hd.symm
        have := e2.2 hd
        simp only [Option.map_some', Option.some.injEq]
        omega
  · cases ha1 : best1.bestAbove with
    | none =>
      cases ha2 : best2.bestAbove with
      | none => rfl
      | some a2 =>
        exfalso
        obtain ⟨m2, ge2, _, lt2, _⟩ := as2 a2 ha2
        obtain ⟨g, hg, hgw⟩ := h21 a2 m2
        have := (an1 ha1).2 g hg (by omega)
        rw [distance_congr w g a2 hgw] at this
        omega
    | some a1 =>
      obtain ⟨m1, ge1, _, lt1, min1⟩ := as1 a1 ha1
      cases ha2 : best2.bestAbove with
      | none =>
        exfalso
        obtain ⟨g, hg, hgw⟩ := h12 a1 m1
        have := (an2 ha2).2 g hg (by omega)
        rw [distance_congr w g a1 hgw] at this
        omega
      | some a2 =>
        obtain ⟨m2, ge2, _, lt2, min2⟩ := as2 a2 ha2
        obtain ⟨g1, hg1, hgw1⟩ := h12 a1 m1
        obtain ⟨g2, hg2, hgw2⟩ := h21 a2 m2
        have e1 := min1 g2 hg2 (by omega)
        have e2 := min2 g1 hg1 (by omega)
        rw [distance_congr w g2 a2 hgw2] at e1
        rw [distance_congr w g1 a1 hgw1] at e2
        have hd : distance w a1 = distance w a2 := by omega
        have := e1.2 hd.symm
        have := e2.2 hd
        simp only [Option.map_some', Option.some.injEq]
        omega

theorem pick_weight (d : Nat) (bb1 bb2 ba1 ba2 : Option FontDescriptor)
    (hb : bb1.map (fun f => f.weight) = bb2.map (fun f => f.weight))
    (ha : ba1.map (fun f => f.weight) = ba2.map (fun f => f.weight)) :
    (match bb1, ba1 with
      | some below, some above => if d ≤ 500 then some below else some above
      | some below, none => some below
      | none, above => above).map (fun (f : FontDescriptor) => f.weight) =
    (match bb2, ba2 with
      | some below, some above => if d ≤ 500 then some below else some above
      | some below, none => some below
      | none, above => above).map (fun (f : FontDescriptor) => f.weight) := by
  by_cases hd : d ≤ 500
  · simp only [if_pos hd]
    cases bb1 <;> cases bb2 <;> cases ba1 <;> cases ba2 <;> simp_all
  · simp only [if_neg hd]
    cases bb1 <;> cases bb2 <;> cases ba1 <;> cases ba2 <;> simp_all

theorem narrowByWeight_weight_of_weights (sort1 sort2 : StdSort)
    (fonts1 fonts2 : List FontDescriptor) (properties : FontProperties)
    (h12 : ∀ f ∈ fonts1, ∃ g ∈ fonts2, g.weight = f.weight)
    (h21 : ∀ f ∈ fonts2, ∃ g ∈ fonts1, g.weight = f.weight) :
    (narrowByWeight sort1 fonts1 properties).map (fun f => f.weight) =
      (narrowByWeight sort2 fonts2 properties).map (fun f => f.weight) := by
  by_cases hex : ∃ d ∈ fonts1, d.weight = properties.weight
  · obtain ⟨d, hd, hdw⟩ := hex
    obtain ⟨g, hg, hgw⟩ := h12 d hd
    obtain ⟨r1, e1, _, w1⟩ := narrowByWeight_exact sort1 fonts1 properties ⟨d, hd, hdw⟩
    obtain ⟨r2, e2, _, w2⟩ := narrowByWeight_exact sort2 fonts2 properties
      ⟨g, hg, by rw [hgw, hdw]⟩
    rw [e1, e2]
    simp [w1, w2]
  · have hno1 : ∀ f ∈ fonts1, f.weight ≠ properties.weight :=
      fun f hf heq => hex ⟨f, hf, heq⟩
    have hno2 : ∀ f ∈ fonts2, f.weight ≠ properties.weight := by
      intro f hf heq
      obtain ⟨g, hg, hgw⟩ := h21 f hf
      exact hno1 g hg (by rw [hgw, heq])
    obtain ⟨best1, hi1, hr1⟩ := narrowByWeight_scan sort1 fonts1 properties hno1
    obtain ⟨best2, hi2, hr2⟩ := narrowByWeight_scan sort2 fonts2 properties hno2
    obtain ⟨hb, ha⟩ := scanInv_weights _ _ _ _ _ _ h12 h21 hi1 hi2
    rw [hr1, hr2]
    exact pick_weight _ _ _ _ _ hb ha

/-- C31: the weight `narrowByWeight` selects depends only on the weights of the
candidates: for two candidate lists with the same multiset of weights, as two
lists that are permutations of each other have, any requested weight and any two
results of `std::sort`, the two calls both return the null pointer or return
descriptors of the same weight. -/
theorem narrowByWeight_weight_perm (sort1 sort2 : StdSort)
    (fonts1 fonts2 : List FontDescriptor) (properties : FontProperties)
    (h : (fonts1.map (fun f => f.weight)).Perm (fonts2.map (fun f => f.weight))) :
    (narrowByWeight sort1 fonts1 properties).map (fun f => f.weight) =
      (narrowByWeight sort2 fonts2 properties).map (fun f => f.weight) ∧
    (fonts1.Perm fonts2 →
      ((narrowByWeight sort1 fonts1 properties = none ∧
          narrowByWeight sort2 fonts2 properties = none) ∨
        ∃ r1 r2, narrowByWeight sort1 fonts1 properties = some r1 ∧
          narrowByWeight sort2 fonts2 properties = some r2 ∧ r1.weight = r2.weight)) := by
  have key : ∀ (l1 l2 : List FontDescriptor),
      (l1.map (fun f => f.weight)).Perm (l2.map (fun f => f.weight)) →
      ∀ f ∈ l1, ∃ g ∈ l2, g.weight = f.weight := by
    intro l1 l2 hp f hf
    have : f.weight ∈ l2.map (fun f => f.weight) :=
      hp.subset (List.mem_map.2 ⟨f, hf, rfl⟩)
    obtain ⟨g, hg, hgw⟩ := List.mem_map.1 this
    exact ⟨g, hg, hgw⟩
  have hmain := narrowByWeight_weight_of_weights sort1 sort2 fonts1 fonts2 properties
    (key fonts1 fonts2 h) (key fonts2 fonts1 h.symm)
  refine ⟨hmain, fun _ => ?_⟩
  cases h1 : narrowByWeight sort1 fonts1 properties with
  | none =>
    cases h2 : narrowByWeight sort2 fonts2 properties with
    | none => exact Or.inl ⟨rfl, rfl⟩
    | some r2 => rw [h1, h2] at hmain; simp at hmain
  | some r1 =>
    cases h2 : narrowByWeight sort2 fonts2 properties with
    | none => rw [h1, h2] at hmain; simp at hmain
    | some r2 =>
      rw [h1, h2] at hmain
      exact Or.inr ⟨r1, r2, rfl, rfl, by simpa using hmain⟩

/-- C31 on the candidates 300, 600 in both orders with a request of weight 400. -/
theorem narrowByWeight_weight_perm_witness :
    ([mkFont 0 300 FontStyle.Normal, mkFont 1 600 FontStyle.Italic].map
        (fun f => f.weight)).Perm
      ([mkFont 1 600 FontStyle.Italic, mkFont 0 300 FontStyle.Normal].map
        (fun f => f.weight)) ∧
    narrowByWeight insertionStdSort
        [mkFont 0 300 FontStyle.Normal, mkFont 1 600 FontStyle.Italic]
        (mkRequest 400 FontStyle.Normal) = some (mkFont 0 300 FontStyle.Normal) ∧
    (narrowByWeight insertionStdSort
        [mkFont 0 300 FontStyle.Normal, mkFont 1 600 FontStyle.Italic]
        (mkRequest 400 FontStyle.Normal)).map (fun f => f.weight) =
      (narrowByWeight insertionStdSort
        [mkFont 1 600 FontStyle.Italic, mkFont 0 300 FontStyle.Normal]
        (mkRequest 400 FontStyle.Normal)).map (fun f => f.weight) :=
  ⟨by decide, by decide,
    (narrowByWeight_weight_perm insertionStdSort insertionStdSort
      [mkFont 0 300 FontStyle.Normal, mkFont 1 600 FontStyle.Italic]
      [mkFont 1 600 FontStyle.Italic, mkFont 0 300 FontStyle.Normal]
      (mkRequest 400 FontStyle.Normal) (by decide)).1⟩

/-! ## compareFamilyNames as an equivalence relation -/

theorem tolower_isspace (x y : Nat) (h : tolower x = tolower y) : isspace x = isspace y := by
  unfold tolower at h
  unfold isspace
  split_ifs at h with h1 h2 h2
  · have : x = y := by omega
    rw [this]
  · have hy : y = x + 32 := by omega
    subst hy
    have e1 : (x == 32) = false := by simp; omega
    have e2 : (x + 32 == 32) = false := by simp; omega
    have e3 : (9 ≤ x && x ≤ 13) = false := by simp; omega
    have e4 : (9 ≤ x + 32 && x + 32 ≤ 13) = false := by simp
    simp [e1, e2, e3, e4]
  · have hx : x = y + 32 := by omega
    subst hx
    have e1 : (y == 32) = false := by simp; omega
    have e2 : (y + 32 == 32) = false := by simp; omega
    have e3 : (9 ≤ y && y ≤ 13) = false := by simp; omega
    have e4 : (9 ≤ y + 32 && y + 32 ≤ 13) = false := by simp
    simp [e1, e2, e3, e4]
  · rw [h]

theorem dropWhile_spaces_append (ws a : List Nat) (h : ∀ c ∈ ws, isspace c = true) :
    (ws ++ a).dropWhile isspace = a.dropWhile isspace := by
  induction ws with
  | nil => rfl
  | cons c rest ih =>
    rw [List.cons_append, List.dropWhile_cons_of_pos (h c (List.mem_cons_self _ _))]
    exact ih (fun x hx => h x (List.mem_cons_of_mem _ hx))

theorem rdropWhile_append_spaces (a ws : List Nat) (h : ∀ c ∈ ws, isspace c = true) :
    (a ++ ws).rdropWhile isspace = a.rdropWhile isspace := by
  induction ws using List.reverseRecOn with
  | nil => simp
  | append_singleton rest c ih =>
    rw [← List.append_assoc,
      List.rdropWhile_concat_pos isspace (a ++ rest) c (h c (by simp))]
    exact ih (fun x hx => h x (by simp [hx]))

theorem dropWhile_all_spaces (a : List Nat) (h : ∀ c ∈ a, isspace c = true) :
    a.dropWhile isspace = [] := by
  rw [List.dropWhile_eq_nil_iff]
  exact h

/-- Leading and trailing whitespace does not change the trimmed string. -/
theorem trimSpec_pad (ws1 a ws2 : List Nat) (h1 : ∀ c ∈ ws1, isspace c = true)
    (h2 : ∀ c ∈ ws2, isspace c = true) : trimSpec (ws1 ++ a ++ ws2) = trimSpec a := by
  unfold trimSpec
  rw [List.append_assoc, dropWhile_spaces_append ws1 (a ++ ws2) h1]
  by_cases hall : ∀ c ∈ a, isspace c = true
  · rw [dropWhile_all_spaces a hall,
      dropWhile_all_spaces (a ++ ws2) (fun c hc => by
        rcases List.mem_append.1 hc with h | h
        · exact hall c h
        · exact h2 c h)]
  · have hsplit : (a ++ ws2).dropWhile isspace = a.dropWhile isspace ++ ws2 := by
      push_neg at hall
      obtain ⟨c, hc, hns⟩ := hall
      clear h1
      induction a with
      | nil => exact absurd hc (List.not_mem_nil c)
      | cons x rest ih =>
        by_cases hx : isspace x = true
        · rw [List.cons_append, List.dropWhile_cons_of_pos hx, List.dropWhile_cons_of_pos hx]
          rcases List.mem_cons.1 hc with h | h
          · rw [h] at hns
            exact absurd hx hns
          · exact ih h
        · rw [List.cons_append, List.dropWhile_cons_of_neg hx, List.dropWhile_cons_of_neg hx]
          rfl
    rw [hsplit, rdropWhile_append_spaces _ ws2 h2]

theorem sameCase_of_map : ∀ (a b : List Nat), a.map tolower = b.map tolower →
    List.Forall₂ (fun x y => tolower x = tolower y) a b := by
  intro a
  induction a with
  | nil =>
    intro b h
    cases b with
    | nil => exact List.Forall₂.nil
    | cons y rest => simp at h
  | cons x rest ih =>
    intro b h
    cases b with
    | nil => simp at h
    | cons y rest2 =>
      simp only [List.map_cons, List.cons.injEq] at h
      exact List.Forall₂.cons h.1 (ih rest2 h.2)

theorem map_of_sameCase (a b : List Nat)
    (h : List.Forall₂ (fun x y => tolower x = tolower y) a b) :
    a.length = b.length ∧ a.map tolower = b.map tolower := by
  induction h with
  | nil => exact ⟨rfl, rfl⟩
  | cons hxy _ ih =>
    exact ⟨by simp [ih.1], by simp [hxy, ih.2]⟩

theorem sameCase_dropWhile (a b : List Nat)
    (h : List.Forall₂ (fun x y => tolower x = tolower y) a b) :
    List.Forall₂ (fun x y => tolower x = tolower y) (a.dropWhile isspace)
      (b.dropWhile isspace) := by
  induction h with
  | nil => exact List.Forall₂.nil
  | @cons x y l1 l2 hxy hrest ih =>
    have hsp := tolower_isspace x y hxy
    by_cases hx : isspace x = true
    · rw [List.dropWhile_cons_of_pos hx, List.dropWhile_cons_of_pos (by rw [← hsp]; exact hx)]
      exact ih
    · rw [List.dropWhile_cons_of_neg hx, List.dropWhile_cons_of_neg (by rw [← hsp]; exact hx)]
      exact List.Forall₂.cons hxy hrest

/-- Strings equal up to the case of their ASCII letters have trimmed strings
equal up to the case of their ASCII letters. -/
theorem trimSpec_case (a b : List Nat) (h : a.map tolower = b.map tolower) :
    (trimSpec a).length = (trimSpec b).length ∧
      (trimSpec a).map tolower = (trimSpec b).map tolower := by
  have h1 := sameCase_dropWhile a b (sameCase_of_map a b h)
  have h2 := sameCase_dropWhile _ _ (List.forall₂_reverse_iff.2 h1)
  have h3 := List.forall₂_reverse_iff.2 h2
  exact map_of_sameCase _ _ h3

/-- C32: `compareFamilyNames` is reflexive, symmetric and transitive on byte
strings, and its value does not change when an argument gets extra leading or
trailing whitespace or is replaced by a string that differs from it only in the
case of ASCII letters. -/
theorem compareFamilyNames_equivalence :
    (∀ a, compareFamilyNames a a = true) ∧
    (∀ a b, compareFamilyNames a b = compareFamilyNames b a) ∧
    (∀ a b c, compareFamilyNames a b = true → compareFamilyNames b c = true →
      compareFamilyNames a c = true) ∧
    (∀ ws1 ws2 a b, (∀ c ∈ ws1, isspace c = true) → (∀ c ∈ ws2, isspace c = true) →
      compareFamilyNames (ws1 ++ a ++ ws2) b = compareFamilyNames a b ∧
      compareFamilyNames b (ws1 ++ a ++ ws2) = compareFamilyNames b a) ∧
    (∀ a a1 b, a.map tolower = a1.map tolower →
      compareFamilyNames a1 b = compareFamilyNames a b ∧
      compareFamilyNames b a1 = compareFamilyNames b a) := by
  have hsymm : ∀ a b, compareFamilyNames a b = compareFamilyNames b a := by
    intro a b
    rw [Bool.eq_iff_iff, compareFamilyNames_eq_true_iff, compareFamilyNames_eq_true_iff]
    unfold compareFamilyNamesSpec
    exact ⟨fun h => ⟨h.1.symm, h.2.symm⟩, fun h => ⟨h.1.symm, h.2.symm⟩⟩
  have hcongr : ∀ a a1 b, (trimSpec a1).length = (trimSpec a).length →
      (trimSpec a1).map tolower = (trimSpec a).map tolower →
      compareFamilyNames a1 b = compareFamilyNames a b := by
    intro a a1 b hl hm
    rw [Bool.eq_iff_iff, compareFamilyNames_eq_true_iff, compareFamilyNames_eq_true_iff]
    unfold compareFamilyNamesSpec
    rw [hl, hm]
  refine ⟨?_, hsymm, ?_, ?_, ?_⟩
  · intro a
    exact (compareFamilyNames_eq_true_iff a a).2 ⟨rfl, rfl⟩
  · intro a b c hab hbc
    rw [compareFamilyNames_eq_true_iff] at hab hbc ⊢
    exact ⟨hab.1.trans hbc.1, hab.2.trans hbc.2⟩
  · intro ws1 ws2 a b h1 h2
    have hp := trimSpec_pad ws1 a ws2 h1 h2
    have e1 := hcongr a (ws1 ++ a ++ ws2) b (by rw [hp]) (by rw [hp])
    exact ⟨e1, by rw [hsymm b, hsymm b a, e1]⟩
  · intro a a1 b h
    obtain ⟨hl, hm⟩ := trimSpec_case a1 a h.symm
    have e1 := hcongr a a1 b hl hm
    exact ⟨e1, by rw [hsymm b, hsymm b a, e1]⟩

/-- C32 on `Arial`: padded with a tab (byte 9) and spaces (byte 32), and in upper
case. -/
theorem compareFamilyNames_equivalence_witness :
    (∀ c ∈ [9, 32], isspace c = true) ∧ (∀ c ∈ [32, 32], isspace c = true) ∧
    (bytes "Arial").map tolower = (bytes "ARIAL").map tolower ∧
    compareFamilyNames ([9, 32] ++ bytes "Arial" ++ [32, 32]) (bytes "arial") =
      compareFamilyNames (bytes "Arial") (bytes "arial") ∧
    compareFamilyNames (bytes "ARIAL") (bytes "arial") =
      compareFamilyNames (bytes "Arial") (bytes "arial") :=
  ⟨by decide, by decide, by decide,
    (compareFamilyNames_equivalence.2.2.2.1 ([9, 32]) ([32, 32]) (bytes "Arial")
      (bytes "arial") (by decide) (by decide)).1,
    (compareFamilyNames_equivalence.2.2.2.2 (bytes "Arial") (bytes "ARIAL") (bytes "arial")
      (by decide)).1⟩

/-! ## FontFaceSet: the registry under add, delete and clear -/

theorem hashFind_eq_some (facesHash : List (Nat × Nat))
    (hnd : (facesHash.map (fun entry => entry.1)).Nodup) (id i : Nat) :
    hashFind facesHash id = some i ↔ (id, i) ∈ facesHash := by
  unfold hashFind
  induction facesHash with
  | nil => simp
  | cons e rest ih =>
    obtain ⟨k, v⟩ := e
    simp only [List.map_cons, List.nodup_cons] at hnd
    rw [List.find?_cons]
    by_cases hk : k = id
    · subst hk
      simp only [beq_self_eq_true, Option.map_some', Option.some.injEq, List.mem_cons,
        Prod.mk.injEq, true_and]
      constructor
      · intro h; exact Or.inl h.symm
      · rintro (h | h)
        · exact h.symm
        · exact absurd (List.mem_map.2 ⟨(k, i), h, rfl⟩) hnd.1
    · have hb : ((k, v).1 == id) = false := by simpa using hk
      rw [hb]
      simp only [List.mem_cons, Prod.mk.injEq]
      rw [ih hnd.2]
      constructor
      · intro h; exact Or.inr h
      · rintro (h | h)
        · exact absurd h.1.symm hk
        · exact h

theorem hashContains_iff (facesHash : List (Nat × Nat)) (id : Nat) :
    hashContains facesHash id = true ↔ ∃ i, (id, i) ∈ facesHash := by
  unfold hashContains
  simp only [List.any_eq_true, beq_iff_eq, Prod.exists]
  constructor
  · rintro ⟨a, b, h, rfl⟩; exact ⟨b, h⟩
  · rintro ⟨i, h⟩; exact ⟨id, i, h, rfl⟩

theorem mem_liveFaces (set : FontFaceSet) (face : FontFace) :
    face ∈ liveFaces set ↔
      ∃ i : Nat, set.facesData[i]? = some (FontFaceSetEntry.mk (some face)) := by
  unfold liveFaces
  rw [List.mem_filterMap]
  constructor
  · rintro ⟨entry, hmem, hface⟩
    obtain ⟨i, hi⟩ := List.mem_iff_getElem?.1 hmem
    refine ⟨i, ?_⟩
    rw [hi]
    cases entry with
    | mk f =>
      simp only at hface
      rw [hface]
  · rintro ⟨i, hi⟩
    exact ⟨FontFaceSetEntry.mk (some face), List.mem_iff_getElem?.2 ⟨i, hi⟩, rfl⟩

/-- Under the invariant a key is in the map exactly when a live face has it. -/
theorem hashContains_live (set : FontFaceSet) (h : RegistryInv set) (id : Nat) :
    hashContains set.facesHash id = (liveFaces set).any (fun g => g.id == id) := by
  rw [Bool.eq_iff_iff, hashContains_iff, List.any_eq_true]
  constructor
  · rintro ⟨i, hi⟩
    obtain ⟨face, hget, hid⟩ := (h.1 id i).1 hi
    exact ⟨face, (mem_liveFaces set face).2 ⟨i, hget⟩, by simpa using hid⟩
  · rintro ⟨face, hmem, hid⟩
    obtain ⟨i, hget⟩ := (mem_liveFaces set face).1 hmem
    exact ⟨i, (h.1 id i).2 ⟨face, hget, by simpa using hid⟩⟩

theorem registryInv_empty : RegistryInv emptyFontFaceSet := by
  refine ⟨?_, List.nodup_nil, rfl, List.nodup_nil⟩
  intro id i
  simp [emptyFontFaceSet]

theorem registryInv_clear (set : FontFaceSet) :
    RegistryInv set.Clear ∧ liveFaces set.Clear = [] := by
  have hlive : liveFaces set.Clear = [] := by
    unfold liveFaces FontFaceSet.Clear
    simp only
    rw [List.filterMap_map]
    apply List.filterMap_eq_nil_iff.2
    intro entry _
    rfl
  refine ⟨⟨?_, List.nodup_nil, by rw [hlive]; rfl, by rw [hlive]; exact List.nodup_nil⟩, hlive⟩
  intro id i
  constructor
  · intro h
    simp [FontFaceSet.Clear] at h
  · rintro ⟨face, hget, _⟩
    have := (mem_liveFaces set.Clear face).2 ⟨i, hget⟩
    rw [hlive] at this
    exact absurd this (List.not_mem_nil face)

theorem registryInv_add (set : FontFaceSet) (face : FontFace) (h : RegistryInv set) :
    RegistryInv (set.Add face) ∧
    liveFaces (set.Add face) =
      (if (liveFaces set).any (fun g => g.id == face.id) then liveFaces set
        else liveFaces set ++ [face]) := by
  have hc := hashContains_live set h face.id
  unfold FontFaceSet.Add
  by_cases hpres : hashContains set.facesHash face.id = true
  · rw [if_neg (by simp [hpres]), if_pos (by rw [← hc]; exact hpres)]
    exact ⟨h, rfl⟩
  · have hfalse : hashContains set.facesHash face.id = false := by simpa using hpres
    rw [if_pos (by simp [hfalse]), if_neg (by rw [← hc]; exact hpres)]
    obtain ⟨hA, hB, hC, hD⟩ := h
    have hlive : liveFaces (FontFaceSet.mk
        (hashInsert set.facesHash face.id set.facesData.length)
        (set.facesData ++ [FontFaceSetEntry.mk (some face)])) = liveFaces set ++ [face] := by
      unfold liveFaces
      simp only
      rw [List.filterMap_append]
      rfl
    have hins : hashInsert set.facesHash face.id set.facesData.length =
        set.facesHash ++ [(face.id, set.facesData.length)] := by
      unfold hashInsert
      rw [if_neg hpres]
    refine ⟨⟨?_, ?_, ?_, ?_⟩, hlive⟩
    · intro id i
      simp only [hins, List.mem_append, List.mem_singleton, Prod.mk.injEq]
      constructor
      · rintro (hm | ⟨rfl, rfl⟩)
        · obtain ⟨f, hget, hid⟩ := (hA id i).1 hm
          have hlt : i < set.facesData.length := by
            by_contra hcon
            rw [List.getElem?_eq_none (by omega)] at hget
            exact absurd hget (by simp)
          exact ⟨f, by rw [List.getElem?_append_left hlt]; exact hget, hid⟩
        · exact ⟨face, by simp, rfl⟩
      · rintro ⟨f, hget, hid⟩
        by_cases hlt : i < set.facesData.length
        · rw [List.getElem?_append_left hlt] at hget
          exact Or.inl ((hA id i).2 ⟨f, hget, hid⟩)
        · by_cases heq : i = set.facesData.length
          · subst heq
            simp only [List.getElem?_concat_length, Option.some.injEq,
              FontFaceSetEntry.mk.injEq] at hget
            rw [← hget] at hid
            exact Or.inr ⟨hid.symm, rfl⟩
          · rw [List.getElem?_eq_none (by simp; omega)] at hget
            exact absurd hget (by simp)
    · rw [hins, List.map_append, List.nodup_append]
      refine ⟨hB, by simp, ?_⟩
      intro a ha hb
      simp only [List.map_cons, List.map_nil, List.mem_singleton] at hb
      subst hb
      obtain ⟨e, he, hk⟩ := List.mem_map.1 ha
      exact hpres ((hashContains_iff _ _).2 ⟨e.2, by rw [← hk]; exact he⟩)
    · rw [hlive, hins]
      simp [hC]
    · rw [hlive, List.map_append, List.nodup_append]
      refine ⟨hD, by simp, ?_⟩
      intro a ha hb
      simp only [List.map_cons, List.map_nil, List.mem_singleton] at hb
      subst hb
      obtain ⟨g, hg, hk⟩ := List.mem_map.1 ha
      have : (liveFaces set).any (fun g => g.id == face.id) = true :=
        List.any_eq_true.2 ⟨g, hg, by simpa using hk⟩
      rw [← hc] at this
      exact hpres this

theorem mem_hashErase (facesHash : List (Nat × Nat))
    (hnd : (facesHash.map (fun entry => entry.1)).Nodup) (id k v : Nat) :
    (k, v) ∈ hashErase facesHash id ↔ (k, v) ∈ facesHash ∧ k ≠ id := by
  unfold hashErase
  induction facesHash with
  | nil => simp
  | cons e rest ih =>
    obtain ⟨k1, v1⟩ := e
    simp only [List.map_cons, List.nodup_cons] at hnd
    by_cases hk : k1 = id
    · subst hk
      rw [List.eraseP_cons_of_pos (by simp)]
      simp only [List.mem_cons, Prod.mk.injEq]
      constructor
      · intro h
        refine ⟨Or.inr h, ?_⟩
        intro hc
        subst hc
        exact hnd.1 (List.mem_map.2 ⟨(k, v), h, rfl⟩)
      · rintro ⟨h | h, hne⟩
        · exact absurd h.1 hne
        · exact h
    · rw [List.eraseP_cons_of_neg (by simpa using hk)]
      simp only [List.mem_cons, Prod.mk.injEq]
      rw [ih hnd.2]
      constructor
      · rintro (⟨rfl, rfl⟩ | ⟨h, hne⟩)
        · exact ⟨Or.inl ⟨rfl, rfl⟩, hk⟩
        · exact ⟨Or.inr h, hne⟩
      · rintro ⟨⟨rfl, rfl⟩ | h, hne⟩
        · exact Or.inl ⟨rfl, rfl⟩
        · exact Or.inr ⟨h, hne⟩

theorem liveFaces_split (facesData : List FontFaceSetEntry) (i : Nat) (entry : FontFaceSetEntry)
    (h : facesData[i]? = some entry) :
    facesData = facesData.take i ++ entry :: facesData.drop (i + 1) := by
  obtain ⟨hlt, hget⟩ := List.getElem?_eq_some_iff.1 h
  rw [← hget, ← List.drop_eq_getElem_cons hlt, List.take_append_drop]

/-- What `Delete` does under the invariant on a face whose id is in the map. -/
theorem registryInv_delete_present (set : FontFaceSet) (face : FontFace) (h : RegistryInv set)
    (i : Nat) (hfind : hashFind set.facesHash face.id = some i) :
    ∃ g, set.facesData[i]? = some (FontFaceSetEntry.mk (some g)) ∧ g.id = face.id ∧
      set.Delete face =
        some (FontFaceSet.mk (hashErase set.facesHash face.id)
          (set.facesData.set i (FontFaceSetEntry.mk none)), true) ∧
      RegistryInv (FontFaceSet.mk (hashErase set.facesHash face.id)
        (set.facesData.set i (FontFaceSetEntry.mk none))) ∧
      liveFaces (FontFaceSet.mk (hashErase set.facesHash face.id)
        (set.facesData.set i (FontFaceSetEntry.mk none))) =
        (liveFaces set).filter (fun g => g.id != face.id) := by
  obtain ⟨hA, hB, hC, hD⟩ := h
  have hmem := (hashFind_eq_some set.facesHash hB face.id i).1 hfind
  obtain ⟨g, hget, hgid⟩ := (hA face.id i).1 hmem
  have hlt : i < set.facesData.length := (List.getElem?_eq_some_iff.1 hget).1
  have hsplit := liveFaces_split set.facesData i _ hget
  have hset' : set.facesData.set i (FontFaceSetEntry.mk none) =
      set.facesData.take i ++ FontFaceSetEntry.mk none :: set.facesData.drop (i + 1) := by
    rw [List.set_eq_take_append_cons_drop, if_pos hlt]
  have hlive0 : liveFaces set =
      (set.facesData.take i).filterMap (fun entry => entry.face) ++
        g :: (set.facesData.drop (i + 1)).filterMap (fun entry => entry.face) := by
    unfold liveFaces
    conv_lhs => rw [hsplit]
    rw [List.filterMap_append]
    rfl
  have hlive1 : liveFaces (FontFaceSet.mk (hashErase set.facesHash face.id)
      (set.facesData.set i (FontFaceSetEntry.mk none))) =
      (set.facesData.take i).filterMap (fun entry => entry.face) ++
        (set.facesData.drop (i + 1)).filterMap (fun entry => entry.face) := by
    unfold liveFaces
    simp only
    rw [hset', List.filterMap_append]
    rfl
  have hD' := hD
  rw [hlive0, List.map_append, List.map_cons, List.nodup_append] at hD'
  obtain ⟨hD1, hD2, hD3⟩ := hD'
  rw [List.nodup_cons] at hD2
  have hfilter : (liveFaces set).filter (fun g => g.id != face.id) =
      (set.facesData.take i).filterMap (fun entry => entry.face) ++
        (set.facesData.drop (i + 1)).filterMap (fun entry => entry.face) := by
    rw [hlive0, List.filter_append, List.filter_cons_of_neg (by simp [hgid])]
    congr 1
    · apply List.filter_eq_self.2
      intro x hx
      simp only [bne_iff_ne, ne_eq]
      intro hc
      exact hD3 (List.mem_map.2 ⟨x, hx, rfl⟩)
        (by rw [hc, ← hgid]; exact List.mem_cons_self _ _)
    · apply List.filter_eq_self.2
      intro x hx
      simp only [bne_iff_ne, ne_eq]
      intro hc
      exact hD2.1 (by rw [hgid, ← hc]; exact List.mem_map.2 ⟨x, hx, rfl⟩)
  have hdel : set.Delete face =
      some (FontFaceSet.mk (hashErase set.facesHash face.id)
        (set.facesData.set i (FontFaceSetEntry.mk none)), true) := by
    unfold FontFaceSet.Delete
    rw [hfind]
    simp only
    rw [hget]
  refine ⟨g, hget, hgid, hdel, ⟨?_, ?_, ?_, ?_⟩, by rw [hlive1, hfilter]⟩
  · intro id j
    simp only
    rw [mem_hashErase set.facesHash hB face.id id j]
    constructor
    · rintro ⟨hm, hne⟩
      obtain ⟨f, hgetj, hfid⟩ := (hA id j).1 hm
      have hji : i ≠ j := by
        intro hc
        subst hc
        rw [hget] at hgetj
        simp only [Option.some.injEq, FontFaceSetEntry.mk.injEq] at hgetj
        rw [hgetj] at hgid
        exact hne (by rw [← hfid, hgid])
      exact ⟨f, by rw [List.getElem?_set_ne hji]; exact hgetj, hfid⟩
    · rintro ⟨f, hgetj, hfid⟩
      have hji : i ≠ j := by
        intro hc
        subst hc
        rw [List.getElem?_set_self hlt] at hgetj
        simp at hgetj
      rw [List.getElem?_set_ne hji] at hgetj
      have hm := (hA id j).2 ⟨f, hgetj, hfid⟩
      refine ⟨hm, ?_⟩
      intro hc
      subst hc
      have h1 := (hashFind_eq_some set.facesHash hB face.id j).2 hm
      rw [hfind] at h1
      exact hji (Option.some.inj h1)
  · exact (hB.sublist ((List.eraseP_sublist _).map _))
  · simp only
    rw [hlive1]
    have h1 : (hashErase set.facesHash face.id).length = set.facesHash.length - 1 := by
      unfold hashErase
      exact List.length_eraseP_of_mem hmem (by simp)
    rw [h1, hC, hlive0]
    simp
  · rw [hlive1, List.map_append, List.nodup_append]
    exact ⟨hD1, hD2.2, fun a ha hb => hD3 ha (List.mem_cons_of_mem _ hb)⟩

theorem delete_absent (set : FontFaceSet) (face : FontFace)
    (hfind : hashFind set.facesHash face.id = none) : set.Delete face = some (set, false) := by
  unfold FontFaceSet.Delete
  rw [hfind]

theorem hashFind_none_filter (set : FontFaceSet) (h : RegistryInv set) (face : FontFace)
    (hfind : hashFind set.facesHash face.id = none) :
    (liveFaces set).filter (fun g => g.id != face.id) = liveFaces set := by
  apply List.filter_eq_self.2
  intro x hx
  simp only [bne_iff_ne, ne_eq]
  intro hc
  obtain ⟨i, hget⟩ := (mem_liveFaces set x).1 hx
  have hm := (h.1 face.id i).2 ⟨x, hget, hc⟩
  have := (hashFind_eq_some set.facesHash h.2.1 face.id i).2 hm
  rw [hfind] at this
  exact absurd this (by simp)

/-- Every sequence of calls runs through, keeps the invariant, and leaves the live
faces the insertion-ordered set holds. -/
theorem runOps_inv : ∀ (ops : List RegistryOp) (set : FontFaceSet) (faces : List FontFace),
    RegistryInv set → liveFaces set = faces →
    ∃ set1, runOps ops set = some set1 ∧ RegistryInv set1 ∧
      liveFaces set1 = orderedSet ops faces ∧
      set.facesData.length ≤ set1.facesData.length := by
  intro ops
  induction ops with
  | nil =>
    intro set faces h hl
    exact ⟨set, rfl, h, hl, le_refl _⟩
  | cons op rest ih =>
    intro set faces h hl
    cases op with
    | add face =>
      obtain ⟨h1, h2⟩ := registryInv_add set face h
      obtain ⟨set1, r1, r2, r3, r4⟩ := ih (set.Add face) _ h1 h2
      refine ⟨set1, by rw [runOps]; exact r1, r2, by rw [r3, hl]; rfl, ?_⟩
      have : set.facesData.length ≤ (set.Add face).facesData.length := by
        unfold FontFaceSet.Add
        split_ifs <;> simp
      omega
    | delete face =>
      cases hfind : hashFind set.facesHash face.id with
      | none =>
        have hd := delete_absent set face hfind
        obtain ⟨set1, r1, r2, r3, r4⟩ := ih set _ h
          (hashFind_none_filter set h face hfind).symm
        refine ⟨set1, ?_, r2, by rw [r3, hl]; rfl, r4⟩
        rw [runOps, applyOp, hd]
        exact r1
      | some i =>
        obtain ⟨g, _, _, hd, hinv, hlive⟩ := registryInv_delete_present set face h i hfind
        obtain ⟨set1, r1, r2, r3, r4⟩ := ih _ _ hinv hlive
        refine ⟨set1, ?_, r2, by rw [r3, hl]; rfl, ?_⟩
        · rw [runOps, applyOp, hd]
          exact r1
        · simp only [List.length_set] at r4
          exact r4
    | clear =>
      obtain ⟨h1, h2⟩ := registryInv_clear set
      obtain ⟨set1, r1, r2, r3, r4⟩ := ih set.Clear _ h1 h2
      refine ⟨set1, by rw [runOps]; exact r1, r2, by rw [r3]; rfl, ?_⟩
      have : set.Clear.facesData.length = set.facesData.length := by
        simp [FontFaceSet.Clear]
      omega

theorem iteratorLoop_spec (facesData : List FontFaceSetEntry) :
    ∀ (fuel index : Nat), facesData.length - index ≤ fuel →
    (facesData.drop index).filterMap (fun entry => entry.face) =
      (match (iteratorLoop facesData fuel index).1 with
        | some face =>
          face :: (facesData.drop (iteratorLoop facesData fuel index).2).filterMap
            (fun entry => entry.face)
        | none => []) ∧
    ((iteratorLoop facesData fuel index).1.isSome = true →
      index < (iteratorLoop facesData fuel index).2 ∧
        (iteratorLoop facesData fuel index).2 ≤ facesData.length) := by
  intro fuel
  induction fuel with
  | zero =>
    intro index h
    rw [List.drop_of_length_le (by omega)]
    exact ⟨rfl, fun hc => by simp [iteratorLoop] at hc⟩
  | succ fuel ih =>
    intro index h
    by_cases hlt : index < facesData.length
    · have hdrop := List.drop_eq_getElem_cons hlt
      have hget : facesData[index]? = some facesData[index] := List.getElem?_eq_getElem hlt
      cases hface : facesData[index].face with
      | some face =>
        have hloop : iteratorLoop facesData (fuel + 1) index = (some face, index + 1) := by
          rw [iteratorLoop, if_pos hlt, hget]
          simp only [hface]
        rw [hloop, hdrop]
        refine ⟨?_, fun _ => ⟨Nat.lt_succ_self _, hlt⟩⟩
        simp only [List.filterMap_cons, hface]
      | none =>
        have hloop : iteratorLoop facesData (fuel + 1) index =
            iteratorLoop facesData fuel (index + 1) := by
          rw [iteratorLoop, if_pos hlt, hget]
          simp only [hface]
        obtain ⟨h1, h2⟩ := ih (index + 1) (by omega)
        rw [hloop, hdrop]
        refine ⟨?_, fun hc => ⟨Nat.lt_of_succ_lt (h2 hc).1, (h2 hc).2⟩⟩
        simp only [List.filterMap_cons, hface]
        exact h1
    · have hloop : iteratorLoop facesData (fuel + 1) index = (none, index) := by
        rw [iteratorLoop, if_neg hlt]
      rw [hloop, List.drop_of_length_le (by omega)]
      exact ⟨rfl, fun hc => by simp at hc⟩

/-- Calling `next` until `done` yields the live faces from `index` on, in slot
order. -/
theorem iterateAll_eq (set : FontFaceSet) :
    ∀ (fuel index : Nat), set.facesData.length - index < fuel →
    iterateAll set fuel index =
      (set.facesData.drop index).filterMap (fun entry => entry.face) := by
  intro fuel
  induction fuel with
  | zero => intro index h; omega
  | succ fuel ih =>
    intro index h
    obtain ⟨h1, h2⟩ := iteratorLoop_spec set.facesData (set.facesData.length - index) index
      (le_refl _)
    rw [iterateAll]
    unfold iteratorNext
    cases hres : iteratorLoop set.facesData (set.facesData.length - index) index with
    | mk value index1 =>
      rw [hres] at h1 h2
      cases value with
      | some face =>
        simp only at h1 h2 ⊢
        rw [h1, ih index1 (by have := h2 rfl; omega)]
      | none =>
        simp only at h1 ⊢
        rw [h1]

theorem hashFind_isSome (facesHash : List (Nat × Nat)) (id : Nat) :
    (hashFind facesHash id).isSome = hashContains facesHash id := by
  unfold hashFind hashContains
  induction facesHash with
  | nil => rfl
  | cons e rest ih =>
    rw [List.find?_cons, List.any_cons]
    cases h : (e.1 == id) with
    | true => rfl
    | false => simpa using ih

theorem liveFaces_length (set : FontFaceSet) :
    (liveFaces set).length = (set.facesData.filter (fun entry => entry.face.isSome)).length := by
  unfold liveFaces
  induction set.facesData with
  | nil => rfl
  | cons e rest ih =>
    cases hf : e.face with
    | some face => simp [List.filterMap_cons, List.filter_cons, hf, ih]
    | none => simp [List.filterMap_cons, List.filter_cons, hf, ih]

/-- C35: every sequence of `add`, `delete` and `clear` calls on the empty registry
runs through (no write of `Delete` leaves the vector) and ends in a registry in
which `facesHash` maps an id to the index `i` exactly when slot `i` holds a live
face with that id, `Size` is the number of live slots, the live faces in slot
order are the insertion-ordered set of the calls, and an iteration with `next`
yields them in that order.  On such a registry `Delete` reports true exactly
when the face is present, keeps the length of `facesData` and changes no slot but
the one of the face, which it nulls; `Clear` keeps the length and nulls every
slot; `Add` of a present face changes nothing and `Add` of an absent face appends
one slot at the end, to which its id is mapped. -/
theorem fontFaceSet_registry (ops : List RegistryOp) :
    ∃ set, runOps ops emptyFontFaceSet = some set ∧
      (∀ id i, hashFind set.facesHash id = some i ↔
        ∃ face, set.facesData[i]? = some (FontFaceSetEntry.mk (some face)) ∧ face.id = id) ∧
      set.Size = (set.facesData.filter (fun entry => entry.face.isSome)).length ∧
      liveFaces set = orderedSet ops [] ∧
      iterateAll set (set.facesData.length + 1) 0 = liveFaces set ∧
      (∀ face, set.Has face = (liveFaces set).any (fun g => g.id == face.id)) ∧
      (∀ face, ∃ set1 reported, set.Delete face = some (set1, reported) ∧
        reported = set.Has face ∧
        set1.facesData.length = set.facesData.length ∧
        (∀ j : Nat, set1.facesData[j]? = set.facesData[j]? ∨
          (∃ g, set.facesData[j]? = some (FontFaceSetEntry.mk (some g)) ∧ g.id = face.id ∧
            set1.facesData[j]? = some (FontFaceSetEntry.mk none))) ∧
        liveFaces set1 = (liveFaces set).filter (fun g => g.id != face.id)) ∧
      (set.Clear.facesData.length = set.facesData.length ∧
        (∀ entry ∈ set.Clear.facesData, entry.face = none) ∧ set.Clear.Size = 0) ∧
      (∀ face, set.Has face = true → set.Add face = set) ∧
      (∀ face, set.Has face = false →
        (set.Add face).facesData = set.facesData ++ [FontFaceSetEntry.mk (some face)] ∧
        hashFind (set.Add face).facesHash face.id = some set.facesData.length ∧
        liveFaces (set.Add face) = liveFaces set ++ [face]) := by
  obtain ⟨set, hrun, hinv, hlive, _⟩ := runOps_inv ops emptyFontFaceSet [] registryInv_empty rfl
  have hhas : ∀ face, set.Has face = (liveFaces set).any (fun g => g.id == face.id) := by
    intro face
    unfold FontFaceSet.Has
    rw [hashFind_isSome, hashContains_live set hinv]
  refine ⟨set, hrun, ?_, ?_, hlive, ?_, hhas, ?_, ?_, ?_, ?_⟩
  · intro id i
    rw [hashFind_eq_some set.facesHash hinv.2.1 id i]
    exact hinv.1 id i
  · unfold FontFaceSet.Size
    rw [hinv.2.2.1, liveFaces_length]
  · rw [iterateAll_eq set _ 0 (by omega)]
    rfl
  · intro face
    cases hfind : hashFind set.facesHash face.id with
    | none =>
      refine ⟨set, false, delete_absent set face hfind, ?_, rfl, fun j => Or.inl rfl,
        (hashFind_none_filter set hinv face hfind).symm⟩
      unfold FontFaceSet.Has
      rw [hfind]
      rfl
    | some i =>
      obtain ⟨g, hget, hgid, hd, _, hl⟩ := registryInv_delete_present set face hinv i hfind
      refine ⟨_, true, hd, ?_, by simp, ?_, hl⟩
      · unfold FontFaceSet.Has
        rw [hfind]
        rfl
      · intro j
        by_cases hji : i = j
        · subst hji
          right
          exact ⟨g, hget, hgid, by
            simp only
            rw [List.getElem?_set_self (List.getElem?_eq_some_iff.1 hget).1]⟩
        · left
          simp only
          rw [List.getElem?_set_ne hji]
  · refine ⟨by simp [FontFaceSet.Clear], ?_, rfl⟩
    intro entry hmem
    simp only [FontFaceSet.Clear, List.mem_map] at hmem
    obtain ⟨e, _, he⟩ := hmem
    rw [← he]
  · intro face hp
    unfold FontFaceSet.Has at hp
    rw [hashFind_isSome] at hp
    unfold FontFaceSet.Add
    rw [if_neg (by simp [hp])]
  · intro face hp
    unfold FontFaceSet.Has at hp
    rw [hashFind_isSome] at hp
    have hadd : set.Add face = FontFaceSet.mk
        (set.facesHash ++ [(face.id, set.facesData.length)])
        (set.facesData ++ [FontFaceSetEntry.mk (some face)]) := by
      unfold FontFaceSet.Add hashInsert
      rw [if_pos (by simp [hp]), if_neg (by simp [hp])]
    obtain ⟨hinv1, hlive1⟩ := registryInv_add set face hinv
    refine ⟨by rw [hadd], ?_, ?_⟩
    · rw [hashFind_eq_some _ hinv1.2.1, hadd]
      simp
    · rw [hlive1, if_neg]
      rw [← hashContains_live set hinv, hp]
      exact Bool.false_ne_true

set_option maxRecDepth 100000 in
/-- C35 on: add 1, add 2, delete 1, add 3, add 1; the slots hold -, 2, 3, 1. -/
theorem fontFaceSet_registry_witness :
    runOps [RegistryOp.add (FontFace.mk 1 (mkNamedFont 11 "A" 400 FontStyle.Normal)),
        RegistryOp.add (FontFace.mk 2 (mkNamedFont 12 "B" 400 FontStyle.Normal)),
        RegistryOp.delete (FontFace.mk 1 (mkNamedFont 11 "A" 400 FontStyle.Normal)),
        RegistryOp.add (FontFace.mk 3 (mkNamedFont 13 "C" 400 FontStyle.Normal)),
        RegistryOp.add (FontFace.mk 1 (mkNamedFont 11 "A" 400 FontStyle.Normal))]
      emptyFontFaceSet =
      some (FontFaceSet.mk [(2, 1), (3, 2), (1, 3)]
        [nullSlot, liveSlot 2 (mkNamedFont 12 "B" 400 FontStyle.Normal),
          liveSlot 3 (mkNamedFont 13 "C" 400 FontStyle.Normal),
          liveSlot 1 (mkNamedFont 11 "A" 400 FontStyle.Normal)]) ∧
    ∃ set, runOps [RegistryOp.add (FontFace.mk 1 (mkNamedFont 11 "A" 400 FontStyle.Normal)),
        RegistryOp.add (FontFace.mk 2 (mkNamedFont 12 "B" 400 FontStyle.Normal)),
        RegistryOp.delete (FontFace.mk 1 (mkNamedFont 11 "A" 400 FontStyle.Normal)),
        RegistryOp.add (FontFace.mk 3 (mkNamedFont 13 "C" 400 FontStyle.Normal)),
        RegistryOp.add (FontFace.mk 1 (mkNamedFont 11 "A" 400 FontStyle.Normal))]
        emptyFontFaceSet = some set ∧
      set.Size = (set.facesData.filter (fun entry => entry.face.isSome)).length ∧
      iterateAll set (set.facesData.length + 1) 0 = liveFaces set :=
  ⟨by decide,
    (fontFaceSet_registry
      [RegistryOp.add (FontFace.mk 1 (mkNamedFont 11 "A" 400 FontStyle.Normal)),
        RegistryOp.add (FontFace.mk 2 (mkNamedFont 12 "B" 400 FontStyle.Normal)),
        RegistryOp.delete (FontFace.mk 1 (mkNamedFont 11 "A" 400 FontStyle.Normal)),
        RegistryOp.add (FontFace.mk 3 (mkNamedFont 13 "C" 400 FontStyle.Normal)),
        RegistryOp.add (FontFace.mk 1 (mkNamedFont 11 "A" 400 FontStyle.Normal))]).imp
      (fun _ h => ⟨h.1, h.2.2.1, h.2.2.2.2.1⟩)⟩

/-! ## script_iterator_next: the bounds of start_paren -/

theorem setScript_length (parens : List ParenInfo) (i : Int) (script : Nat) :
    (setScript parens i script).length = parens.length := by
  unfold setScript
  cases parens[i.toNat]? with
  | none => rfl
  | some frame =>
    simp only
    split_ifs
    · simp
    · rfl

theorem setScript_take (parens : List ParenInfo) (i : Int) (script : Nat) (m : Nat)
    (hm : (m : Int) ≤ i) : (setScript parens i script).take m = parens.take m := by
  unfold setScript
  cases parens[i.toNat]? with
  | none => rfl
  | some frame =>
    simp only
    split_ifs
    · rw [List.set_take]
      exact List.set_eq_of_length_le (by simp only [List.length_take]; omega)
    · rfl

/-- The back-fill loop from a state within the bounds: it ends with
`start_paren = parens.size() - 1`, keeps the number of frames and leaves the
frames up to the old `start_paren` as they are. -/
theorem backfill_spec (script : Nat) :
    ∀ (fuel : Nat) (parens : List ParenInfo) (start_paren : Int),
    -1 ≤ start_paren → start_paren ≤ (parens.length : Int) - 1 →
    ((parens.length : Int) - 1 - start_paren).toNat ≤ fuel →
    (backfill script fuel parens start_paren).2 = (parens.length : Int) - 1 ∧
    (backfill script fuel parens start_paren).1.length = parens.length ∧
    ∀ m : Nat, (m : Int) ≤ start_paren + 1 →
      (backfill script fuel parens start_paren).1.take m = parens.take m := by
  intro fuel
  induction fuel with
  | zero =>
    intro parens start_paren h1 h2 h3
    have : backfill script 0 parens start_paren = (parens, start_paren) := rfl
    rw [this]
    exact ⟨by simp only; omega, rfl, fun _ _ => rfl⟩
  | succ fuel ih =>
    intro parens start_paren h1 h2 h3
    rw [backfill]
    by_cases hlt : start_paren + 1 < (parens.length : Int)
    · rw [if_pos hlt]
      have hlen := setScript_length parens (start_paren + 1) script
      obtain ⟨a1, a2, a3⟩ := ih (setScript parens (start_paren + 1) script) (start_paren + 1)
        (by omega) (by rw [hlen]; omega) (by rw [hlen]; omega)
      rw [hlen] at a1 a2
      refine ⟨a1, a2, ?_⟩
      intro m hm
      rw [a3 m (by omega), setScript_take parens _ script m (by omega)]
    · rw [if_neg hlt]
      exact ⟨by simp only; omega, rfl, fun _ _ => rfl⟩

/-- Every write of the back-fill loop is at an index of the vector when
`start_paren` is at least `-1`. -/
theorem backfillChecked_eq (script : Nat) :
    ∀ (fuel : Nat) (parens : List ParenInfo) (start_paren : Int), -1 ≤ start_paren →
    backfillChecked script fuel parens start_paren =
      some (backfill script fuel parens start_paren) := by
  intro fuel
  induction fuel with
  | zero => intro parens start_paren _; rfl
  | succ fuel ih =>
    intro parens start_paren h
    rw [backfillChecked, backfill]
    by_cases hlt : start_paren + 1 < (parens.length : Int)
    · rw [if_pos hlt, if_pos hlt]
      have hc : setScriptChecked parens (start_paren + 1) script =
          some (setScript parens (start_paren + 1) script) := by
        unfold setScriptChecked
        rw [if_pos ⟨by omega, hlt⟩]
      rw [hc]
      exact ih _ _ (by omega)
    · rw [if_neg hlt, if_neg hlt]

theorem pairedChar_start_paren (st : ScriptIteratorState) (s0 : Nat) (pi : Int) :
    (pairedChar st s0 pi).start_paren =
      if pi ≥ 0 then
        if pi % 2 == 0 then st.start_paren
        else if !st.parens.isEmpty then
          if (((st.parens.rdropWhile (fun frame => frame.index != pi - pi % 2)).length : Int)
              - 1 < st.start_paren) then
            ((st.parens.rdropWhile (fun frame => frame.index != pi - pi % 2)).length : Int) - 1
          else st.start_paren
        else st.start_paren
      else st.start_paren := by
  unfold pairedChar
  by_cases h1 : pi ≥ 0
  · rw [if_pos h1, if_pos h1]
    by_cases h2 : (pi % 2 == 0) = true
    · rw [if_pos h2, if_pos h2]
    · rw [if_neg h2, if_neg h2]
      by_cases h3 : (!st.parens.isEmpty) = true
      · rw [if_pos h3, if_pos h3]
      · rw [if_neg h3, if_neg h3]
  · rw [if_neg h1, if_neg h1]

/-- The paired-character block keeps the bounds, and the first `k` frames when
`k` is at most `start_paren + 1` and at most the new size of the stack. -/
theorem classify_low (u : UnicodeData) (text_buffer : List Nat) (st : ScriptIteratorState)
    (hinv : StackInv st) (k : Nat) (hk : k ≤ st.parens.length)
    (hks : (k : Int) ≤ st.start_paren + 1) :
    -1 ≤ (classify u text_buffer st).start_paren ∧
    (classify u text_buffer st).start_paren ≤
      ((classify u text_buffer st).parens.length : Int) - 1 ∧
    (classify u text_buffer st).parens.take (min k (classify u text_buffer st).parens.length) =
      st.parens.take (min k (classify u text_buffer st).parens.length) ∧
    ((min k (classify u text_buffer st).parens.length : Nat) : Int) ≤
      (classify u text_buffer st).start_paren + 1 := by
  obtain ⟨h1, h2⟩ := hinv
  unfold classify
  rw [pairedChar_parens, pairedChar_start_paren]
  by_cases hp : pairIndex u (decode text_buffer st.offset).1 ≥ 0
  · rw [if_pos hp, if_pos hp]
    by_cases he : (pairIndex u (decode text_buffer st.offset).1 % 2 == 0) = true
    · rw [if_pos he, if_pos he]
      refine ⟨h1, by simp only [List.length_append, List.length_singleton]; omega, ?_, ?_⟩
      · rw [List.take_append_of_le_length (by
          simp only [List.length_append, List.length_singleton]; omega)]
      · omega
    · rw [if_neg he, if_neg he]
      by_cases hn : (!st.parens.isEmpty) = true
      · rw [if_pos hn, if_pos hn]
        obtain ⟨discarded, d1, _, _⟩ := rdropWhile_split
          (fun frame => frame.index !=
            pairIndex u (decode text_buffer st.offset).1 -
              pairIndex u (decode text_buffer st.offset).1 % 2) st.parens
        have hlen : (st.parens.rdropWhile (fun frame => frame.index !=
            pairIndex u (decode text_buffer st.offset).1 -
              pairIndex u (decode text_buffer st.offset).1 % 2)).length ≤ st.parens.length :=
          (List.rdropWhile_prefix _ _).length_le
        generalize st.parens.rdropWhile (fun frame => frame.index !=
            pairIndex u (decode text_buffer st.offset).1 -
              pairIndex u (decode text_buffer st.offset).1 % 2) = kept at d1 hlen ⊢
        refine ⟨by split_ifs <;> omega, by split_ifs <;> omega, ?_, by split_ifs <;> omega⟩
        rw [d1, List.take_append_of_le_length (Nat.min_le_right _ _)]
      · rw [if_neg hn, if_neg hn]
        exact ⟨h1, h2, rfl, by omega⟩
  · rw [if_neg hp, if_neg hp]
    exact ⟨h1, h2, rfl, by omega⟩

theorem take_of_take_eq (l1 l2 : List ParenInfo) (n m : Nat) (h : l1.take n = l2.take n)
    (hm : m ≤ n) : l1.take m = l2.take m := by
  have := congrArg (List.take m) h
  rwa [List.take_take, List.take_take, Nat.min_eq_left hm] at this

/-- The stack and `start_paren` after one iteration, from the stack and
`start_paren` after the paired-character block: they are kept, or `start_paren`
is set to the top (on `break`), or the stack is back-filled, or it is back-filled
and its top frame popped. -/
theorem scriptStep_stack (u : UnicodeData) (text_buffer : List Nat)
    (st : ScriptIteratorState) :
    ((scriptStep u text_buffer st).1.parens = (classify u text_buffer st).parens ∧
      (scriptStep u text_buffer st).1.start_paren =
        (classify u text_buffer st).start_paren) ∨
    ((scriptStep u text_buffer st).1.parens = (classify u text_buffer st).parens ∧
      (scriptStep u text_buffer st).1.start_paren =
        ((classify u text_buffer st).parens.length : Int) - 1) ∨
    ((scriptStep u text_buffer st).1.parens =
        (backfill (classify u text_buffer st).script
          (((classify u text_buffer st).parens.length : Int) - 1 -
            (classify u text_buffer st).start_paren).toNat
          (classify u text_buffer st).parens (classify u text_buffer st).start_paren).1 ∧
      (scriptStep u text_buffer st).1.start_paren =
        (backfill (classify u text_buffer st).script
          (((classify u text_buffer st).parens.length : Int) - 1 -
            (classify u text_buffer st).start_paren).toNat
          (classify u text_buffer st).parens (classify u text_buffer st).start_paren).2) ∨
    ((backfill (classify u text_buffer st).script
          (((classify u text_buffer st).parens.length : Int) - 1 -
            (classify u text_buffer st).start_paren).toNat
          (classify u text_buffer st).parens (classify u text_buffer st).start_paren).1 ≠ [] ∧
      (scriptStep u text_buffer st).1.parens =
        (backfill (classify u text_buffer st).script
          (((classify u text_buffer st).parens.length : Int) - 1 -
            (classify u text_buffer st).start_paren).toNat
          (classify u text_buffer st).parens
          (classify u text_buffer st).start_paren).1.dropLast ∧
      (scriptStep u text_buffer st).1.start_paren =
        (((backfill (classify u text_buffer st).script
          (((classify u text_buffer st).parens.length : Int) - 1 -
            (classify u text_buffer st).start_paren).toNat
          (classify u text_buffer st).parens
          (classify u text_buffer st).start_paren).1.dropLast.length : Int) - 1) ⊓
        (backfill (classify u text_buffer st).script
          (((classify u text_buffer st).parens.length : Int) - 1 -
            (classify u text_buffer st).start_paren).toNat
          (classify u text_buffer st).parens (classify u text_buffer st).start_paren).2) := by
  generalize hc : classify u text_buffer st = c
  generalize hf : backfill c.script (((c.parens.length : Int) - 1 - c.start_paren).toNat)
    c.parens c.start_paren = filled
  unfold scriptStep
  simp only [hc, hf]
  by_cases h1 : (!isReal u st.script || !isReal u c.script || c.script == st.script) = true
  · rw [if_pos h1]
    by_cases h2 : (!isReal u st.script && isReal u c.script) = true
    · rw [if_pos h2]
      by_cases h3 : (decide (pairIndex u (decode text_buffer st.offset).1 ≥ 0) &&
          pairIndex u (decode text_buffer st.offset).1 % 2 != 0 && !filled.1.isEmpty) = true
      · rw [if_pos h3]
        right; right; right
        refine ⟨?_, rfl, ?_⟩
        · simp only [Bool.and_eq_true, Bool.not_eq_true', List.isEmpty_eq_false] at h3
          intro hnil
          rw [hnil] at h3
          simp at h3
        · simp only
          split_ifs with h4
          · exact (min_eq_left (le_of_lt h4)).symm
          · exact (min_eq_right (not_lt.1 h4)).symm
      · rw [if_neg h3]
        right; right; left
        exact ⟨rfl, rfl⟩
    · rw [if_neg h2]
      left
      exact ⟨rfl, rfl⟩
  · rw [if_neg h1]
    right; left
    exact ⟨rfl, rfl⟩

/-- One iteration keeps the bounds of `start_paren`, and leaves the lowest `k`
frames alone as far as they are still on the stack, when they were at or below
`start_paren` before. -/
theorem scriptStep_low (u : UnicodeData) (text_buffer : List Nat) (st : ScriptIteratorState)
    (hinv : StackInv st) (k : Nat) (hk : k ≤ st.parens.length)
    (hks : (k : Int) ≤ st.start_paren + 1) :
    StackInv (scriptStep u text_buffer st).1 ∧
    (scriptStep u text_buffer st).1.parens.take
        (min k (scriptStep u text_buffer st).1.parens.length) =
      st.parens.take (min k (scriptStep u text_buffer st).1.parens.length) ∧
    ((min k (scriptStep u text_buffer st).1.parens.length : Nat) : Int) ≤
      (scriptStep u text_buffer st).1.start_paren + 1 := by
  obtain ⟨c1, c2, c3, c4⟩ := classify_low u text_buffer st hinv k hk hks
  obtain ⟨f1, f2, f3⟩ := backfill_spec (classify u text_buffer st).script
    (((classify u text_buffer st).parens.length : Int) - 1 -
      (classify u text_buffer st).start_paren).toNat
    (classify u text_buffer st).parens (classify u text_buffer st).start_paren c1 c2 (le_refl _)
  have hstack := scriptStep_stack u text_buffer st
  unfold StackInv
  generalize (scriptStep u text_buffer st).1 = st1 at hstack ⊢
  generalize backfill (classify u text_buffer st).script
    (((classify u text_buffer st).parens.length : Int) - 1 -
      (classify u text_buffer st).start_paren).toNat
    (classify u text_buffer st).parens (classify u text_buffer st).start_paren = filled
    at hstack f1 f2 f3
  generalize classify u text_buffer st = c at hstack f1 f2 f3 c1 c2 c3 c4
  rcases hstack with ⟨hP, hS⟩ | ⟨hP, hS⟩ | ⟨hP, hS⟩ | ⟨hne, hP, hS⟩
  · rw [hP, hS]
    exact ⟨⟨c1, c2⟩, c3, c4⟩
  · rw [hP, hS]
    exact ⟨⟨by omega, le_refl _⟩, c3, by omega⟩
  · rw [hP, hS, f1, f2]
    refine ⟨⟨by omega, le_refl _⟩, ?_, by omega⟩
    rw [f3 _ c4]
    exact c3
  · have hpos : 0 < filled.1.length := List.length_pos.2 hne
    have hdl : filled.1.dropLast.length = c.parens.length - 1 := by
      rw [List.length_dropLast, f2]
    rw [hP, hS, hdl, f1]
    refine ⟨⟨by omega, by omega⟩, ?_, by omega⟩
    have hm : ((min k (c.parens.length - 1) : Nat) : Int) ≤ c.start_paren + 1 := by omega
    have hm2 : min k (c.parens.length - 1) ≤ min k c.parens.length := by omega
    rw [List.dropLast_eq_take, List.take_take, f2,
      Nat.min_eq_left (Nat.min_le_right _ _), f3 _ hm]
    exact take_of_take_eq _ _ _ _ c3 hm2

theorem lowWater_le (u : UnicodeData) (text_buffer : List Nat) (fuel : Nat)
    (st : ScriptIteratorState) : lowWater u text_buffer fuel st ≤ st.parens.length := by
  cases fuel with
  | zero => exact le_refl _
  | succ fuel =>
    unfold lowWater
    split_ifs with hlt
    · cases hstep : scriptStep u text_buffer st with
      | mk st1 brk =>
        cases brk with
        | true => exact Nat.min_le_left _ _
        | false => exact Nat.min_le_left _ _
    · exact le_refl _

/-- The loop keeps the bounds of `start_paren`, and leaves alone the frames among
the lowest `k` that are never popped, when they were at or below `start_paren`
at its start. -/
theorem scriptLoop_low (u : UnicodeData) (text_buffer : List Nat) :
    ∀ (fuel : Nat) (st : ScriptIteratorState) (k : Nat), StackInv st →
    k ≤ st.parens.length → (k : Int) ≤ st.start_paren + 1 →
    StackInv (scriptLoop u text_buffer fuel st) ∧
    (scriptLoop u text_buffer fuel st).parens.take (min k (lowWater u text_buffer fuel st)) =
      st.parens.take (min k (lowWater u text_buffer fuel st)) ∧
    ((min k (lowWater u text_buffer fuel st) : Nat) : Int) ≤
      (scriptLoop u text_buffer fuel st).start_paren + 1 := by
  intro fuel
  induction fuel with
  | zero =>
    intro st k hinv hk hks
    have h0 : scriptLoop u text_buffer 0 st = st := rfl
    have h1 : lowWater u text_buffer 0 st = st.parens.length := rfl
    rw [h0, h1]
    exact ⟨hinv, rfl, by omega⟩
  | succ fuel ih =>
    intro st k hinv hk hks
    by_cases hlt : st.offset < text_buffer.length
    · obtain ⟨s1, s2, s3⟩ := scriptStep_low u text_buffer st hinv k hk hks
      cases hstep : scriptStep u text_buffer st with
      | mk st1 brk =>
        rw [hstep] at s1 s2 s3
        simp only at s1 s2 s3
        cases brk with
        | true =>
          have h0 : scriptLoop u text_buffer (fuel + 1) st = st1 :=
            scriptLoop_break u text_buffer fuel st st1 hlt hstep
          have h1 : lowWater u text_buffer (fuel + 1) st =
              min st.parens.length st1.parens.length := by
            rw [lowWater, if_pos hlt, hstep]
          have h2 : min k (min st.parens.length st1.parens.length) =
              min k st1.parens.length := by omega
          rw [h0, h1, h2]
          exact ⟨s1, s2, s3⟩
        | false =>
          have h0 : scriptLoop u text_buffer (fuel + 1) st =
              scriptLoop u text_buffer fuel st1 :=
            scriptLoop_continue u text_buffer fuel st st1 hlt hstep
          have h1 : lowWater u text_buffer (fuel + 1) st =
              min st.parens.length (lowWater u text_buffer fuel st1) := by
            rw [lowWater, if_pos hlt, hstep]
          have hle := lowWater_le u text_buffer fuel st1
          have h2 : min k (min st.parens.length (lowWater u text_buffer fuel st1)) =
              min (min k st1.parens.length) (lowWater u text_buffer fuel st1) := by omega
          obtain ⟨r1, r2, r3⟩ := ih st1 (min k st1.parens.length) s1
            (Nat.min_le_right _ _) s3
          rw [h0, h1, h2]
          refine ⟨r1, ?_, r3⟩
          rw [r2]
          exact take_of_take_eq _ _ _ _ s2 (Nat.min_le_left _ _)
    · have h0 : scriptLoop u text_buffer (fuel + 1) st = st := by
        rw [scriptLoop, if_neg hlt]
      have h1 : lowWater u text_buffer (fuel + 1) st = st.parens.length := by
        rw [lowWater, if_neg hlt]
      rw [h0, h1]
      exact ⟨hinv, rfl, by omega⟩

/-- The loop run to its end stops at the end of the text or, on `break`, with
`start_paren` on the top of the stack. -/
theorem scriptLoop_left (u : UnicodeData) (text_buffer : List Nat) :
    ∀ (fuel : Nat) (st : ScriptIteratorState), st.offset ≤ text_buffer.length →
    text_buffer.length - st.offset ≤ fuel →
    (scriptLoop u text_buffer fuel st).offset = text_buffer.length ∨
      (scriptLoop u text_buffer fuel st).start_paren =
        ((scriptLoop u text_buffer fuel st).parens.length : Int) - 1 := by
  intro fuel
  induction fuel with
  | zero =>
    intro st h1 h2
    have h0 : scriptLoop u text_buffer 0 st = st := rfl
    rw [h0]
    exact Or.inl (by omega)
  | succ fuel ih =>
    intro st h1 h2
    by_cases hlt : st.offset < text_buffer.length
    · cases hstep : scriptStep u text_buffer st with
      | mk st1 brk =>
        cases brk with
        | true =>
          rw [scriptLoop_break u text_buffer fuel st st1 hlt hstep]
          obtain ⟨b1, _⟩ := scriptStep_break u text_buffer st (by rw [hstep])
          rw [hstep] at b1
          simp only at b1
          subst b1
          exact Or.inr rfl
        | false =>
          rw [scriptLoop_continue u text_buffer fuel st st1 hlt hstep]
          have hoff := scriptStep_continue u text_buffer st (by rw [hstep])
          rw [hstep] at hoff
          simp only at hoff
          have hj := decode_jump text_buffer st.offset
          exact ih st1 (by omega) (by omega)
    · have h0 : scriptLoop u text_buffer (fuel + 1) st = st := by
        rw [scriptLoop, if_neg hlt]
      rw [h0]
      exact Or.inl (by omega)

/-- One call of `script_iterator_next` keeps: the offset inside the text, the
bounds of `start_paren`, and `start_paren` on the top of the stack while the
iterator is not done. -/
theorem script_next_stack (u : UnicodeData) (text_buffer : List Nat) (s : ScriptIteratorState)
    (hoff : s.offset ≤ text_buffer.length) (hinv : StackInv s)
    (htop : s.done = false → s.start_paren = (s.parens.length : Int) - 1) :
    (script_iterator_next u s text_buffer).offset ≤ text_buffer.length ∧
    StackInv (script_iterator_next u s text_buffer) ∧
    ((script_iterator_next u s text_buffer).done = false →
      (script_iterator_next u s text_buffer).start_paren =
        ((script_iterator_next u s text_buffer).parens.length : Int) - 1) := by
  by_cases hd : s.done = true
  · rw [script_next_done u text_buffer s hd]
    exact ⟨hoff, hinv, htop⟩
  · have hinv0 : StackInv { s with script := u.SCRIPT_COMMON } := hinv
    obtain ⟨a1, a2, _, _⟩ := scriptLoop_spec u text_buffer (text_buffer.length - s.offset)
      { s with script := u.SCRIPT_COMMON } hoff (le_refl _)
    obtain ⟨r1, _, _⟩ := scriptLoop_low u text_buffer (text_buffer.length - s.offset)
      { s with script := u.SCRIPT_COMMON } 0 hinv0 (Nat.zero_le _)
      (by have := hinv0.1; simp only at this ⊢; omega)
    have hleft := scriptLoop_left u text_buffer (text_buffer.length - s.offset)
      { s with script := u.SCRIPT_COMMON } hoff (le_refl _)
    unfold script_iterator_next
    rw [if_neg hd]
    simp only []
    generalize scriptLoop u text_buffer (text_buffer.length - s.offset)
      { s with script := u.SCRIPT_COMMON } = r at a2 r1 hleft
    by_cases hge : r.offset ≥ text_buffer.length
    · rw [if_pos hge]
      exact ⟨a2, r1, fun h => by simp at h⟩
    · rw [if_neg hge]
      refine ⟨a2, r1, fun _ => ?_⟩
      rcases hleft with h | h
      · omega
      · exact h

theorem script_calls_stack (u : UnicodeData) (text_buffer : List Nat) :
    ∀ j : Nat, (script_calls u text_buffer j).offset ≤ text_buffer.length ∧
      StackInv (script_calls u text_buffer j) ∧
      ((script_calls u text_buffer j).done = false →
        (script_calls u text_buffer j).start_paren =
          ((script_calls u text_buffer j).parens.length : Int) - 1) := by
  intro j
  induction j with
  | zero =>
    refine ⟨Nat.zero_le _, ⟨le_refl _, ?_⟩, fun _ => ?_⟩
    · simp [script_calls, script_init]
    · simp [script_calls, script_init]
  | succ j ih =>
    exact script_next_stack u text_buffer _ ih.1 ih.2.1 ih.2.2

/-- C33: for every text and every number `j` of calls of `script_iterator_next`
from the initial state, `-1 ≤ start_paren ≤ parens.size() - 1` holds after the
calls and after each of the `n` code points call `j + 1` has processed; on the
next code point the paired-character block keeps the bounds, so every write
`parens[++start_paren]` of the back-fill loop is at an index of the stack (the
loop with checked writes never fails); a run starts with `start_paren` on the top
of the stack, and the frames that were on the stack then and have not been popped
since are the same after each processed code point and after the back-fill of
the next one: the back-fill rewrites only frames pushed since the run began. -/
theorem script_start_paren_bounds (u : UnicodeData) (text_buffer : List Nat) :
    (∀ j : Nat, StackInv (script_calls u text_buffer j)) ∧
    (∀ j : Nat, (script_calls u text_buffer j).done = false →
      script_calls u text_buffer (j + 1) =
        if (runState u text_buffer j
            (text_buffer.length - (script_calls u text_buffer j).offset)).offset ≥
            text_buffer.length then
          { runState u text_buffer j
              (text_buffer.length - (script_calls u text_buffer j).offset) with done := true }
        else runState u text_buffer j
          (text_buffer.length - (script_calls u text_buffer j).offset)) ∧
    (∀ j n : Nat, StackInv (runState u text_buffer j n) ∧
      -1 ≤ (classify u text_buffer (runState u text_buffer j n)).start_paren ∧
      (classify u text_buffer (runState u text_buffer j n)).start_paren ≤
        ((classify u text_buffer (runState u text_buffer j n)).parens.length : Int) - 1 ∧
      backfillCheckedOf u text_buffer (runState u text_buffer j n) =
        some (backfillOf u text_buffer (runState u text_buffer j n))) ∧
    (∀ j : Nat, (script_calls u text_buffer j).done = false →
      (script_calls u text_buffer j).start_paren =
        ((script_calls u text_buffer j).parens.length : Int) - 1) ∧
    (∀ j n : Nat, (script_calls u text_buffer j).done = false →
      (runState u text_buffer j n).parens.take
          (lowWater u text_buffer n (runStart u text_buffer j)) =
        (script_calls u text_buffer j).parens.take
          (lowWater u text_buffer n (runStart u text_buffer j)) ∧
      (backfillOf u text_buffer (runState u text_buffer j n)).1.take
          (min (lowWater u text_buffer n (runStart u text_buffer j))
            (classify u text_buffer (runState u text_buffer j n)).parens.length) =
        (script_calls u text_buffer j).parens.take
          (min (lowWater u text_buffer n (runStart u text_buffer j))
            (classify u text_buffer (runState u text_buffer j n)).parens.length)) := by
  have hstart : ∀ j : Nat, StackInv (runStart u text_buffer j) :=
    fun j => (script_calls_stack u text_buffer j).2.1
  refine ⟨fun j => (script_calls_stack u text_buffer j).2.1, ?_, ?_,
    fun j => (script_calls_stack u text_buffer j).2.2, ?_⟩
  · intro j hd
    have h1 : script_calls u text_buffer (j + 1) =
        script_iterator_next u (script_calls u text_buffer j) text_buffer := rfl
    rw [h1]
    unfold script_iterator_next
    rw [if_neg (by rw [hd]; exact Bool.false_ne_true)]
    rfl
  · intro j n
    obtain ⟨r1, _, _⟩ := scriptLoop_low u text_buffer n (runStart u text_buffer j) 0
      (hstart j) (Nat.zero_le _) (by have := (hstart j).1; omega)
    have r1s : StackInv (runState u text_buffer j n) := r1
    obtain ⟨c1, c2, _, _⟩ := classify_low u text_buffer (runState u text_buffer j n) r1s 0
      (Nat.zero_le _) (by have := r1s.1; omega)
    exact ⟨r1s, c1, c2, backfillChecked_eq _ _ _ _ c1⟩
  · intro j n hd
    have htop := (script_calls_stack u text_buffer j).2.2 hd
    have htop0 : (runStart u text_buffer j).start_paren =
        ((runStart u text_buffer j).parens.length : Int) - 1 := htop
    have hle := lowWater_le u text_buffer n (runStart u text_buffer j)
    obtain ⟨r1, r2, r3⟩ := scriptLoop_low u text_buffer n (runStart u text_buffer j)
      (runStart u text_buffer j).parens.length (hstart j) (le_refl _) (by omega)
    rw [Nat.min_eq_right hle] at r2 r3
    have r2s : (runState u text_buffer j n).parens.take
          (lowWater u text_buffer n (runStart u text_buffer j)) =
        (script_calls u text_buffer j).parens.take
          (lowWater u text_buffer n (runStart u text_buffer j)) := r2
    have r3s : ((lowWater u text_buffer n (runStart u text_buffer j) : Nat) : Int) ≤
        (runState u text_buffer j n).start_paren + 1 := r3
    have r1s : StackInv (runState u text_buffer j n) := r1
    refine ⟨r2s, ?_⟩
    obtain ⟨c1, c2, c3, c4⟩ := classify_low u text_buffer (runState u text_buffer j n) r1s
      (lowWater u text_buffer n (runStart u text_buffer j))
      (by have := r1s.2; omega) r3s
    obtain ⟨_, _, f3⟩ := backfill_spec (classify u text_buffer (runState u text_buffer j n)).script
      (((classify u text_buffer (runState u text_buffer j n)).parens.length : Int) - 1 -
        (classify u text_buffer (runState u text_buffer j n)).start_paren).toNat
      (classify u text_buffer (runState u text_buffer j n)).parens
      (classify u text_buffer (runState u text_buffer j n)).start_paren c1 c2 (le_refl _)
    unfold backfillOf
    rw [f3 _ c4, c3]
    exact take_of_take_eq _ _ _ _ r2s (Nat.min_le_left _ _)

set_option maxRecDepth 100000 in
/-- The text `(a[` + alef + `])`: in the first call the back-fill at `a` writes the
script of `a` into the frame of `(`, at index 0 of a stack of one frame; the
second call starts on the alef with two frames on the stack and leaves them as
they were. -/
theorem script_start_paren_bounds_witness :
    (script_calls exampleUnicode [0x28, 97, 0x5b, 0x627, 0x5d, 0x29] 1).done = false ∧
    (runState exampleUnicode [0x28, 97, 0x5b, 0x627, 0x5d, 0x29] 0 1).parens =
      [{ index := 0, script := 0 }] ∧
    (runState exampleUnicode [0x28, 97, 0x5b, 0x627, 0x5d, 0x29] 0 1).start_paren = -1 ∧
    backfillOf exampleUnicode [0x28, 97, 0x5b, 0x627, 0x5d, 0x29]
        (runState exampleUnicode [0x28, 97, 0x5b, 0x627, 0x5d, 0x29] 0 1) =
      (([{ index := 0, script := 1 }], 0) : List ParenInfo × Int) ∧
    backfillCheckedOf exampleUnicode [0x28, 97, 0x5b, 0x627, 0x5d, 0x29]
        (runState exampleUnicode [0x28, 97, 0x5b, 0x627, 0x5d, 0x29] 0 1) =
      some (backfillOf exampleUnicode [0x28, 97, 0x5b, 0x627, 0x5d, 0x29]
        (runState exampleUnicode [0x28, 97, 0x5b, 0x627, 0x5d, 0x29] 0 1)) ∧
    lowWater exampleUnicode [0x28, 97, 0x5b, 0x627, 0x5d, 0x29] 2
      (runStart exampleUnicode [0x28, 97, 0x5b, 0x627, 0x5d, 0x29] 1) = 2 ∧
    (runState exampleUnicode [0x28, 97, 0x5b, 0x627, 0x5d, 0x29] 1 2).parens.take
        (lowWater exampleUnicode [0x28, 97, 0x5b, 0x627, 0x5d, 0x29] 2
          (runStart exampleUnicode [0x28, 97, 0x5b, 0x627, 0x5d, 0x29] 1)) =
      (script_calls exampleUnicode [0x28, 97, 0x5b, 0x627, 0x5d, 0x29] 1).parens.take
        (lowWater exampleUnicode [0x28, 97, 0x5b, 0x627, 0x5d, 0x29] 2
          (runStart exampleUnicode [0x28, 97, 0x5b, 0x627, 0x5d, 0x29] 1)) :=
  ⟨by decide, by decide, by decide, by decide,
    ((script_start_paren_bounds exampleUnicode
      [0x28, 97, 0x5b, 0x627, 0x5d, 0x29]).2.2.1 0 1).2.2.2,
    by decide,
    ((script_start_paren_bounds exampleUnicode
      [0x28, 97, 0x5b, 0x627, 0x5d, 0x29]).2.2.2.2 1 2 (by decide)).1⟩

/-! ## query: entries that are descriptors -/

/-- When every candidate is less than 900 away from the requested weight, one of
the two trackers of the scan is set, so the result is not the null pointer. -/
theorem narrowByWeight_some_near (sort : StdSort) (fonts : List FontDescriptor)
    (properties : FontProperties) (hne : fonts ≠ [])
    (hnear : ∀ f ∈ fonts, distance properties.weight f < 900) :
    ∃ r, narrowByWeight sort fonts properties = some r := by
  by_cases hex : ∃ d ∈ fonts, d.weight = properties.weight
  · obtain ⟨r, h1, _, _⟩ := narrowByWeight_exact sort fonts properties hex
    exact ⟨r, h1⟩
  · have hno : ∀ f ∈ fonts, f.weight ≠ properties.weight :=
      fun f hfm heq => hex ⟨f, hfm, heq⟩
    obtain ⟨best, ⟨hbn, _, han, _⟩, heq⟩ := narrowByWeight_scan sort fonts properties hno
    obtain ⟨f, hfm⟩ := List.exists_mem_of_ne_nil fonts hne
    have hdist := hnear f hfm
    rw [heq]
    cases hb : best.bestBelow with
    | some below =>
      cases ha : best.bestAbove with
      | some above =>
        by_cases hd : divider properties.weight ≤ 500
        · exact ⟨below, by simp [hd]⟩
        · exact ⟨above, by simp [hd]⟩
      | none => exact ⟨below, rfl⟩
    | none =>
      cases ha : best.bestAbove with
      | some above => exact ⟨above, rfl⟩
      | none =>
        exfalso
        by_cases hlt : f.weight < divider properties.weight
        · have := (hbn hb).2 f hfm hlt
          omega
        · have := (han ha).2 f hfm (by omega)
          omega

/-- The candidates gathered for a requested family name are descriptors of live
registered faces or of the system catalog. -/
theorem gatherRequested_mem (m : FontManager) (registered : FontFaceSet) (family : List Nat) :
    ∀ x ∈ gatherRequested m registered family [],
      x ∈ liveDescriptors registered ∨ x ∈ catalog m := by
  intro x hx
  unfold gatherRequested at hx
  cases hg : m.getGenericList family with
  | some genericFamilies =>
    rw [hg] at hx
    rcases generic_fold_mem (catalog m) genericFamilies [] x hx with h | h
    · exact absurd h (List.not_mem_nil x)
    · exact Or.inr h
  | none =>
    rw [hg] at hx
    rcases addSystemFonts_mem _ _ _ x hx with h | ⟨h, _⟩
    · rw [addRegistered_eq] at h
      rcases (addList_spec family (liveDescriptors registered) []).1 x h with h1 | ⟨h1, _⟩
      · exact absurd h1 (List.not_mem_nil x)
      · exact Or.inl h1
    · exact Or.inr h

/-- The entry of a requested family with a candidate is a descriptor, one of the
candidates, when all candidates are less than 900 away from the requested weight. -/
theorem requestedEntry_near (sort : StdSort) (properties : FontProperties)
    (candidates : List FontDescriptor) (hne : candidates ≠ [])
    (hnear : ∀ d ∈ candidates, distance properties.weight d < 900) :
    ∃ d, requestedEntry sort properties candidates = [some d] ∧ d ∈ candidates := by
  cases candidates with
  | nil => exact absurd rfl hne
  | cons a rest =>
    cases rest with
    | nil => exact ⟨a, rfl, List.mem_singleton.2 rfl⟩
    | cons b rest =>
      obtain ⟨r, hr⟩ := narrowByWeight_some_near sort
        (narrowByStyle (a :: b :: rest) properties) properties
        (narrowByStyle_ne_nil _ properties (by simp))
        (fun f hfm => hnear f (narrowByStyle_subset _ _ f hfm))
      refine ⟨r, ?_, narrowByStyle_subset _ _ r (narrowByWeight_mem sort _ properties r hr)⟩
      have h0 : requestedEntry sort properties (a :: b :: rest) =
          [narrowByWeight sort (narrowByStyle (a :: b :: rest) properties) properties] := rfl
      rw [h0, hr]

/-- One name of the fallback list: with at least 2 candidates pending after its
matches are added, one descriptor narrowed from them is emitted and nothing stays
pending; with fewer, nothing is emitted and they stay pending. -/
theorem fallbackEntries_step (sort : StdSort) (system_fonts : List FontDescriptor)
    (properties : FontProperties) (fallback : List Nat) (rest : List (List Nat))
    (pending : List FontDescriptor)
    (hsys : ∀ d ∈ system_fonts, distance properties.weight d < 900)
    (hpend : ∀ d ∈ pending, d ∈ system_fonts) :
    (2 ≤ (addSystemFonts system_fonts fallback pending).length →
      ∃ d, d ∈ addSystemFonts system_fonts fallback pending ∧
        narrowByWeight sort
          (narrowByStyle (addSystemFonts system_fonts fallback pending) properties)
          properties = some d ∧
        fallbackEntries sort system_fonts properties (fallback :: rest) pending =
          some d :: fallbackEntries sort system_fonts properties rest []) ∧
    ((addSystemFonts system_fonts fallback pending).length < 2 →
      fallbackEntries sort system_fonts properties (fallback :: rest) pending =
        fallbackEntries sort system_fonts properties rest
          (addSystemFonts system_fonts fallback pending)) := by
  have hadd : ∀ x ∈ addSystemFonts system_fonts fallback pending, x ∈ system_fonts := by
    intro x hx
    rcases addSystemFonts_mem _ _ _ x hx with h | ⟨h, _⟩
    · exact hpend x h
    · exact h
  constructor
  · intro hlen
    obtain ⟨r, hr⟩ := narrowByWeight_some_near sort
      (narrowByStyle (addSystemFonts system_fonts fallback pending) properties) properties
      (narrowByStyle_ne_nil _ properties (by
        intro hnil
        rw [hnil] at hlen
        simp at hlen))
      (fun f hfm => hsys f (hadd f (narrowByStyle_subset _ _ f hfm)))
    refine ⟨r, narrowByStyle_subset _ _ r (narrowByWeight_mem sort _ properties r hr), hr, ?_⟩
    rw [fallbackEntries, if_pos (by omega), hr]
  · intro hlen
    rw [fallbackEntries, if_neg (by omega)]

/-- Every entry of the fallback list is a descriptor of the catalog when all
catalog weights are less than 900 away from the requested weight. -/
theorem fallbackEntries_some (sort : StdSort) (system_fonts : List FontDescriptor)
    (properties : FontProperties)
    (hsys : ∀ d ∈ system_fonts, distance properties.weight d < 900) :
    ∀ (fallbacks : List (List Nat)) (pending : List FontDescriptor),
    (∀ d ∈ pending, d ∈ system_fonts) →
    ∀ e ∈ fallbackEntries sort system_fonts properties fallbacks pending,
      ∃ d, e = some d ∧ d ∈ system_fonts := by
  intro fallbacks
  induction fallbacks with
  | nil => intro pending _ e he; simp [fallbackEntries] at he
  | cons fallback rest ih =>
    intro pending hpend e he
    have hadd : ∀ x ∈ addSystemFonts system_fonts fallback pending, x ∈ system_fonts := by
      intro x hx
      rcases addSystemFonts_mem _ _ _ x hx with h | ⟨h, _⟩
      · exact hpend x h
      · exact h
    obtain ⟨s1, s2⟩ := fallbackEntries_step sort system_fonts properties fallback rest pending
      hsys hpend
    by_cases hlen : 2 ≤ (addSystemFonts system_fonts fallback pending).length
    · obtain ⟨d, hd, _, heq⟩ := s1 hlen
      rw [heq] at he
      rcases List.mem_cons.1 he with h | h
      · exact ⟨d, h, hadd d hd⟩
      · exact ih [] (fun x hx => absurd hx (List.not_mem_nil x)) e h
    · rw [s2 (by omega)] at he
      exact ih _ hadd e he

/-- C13, amended: when the weight of every registered and every system descriptor
is less than 900 away from the requested weight (as for all weights in 100..900),
the sequence `query` returns has, in request order, exactly one descriptor for
each requested family name for which a candidate is gathered, one of its
candidates, and nothing for the other requested names; then, in fallback order,
the descriptors of the fallback list, where a fallback name contributes a
descriptor only when at least 2 candidates are pending after its matches are
added (one descriptor narrowed from them, and nothing stays pending) and nothing
when fewer are (they stay pending); every entry is a descriptor of a live
registered face or of the catalog, and the fallback list contributes at most one
descriptor for each of its names. -/
theorem query_result_shape (sort : StdSort) (m : FontManager) (properties : FontProperties)
    (registered : FontFaceSet) (fallbacks : List (List Nat))
    (hcat : ∀ d ∈ catalog m, distance properties.weight d < 900)
    (hreg : ∀ d ∈ liveDescriptors registered, distance properties.weight d < 900) :
    query sort m properties registered fallbacks =
      properties.families.flatMap (fun family =>
          requestedEntry sort properties (gatherRequested m registered family [])) ++
        fallbackEntries sort (catalog m) properties fallbacks [] ∧
    (∀ family,
      (gatherRequested m registered family [] = [] →
        requestedEntry sort properties (gatherRequested m registered family []) = []) ∧
      (gatherRequested m registered family [] ≠ [] →
        ∃ d, requestedEntry sort properties (gatherRequested m registered family []) =
            [some d] ∧
          d ∈ gatherRequested m registered family [])) ∧
    (∀ (fallback : List Nat) (rest : List (List Nat)) (pending : List FontDescriptor),
      (∀ d ∈ pending, d ∈ catalog m) →
      (2 ≤ (addSystemFonts (catalog m) fallback pending).length →
        ∃ d, d ∈ addSystemFonts (catalog m) fallback pending ∧
          narrowByWeight sort
            (narrowByStyle (addSystemFonts (catalog m) fallback pending) properties)
            properties = some d ∧
          fallbackEntries sort (catalog m) properties (fallback :: rest) pending =
            some d :: fallbackEntries sort (catalog m) properties rest []) ∧
      ((addSystemFonts (catalog m) fallback pending).length < 2 →
        fallbackEntries sort (catalog m) properties (fallback :: rest) pending =
          fallbackEntries sort (catalog m) properties rest
            (addSystemFonts (catalog m) fallback pending))) ∧
    (∀ e ∈ query sort m properties registered fallbacks,
      ∃ d, e = some d ∧ (d ∈ liveDescriptors registered ∨ d ∈ catalog m)) ∧
    (fallbackEntries sort (catalog m) properties fallbacks []).length ≤ fallbacks.length := by
  have hgather : ∀ family, ∀ d ∈ gatherRequested m registered family [],
      distance properties.weight d < 900 := by
    intro family d hd
    rcases gatherRequested_mem m registered family d hd with h | h
    · exact hreg d h
    · exact hcat d h
  refine ⟨query_eq sort m properties registered fallbacks, ?_, ?_, ?_,
    (query_entry_counts sort m properties registered fallbacks).2.2 []⟩
  · intro family
    refine ⟨fun h => by rw [h]; rfl, fun h => ?_⟩
    exact requestedEntry_near sort properties _ h (hgather family)
  · intro fallback rest pending hpend
    exact fallbackEntries_step sort (catalog m) properties fallback rest pending hcat hpend
  · intro e he
    rw [query_eq] at he
    rcases List.mem_append.1 he with h | h
    · obtain ⟨family, _, hmem⟩ := List.mem_flatMap.1 h
      have hne : gatherRequested m registered family [] ≠ [] := by
        intro hnil
        rw [hnil] at hmem
        simp [requestedEntry] at hmem
      obtain ⟨d, hd, hdm⟩ := requestedEntry_near sort properties _ hne (hgather family)
      rw [hd] at hmem
      exact ⟨d, List.mem_singleton.1 hmem, gatherRequested_mem m registered family d hdm⟩
    · obtain ⟨d, hd, hdm⟩ := fallbackEntries_some sort (catalog m) properties hcat fallbacks []
        (fun x hx => absurd hx (List.not_mem_nil x)) e h
      exact ⟨d, hd, Or.inr hdm⟩

/-- C13, amended, on the system fonts Geneva 400, Arial 400 italic and Arial 700
with the requested families Arial and Nope at weight 700 and the fallback list
Geneva: the one descriptor is the one of Arial 700; Nope and Geneva contribute
nothing. -/
theorem query_result_shape_witness :
    query insertionStdSort
        (loadedManager [mkNamedFont 0 "Geneva" 400 FontStyle.Normal,
          mkNamedFont 1 "Arial" 400 FontStyle.Italic, mkNamedFont 2 "Arial" 700 FontStyle.Normal])
        (mkFamilyRequest ["Arial", "Nope"] 700 FontStyle.Normal) emptyFontFaceSet
        [bytes "Geneva"] = [some (mkNamedFont 2 "Arial" 700 FontStyle.Normal)] ∧
    (∀ e ∈ query insertionStdSort
        (loadedManager [mkNamedFont 0 "Geneva" 400 FontStyle.Normal,
          mkNamedFont 1 "Arial" 400 FontStyle.Italic, mkNamedFont 2 "Arial" 700 FontStyle.Normal])
        (mkFamilyRequest ["Arial", "Nope"] 700 FontStyle.Normal) emptyFontFaceSet
        [bytes "Geneva"],
      ∃ d, e = some d ∧ (d ∈ liveDescriptors emptyFontFaceSet ∨
        d ∈ catalog (loadedManager [mkNamedFont 0 "Geneva" 400 FontStyle.Normal,
          mkNamedFont 1 "Arial" 400 FontStyle.Italic,
          mkNamedFont 2 "Arial" 700 FontStyle.Normal]))) :=
  ⟨by decide,
    (query_result_shape insertionStdSort
      (loadedManager [mkNamedFont 0 "Geneva" 400 FontStyle.Normal,
        mkNamedFont 1 "Arial" 400 FontStyle.Italic, mkNamedFont 2 "Arial" 700 FontStyle.Normal])
      (mkFamilyRequest ["Arial", "Nope"] 700 FontStyle.Normal) emptyFontFaceSet
      [bytes "Geneva"] (by decide) (by decide)).2.2.2.1⟩

/-- C14 fails in the code: with the system fonts Geneva, Arial and Arial, all of
weight 1000, no requested family, the fallback list Geneva, Arial and a requested
weight of 100, Geneva matches exactly the first font and Arial exactly the two
others, and `query` returns one entry that is the null pointer, for every result
of `std::sort` (the initial best distance 900 of `narrowByWeight`).  What holds
whenever no requested family gathers a candidate, `f1` matches exactly the system
font `a` and `f2` exactly the two other system fonts `b`, `c`: `query` returns the
single entry `narrowByWeight` of `narrowByStyle` of the accumulated candidates
`[a, b, c]`; when it is a descriptor it is one of `a`, `b`, `c`; and it is a
descriptor when the three weights are less than 900 away from the requested
weight. -/
theorem query_fallback_accumulates_null :
    (catalog (loadedManager [mkNamedFont 0 "Geneva" 1000 FontStyle.Normal,
        mkNamedFont 1 "Arial" 1000 FontStyle.Normal,
        mkNamedFont 2 "Arial" 1000 FontStyle.Normal])).filter
      (fun d => compareFamilyNames (bytes "Geneva") d.family) =
        [mkNamedFont 0 "Geneva" 1000 FontStyle.Normal] ∧
    (catalog (loadedManager [mkNamedFont 0 "Geneva" 1000 FontStyle.Normal,
        mkNamedFont 1 "Arial" 1000 FontStyle.Normal,
        mkNamedFont 2 "Arial" 1000 FontStyle.Normal])).filter
      (fun d => compareFamilyNames (bytes "Arial") d.family) =
        [mkNamedFont 1 "Arial" 1000 FontStyle.Normal,
          mkNamedFont 2 "Arial" 1000 FontStyle.Normal] ∧
    (∀ sort : StdSort,
      query sort
        (loadedManager [mkNamedFont 0 "Geneva" 1000 FontStyle.Normal,
          mkNamedFont 1 "Arial" 1000 FontStyle.Normal,
          mkNamedFont 2 "Arial" 1000 FontStyle.Normal])
        (mkFamilyRequest [] 100 FontStyle.Normal) emptyFontFaceSet
        [bytes "Geneva", bytes "Arial"] = [none]) ∧
    (∀ (sort : StdSort) (m : FontManager) (properties : FontProperties)
      (registered : FontFaceSet) (f1 f2 : List Nat) (a b c : FontDescriptor),
      (∀ family ∈ properties.families, gatherRequested m registered family [] = []) →
      (catalog m).filter (fun d => compareFamilyNames f1 d.family) = [a] →
      (catalog m).filter (fun d => compareFamilyNames f2 d.family) = [b, c] →
      a.addr ≠ b.addr → a.addr ≠ c.addr → b.addr ≠ c.addr →
      query sort m properties registered [f1, f2] =
          [narrowByWeight sort (narrowByStyle [a, b, c] properties) properties] ∧
        (∀ d, narrowByWeight sort (narrowByStyle [a, b, c] properties) properties = some d →
          d ∈ [a, b, c]) ∧
        ((∀ d ∈ [a, b, c], distance properties.weight d < 900) →
          ∃ d, narrowByWeight sort (narrowByStyle [a, b, c] properties) properties =
            some d)) := by
  refine ⟨by decide, by decide, ?_, ?_⟩
  · intro sort
    rw [query_fallback_accumulated_entry sort _ _ emptyFontFaceSet (bytes "Geneva")
      (bytes "Arial") (mkNamedFont 0 "Geneva" 1000 FontStyle.Normal)
      (mkNamedFont 1 "Arial" 1000 FontStyle.Normal)
      (mkNamedFont 2 "Arial" 1000 FontStyle.Normal)
      (by decide) (by decide) (by decide) (by decide) (by decide) (by decide)]
    have hst : narrowByStyle [mkNamedFont 0 "Geneva" 1000 FontStyle.Normal,
        mkNamedFont 1 "Arial" 1000 FontStyle.Normal,
        mkNamedFont 2 "Arial" 1000 FontStyle.Normal]
        (mkFamilyRequest [] 100 FontStyle.Normal) =
        [mkNamedFont 0 "Geneva" 1000 FontStyle.Normal,
          mkNamedFont 1 "Arial" 1000 FontStyle.Normal,
          mkNamedFont 2 "Arial" 1000 FontStyle.Normal] := by decide
    rw [hst, narrowByWeight_null_far sort _ _ (by decide) (by decide) (by decide)]
  · intro sort m properties registered f1 f2 a b c hreq h1 h2 hab hac hbc
    refine ⟨query_fallback_accumulated_entry sort m properties registered f1 f2 a b c
      hreq h1 h2 hab hac hbc, ?_, ?_⟩
    · intro d hd
      exact narrowByStyle_subset _ _ d (narrowByWeight_mem sort _ properties d hd)
    · intro hnear
      exact narrowByWeight_some_near sort _ properties
        (narrowByStyle_ne_nil _ properties (by simp))
        (fun f hfm => hnear f (narrowByStyle_subset _ _ f hfm))

end Canvas
